import Mathlib

/-!
Gauche `bignum.c`: a shallow embedding.

Multiple-precision integers of Gauche (`src/bignum.c`) are modelled as a sign
together with a list of machine words, least-significant word first.  Machine
words are natural numbers reduced modulo `2 ^ WORD_BITS` wherever the C code
can wrap around.  The constants of the absent header `gauche.h` are the fields
of `Arch`.
-/

namespace Gauche

/-! ## Platform constants and the data model -/

/-- The platform constants that `bignum.c` takes from `gauche.h`: the number of
bits of a `long`, and the fixnum range. -/
structure Arch where
  WORD_BITS : Nat
  SCM_SMALL_INT_MAX : Int
  SCM_SMALL_INT_MIN : Int
  deriving DecidableEq, Repr

/-- A 64-bit platform: fixnums carry 61 value bits. -/
def arch64 : Arch := ⟨64, 2 ^ 61 - 1, -(2 ^ 61)⟩

/-- A 32-bit platform: fixnums carry 29 value bits. -/
def arch32 : Arch := ⟨32, 2 ^ 29 - 1, -(2 ^ 29)⟩

/-- The word modulus `2 ^ WORD_BITS` (one more than `SCM_ULONG_MAX`). -/
def Arch.base (A : Arch) : Nat := 2 ^ A.WORD_BITS

/-- `HALF_BITS`, that is `WORD_BITS / 2`. -/
def Arch.HALF_BITS (A : Arch) : Nat := A.WORD_BITS / 2

/-- `HALF_WORD`, that is `1L << HALF_BITS`. -/
def Arch.HALF_WORD (A : Arch) : Nat := 2 ^ A.HALF_BITS

/-- `SCM_ULONG_MAX`. -/
def Arch.SCM_ULONG_MAX (A : Arch) : Nat := A.base - 1

/-- `LONG_MAX`. -/
def Arch.LONG_MAX (A : Arch) : Nat := 2 ^ (A.WORD_BITS - 1) - 1

/-- The constraints every supported platform meets: an even, positive word
width and a fixnum range inside the range of a `long`. -/
structure Arch.Ok (A : Arch) : Prop where
  even : A.WORD_BITS = 2 * A.HALF_BITS
  pos : 0 < A.HALF_BITS
  max_nonneg : 0 ≤ A.SCM_SMALL_INT_MAX
  max_lt : A.SCM_SMALL_INT_MAX < 2 ^ (A.WORD_BITS - 1)
  min_nonpos : A.SCM_SMALL_INT_MIN ≤ 0
  min_ge : -(2 ^ (A.WORD_BITS - 1)) ≤ A.SCM_SMALL_INT_MIN

/-- The `ScmBignum` record: `sign` is `1`, `-1` or `0`; `values` holds the
`size` words of the magnitude, index 0 least significant.  The `size` field of
the C record is the length of `values`. -/
structure ScmBignum where
  sign : Int
  values : List Nat
  deriving DecidableEq, Repr

/-- `SCM_BIGNUM_SIZE`. -/
def ScmBignum.size (b : ScmBignum) : Nat := b.values.length

/-- The integers of the Scheme world that this file produces: a fixnum
(`SCM_MAKE_INT`) or a bignum. -/
inductive ScmObj where
  | int (n : Int)
  | big (b : ScmBignum)
  deriving DecidableEq, Repr

/-- Unsigned value of a word sequence, least-significant word first. -/
def wordsVal (A : Arch) : List Nat → Nat
  | [] => 0
  | w :: ws => w + A.base * wordsVal A ws

/-- Magnitude of a bignum. -/
def ScmBignum.mag (A : Arch) (b : ScmBignum) : Nat := wordsVal A b.values

/-- The integer a bignum denotes. -/
def ScmBignum.toInt (A : Arch) (b : ScmBignum) : Int := b.sign * (b.mag A : Int)

/-- The integer a Scheme integer object denotes. -/
def ScmObj.toInt (A : Arch) : ScmObj → Int
  | .int n => n
  | .big b => b.toInt A

/-- Every stored word fits a machine word. -/
def WordsOk (A : Arch) (ws : List Nat) : Prop := ∀ w ∈ ws, w < A.base

instance (A : Arch) (ws : List Nat) : Decidable (WordsOk A ws) := by
  unfold WordsOk; infer_instance

/-- A normalized bignum (file header of `bignum.c`): the minimum number of
words, and a value that is not representable as a fixnum. -/
structure Normalized (A : Arch) (b : ScmBignum) : Prop where
  sign : b.sign = 1 ∨ b.sign = -1
  words : WordsOk A b.values
  top : b.values.getD (b.size - 1) 0 ≠ 0
  big : b.toInt A < A.SCM_SMALL_INT_MIN ∨ A.SCM_SMALL_INT_MAX < b.toInt A

/-! ## The carry macros of `gauche/arith.h` -/

/-- Modelled from the spec: `gauche/arith.h` is absent.  `UADD(r, c, x, y)`
is one step of the ripple-carry add: `r` receives the low word of `x + y + c`
and `c` the carry out.  The pair is `(r, c)`. -/
def UADD (A : Arch) (c x y : Nat) : Nat × Nat :=
  ((x + y + c) % A.base, (x + y + c) / A.base)

/-- Modelled from the spec: `gauche/arith.h` is absent.  `USUB(r, c, x, y)`
is one step of the ripple-borrow subtract: `r` receives `x - y - c` modulo the
word size and `c` the borrow out.  The pair is `(r, c)`. -/
def USUB (A : Arch) (c x y : Nat) : Nat × Nat :=
  ((((x : Int) - y - c) % (A.base : Int)).toNat, if x < y + c then 1 else 0)

/-- Modelled from the spec: `gauche/arith.h` is absent.  `UMUL(hi, lo, x, y)`
is the double-width product of two words.  The pair is `(hi, lo)`. -/
def UMUL (A : Arch) (x y : Nat) : Nat × Nat :=
  ((x * y) / A.base, (x * y) % A.base)

/-! ## Constructors -/

/-- `make_bignum(size)`: a zero-filled record of sign 1.  Allocation is taken to
succeed (the `SCM_BIGNUM_MAX_DIGITS` limit is not modelled). -/
def make_bignum (size : Nat) : ScmBignum := ⟨1, List.replicate size 0⟩

/-- `Scm_BignumCopy`. -/
def Scm_BignumCopy (b : ScmBignum) : ScmBignum := ⟨b.sign, b.values⟩

/-! ## Normalization -/

/-- The scan of `Scm_NormalizeBignum`: `for (i=size-1; i>0; i--)`, dropping
one from `size` for each zero word at the top.  The state is `(i, size)`. -/
def Scm_NormalizeBignum_loop (values : List Nat) : Nat → Nat → Nat × Nat
  | 0, size => (0, size)
  | i + 1, size =>
    if values.getD (i + 1) 0 = 0 then Scm_NormalizeBignum_loop values i (size - 1)
    else (i + 1, size)

/-- `Scm_NormalizeBignum`. -/
def Scm_NormalizeBignum (A : Arch) (b : ScmBignum) : ScmObj :=
  if b.size = 0 then
    -- i starts at -1: the loop and the `i==0` block are both skipped
    .big b
  else
    let (i, size) := Scm_NormalizeBignum_loop b.values (b.size - 1) b.size
    if i = 0 ∧ b.sign = 0 then .int 0
    else if i = 0 ∧ b.sign > 0 ∧ (b.values.getD 0 0 : Int) ≤ A.SCM_SMALL_INT_MAX then
      .int (b.values.getD 0 0)
    else if i = 0 ∧ b.sign < 0 ∧ (b.values.getD 0 0 : Int) ≤ -A.SCM_SMALL_INT_MIN then
      .int (-(b.values.getD 0 0 : Int))
    else .big ⟨b.sign, b.values.take size⟩

/-! ## Addition and subtraction -/

/-- `bignum_safe_size_for_add`. -/
def bignum_safe_size_for_add (A : Arch) (x y : ScmBignum) : Nat :=
  let xsize := x.size
  let ysize := y.size
  if xsize > ysize then
    if x.values.getD (xsize - 1) 0 = A.SCM_ULONG_MAX then xsize + 1 else xsize
  else if ysize > xsize then
    if y.values.getD (ysize - 1) 0 = A.SCM_ULONG_MAX then ysize + 1 else ysize
  else xsize + 1

/-- The loop of `bignum_2scmpl` from index `i` on, `n` words to go, carry `c`:
each word becomes `~word` plus the carry. -/
def bignum_2scmpl_loop (A : Arch) (vs : List Nat) : Nat → Nat → Nat → List Nat
  | 0, _, _ => vs
  | n + 1, i, c =>
    let x := A.SCM_ULONG_MAX - vs.getD i 0
    let rc := UADD A c x 0
    bignum_2scmpl_loop A (vs.set i rc.1) n (i + 1) rc.2

/-- `bignum_2scmpl`: two's complement of the words, in place. -/
def bignum_2scmpl (A : Arch) (br : ScmBignum) : ScmBignum :=
  ⟨br.sign, bignum_2scmpl_loop A br.values br.size 0 1⟩

/-- `Scm_BignumComplement`. -/
def Scm_BignumComplement (A : Arch) (bx : ScmBignum) : ScmBignum :=
  bignum_2scmpl A (Scm_BignumCopy bx)

/-- The loop of `bignum_add_int` from index `i` on, `n` words to go: the state
is the words of `br` and the carry. -/
def bignum_add_int_loop (A : Arch) (bx by_ : List Nat) :
    List Nat → Nat → Nat → Nat → List Nat × Nat
  | r, 0, _, c => (r, c)
  | r, n + 1, i, c =>
    let x := if bx.length ≤ i then 0 else bx.getD i 0
    let y := if by_.length ≤ i then 0 else by_.getD i 0
    let rc := UADD A c x y
    bignum_add_int_loop A bx by_ (r.set i rc.1) n (i + 1) rc.2

/-- `bignum_add_int`: `br = abs(bx) + abs(by)`. -/
def bignum_add_int (A : Arch) (br bx by_ : ScmBignum) : ScmBignum :=
  ⟨br.sign, (bignum_add_int_loop A bx.values by_.values br.values br.size 0 0).1⟩

/-- The loop of `bignum_sub_int` from index `i` on, `n` words to go: the state
is the words of `br` and the borrow. -/
def bignum_sub_int_loop (A : Arch) (bx by_ : List Nat) :
    List Nat → Nat → Nat → Nat → List Nat × Nat
  | r, 0, _, c => (r, c)
  | r, n + 1, i, c =>
    let x := if bx.length ≤ i then 0 else bx.getD i 0
    let y := if by_.length ≤ i then 0 else by_.getD i 0
    let rc := USUB A c x y
    bignum_sub_int_loop A bx by_ (r.set i rc.1) n (i + 1) rc.2

/-- `bignum_sub_int`: `br = abs(bx) - abs(by)`; on a final borrow the words are
two's-complemented and the sign is flipped. -/
def bignum_sub_int (A : Arch) (br bx by_ : ScmBignum) : ScmBignum :=
  let rc := bignum_sub_int_loop A bx.values by_.values br.values br.size 0 0
  if rc.2 ≠ 0 then
    let br2 := bignum_2scmpl A ⟨br.sign, rc.1⟩
    ⟨0 - br2.sign, br2.values⟩
  else ⟨br.sign, rc.1⟩

/-- `bignum_add`: `bx + by`, not normalized. -/
def bignum_add (A : Arch) (bx by_ : ScmBignum) : ScmBignum :=
  let rsize := bignum_safe_size_for_add A bx by_
  let br : ScmBignum := ⟨bx.sign, (make_bignum rsize).values⟩
  if bx.sign = by_.sign then bignum_add_int A br bx by_
  else bignum_sub_int A br bx by_

/-- `bignum_sub`: `bx - by`, not normalized. -/
def bignum_sub (A : Arch) (bx by_ : ScmBignum) : ScmBignum :=
  let rsize := bignum_safe_size_for_add A bx by_
  let br : ScmBignum := ⟨bx.sign, (make_bignum rsize).values⟩
  if bx.sign = by_.sign then bignum_sub_int A br bx by_
  else bignum_add_int A br bx by_

/-- `Scm_BignumAdd`. -/
def Scm_BignumAdd (A : Arch) (bx by_ : ScmBignum) : ScmObj :=
  Scm_NormalizeBignum A (bignum_add A bx by_)

/-- `Scm_BignumSub`. -/
def Scm_BignumSub (A : Arch) (bx by_ : ScmBignum) : ScmObj :=
  Scm_NormalizeBignum A (bignum_sub A bx by_)


/-! ## Shifts -/

/-- The first loop of the short path of `bignum_lshift`:
`for (i = bx->size-1; i>=0; i--)`, the counter being `i + 1`. -/
def bignum_lshift_copy (bx : List Nat) (nwords : Nat) : List Nat → Nat → List Nat
  | r, 0 => r
  | r, i + 1 =>
    bignum_lshift_copy bx nwords
      (if r.length > i + nwords then r.set (i + nwords) (bx.getD i 0) else r) i

/-- The loop `for (i = nwords-1; i>=0; i--) br->values[i] = 0`, the counter
being `i + 1`. -/
def bignum_lshift_clear : List Nat → Nat → List Nat
  | r, 0 => r
  | r, i + 1 => bignum_lshift_clear (r.set i 0) i

/-- The loop `for (i = bx->size-1; i > 0; i--)` of `bignum_lshift`, the counter
being `i`. -/
def bignum_lshift_bits (A : Arch) (bx : List Nat) (nwords nbits : Nat) :
    List Nat → Nat → List Nat
  | r, 0 => r
  | r, i + 1 =>
    let x := ((bx.getD (i + 1) 0 <<< nbits) % A.base) |||
      (bx.getD i 0 >>> (A.WORD_BITS - nbits))
    bignum_lshift_bits A bx nwords nbits
      (if r.length > i + 1 + nwords then r.set (i + 1 + nwords) x else r) i

/-- `bignum_lshift`: `br = bx << amount`, no normalization.  The words of `bx`
are read from the argument (the function is only called with `br != bx`). -/
def bignum_lshift (A : Arch) (br bx : ScmBignum) (amount : Nat) : ScmBignum :=
  let nwords := amount / A.WORD_BITS
  let nbits := amount % A.WORD_BITS
  if nbits = 0 then
    let r := bignum_lshift_copy bx.values nwords br.values bx.size
    ⟨bx.sign, bignum_lshift_clear r nwords⟩
  else
    let r0 :=
      if br.size > bx.size + nwords then
        br.values.set (bx.size + nwords)
          (bx.values.getD (bx.size - 1) 0 >>> (A.WORD_BITS - nbits))
      else br.values
    let r1 := bignum_lshift_bits A bx.values nwords nbits r0 (bx.size - 1)
    let r2 := r1.set nwords ((bx.values.getD 0 0 <<< nbits) % A.base)
    ⟨bx.sign, bignum_lshift_clear r2 nwords⟩

/-- The loop of the word-aligned path of `bignum_rshift`, `n` words to go from
index `i`. -/
def bignum_rshift_copy (bx : List Nat) (nwords : Nat) : List Nat → Nat → Nat → List Nat
  | r, 0, _ => r
  | r, n + 1, i => bignum_rshift_copy bx nwords (r.set (i - nwords) (bx.getD i 0)) n (i + 1)

/-- The loop `for (i = nwords; i < bx->size-1; i++)` of `bignum_rshift`, `n`
words to go from index `i`. -/
def bignum_rshift_bits (A : Arch) (bx : List Nat) (nwords nbits : Nat) :
    List Nat → Nat → Nat → List Nat
  | r, 0, _ => r
  | r, n + 1, i =>
    let x := ((bx.getD (i + 1) 0 <<< (A.WORD_BITS - nbits)) % A.base) |||
      (bx.getD i 0 >>> nbits)
    bignum_rshift_bits A bx nwords nbits (r.set (i - nwords) x) n (i + 1)

/-- `bignum_rshift`: `br = bx >> amount`, no normalization.  Setting
`br->size` truncates the word list.  The words of `bx` are those on entry; when
`br` and `bx` are the same object each word is read before it is overwritten. -/
def bignum_rshift (A : Arch) (br bx : ScmBignum) (amount : Nat) : ScmBignum :=
  let nwords := amount / A.WORD_BITS
  let nbits := amount % A.WORD_BITS
  if bx.size ≤ nwords then ⟨br.sign, []⟩
  else if nbits = 0 then
    let r := bignum_rshift_copy bx.values nwords br.values (bx.size - nwords) nwords
    ⟨bx.sign, r.take (bx.size - nwords)⟩
  else
    let r := bignum_rshift_bits A bx.values nwords nbits br.values
      (bx.size - 1 - nwords) nwords
    let r := r.set (bx.size - 1 - nwords) (bx.values.getD (bx.size - 1) 0 >>> nbits)
    ⟨bx.sign, r.take (bx.size - nwords)⟩

/-! ## The generic arithmetic of `number.c` -/

/-- The generic operations of `number.c` that `bignum.c` calls; `number.c` is
absent, so they are parameters. -/
structure GenericArith where
  Scm_Add : ScmObj → ScmObj → ScmObj
  Scm_Quotient : ScmObj → ScmObj → ScmObj
  Scm_Ash : ScmObj → Int → ScmObj
  Scm_LogAnd : ScmObj → ScmObj → ScmObj
  Scm_LogNot : ScmObj → ScmObj

/-- The generic operations are exact on integers: sum, truncating quotient,
shift by a nonnegative count, bitwise and and bitwise not in two's complement. -/
structure GenericArith.Exact (A : Arch) (G : GenericArith) : Prop where
  add : ∀ a b, (G.Scm_Add a b).toInt A = a.toInt A + b.toInt A
  quotient : ∀ a b, b.toInt A ≠ 0 →
    (G.Scm_Quotient a b).toInt A = Int.tdiv (a.toInt A) (b.toInt A)
  ash : ∀ a (k : Int), 0 ≤ k → (G.Scm_Ash a k).toInt A = a.toInt A * 2 ^ k.toNat
  logand : ∀ a b, (G.Scm_LogAnd a b).toInt A = Int.land (a.toInt A) (b.toInt A)
  lognot : ∀ a, (G.Scm_LogNot a).toInt A = -(a.toInt A) - 1

/-- The words of a natural number, least significant first (`fuel` bounds the
number of words). -/
def natWords (A : Arch) : Nat → Nat → List Nat
  | 0, _ => []
  | fuel + 1, n => if n = 0 then [] else (n % A.base) :: natWords A fuel (n / A.base)

/-- The integer object of an integer: a fixnum inside the fixnum range, a
bignum with the minimum number of words outside. -/
def ScmObj.ofInt (A : Arch) (n : Int) : ScmObj :=
  if A.SCM_SMALL_INT_MIN ≤ n ∧ n ≤ A.SCM_SMALL_INT_MAX then .int n
  else .big ⟨if n < 0 then -1 else 1, natWords A n.natAbs n.natAbs⟩

/-- A reference instance of the generic arithmetic: every operation computes on
the denoted integers and builds the integer object of the result. -/
def exactArith (A : Arch) : GenericArith where
  Scm_Add a b := ScmObj.ofInt A (a.toInt A + b.toInt A)
  Scm_Quotient a b := ScmObj.ofInt A (Int.tdiv (a.toInt A) (b.toInt A))
  Scm_Ash a k :=
    ScmObj.ofInt A (if 0 ≤ k then a.toInt A * 2 ^ k.toNat else a.toInt A / 2 ^ (-k).toNat)
  Scm_LogAnd a b := ScmObj.ofInt A (Int.land (a.toInt A) (b.toInt A))
  Scm_LogNot a := ScmObj.ofInt A (-(a.toInt A) - 1)

/-- `INT_MAX`: an `int` is taken to be 32 bits wide, as it is on the platforms of
`arch32` and `arch64`. -/
def INT_MAX : Int := 2 ^ 31 - 1

/-- `INT_MIN`. -/
def INT_MIN : Int := -(2 ^ 31)

/-- The `int` left by a signed computation whose exact result is `x`: the
representative of `x` modulo `2 ^ 32` in `[INT_MIN, INT_MAX]` (signed overflow is
taken to wrap around, as on a two's complement machine). -/
def wrapInt (x : Int) : Int :=
  if x % 2 ^ 32 ≤ INT_MAX then x % 2 ^ 32 else x % 2 ^ 32 - 2 ^ 32

/-- `make_bignum(size)` for an `int` that may be negative: `none` is the
`Scm_Error` raised on `size < 0`.  The `SCM_BIGNUM_MAX_DIGITS` limit is not
modelled. -/
def make_bignum_checked (size : Int) : Option ScmBignum :=
  if size < 0 then none else some (make_bignum size.toNat)

/-- `Scm_BignumAsh`; `none` is the `Scm_Error` of `make_bignum`.  `cnt` is an
`int`: the sum `cnt+WORD_BITS-1` is computed on `int` and wraps around when it
exceeds `INT_MAX`; the C quotients truncate toward zero.  The sums with
`SCM_BIGNUM_SIZE(x)` are taken exactly, and so is `-cnt`, which is the `int`
computed unless `cnt` is `INT_MIN`. -/
def Scm_BignumAsh (A : Arch) (G : GenericArith) (x : ScmBignum) (cnt : Int) :
    Option ScmObj :=
  if cnt = 0 then some (Scm_NormalizeBignum A x)
  else if cnt > 0 then
    let rsize : Int :=
      (x.size : Int) + Int.tdiv (wrapInt (cnt + A.WORD_BITS - 1)) (A.WORD_BITS : Int)
    match make_bignum_checked rsize with
    | none => none
    | some r => some (Scm_NormalizeBignum A (bignum_lshift A r x cnt.toNat))
  else
    let rsize : Int := (x.size : Int) + Int.tdiv cnt (A.WORD_BITS : Int)
    if rsize < 1 then
      if x.sign < 0 then some (.int (-1)) else some (.int 0)
    else if x.sign < 0 then
      let r := G.Scm_Quotient (G.Scm_Add (.big x) (.int 1)) (G.Scm_Ash (.int 1) (-cnt))
      some (G.Scm_Add r (.int (-1)))
    else
      let r := make_bignum rsize.toNat
      some (Scm_NormalizeBignum A (bignum_rshift A r x (-cnt).toNat))

/-! ## Multiplication -/

/-- The inner carry loop of `bignum_mul_word`:
`for (j=i+off+2; c && j<br->size; j++)`, with `n` the number of words left
above index `j`. -/
def bignum_mul_word_carry (A : Arch) : List Nat → Nat → Nat → Nat → List Nat
  | r, 0, _, _ => r
  | r, n + 1, j, c =>
    if c = 0 then r
    else
      let rc := UADD A c (r.getD j 0) 0
      bignum_mul_word_carry A (r.set j rc.1) n (j + 1) rc.2

/-- The outer loop of `bignum_mul_word` from index `i` on, `n` words of `bx` to
go; the state is the words of `br`. -/
def bignum_mul_word_loop (A : Arch) (bx : List Nat) (y off : Nat) :
    List Nat → Nat → Nat → List Nat
  | r, 0, _ => r
  | r, n + 1, i =>
    let x := bx.getD i 0
    let hilo := UMUL A x y
    let rc1 := UADD A 0 (r.getD (i + off) 0) hilo.2
    let r1 := r.set (i + off) rc1.1
    let rc2 := UADD A rc1.2 (r1.getD (i + off + 1) 0) hilo.1
    let r2 := r1.set (i + off + 1) rc2.1
    let r3 := bignum_mul_word_carry A r2 (r2.length - (i + off + 2)) (i + off + 2) rc2.2
    bignum_mul_word_loop A bx y off r3 n (i + 1)

/-- `bignum_mul_word`: `br += bx * (y << off*WORD_BITS)`. -/
def bignum_mul_word (A : Arch) (br bx : ScmBignum) (y off : Nat) : ScmBignum :=
  ⟨br.sign, bignum_mul_word_loop A bx.values y off br.values bx.size 0⟩

/-- The loop of `bignum_mul` from index `i` on, `n` words of `by` to go. -/
def bignum_mul_loop (A : Arch) (bx by_ : ScmBignum) : ScmBignum → Nat → Nat → ScmBignum
  | br, 0, _ => br
  | br, n + 1, i =>
    bignum_mul_loop A bx by_ (bignum_mul_word A br bx (by_.values.getD i 0) i) n (i + 1)

/-- `bignum_mul`: `bx * by`, not normalized. -/
def bignum_mul (A : Arch) (bx by_ : ScmBignum) : ScmBignum :=
  let br := make_bignum (bx.size + by_.size)
  let br := bignum_mul_loop A bx by_ br by_.size 0
  ⟨bx.sign * by_.sign, br.values⟩

/-- `Scm_BignumMul`. -/
def Scm_BignumMul (A : Arch) (bx by_ : ScmBignum) : ScmObj :=
  Scm_NormalizeBignum A (bignum_mul A bx by_)

/-! ## Division -/

/-- Modelled from the spec: the half-word macros are absent.  `LOMASK` is
`HALF_WORD - 1`. -/
def Arch.LOMASK (A : Arch) : Nat := A.HALF_WORD - 1

/-- Modelled from the spec: the half-word macros are absent.  `HIMASK` is
`~LOMASK` on a machine word. -/
def Arch.HIMASK (A : Arch) : Nat := A.SCM_ULONG_MAX - A.LOMASK

/-- Modelled from the spec: the half-word macros are absent.  `LO(word)` is the
low half-word digit, `word & LOMASK`. -/
def LO (A : Arch) (w : Nat) : Nat := w &&& A.LOMASK

/-- Modelled from the spec: the half-word macros are absent.  `HI(word)` is the
high half-word digit, `(word >> HALF_BITS) & LOMASK`. -/
def HI (A : Arch) (w : Nat) : Nat := (w >>> A.HALF_BITS) &&& A.LOMASK

/-- The loop of `div_normalization_factor`: `b` is `2^k` for `k + 1` bits to
go, `c` counts the bits passed.  `none` is `Scm_Panic`. -/
def div_normalization_factor_loop (w : Nat) : Nat → Nat → Option Nat
  | 0, _ => none
  | k + 1, c => if w &&& 2 ^ k ≠ 0 then some c else div_normalization_factor_loop w k (c + 1)

/-- `div_normalization_factor`: the number of zero bits above the leftmost one. -/
def div_normalization_factor (A : Arch) (w : Nat) : Option Nat :=
  div_normalization_factor_loop w A.WORD_BITS 0

/-- The macro `DIGIT(num, n)` of `bignum_gdiv`. -/
def DIGIT (A : Arch) (num : List Nat) (n : Nat) : Nat :=
  if n % 2 ≠ 0 then HI A (num.getD (n / 2) 0) else LO A (num.getD (n / 2) 0)

/-- The macro `DIGIT2(num, n)` of `bignum_gdiv`. -/
def DIGIT2 (A : Arch) (num : List Nat) (n : Nat) : Nat :=
  if n % 2 ≠ 0 then
    ((LO A (num.getD (n / 2 + 1) 0) <<< A.HALF_BITS) % A.base) ||| HI A (num.getD (n / 2) 0)
  else num.getD (n / 2) 0

/-- The macro `SETDIGIT(num, n, v)` of `bignum_gdiv`. -/
def SETDIGIT (A : Arch) (num : List Nat) (n v : Nat) : List Nat :=
  if n % 2 ≠ 0 then
    num.set (n / 2) ((num.getD (n / 2) 0 &&& A.LOMASK) ||| ((v <<< A.HALF_BITS) % A.base))
  else
    num.set (n / 2) ((num.getD (n / 2) 0 &&& A.HIMASK) ||| (v &&& A.LOMASK))

/-- The macro `SETDIGIT2(num, n, v)` of `bignum_gdiv`. -/
def SETDIGIT2 (A : Arch) (num : List Nat) (n v : Nat) : List Nat :=
  if n % 2 ≠ 0 then
    let num1 := num.set (n / 2) (LO A (num.getD (n / 2) 0) ||| ((v <<< A.HALF_BITS) % A.base))
    num1.set (n / 2 + 1) ((num1.getD (n / 2 + 1) 0 &&& A.HIMASK) ||| HI A v)
  else num.set (n / 2) v

/-- The correction loop of `bignum_gdiv`:
`while ((qq*vn_2 > (rr<<HALF_BITS)+DIGIT(u, j+n-2)) && (rr < HALF_WORD))`.
The state is `(qq, rr)`; each turn adds `vn_1` to `rr`, so `fuel` turns suffice
when `fuel` exceeds `HALF_WORD`. -/
def bignum_gdiv_correct (A : Arch) (vn_1 vn_2 ujn2 : Nat) : Nat → Nat → Nat → Nat × Nat
  | 0, qq, rr => (qq, rr)
  | fuel + 1, qq, rr =>
    if (qq * vn_2) % A.base > ((rr <<< A.HALF_BITS) + ujn2) % A.base ∧ rr < A.HALF_WORD then
      bignum_gdiv_correct A vn_1 vn_2 ujn2 fuel ((qq + A.base - 1) % A.base)
        ((rr + vn_1) % A.base)
    else (qq, rr)

/-- The multiply-and-subtract loop of `bignum_gdiv`, `cnt` digits to go from
`k`; the state is the words of `u` and the borrow `cy`. -/
def bignum_gdiv_mulsub (A : Arch) (v : List Nat) (qq j : Nat) :
    List Nat → Nat → Nat → Nat → List Nat × Nat
  | u, 0, _, cy => (u, cy)
  | u, cnt + 1, k, cy =>
    let vv := (qq * DIGIT A v k) % A.base
    let uj := DIGIT2 A u (j + k)
    let uj2 := (uj + A.base - vv + A.base - cy) % A.base
    let cy := if uj2 > uj then A.HALF_WORD else 0
    bignum_gdiv_mulsub A v qq j (SETDIGIT2 A u (j + k) uj2) cnt (k + 1) cy

/-- The add-back loop of `bignum_gdiv`, `cnt` digits to go from `k`; the state
is the words of `u` and the carry `cy`. -/
def bignum_gdiv_addback (A : Arch) (v : List Nat) (j : Nat) :
    List Nat → Nat → Nat → Nat → List Nat × Nat
  | u, 0, _, cy => (u, cy)
  | u, cnt + 1, k, cy =>
    let vv := DIGIT A v k
    let uj := (DIGIT A u (j + k) + vv + cy) % A.base
    let cy := if uj ≥ A.HALF_WORD then 1 else 0
    bignum_gdiv_addback A v j (SETDIGIT A u (j + k) uj) cnt (k + 1) cy

/-- One turn of the main loop of `bignum_gdiv`, for the quotient digit `j`; the
state is the words of `u` and of `quotient`. -/
def bignum_gdiv_step (A : Arch) (v : List Nat) (n vn_1 vn_2 : Nat) (j : Nat)
    (u q : List Nat) : List Nat × List Nat :=
  let uu := ((DIGIT A u (j + n) <<< A.HALF_BITS) + DIGIT A u (j + n - 1)) % A.base
  let qq := uu / vn_1
  let rr := uu % vn_1
  let qr := if qq = A.HALF_WORD then (qq - 1, (rr + vn_1) % A.base) else (qq, rr)
  let qr := bignum_gdiv_correct A vn_1 vn_2 (DIGIT A u (j + n - 2)) (A.HALF_WORD + 1) qr.1 qr.2
  let qq := qr.1
  let ucy := bignum_gdiv_mulsub A v qq j u n 0 0
  if ucy.2 ≠ 0 then
    let qq := (qq + A.base - 1) % A.base
    let ucy := bignum_gdiv_addback A v j ucy.1 n 0 0
    let uj := (DIGIT A ucy.1 (j + n) + ucy.2) % A.base
    let u := SETDIGIT A ucy.1 (j + n) uj
    (u, SETDIGIT A q j qq)
  else (ucy.1, SETDIGIT A q j qq)

/-- The main loop of `bignum_gdiv`: `for (j = m; j >= 0; j--)`, the counter
being `j + 1`. -/
def bignum_gdiv_loop (A : Arch) (v : List Nat) (n vn_1 vn_2 : Nat) :
    Nat → List Nat → List Nat → List Nat × List Nat
  | 0, u, q => (u, q)
  | j + 1, u, q =>
    let uq := bignum_gdiv_step A v n vn_1 vn_2 j u q
    bignum_gdiv_loop A v n vn_1 vn_2 j uq.1 uq.2

/-- `bignum_gdiv`: Knuth's algorithm D on half-word digits.  The result is the
remainder (a fresh bignum, not normalized) and the quotient buffer after the
calls of `SETDIGIT`; `none` is the `Scm_Panic` of `div_normalization_factor`. -/
def bignum_gdiv (A : Arch) (dividend divisor quotient : ScmBignum) :
    Option (ScmBignum × ScmBignum) :=
  match div_normalization_factor A (divisor.values.getD (divisor.size - 1) 0) with
  | none => none
  | some d0 =>
    let u := make_bignum (dividend.size + 1)
    let v := make_bignum divisor.size
    let d := if d0 ≥ A.HALF_BITS then d0 - A.HALF_BITS else d0
    let n := if d0 ≥ A.HALF_BITS then divisor.size * 2 - 1 else divisor.size * 2
    let m : Int := (dividend.size : Int) * 2 - n
    let u := bignum_lshift A u dividend d
    let v := bignum_lshift A v divisor d
    let vn_1 := DIGIT A v.values (n - 1)
    let vn_2 := DIGIT A v.values (n - 2)
    let uq := bignum_gdiv_loop A v.values n vn_1 vn_2 (m + 1).toNat u.values quotient.values
    let u := bignum_rshift A ⟨u.sign, uq.1⟩ ⟨u.sign, uq.1⟩ d
    some (u, ⟨quotient.sign, uq.2⟩)

/-- The loop of `bignum_sdiv`: `for (; n > 0; n--)`; the state is the words and
`q0`. -/
def bignum_sdiv_loop (A : Arch) (divisor : Nat) : Nat → List Nat → Nat → List Nat × Nat
  | 0, pu, q0 => (pu, q0)
  | n + 1, pu, q0 =>
    let q1 := (pu.getD (n + 1) 0 / divisor + q0) % A.base
    let r1 := (((pu.getD (n + 1) 0 % divisor) <<< A.HALF_BITS) + HI A (pu.getD n 0)) % A.base
    let q0 := ((r1 / divisor) <<< A.HALF_BITS) % A.base
    let r0 := r1 % divisor
    let pu := pu.set (n + 1) q1
    let pu := pu.set n (((r0 <<< A.HALF_BITS) + LO A (pu.getD n 0)) % A.base)
    bignum_sdiv_loop A divisor n pu q0

/-- `bignum_sdiv`: division by a half-word divisor, the quotient left in the
words of the dividend.  The result is `(remainder, quotient words)`. -/
def bignum_sdiv (A : Arch) (dividend : ScmBignum) (divisor : Nat) : Nat × ScmBignum :=
  let n := dividend.size - 1
  let st := bignum_sdiv_loop A divisor n dividend.values 0
  let pu := st.1
  let q1 := (pu.getD 0 0 / divisor + st.2) % A.base
  let r1 := pu.getD 0 0 % divisor
  (r1, ⟨dividend.sign, pu.set 0 q1⟩)

/-- `Scm_MakeBignumFromSI`, from the value of the `long`. -/
def Scm_MakeBignumFromSI (A : Arch) (val : Int) : ScmBignum :=
  if val = -(A.LONG_MAX : Int) - 1 then ⟨-1, [A.LONG_MAX + 1]⟩
  else if val < 0 then ⟨-1, [(-val).toNat]⟩
  else ⟨1, [val.toNat]⟩

/-- The value of a word read as a `long`. -/
def toLong (A : Arch) (w : Nat) : Int :=
  if w ≤ A.LONG_MAX then (w : Int) else (w : Int) - A.base

/-- `Scm_BignumDivSI`: the quotient and the remainder stored through the
pointer.  `divisor` is a `long`; `dd` is its magnitude as a word. -/
def Scm_BignumDivSI (A : Arch) (dividend : ScmBignum) (divisor : Int) :
    Option (ScmObj × Int) :=
  let dd := if divisor < 0 then (-divisor).toNat % A.base else divisor.toNat % A.base
  let d_sign : Int := if divisor < 0 then -1 else 1
  if dd < A.HALF_WORD then
    let q := Scm_BignumCopy dividend
    let rq := bignum_sdiv A q dd
    let rem := if dividend.sign < 0 then toLong A ((A.base - rq.1) % A.base) else toLong A rq.1
    some (Scm_NormalizeBignum A ⟨dividend.sign * d_sign, rq.2.values⟩, rem)
  else
    let bv := Scm_MakeBignumFromSI A (toLong A dd)
    let q := make_bignum (dividend.size + 1)
    match bignum_gdiv A dividend bv q with
    | none => none
    | some (br, q) =>
      let rr := br.values.getD 0 0
      let rem := if dividend.sign < 0 then toLong A ((A.base - rr) % A.base) else toLong A rr
      some (Scm_NormalizeBignum A ⟨dividend.sign * d_sign, q.values⟩, rem)

/-- The loop of `Scm_BignumAbsCmp`: `for (i = bx->size-1; i >= 0; i--)`, the
counter being `i + 1`. -/
def Scm_BignumAbsCmp_loop (bx by_ : List Nat) : Nat → Int
  | 0 => 0
  | i + 1 =>
    if bx.getD i 0 < by_.getD i 0 then -1
    else if bx.getD i 0 > by_.getD i 0 then 1
    else Scm_BignumAbsCmp_loop bx by_ i

/-- `Scm_BignumAbsCmp`. -/
def Scm_BignumAbsCmp (bx by_ : ScmBignum) : Int :=
  if bx.size < by_.size then -1
  else if bx.size > by_.size then 1
  else Scm_BignumAbsCmp_loop bx.values by_.values bx.size

/-- `Scm_BignumDivRem`: the pair `(quotient, remainder)`. -/
def Scm_BignumDivRem (A : Arch) (dividend divisor : ScmBignum) : Option (ScmObj × ScmObj) :=
  if Scm_BignumAbsCmp dividend divisor < 0 then some (.int 0, .big dividend)
  else
    let q := make_bignum (dividend.size - divisor.size + 1)
    match bignum_gdiv A dividend divisor q with
    | none => none
    | some (r, q) =>
      some (Scm_NormalizeBignum A ⟨dividend.sign * divisor.sign, q.values⟩,
        Scm_NormalizeBignum A ⟨dividend.sign, r.values⟩)

/-! ## Bitwise logic -/

/-- The loop `for (i = 0; i < commsize; i++) z->values[i] = x->values[i] & y->values[i]`
of `bignum_and`, `n` words to go from index `i`. -/
def bignum_and_loop (x y : List Nat) : List Nat → Nat → Nat → List Nat
  | z, 0, _ => z
  | z, n + 1, i => bignum_and_loop x y (z.set i (x.getD i 0 &&& y.getD i 0)) n (i + 1)

/-- The loop `for (i = 0; i < commsize; i++) z->values[i] = x->values[i] | y->values[i]`
of `bignum_ior`, `n` words to go from index `i`. -/
def bignum_ior_loop (x y : List Nat) : List Nat → Nat → Nat → List Nat
  | z, 0, _ => z
  | z, n + 1, i => bignum_ior_loop x y (z.set i (x.getD i 0 ||| y.getD i 0)) n (i + 1)

/-- The tail loops `for (; i < xsize; i++) z->values[i] = x->values[i]` of
`bignum_and` and `bignum_ior`, `n` words to go from index `i`. -/
def bignum_tail_loop (x : List Nat) : List Nat → Nat → Nat → List Nat
  | z, 0, _ => z
  | z, n + 1, i => bignum_tail_loop x (z.set i (x.getD i 0)) n (i + 1)

/-- `bignum_and`: `z = x & y` on two's complement words (sign is ignored). -/
def bignum_and (z x y : ScmBignum) (commsize xsize ysize : Nat) : ScmBignum :=
  let r := bignum_and_loop x.values y.values z.values commsize 0
  if commsize < xsize then ⟨z.sign, bignum_tail_loop x.values r (xsize - commsize) commsize⟩
  else if commsize < ysize then
    ⟨z.sign, bignum_tail_loop y.values r (ysize - commsize) commsize⟩
  else ⟨z.sign, r⟩

/-- `Scm_BignumLogAnd`. -/
def Scm_BignumLogAnd (A : Arch) (x y : ScmBignum) : ScmObj :=
  let xsize := x.size
  let ysize := y.size
  let minsize := min xsize ysize
  if x.sign > 0 then
    if y.sign > 0 then
      let z := bignum_and (make_bignum minsize) x y minsize 0 0
      Scm_NormalizeBignum A z
    else
      let yy := Scm_BignumComplement A y
      let z := bignum_and (make_bignum xsize) x yy minsize xsize 0
      Scm_NormalizeBignum A z
  else
    if y.sign > 0 then
      let xx := Scm_BignumComplement A x
      let z := bignum_and (make_bignum ysize) xx y minsize 0 ysize
      Scm_NormalizeBignum A z
    else
      let xx := Scm_BignumComplement A x
      let yy := Scm_BignumComplement A y
      let zsize := max xsize ysize
      let z := bignum_and (make_bignum zsize) xx yy minsize xsize ysize
      let z : ScmBignum := ⟨-1, z.values⟩
      Scm_NormalizeBignum A (bignum_2scmpl A z)

/-- `bignum_ior`: `z = x | y` on two's complement words (sign is ignored). -/
def bignum_ior (z x y : ScmBignum) (commsize xsize ysize : Nat) : ScmBignum :=
  let r := bignum_ior_loop x.values y.values z.values commsize 0
  if commsize < xsize then ⟨z.sign, bignum_tail_loop x.values r (xsize - commsize) commsize⟩
  else if commsize < ysize then
    ⟨z.sign, bignum_tail_loop y.values r (ysize - commsize) commsize⟩
  else ⟨z.sign, r⟩

/-- `Scm_BignumLogIor`. -/
def Scm_BignumLogIor (A : Arch) (x y : ScmBignum) : ScmObj :=
  let xsize := x.size
  let ysize := y.size
  let minsize := min xsize ysize
  if x.sign ≥ 0 then
    if y.sign ≥ 0 then
      let zsize := max xsize ysize
      let z := bignum_ior (make_bignum zsize) x y minsize xsize ysize
      Scm_NormalizeBignum A z
    else
      let yy := Scm_BignumComplement A y
      let z := bignum_ior (make_bignum ysize) x yy minsize 0 ysize
      let z : ScmBignum := ⟨-1, z.values⟩
      Scm_NormalizeBignum A (bignum_2scmpl A z)
  else
    if y.sign ≥ 0 then
      let xx := Scm_BignumComplement A x
      let z := bignum_ior (make_bignum xsize) xx y minsize xsize 0
      let z : ScmBignum := ⟨-1, z.values⟩
      Scm_NormalizeBignum A (bignum_2scmpl A z)
    else
      let xx := Scm_BignumComplement A x
      let yy := Scm_BignumComplement A y
      let z := bignum_ior (make_bignum minsize) xx yy minsize 0 0
      let z : ScmBignum := ⟨-1, z.values⟩
      Scm_NormalizeBignum A (bignum_2scmpl A z)

/-- `Scm_BignumLogXor`: `(x | y) & ~(x & y)` through the generic `Scm_LogAnd`
and `Scm_LogNot`. -/
def Scm_BignumLogXor (A : Arch) (G : GenericArith) (x y : ScmBignum) : ScmObj :=
  let xandy := Scm_BignumLogAnd A x y
  let xory := Scm_BignumLogIor A x y
  G.Scm_LogAnd xory (G.Scm_LogNot xandy)

/-! ## Conversion to and from native integers -/

/-- `LONG_MIN`. -/
def Arch.LONG_MIN (A : Arch) : Int := -(A.LONG_MAX : Int) - 1

/-- The `long` left by a signed computation whose exact result is `x`: the
representative of `x` modulo `2 ^ WORD_BITS` in `[LONG_MIN, LONG_MAX]` (signed
overflow is taken to wrap around, as on a two's complement machine). -/
def wrapLong (A : Arch) (x : Int) : Int := toLong A (x % (A.base : Int)).toNat

/-- `Scm_BignumToSI`: the value clipped to `[LONG_MIN, LONG_MAX]`. -/
def Scm_BignumToSI (A : Arch) (b : ScmBignum) : Int :=
  if b.sign ≥ 0 then
    if b.values.getD 0 0 > A.LONG_MAX ∨ b.size ≥ 2 then (A.LONG_MAX : Int)
    else toLong A (b.values.getD 0 0)
  else
    if b.values.getD 0 0 > (A.LONG_MAX + 1) % A.base ∨ b.size ≥ 2 then A.LONG_MIN
    else wrapLong A (-(toLong A (b.values.getD 0 0)))

/-- The copying loop of `Scm_MakeBignumFromUIArray` for a given sign, `n` words
to go from index `i`. -/
def Scm_MakeBignumFromUIArray_copy (values : List Nat) : List Nat → Nat → Nat → List Nat
  | r, 0, _ => r
  | r, n + 1, i => Scm_MakeBignumFromUIArray_copy values (r.set i (values.getD i 0)) n (i + 1)

/-- The copying loop of `Scm_MakeBignumFromUIArray` for `sign == 0`, `n` words to
go from index `i`; the state is the words of `b` and `nonzerop`. -/
def Scm_MakeBignumFromUIArray_scan (values : List Nat) :
    List Nat → Nat → Nat → Bool → List Nat × Bool
  | r, 0, _, nonzerop => (r, nonzerop)
  | r, n + 1, i, nonzerop =>
    Scm_MakeBignumFromUIArray_scan values (r.set i (values.getD i 0)) n (i + 1)
      (if values.getD i 0 ≠ 0 then true else nonzerop)

/-- `Scm_MakeBignumFromUIArray(sign, values, size)`: with a nonzero `sign` the
words are the magnitude; with `sign == 0` they are a two's complement pattern. -/
def Scm_MakeBignumFromUIArray (A : Arch) (sign : Int) (values : List Nat) (size : Nat) :
    ScmBignum :=
  let b := make_bignum size
  if sign ≠ 0 then
    ⟨if sign > 0 then 1 else -1, Scm_MakeBignumFromUIArray_copy values b.values size 0⟩
  else
    let st := Scm_MakeBignumFromUIArray_scan values b.values size 0 false
    if st.2 then
      if values.getD (size - 1) 0 ≤ A.LONG_MAX then ⟨1, st.1⟩
      else bignum_2scmpl A ⟨-1, st.1⟩
    else ⟨0, st.1⟩

/-! ## Adding a native integer -/

/-- The loop of `bignum_add_si` for equal signs, `n` words to go from index `i`:
the state is the words of `br`, the carry `c` and `yabs`. -/
def bignum_add_si_add (A : Arch) (bx : List Nat) :
    List Nat → Nat → Nat → Nat → Nat → List Nat × Nat
  | r, 0, _, c, _ => (r, c)
  | r, n + 1, i, c, yabs =>
    let rc := UADD A c (bx.getD i 0) yabs
    bignum_add_si_add A bx (r.set i rc.1) n (i + 1) rc.2 0

/-- The loop of `bignum_add_si` for differing signs, `n` words to go from index
`i`: the state is the words of `br`, the borrow `c` and `yabs`. -/
def bignum_add_si_sub (A : Arch) (bx : List Nat) :
    List Nat → Nat → Nat → Nat → Nat → List Nat × Nat
  | r, 0, _, c, _ => (r, c)
  | r, n + 1, i, c, yabs =>
    let rc := USUB A c (bx.getD i 0) yabs
    bignum_add_si_sub A bx (r.set i rc.1) n (i + 1) rc.2 0

/-- `bignum_add_si`: `bx + y` for a `long` `y`, not normalized. -/
def bignum_add_si (A : Arch) (bx : ScmBignum) (y : Int) : ScmBignum :=
  let rsize := bx.size + 1
  let yabs := if y < 0 then (-y).toNat % A.base else y.toNat % A.base
  let ysign : Int := if y < 0 then -1 else 1
  if y = 0 then bx
  else
    let br := make_bignum rsize
    let st :=
      if bx.sign = ysign then bignum_add_si_add A bx.values br.values bx.size 0 0 yabs
      else bignum_add_si_sub A bx.values br.values bx.size 0 0 yabs
    ⟨bx.sign, st.1.set (rsize - 1) st.2⟩

/-- `Scm_BignumAddSI`. -/
def Scm_BignumAddSI (A : Arch) (bx : ScmBignum) (y : Int) : ScmObj :=
  Scm_NormalizeBignum A (bignum_add_si A bx y)

/-- `Scm_BignumSubSI`: `-y` is computed on a `long`. -/
def Scm_BignumSubSI (A : Arch) (bx : ScmBignum) (y : Int) : ScmObj :=
  Scm_NormalizeBignum A (bignum_add_si A bx (wrapLong A (-y)))

/-! ## Printing -/

/-- The table `ltab` of `Scm_BignumToString`. -/
def ltab : List Char := "0123456789abcdefghijklmnopqrstuvwxyz".data

/-- The table `utab` of `Scm_BignumToString`. -/
def utab : List Char := "0123456789ABCDEFGHIJKLMNOPQRSTUVWXYZ".data

/-- The loop `for (; q->values[q->size-1] == 0 && q->size > 0; q->size--)` of
`Scm_BignumToString`: the new size.  At size 0 the test `q->size > 0` ends the
loop, whatever the word read at index `-1` is. -/
def Scm_BignumToString_strip (values : List Nat) : Nat → Nat
  | 0 => 0
  | size + 1 =>
    if values.getD size 0 = 0 then Scm_BignumToString_strip values size else size + 1

/-- The loop `for (;q->size > 0;)` of `Scm_BignumToString`.  The state is the
working copy `q` and the characters appended so far, least significant digit
first.  The first argument bounds the number of turns; `none` is a failed
`SCM_ASSERT` or a bound that was too small. -/
def Scm_BignumToString_loop (A : Arch) (radix : Nat) (tab : List Char) :
    Nat → ScmBignum → List Char → Option (List Char)
  | 0, q, h => if q.size > 0 then none else some h
  | fuel + 1, q, h =>
    if q.size > 0 then
      let rq := bignum_sdiv A q radix
      let rem := toLong A rq.1
      if 0 ≤ rem ∧ rem < radix then
        let h := h ++ [tab.getD rem.toNat '0']
        let size := Scm_BignumToString_strip rq.2.values rq.2.size
        Scm_BignumToString_loop A radix tab fuel ⟨rq.2.sign, rq.2.values.take size⟩ h
      else none
    else some h

/-- `Scm_BignumToString`: the characters of the result string, in order.  `fuel`
bounds the number of turns of the division loop; `none` is `Scm_Error`, a failed
`SCM_ASSERT` or a bound that was too small. -/
def Scm_BignumToString (A : Arch) (b : ScmBignum) (radix : Int) (use_upper : Bool)
    (fuel : Nat) : Option (List Char) :=
  let tab := if use_upper then utab else ltab
  if radix < 2 ∨ radix > 36 then none
  else
    let q := Scm_BignumCopy b
    match Scm_BignumToString_loop A radix.toNat tab fuel q [] with
    | none => none
    | some h =>
      let h := if q.sign < 0 then h ++ ['-'] else h
      some h.reverse

/-! ## Comparison -/

/-- The loop of `Scm_BignumCmp`: `for (i=bx->size-1; i>=0; i--)`, the counter
being `i + 1`. -/
def Scm_BignumCmp_loop (bx by_ : ScmBignum) : Nat → Int
  | 0 => 0
  | i + 1 =>
    if bx.values.getD i 0 < by_.values.getD i 0 then (if bx.sign > 0 then -1 else 1)
    else if bx.values.getD i 0 > by_.values.getD i 0 then (if bx.sign > 0 then 1 else -1)
    else Scm_BignumCmp_loop bx by_ i

/-- `Scm_BignumCmp`. -/
def Scm_BignumCmp (bx by_ : ScmBignum) : Int :=
  if bx.sign < by_.sign then -1
  else if bx.sign > by_.sign then 1
  else if bx.size < by_.size then (if bx.sign > 0 then -1 else 1)
  else if bx.size > by_.size then (if bx.sign > 0 then 1 else -1)
  else Scm_BignumCmp_loop bx by_ bx.size

/-- `Scm_MakeBignumFromUI`. -/
def Scm_MakeBignumFromUI (val : Nat) : ScmBignum := ⟨1, [val]⟩

/-- The final loop of `Scm_BignumCmp3U`: `for (i=br->size-1; i>=0; i--)`, the
counter being `i + 1`.  The test `i > by->size` lets `i == by->size` through to
the reads of `by->values[i]`; `past` is the word found there, one past the end
of the words of `by`.  The result is the value returned and the indices at
which `by->values` was read, in order. -/
def Scm_BignumCmp3U_loop (br by_ : List Nat) (past : Nat) :
    Nat → List Nat → Int × List Nat
  | 0, reads => (0, reads)
  | i + 1, reads =>
    if i > by_.length then
      if br.getD i 0 ≠ 0 then (1, reads) else Scm_BignumCmp3U_loop br by_ past i reads
    else
      let byi := if i < by_.length then by_.getD i 0 else past
      let reads := reads ++ [i]
      if br.getD i 0 < byi then (-1, reads)
      else if br.getD i 0 > byi then (1, reads)
      else Scm_BignumCmp3U_loop br by_ past i reads

/-- The part of `Scm_BignumCmp3U` after the screening: the sum in a temporary
bignum and the comparison with `by`. -/
def Scm_BignumCmp3U_sum (A : Arch) (bx off by_ : ScmBignum) (past : Nat) : Int × List Nat :=
  let tsize := bignum_safe_size_for_add A bx off
  let br := bignum_add_int A (make_bignum tsize) bx off
  if br.size < by_.size then (-1, [])
  else Scm_BignumCmp3U_loop br.values by_.values past br.size []

/-- `Scm_BignumCmp3U`: compares `bx + off` with `by`.  `past` is the word that
follows the words of `by` in memory.  The result is the value returned and the
indices at which the final loop read `by->values`. -/
def Scm_BignumCmp3U (A : Arch) (bx off by_ : ScmBignum) (past : Nat) : Int × List Nat :=
  let xsize := bx.size
  let ysize := by_.size
  let osize := off.size
  if xsize > ysize then (1, [])
  else if xsize < ysize then
    if osize < ysize ∧ by_.values.getD (ysize - 1) 0 > 1 then (-1, [])
    else if osize = ysize ∧ off.values.getD (osize - 1) 0 > by_.values.getD (ysize - 1) 0 then
      (1, [])
    else if osize = ysize ∧
        off.values.getD (osize - 1) 0 < (by_.values.getD (ysize - 1) 0 + A.base - 1) % A.base then
      (-1, [])
    else Scm_BignumCmp3U_sum A bx off by_ past
  else
    if osize > ysize then (1, [])
    else if bx.values.getD (xsize - 1) 0 > by_.values.getD (ysize - 1) 0 then (1, [])
    else if osize < xsize then
      if bx.values.getD (xsize - 1) 0 < (by_.values.getD (ysize - 1) 0 + A.base - 1) % A.base then
        (-1, [])
      else Scm_BignumCmp3U_sum A bx off by_ past
    else
      let wc := UADD A 0 (bx.values.getD (xsize - 1) 0) (off.values.getD (osize - 1) 0)
      if wc.2 > 0 ∨ wc.1 > by_.values.getD (ysize - 1) 0 then (1, [])
      else if wc.1 < (by_.values.getD (ysize - 1) 0 + A.base - 1) % A.base then (-1, [])
      else Scm_BignumCmp3U_sum A bx off by_ past

/-! ## N-ary addition -/

/-- The loop of `Scm_BignumAddN` over the argument list.  The arguments are
fixnums and bignums: the branches for other objects hand over to the generic
`Scm_Add` and are not part of this model. -/
def Scm_BignumAddN_loop (A : Arch) : ScmBignum → List ScmObj → ScmBignum
  | r, [] => r
  | r, .int v :: args => Scm_BignumAddN_loop A (bignum_add_si A r v) args
  | r, .big v :: args => Scm_BignumAddN_loop A (bignum_add A r v) args

/-- `Scm_BignumAddN` on integer arguments. -/
def Scm_BignumAddN (A : Arch) (bx : ScmBignum) (args : List ScmObj) : ScmObj :=
  Scm_NormalizeBignum A (Scm_BignumAddN_loop A bx args)

/-! ## Accumulation -/

/-- The copying loops of `Scm_BignumAccMultAddUI`: `dst->values[i] = r->values[i]`,
`n` words to go from index `i`. -/
def Scm_BignumAccMultAddUI_copy (r : List Nat) : List Nat → Nat → Nat → List Nat
  | dst, 0, _ => dst
  | dst, n + 1, i => Scm_BignumAccMultAddUI_copy r (dst.set i (r.getD i 0)) n (i + 1)

/-- `Scm_BignumAccMultAddUI`: `acc * coef + c`.  The flag is `true` when the
pointer returned is `acc`, whose words were overwritten, and `false` when it is
a fresh bignum. -/
def Scm_BignumAccMultAddUI (A : Arch) (acc : ScmBignum) (coef c : Nat) : Bool × ScmBignum :=
  let rsize := acc.size + 1
  let r := make_bignum rsize
  let r : ScmBignum := ⟨r.sign, r.values.set 0 c⟩
  let r := bignum_mul_word A r acc coef 0
  if r.values.getD (rsize - 1) 0 = 0 then
    (true, ⟨acc.sign, Scm_BignumAccMultAddUI_copy r.values acc.values acc.size 0⟩)
  else
    let rr := make_bignum (rsize + 3)
    (false, ⟨acc.sign, Scm_BignumAccMultAddUI_copy r.values rr.values rsize 0⟩)

/-! ## Instrumented division loops -/

/-- The loop of `bignum_sdiv` with every intermediate result checked against
the word size: `none` when a shift or a sum does not fit a machine word. -/
def bignum_sdiv_loop_checked (A : Arch) (divisor : Nat) :
    Nat → List Nat → Nat → Option (List Nat × Nat)
  | 0, pu, q0 => some (pu, q0)
  | n + 1, pu, q0 =>
    let q1 := pu.getD (n + 1) 0 / divisor + q0
    let sh := (pu.getD (n + 1) 0 % divisor) <<< A.HALF_BITS
    let r1 := sh + HI A (pu.getD n 0)
    let q0' := (r1 / divisor) <<< A.HALF_BITS
    let r0 := r1 % divisor
    let pu := pu.set (n + 1) q1
    let w := (r0 <<< A.HALF_BITS) + LO A (pu.getD n 0)
    if q1 < A.base ∧ sh < A.base ∧ r1 < A.base ∧ q0' < A.base ∧ w < A.base then
      bignum_sdiv_loop_checked A divisor n (pu.set n w) q0'
    else none

/-- `bignum_sdiv` with every intermediate result checked against the word size. -/
def bignum_sdiv_checked (A : Arch) (dividend : ScmBignum) (divisor : Nat) :
    Option (Nat × ScmBignum) :=
  let n := dividend.size - 1
  match bignum_sdiv_loop_checked A divisor n dividend.values 0 with
  | none => none
  | some st =>
    let pu := st.1
    let q1 := pu.getD 0 0 / divisor + st.2
    let r1 := pu.getD 0 0 % divisor
    if q1 < A.base then some (r1, ⟨dividend.sign, pu.set 0 q1⟩) else none

/-- The estimate `qq` of `bignum_gdiv` for the quotient digit `j`, as it enters
the multiply-and-subtract loop: after the test `qq == HALF_WORD` and the
correction loop. -/
def bignum_gdiv_qq (A : Arch) (n vn_1 vn_2 : Nat) (j : Nat) (u : List Nat) : Nat :=
  let uu := ((DIGIT A u (j + n) <<< A.HALF_BITS) + DIGIT A u (j + n - 1)) % A.base
  let qq := uu / vn_1
  let rr := uu % vn_1
  let qr := if qq = A.HALF_WORD then (qq - 1, (rr + vn_1) % A.base) else (qq, rr)
  (bignum_gdiv_correct A vn_1 vn_2 (DIGIT A u (j + n - 2)) (A.HALF_WORD + 1) qr.1 qr.2).1

/-- The estimates `qq` met by the main loop of `bignum_gdiv`, for `j` from the
counter less one down to 0. -/
def bignum_gdiv_qq_loop (A : Arch) (v : List Nat) (n vn_1 vn_2 : Nat) :
    Nat → List Nat → List Nat → List Nat
  | 0, _, _ => []
  | j + 1, u, q =>
    let uq := bignum_gdiv_step A v n vn_1 vn_2 j u q
    bignum_gdiv_qq A n vn_1 vn_2 j u :: bignum_gdiv_qq_loop A v n vn_1 vn_2 j uq.1 uq.2

/-- The estimates `qq` of a run of `bignum_gdiv`, first digit first; `none` is
the `Scm_Panic` of `div_normalization_factor`. -/
def bignum_gdiv_estimates (A : Arch) (dividend divisor quotient : ScmBignum) :
    Option (List Nat) :=
  match div_normalization_factor A (divisor.values.getD (divisor.size - 1) 0) with
  | none => none
  | some d0 =>
    let u := make_bignum (dividend.size + 1)
    let v := make_bignum divisor.size
    let d := if d0 ≥ A.HALF_BITS then d0 - A.HALF_BITS else d0
    let n := if d0 ≥ A.HALF_BITS then divisor.size * 2 - 1 else divisor.size * 2
    let m : Int := (dividend.size : Int) * 2 - n
    let u := bignum_lshift A u dividend d
    let v := bignum_lshift A v divisor d
    let vn_1 := DIGIT A v.values (n - 1)
    let vn_2 := DIGIT A v.values (n - 2)
    some (bignum_gdiv_qq_loop A v.values n vn_1 vn_2 (m + 1).toNat u.values quotient.values)

/-! ## Proof devices

Loops that fill a word buffer from index `i` upwards are compared with the list
of the words they write. -/

/-- A loop that stores `(f i s).1` at index `i` and moves on with state
`(f i s).2`, for `n` consecutive indices. -/
def fillLoop {σ : Type} (f : Nat → σ → Nat × σ) : List Nat → Nat → Nat → σ → List Nat × σ
  | r, 0, _, s => (r, s)
  | r, n + 1, i, s => fillLoop f (r.set i (f i s).1) n (i + 1) (f i s).2

/-- The words written by `fillLoop`, in order, and the final state. -/
def genLoop {σ : Type} (f : Nat → σ → Nat × σ) : Nat → Nat → σ → List Nat × σ
  | 0, _, s => ([], s)
  | n + 1, i, s => ((f i s).1 :: (genLoop f n (i + 1) (f i s).2).1,
      (genLoop f n (i + 1) (f i s).2).2)

/-- The normal form of an integer object: a fixnum within the fixnum range, or
a normalized bignum. -/
def ScmObj.IsNormal (A : Arch) : ScmObj → Prop
  | .int n => A.SCM_SMALL_INT_MIN ≤ n ∧ n ≤ A.SCM_SMALL_INT_MAX
  | .big b => Normalized A b

/-- The platform whose word is a half-word digit: digit sequences are valued
with its `wordsVal`. -/
def Arch.half (A : Arch) : Arch := ⟨A.HALF_BITS, 0, 0⟩

/-- The half-word digits of a word sequence, least significant first. -/
def digitsOf (A : Arch) : List Nat → List Nat
  | [] => []
  | w :: ws => (w % A.HALF_WORD) :: (w / A.HALF_WORD) :: digitsOf A ws


/-! ## Lemmas on word sequences -/

theorem Arch.base_pos (A : Arch) : 0 < A.base := by
  unfold Arch.base; positivity

theorem wordsVal_nil (A : Arch) : wordsVal A [] = 0 := rfl

theorem wordsVal_cons (A : Arch) (w : Nat) (ws : List Nat) :
    wordsVal A (w :: ws) = w + A.base * wordsVal A ws := rfl

theorem wordsVal_append (A : Arch) (xs ys : List Nat) :
    wordsVal A (xs ++ ys) = wordsVal A xs + A.base ^ xs.length * wordsVal A ys := by
  induction xs with
  | nil => simp [wordsVal]
  | cons x xs ih => simp [wordsVal, ih, pow_succ]; ring

theorem wordsVal_replicate_zero (A : Arch) (n : Nat) :
    wordsVal A (List.replicate n 0) = 0 := by
  induction n with
  | zero => rfl
  | succ n ih => simp [List.replicate_succ, wordsVal, ih]

theorem WordsOk.nil (A : Arch) : WordsOk A [] := by
  intro w hw; simp at hw

theorem WordsOk.cons {A : Arch} {w : Nat} {ws : List Nat} (hw : w < A.base)
    (h : WordsOk A ws) : WordsOk A (w :: ws) := by
  intro v hv
  rcases List.mem_cons.1 hv with rfl | hv
  · exact hw
  · exact h v hv

theorem WordsOk.head {A : Arch} {w : Nat} {ws : List Nat} (h : WordsOk A (w :: ws)) :
    w < A.base := h w (List.mem_cons_self _ _)

theorem WordsOk.tail {A : Arch} {w : Nat} {ws : List Nat} (h : WordsOk A (w :: ws)) :
    WordsOk A ws := fun v hv => h v (List.mem_cons_of_mem _ hv)

theorem WordsOk.append {A : Arch} {xs ys : List Nat} (hx : WordsOk A xs)
    (hy : WordsOk A ys) : WordsOk A (xs ++ ys) := by
  intro v hv
  rcases List.mem_append.1 hv with h | h
  · exact hx v h
  · exact hy v h

theorem WordsOk.take {A : Arch} {xs : List Nat} (hx : WordsOk A xs) (n : Nat) :
    WordsOk A (xs.take n) := fun v hv => hx v (List.mem_of_mem_take hv)

theorem WordsOk.drop {A : Arch} {xs : List Nat} (hx : WordsOk A xs) (n : Nat) :
    WordsOk A (xs.drop n) := fun v hv => hx v (List.mem_of_mem_drop hv)

theorem WordsOk.replicate_zero (A : Arch) (n : Nat) : WordsOk A (List.replicate n 0) := by
  intro v hv
  rw [(List.mem_replicate.1 hv).2]
  exact A.base_pos

theorem WordsOk.getD {A : Arch} {xs : List Nat} (hx : WordsOk A xs) (i : Nat) :
    xs.getD i 0 < A.base := by
  by_cases h : i < xs.length
  · rw [List.getD_eq_getElem _ _ h]
    exact hx _ (List.getElem_mem h)
  · rw [List.getD_eq_default _ _ (by omega)]
    exact A.base_pos

theorem wordsVal_lt {A : Arch} {xs : List Nat} (hx : WordsOk A xs) :
    wordsVal A xs < A.base ^ xs.length := by
  induction xs with
  | nil => simp [wordsVal]
  | cons x xs ih =>
    have h1 := hx.head
    have h2 := ih hx.tail
    simp only [wordsVal, List.length_cons, pow_succ]
    nlinarith [A.base_pos]

theorem wordsVal_take_of_length_le (A : Arch) {xs : List Nat} {n : Nat}
    (h : xs.length ≤ n) : wordsVal A (xs.take n) = wordsVal A xs := by
  rw [List.take_of_length_le h]

theorem drop_eq_getD_cons (xs : List Nat) (i : Nat) (h : i < xs.length) :
    xs.drop i = xs.getD i 0 :: xs.drop (i + 1) := by
  rw [List.getD_eq_getElem _ _ h]
  exact List.drop_eq_getElem_cons h

theorem wordsVal_drop (A : Arch) (xs : List Nat) (i : Nat) :
    wordsVal A (xs.drop i) = xs.getD i 0 + A.base * wordsVal A (xs.drop (i + 1)) := by
  by_cases h : i < xs.length
  · rw [drop_eq_getD_cons xs i h, wordsVal_cons]
  · rw [List.drop_of_length_le (by omega), List.drop_of_length_le (by omega),
      List.getD_eq_default _ _ (by omega)]
    simp [wordsVal]

theorem wordsVal_eq_take_add_drop (A : Arch) (xs : List Nat) (n : Nat) (h : n ≤ xs.length) :
    wordsVal A xs = wordsVal A (xs.take n) + A.base ^ n * wordsVal A (xs.drop n) := by
  conv_lhs => rw [← List.take_append_drop n xs]
  rw [wordsVal_append, List.length_take, Nat.min_eq_left h]

/-! ## Buffer-filling loops -/

theorem fillLoop_eq {σ : Type} (f : Nat → σ → Nat × σ) (r : List Nat) (n i : Nat) (s : σ)
    (h : i + n ≤ r.length) :
    fillLoop f r n i s =
      (r.take i ++ (genLoop f n i s).1 ++ r.drop (i + n), (genLoop f n i s).2) := by
  induction n generalizing r i s with
  | zero => simp [fillLoop, genLoop]
  | succ n ih =>
    rw [fillLoop, ih _ _ _ (by simp; omega)]
    simp only [genLoop, Prod.mk.injEq, and_true]
    have h1 : (r.set i (f i s).1).take (i + 1) = r.take i ++ [(f i s).1] := by
      rw [List.set_eq_take_append_cons_drop, if_pos (by omega),
        List.take_append_eq_append_take]
      simp [List.length_take, Nat.min_eq_left (show i ≤ r.length by omega),
        List.take_take]
    have h2 : (r.set i (f i s).1).drop (i + 1 + n) = r.drop (i + (n + 1)) := by
      rw [List.drop_set_of_lt _ _ (by omega)]
      congr 1; omega
    rw [h1, h2]
    simp

theorem genLoop_length {σ : Type} (f : Nat → σ → Nat × σ) (n i : Nat) (s : σ) :
    (genLoop f n i s).1.length = n := by
  induction n generalizing i s with
  | zero => rfl
  | succ n ih => simp [genLoop, ih]

theorem fillLoop_full {σ : Type} (f : Nat → σ → Nat × σ) (r : List Nat) (s : σ) :
    fillLoop f r r.length 0 s = genLoop f r.length 0 s := by
  rw [fillLoop_eq f r r.length 0 s (by simp)]
  simp

/-! ## Addition and subtraction of magnitudes -/

theorem getD_guard (xs : List Nat) (i : Nat) :
    (if xs.length ≤ i then 0 else xs.getD i 0) = xs.getD i 0 := by
  split
  · rw [List.getD_eq_default _ _ (by omega)]
  · rfl

theorem wordsVal_take_drop_succ (A : Arch) (xs : List Nat) (n i : Nat) :
    wordsVal A ((xs.drop i).take (n + 1)) =
      xs.getD i 0 + A.base * wordsVal A ((xs.drop (i + 1)).take n) := by
  by_cases h : i < xs.length
  · rw [drop_eq_getD_cons xs i h, List.take_succ_cons, wordsVal_cons]
  · rw [List.drop_of_length_le (by omega), List.drop_of_length_le (by omega),
      List.getD_eq_default _ _ (by omega)]
    simp [wordsVal]

theorem bignum_add_int_loop_eq (A : Arch) (bx by_ r : List Nat) (n i c : Nat) :
    bignum_add_int_loop A bx by_ r n i c =
      fillLoop (fun i c => UADD A c (bx.getD i 0) (by_.getD i 0)) r n i c := by
  induction n generalizing r i c with
  | zero => rfl
  | succ n ih => simp only [bignum_add_int_loop, fillLoop, getD_guard, ih]

theorem add_genLoop_val (A : Arch) (bx by_ : List Nat) (n i c : Nat) :
    wordsVal A (genLoop (fun i c => UADD A c (bx.getD i 0) (by_.getD i 0)) n i c).1
      + A.base ^ n * (genLoop (fun i c => UADD A c (bx.getD i 0) (by_.getD i 0)) n i c).2
      = wordsVal A ((bx.drop i).take n) + wordsVal A ((by_.drop i).take n) + c := by
  induction n generalizing i c with
  | zero => simp [genLoop, wordsVal]
  | succ n ih =>
    simp only [genLoop, wordsVal_cons]
    have e := ih (i + 1) (UADD A c (bx.getD i 0) (by_.getD i 0)).2
    rw [wordsVal_take_drop_succ, wordsVal_take_drop_succ]
    simp only [UADD] at e ⊢
    have hd := Nat.mod_add_div (bx.getD i 0 + by_.getD i 0 + c) A.base
    rw [pow_succ]
    linear_combination A.base * e + hd

theorem add_genLoop_ok (A : Arch) (bx by_ : List Nat) (n i c : Nat) :
    WordsOk A (genLoop (fun i c => UADD A c (bx.getD i 0) (by_.getD i 0)) n i c).1 := by
  induction n generalizing i c with
  | zero => exact WordsOk.nil A
  | succ n ih =>
    simp only [genLoop]
    exact WordsOk.cons (Nat.mod_lt _ A.base_pos) (ih _ _)

/-- `bignum_add_int` writes the sum of the magnitudes when the buffer is large enough. -/
theorem bignum_add_int_mag (A : Arch) (br bx by_ : ScmBignum)
    (hx : bx.size ≤ br.size) (hy : by_.size ≤ br.size)
    (hfit : bx.mag A + by_.mag A < A.base ^ br.size) :
    (bignum_add_int A br bx by_).mag A = bx.mag A + by_.mag A ∧
    (bignum_add_int A br bx by_).size = br.size ∧
    WordsOk A (bignum_add_int A br bx by_).values ∧
    (bignum_add_int A br bx by_).sign = br.sign := by
  unfold bignum_add_int ScmBignum.mag ScmBignum.size at *
  simp only [bignum_add_int_loop_eq, fillLoop_full]
  have e := add_genLoop_val A bx.values by_.values br.values.length 0 0
  have hok := add_genLoop_ok A bx.values by_.values br.values.length 0 0
  have hl := genLoop_length (fun i c => UADD A c (bx.values.getD i 0) (by_.values.getD i 0))
    br.values.length 0 0
  simp only [List.drop_zero, List.take_of_length_le hx, List.take_of_length_le hy,
    add_zero] at e
  have hlt := wordsVal_lt hok
  rw [hl] at hlt
  refine ⟨?_, hl, hok, trivial⟩
  have hpos : 0 < A.base ^ br.values.length := pow_pos A.base_pos _
  rcases Nat.eq_zero_or_pos (genLoop (fun i c => UADD A c (bx.values.getD i 0)
      (by_.values.getD i 0)) br.values.length 0 0).2 with h0 | h0
  · rw [h0] at e; omega
  · nlinarith


theorem UADD_spec (A : Arch) (c x y : Nat) :
    (UADD A c x y).1 + A.base * (UADD A c x y).2 = x + y + c ∧ (UADD A c x y).1 < A.base := by
  unfold UADD
  exact ⟨Nat.mod_add_div _ _, Nat.mod_lt _ A.base_pos⟩

theorem USUB_spec (A : Arch) {c x y : Nat} (hx : x < A.base) (hy : y < A.base) (hc : c ≤ 1) :
    ((USUB A c x y).1 : Int) - A.base * (USUB A c x y).2 = (x : Int) - y - c ∧
    (USUB A c x y).1 < A.base ∧ (USUB A c x y).2 ≤ 1 := by
  unfold USUB
  have hB : (0 : Int) < A.base := by exact_mod_cast A.base_pos
  have hnn : 0 ≤ ((x : Int) - y - c) % (A.base : Int) := Int.emod_nonneg _ (ne_of_gt hB)
  have hlt : ((x : Int) - y - c) % (A.base : Int) < A.base := Int.emod_lt_of_pos _ hB
  refine ⟨?_, ?_, ?_⟩
  · rw [Int.toNat_of_nonneg hnn]
    split
    · rename_i h
      have : ((x : Int) - y - c) % (A.base : Int) = (x : Int) - y - c + A.base := by
        rw [← Int.add_mul_emod_self (b := 1), one_mul]
        exact Int.emod_eq_of_lt (by omega) (by omega)
      rw [this]; push_cast; ring
    · rename_i h
      have : ((x : Int) - y - c) % (A.base : Int) = (x : Int) - y - c :=
        Int.emod_eq_of_lt (by omega) (by omega)
      rw [this]; simp
  · omega
  · split <;> omega

theorem getD_set_ne' (xs : List Nat) (i j w : Nat) (h : i ≠ j) :
    (xs.set i w).getD j 0 = xs.getD j 0 := by
  simp [List.getD_eq_getElem?_getD, List.getElem?_set_ne h]

theorem bignum_sub_int_loop_eq (A : Arch) (bx by_ r : List Nat) (n i c : Nat) :
    bignum_sub_int_loop A bx by_ r n i c =
      fillLoop (fun i c => USUB A c (bx.getD i 0) (by_.getD i 0)) r n i c := by
  induction n generalizing r i c with
  | zero => rfl
  | succ n ih => simp only [bignum_sub_int_loop, fillLoop, getD_guard, ih]

theorem sub_genLoop_val (A : Arch) (bx by_ : List Nat) (hx : WordsOk A bx)
    (hy : WordsOk A by_) (n i c : Nat) (hc : c ≤ 1) :
    (wordsVal A (genLoop (fun i c => USUB A c (bx.getD i 0) (by_.getD i 0)) n i c).1 : Int)
      - A.base ^ n * (genLoop (fun i c => USUB A c (bx.getD i 0) (by_.getD i 0)) n i c).2
      = (wordsVal A ((bx.drop i).take n) : Int) - wordsVal A ((by_.drop i).take n) - c ∧
    WordsOk A (genLoop (fun i c => USUB A c (bx.getD i 0) (by_.getD i 0)) n i c).1 ∧
    (genLoop (fun i c => USUB A c (bx.getD i 0) (by_.getD i 0)) n i c).2 ≤ 1 := by
  induction n generalizing i c with
  | zero => simp [genLoop, wordsVal, hc, WordsOk.nil]
  | succ n ih =>
    simp only [genLoop, wordsVal_cons]
    obtain ⟨s1, s2, s3⟩ := USUB_spec A (hx.getD i) (hy.getD i) hc
    obtain ⟨e, ok, cl⟩ := ih (i + 1) (USUB A c (bx.getD i 0) (by_.getD i 0)).2 s3
    refine ⟨?_, WordsOk.cons s2 ok, cl⟩
    rw [wordsVal_take_drop_succ, wordsVal_take_drop_succ]
    push_cast
    rw [pow_succ]
    linear_combination (A.base : Int) * e + s1

theorem bignum_2scmpl_loop_eq (A : Arch) (vs0 vs : List Nat) (n i c : Nat)
    (h : ∀ j, i ≤ j → vs.getD j 0 = vs0.getD j 0) :
    bignum_2scmpl_loop A vs n i c =
      (fillLoop (fun i c => UADD A c (A.SCM_ULONG_MAX - vs0.getD i 0) 0) vs n i c).1 := by
  induction n generalizing vs i c with
  | zero => rfl
  | succ n ih =>
    simp only [bignum_2scmpl_loop, fillLoop]
    rw [h i le_rfl]
    apply ih
    intro j hj
    rw [getD_set_ne' _ _ _ _ (by omega)]
    exact h j (by omega)

theorem scmpl_genLoop_val (A : Arch) (vs : List Nat) (hv : WordsOk A vs) (n i c : Nat) :
    wordsVal A (genLoop (fun i c => UADD A c (A.SCM_ULONG_MAX - vs.getD i 0) 0) n i c).1
      + A.base ^ n * (genLoop (fun i c => UADD A c (A.SCM_ULONG_MAX - vs.getD i 0) 0) n i c).2
      + wordsVal A ((vs.drop i).take n) + 1 = A.base ^ n + c ∧
    WordsOk A (genLoop (fun i c => UADD A c (A.SCM_ULONG_MAX - vs.getD i 0) 0) n i c).1 := by
  induction n generalizing i c with
  | zero => simp [genLoop, wordsVal, WordsOk.nil, add_comm]
  | succ n ih =>
    simp only [genLoop, wordsVal_cons]
    obtain ⟨s1, s2⟩ := UADD_spec A c (A.SCM_ULONG_MAX - vs.getD i 0) 0
    obtain ⟨e, ok⟩ := ih (i + 1) (UADD A c (A.SCM_ULONG_MAX - vs.getD i 0) 0).2
    refine ⟨?_, WordsOk.cons s2 ok⟩
    rw [wordsVal_take_drop_succ]
    have hw := hv.getD i
    have hm : A.SCM_ULONG_MAX - vs.getD i 0 + vs.getD i 0 + 1 = A.base := by
      unfold Arch.SCM_ULONG_MAX; omega
    rw [pow_succ]
    nlinarith

/-- `bignum_2scmpl` replaces the magnitude `U` of an `n`-word buffer by
`(2^(W*n) - U) mod 2^(W*n)`. -/
theorem bignum_2scmpl_spec (A : Arch) (b : ScmBignum) (hv : WordsOk A b.values) :
    (bignum_2scmpl A b).mag A = (A.base ^ b.size - b.mag A) % A.base ^ b.size ∧
    (bignum_2scmpl A b).size = b.size ∧
    WordsOk A (bignum_2scmpl A b).values ∧
    (bignum_2scmpl A b).sign = b.sign := by
  unfold bignum_2scmpl ScmBignum.mag ScmBignum.size
  simp only
  rw [bignum_2scmpl_loop_eq A b.values b.values _ 0 1 (fun _ _ => rfl), fillLoop_full]
  obtain ⟨e, ok⟩ := scmpl_genLoop_val A b.values hv b.values.length 0 1
  have hl := genLoop_length (fun i c => UADD A c (A.SCM_ULONG_MAX - b.values.getD i 0) 0)
    b.values.length 0 1
  simp only [List.drop_zero, List.take_length] at e
  have hlt := wordsVal_lt ok
  rw [hl] at hlt
  have hlt2 := wordsVal_lt hv
  refine ⟨?_, hl, ok, trivial⟩
  have hpos : 0 < A.base ^ b.values.length := pow_pos A.base_pos _
  set c := (genLoop (fun i c => UADD A c (A.SCM_ULONG_MAX - b.values.getD i 0) 0)
    b.values.length 0 1).2
  set R := wordsVal A (genLoop (fun i c => UADD A c (A.SCM_ULONG_MAX - b.values.getD i 0) 0)
    b.values.length 0 1).1
  rcases Nat.eq_zero_or_pos c with h0 | h0
  · rw [h0] at e
    have : R = A.base ^ b.values.length - wordsVal A b.values := by omega
    rw [this, Nat.mod_eq_of_lt (by omega)]
  · have h1 : c = 1 := by
      by_contra hne
      have : 2 ≤ c := by omega
      nlinarith
    rw [h1] at e
    have hz : wordsVal A b.values = 0 := by omega
    have hR : R = 0 := by omega
    rw [hz, hR]; simp


theorem Arch.Ok.two_le_base {A : Arch} (h : A.Ok) : 2 ≤ A.base := by
  unfold Arch.base
  have := h.pos
  have := h.even
  calc 2 = 2 ^ 1 := rfl
    _ ≤ 2 ^ A.WORD_BITS := Nat.pow_le_pow_right (by norm_num) (by omega)

/-- `bignum_sub_int` writes `|abs(bx) - abs(by)|` and flips the sign exactly when the
difference is negative. -/
theorem bignum_sub_int_spec (A : Arch) (br bx by_ : ScmBignum)
    (hx : bx.size ≤ br.size) (hy : by_.size ≤ br.size)
    (wx : WordsOk A bx.values) (wy : WordsOk A by_.values) :
    (bignum_sub_int A br bx by_).toInt A = br.sign * ((bx.mag A : Int) - by_.mag A) ∧
    (bignum_sub_int A br bx by_).size = br.size ∧
    WordsOk A (bignum_sub_int A br bx by_).values ∧
    ((bignum_sub_int A br bx by_).sign = br.sign ∨
      (bignum_sub_int A br bx by_).sign = -br.sign) := by
  unfold bignum_sub_int
  simp only [bignum_sub_int_loop_eq]
  unfold ScmBignum.size at *
  rw [fillLoop_full]
  obtain ⟨e, ok, cl⟩ := sub_genLoop_val A bx.values by_.values wx wy br.values.length 0 0
    (by omega)
  have hl := genLoop_length (fun i c => USUB A c (bx.values.getD i 0) (by_.values.getD i 0))
    br.values.length 0 0
  simp only [List.drop_zero, List.take_of_length_le hx, List.take_of_length_le hy,
    Nat.cast_zero, sub_zero] at e
  have hlt := wordsVal_lt ok
  rw [hl] at hlt
  have hltx := wordsVal_lt wx
  have hlty := wordsVal_lt wy
  have hpx : A.base ^ bx.values.length ≤ A.base ^ br.values.length :=
    Nat.pow_le_pow_right A.base_pos hx
  have hpy : A.base ^ by_.values.length ≤ A.base ^ br.values.length :=
    Nat.pow_le_pow_right A.base_pos hy
  set g := genLoop (fun i c => USUB A c (bx.values.getD i 0) (by_.values.getD i 0))
    br.values.length 0 0
  split
  · rename_i hc
    have h1 : g.2 = 1 := by omega
    rw [h1] at e
    obtain ⟨m, sz, ok2, sg⟩ := bignum_2scmpl_spec A ⟨br.sign, g.1⟩ ok
    simp only [ScmBignum.size, hl] at sz m
    refine ⟨?_, sz, ok2, Or.inr (by simp [sg])⟩
    simp only [ScmBignum.toInt, ScmBignum.mag] at m ⊢
    rw [m, sg]
    have hR : (wordsVal A g.1 : Int) =
        A.base ^ br.values.length + wordsVal A bx.values - wordsVal A by_.values := by
      push_cast at e; linarith
    have hRn : wordsVal A g.1 + wordsVal A by_.values =
        A.base ^ br.values.length + wordsVal A bx.values := by
      have : ((wordsVal A g.1 + wordsVal A by_.values : Nat) : Int) =
          ((A.base ^ br.values.length + wordsVal A bx.values : Nat) : Int) := by
        push_cast; linarith
      exact_mod_cast this
    have hd : A.base ^ br.values.length - wordsVal A g.1 =
        wordsVal A by_.values - wordsVal A bx.values := by omega
    rw [hd, Nat.mod_eq_of_lt (by omega)]
    have hle : wordsVal A bx.values ≤ wordsVal A by_.values := by omega
    rw [Nat.cast_sub hle]
    ring
  · rename_i hc
    have h0 : g.2 = 0 := by
      by_contra h; exact hc h
    rw [h0] at e
    refine ⟨?_, hl, ok, Or.inl rfl⟩
    simp only [ScmBignum.toInt, ScmBignum.mag]
    simp only [Nat.cast_zero, mul_zero, sub_zero] at e
    rw [e]

theorem wordsVal_lt_top (A : Arch) (xs : List Nat) (hx : WordsOk A xs) (hne : xs ≠ []) :
    wordsVal A xs < (xs.getD (xs.length - 1) 0 + 1) * A.base ^ (xs.length - 1) := by
  have hl : 0 < xs.length := List.length_pos.2 hne
  rw [wordsVal_eq_take_add_drop A xs (xs.length - 1) (by omega)]
  have h1 := wordsVal_lt (hx.take (xs.length - 1))
  rw [List.length_take, Nat.min_eq_left (by omega)] at h1
  rw [wordsVal_drop, List.drop_of_length_le (by omega)]
  simp only [wordsVal_nil, mul_zero, add_zero]
  nlinarith

/-! ## Normalization -/

theorem wordsVal_eq_zero_of_all_zero (A : Arch) (xs : List Nat) (h : ∀ w ∈ xs, w = 0) :
    wordsVal A xs = 0 := by
  induction xs with
  | nil => rfl
  | cons x xs ih =>
    rw [wordsVal_cons, h x (List.mem_cons_self _ _),
      ih (fun w hw => h w (List.mem_cons_of_mem _ hw))]
    simp

theorem wordsVal_take_of_zero_above (A : Arch) (xs : List Nat) (k : Nat)
    (h : ∀ j, k ≤ j → xs.getD j 0 = 0) : wordsVal A (xs.take k) = wordsVal A xs := by
  conv_rhs => rw [← List.take_append_drop k xs]
  rw [wordsVal_append, wordsVal_eq_zero_of_all_zero A (xs.drop k)]
  · simp
  · intro w hw
    obtain ⟨n, hn, rfl⟩ := List.mem_iff_getElem.1 hw
    rw [List.getElem_drop]
    have := h (k + n) (by omega)
    rw [List.length_drop] at hn
    rwa [List.getD_eq_getElem _ _ (by omega)] at this

theorem Scm_NormalizeBignum_loop_spec (values : List Nat) (i : Nat) :
    (Scm_NormalizeBignum_loop values i (i + 1)).2 =
      (Scm_NormalizeBignum_loop values i (i + 1)).1 + 1 ∧
    (Scm_NormalizeBignum_loop values i (i + 1)).1 ≤ i ∧
    (∀ j, (Scm_NormalizeBignum_loop values i (i + 1)).1 < j → j ≤ i → values.getD j 0 = 0) ∧
    ((Scm_NormalizeBignum_loop values i (i + 1)).1 = 0 ∨
      values.getD (Scm_NormalizeBignum_loop values i (i + 1)).1 0 ≠ 0) := by
  induction i with
  | zero =>
    refine ⟨rfl, le_rfl, ?_, Or.inl rfl⟩
    intro j hj hj0
    simp only [Scm_NormalizeBignum_loop] at hj
    omega
  | succ i ih =>
    unfold Scm_NormalizeBignum_loop
    split
    · rename_i hz
      simp only [Nat.add_sub_cancel]
      obtain ⟨h1, h2, h3, h4⟩ := ih
      refine ⟨h1, by omega, ?_, h4⟩
      intro j hj hji
      by_cases hji2 : j ≤ i
      · exact h3 j hj hji2
      · have : j = i + 1 := by omega
        rw [this]; exact hz
    · rename_i hz
      refine ⟨rfl, le_rfl, ?_, Or.inr hz⟩
      intro j hj hji
      simp at hj
      omega

theorem wordsVal_take_one (A : Arch) (xs : List Nat) :
    wordsVal A (xs.take 1) = xs.getD 0 0 := by
  cases xs <;> simp [wordsVal]

/-- `Scm_NormalizeBignum` keeps the integer value. -/
theorem Scm_NormalizeBignum_toInt (A : Arch) (b : ScmBignum)
    (hs : b.sign = 1 ∨ b.sign = -1 ∨ b.sign = 0) :
    (Scm_NormalizeBignum A b).toInt A = b.toInt A := by
  unfold Scm_NormalizeBignum
  split
  · rfl
  · rename_i hsz
    unfold ScmBignum.size at hsz ⊢
    obtain ⟨h1, h2, h3, h4⟩ := Scm_NormalizeBignum_loop_spec b.values (b.values.length - 1)
    have hlen : b.values.length - 1 + 1 = b.values.length := by omega
    rw [hlen] at h1 h3 h4
    have hval : wordsVal A (b.values.take
        (Scm_NormalizeBignum_loop b.values (b.values.length - 1) b.values.length).2)
        = wordsVal A b.values := by
      apply wordsVal_take_of_zero_above
      intro j hj
      by_cases hjl : j ≤ b.values.length - 1
      · exact h3 j (by omega) hjl
      · exact List.getD_eq_default _ _ (by omega)
    have hval0 : (Scm_NormalizeBignum_loop b.values (b.values.length - 1)
        b.values.length).1 = 0 → wordsVal A b.values = b.values.getD 0 0 := by
      intro h0
      rw [← hval, h1, h0, wordsVal_take_one]
    simp only
    split
    · rename_i h; simp [ScmObj.toInt, ScmBignum.toInt, h.2]
    · split
      · rename_i h
        have : b.sign = 1 := by omega
        simp [ScmObj.toInt, ScmBignum.toInt, ScmBignum.mag, hval0 h.1, this]
      · split
        · rename_i h
          have : b.sign = -1 := by omega
          simp [ScmObj.toInt, ScmBignum.toInt, ScmBignum.mag, hval0 h.1, this]
        · simp only [ScmObj.toInt, ScmBignum.toInt, ScmBignum.mag, hval]


theorem wordsVal_ge_getD (A : Arch) (xs : List Nat) (k : Nat) :
    xs.getD k 0 * A.base ^ k ≤ wordsVal A xs := by
  by_cases h : k < xs.length
  · rw [wordsVal_eq_take_add_drop A xs k (by omega), wordsVal_drop]
    nlinarith [Nat.zero_le (wordsVal A (List.take k xs)),
      Nat.zero_le (A.base ^ k * (A.base * wordsVal A (List.drop (k + 1) xs)))]
  · rw [List.getD_eq_default _ _ (by omega)]; simp

theorem Arch.Ok.half_lt_base {A : Arch} (h : A.Ok) : 2 ^ (A.WORD_BITS - 1) < A.base := by
  unfold Arch.base
  have := h.pos
  have := h.even
  exact Nat.pow_lt_pow_right (by norm_num) (by omega)

theorem Normalized.ne_nil {A : Arch} {b : ScmBignum} (h : Normalized A b) : b.values ≠ [] := by
  intro hn
  have := h.top
  simp [hn] at this

theorem Normalized.size_pos {A : Arch} {b : ScmBignum} (h : Normalized A b) : 0 < b.size :=
  List.length_pos.2 h.ne_nil

/-- `Scm_NormalizeBignum` returns a fixnum when the value fits the fixnum range and a
normalized bignum otherwise, for every buffer of at least one word. -/
theorem Scm_NormalizeBignum_normal (A : Arch) (hA : A.Ok) (b : ScmBignum)
    (hs : b.sign = 1 ∨ b.sign = -1) (hw : WordsOk A b.values) (hne : b.values ≠ []) :
    (Scm_NormalizeBignum A b).IsNormal A := by
  have hl : 0 < b.values.length := List.length_pos.2 hne
  unfold Scm_NormalizeBignum
  rw [if_neg (by unfold ScmBignum.size; omega)]
  unfold ScmBignum.size
  obtain ⟨h1, h2, h3, h4⟩ := Scm_NormalizeBignum_loop_spec b.values (b.values.length - 1)
  have hlen : b.values.length - 1 + 1 = b.values.length := by omega
  rw [hlen] at h1 h2 h3 h4
  have hmax := hA.max_nonneg
  have hmin := hA.min_nonpos
  simp only
  set i := (Scm_NormalizeBignum_loop b.values (b.values.length - 1) b.values.length).1
  set sz := (Scm_NormalizeBignum_loop b.values (b.values.length - 1) b.values.length).2
  have hvalsz : wordsVal A (b.values.take sz) = wordsVal A b.values := by
    apply wordsVal_take_of_zero_above
    intro j hj
    by_cases hjl : j ≤ b.values.length - 1
    · exact h3 j (by omega) hjl
    · exact List.getD_eq_default _ _ (by omega)
  split
  · exact ⟨hmin, hmax⟩
  · split
    · rename_i h
      simp only [ScmObj.IsNormal]
      exact ⟨by omega, h.2.2⟩
    · split
      · rename_i h
        simp only [ScmObj.IsNormal]
        exact ⟨by omega, by omega⟩
      · rename_i n0 n1 n2
        simp only [ScmObj.IsNormal]
        have htop : (b.values.take sz).getD (sz - 1) 0 = b.values.getD i 0 := by
          rw [h1, Nat.add_sub_cancel]
          simp only [List.getD_eq_getElem?_getD]
          rw [List.getElem?_take_of_lt (by omega)]
        have hlentake : (b.values.take sz).length = sz := by
          rw [List.length_take]; omega
        refine ⟨hs, hw.take _, ?_, ?_⟩
        · simp only [ScmBignum.size, hlentake]
          rw [htop]
          rcases h4 with h0 | hnz
          · intro hz
            rw [h0] at hz
            rcases hs with hs | hs
            · apply n1
              refine ⟨h0, by omega, ?_⟩
              rw [hz]; simpa using hmax
            · apply n2
              refine ⟨h0, by omega, ?_⟩
              rw [hz]; simp; omega
          · exact hnz
        · simp only [ScmBignum.toInt, ScmBignum.mag, hvalsz]
          by_cases h0 : i = 0
          · have hv : wordsVal A b.values = b.values.getD 0 0 := by
              rw [← hvalsz, h1, h0, wordsVal_take_one]
            rw [hv]
            rcases hs with hs | hs
            · right
              have : ¬ ((b.values.getD 0 0 : Int) ≤ A.SCM_SMALL_INT_MAX) := fun hh =>
                n1 ⟨h0, by omega, hh⟩
              rw [hs]; omega
            · left
              have : ¬ ((b.values.getD 0 0 : Int) ≤ -A.SCM_SMALL_INT_MIN) := fun hh =>
                n2 ⟨h0, by omega, hh⟩
              rw [hs]; omega
          · have hnz : b.values.getD i 0 ≠ 0 := by
              rcases h4 with h | h
              · exact absurd h h0
              · exact h
            have hge := wordsVal_ge_getD A b.values i
            have hpow : A.base ^ 1 ≤ A.base ^ i :=
              Nat.pow_le_pow_right A.base_pos (by omega)
            have hB : A.base ≤ wordsVal A b.values := by
              have h1' : 1 ≤ b.values.getD i 0 := by omega
              calc A.base = 1 * A.base ^ 1 := by simp
                _ ≤ b.values.getD i 0 * A.base ^ i := Nat.mul_le_mul h1' hpow
                _ ≤ _ := hge
            have hhalf := hA.half_lt_base
            have hmaxlt := hA.max_lt
            have hminge := hA.min_ge
            have hBi : ((2 : Int) ^ (A.WORD_BITS - 1)) < (wordsVal A b.values : Int) := by
              have : 2 ^ (A.WORD_BITS - 1) < wordsVal A b.values := by omega
              exact_mod_cast this
            rcases hs with hs | hs
            · right; rw [hs]; omega
            · left; rw [hs]; omega

/-! ## Signed addition and subtraction -/

theorem safe_size_aux (A : Arch) (hA : A.Ok) (xs ys : List Nat) (wx : WordsOk A xs)
    (wy : WordsOk A ys) (h : ys.length < xs.length) :
    wordsVal A xs + wordsVal A ys <
      A.base ^ (if xs.getD (xs.length - 1) 0 = A.SCM_ULONG_MAX then xs.length + 1
        else xs.length) := by
  have hB := hA.two_le_base
  have hx := wordsVal_lt wx
  have hy := wordsVal_lt wy
  have hp : A.base ^ ys.length ≤ A.base ^ (xs.length - 1) :=
    Nat.pow_le_pow_right A.base_pos (by omega)
  have hxl : A.base ^ xs.length = A.base * A.base ^ (xs.length - 1) := by
    rw [← pow_succ']; congr 1; omega
  split
  · rw [pow_succ]
    have : A.base ^ ys.length ≤ A.base ^ xs.length :=
      Nat.pow_le_pow_right A.base_pos (by omega)
    nlinarith
  · rename_i hne
    have hne' : xs ≠ [] := by
      intro h0; rw [h0] at h; simp at h
    have ht := wordsVal_lt_top A xs wx hne'
    have hw := wx.getD (xs.length - 1)
    have : xs.getD (xs.length - 1) 0 + 2 ≤ A.base := by
      unfold Arch.SCM_ULONG_MAX at hne; omega
    rw [hxl]
    nlinarith

theorem bignum_safe_size_for_add_spec (A : Arch) (hA : A.Ok) (x y : ScmBignum)
    (wx : WordsOk A x.values) (wy : WordsOk A y.values) :
    x.size ≤ bignum_safe_size_for_add A x y ∧ y.size ≤ bignum_safe_size_for_add A x y ∧
    0 < bignum_safe_size_for_add A x y ∧
    x.mag A + y.mag A < A.base ^ bignum_safe_size_for_add A x y := by
  unfold bignum_safe_size_for_add ScmBignum.mag ScmBignum.size
  simp only
  have hB := hA.two_le_base
  split
  · rename_i h
    refine ⟨by split <;> omega, by split <;> omega, by split <;> omega, ?_⟩
    exact safe_size_aux A hA _ _ wx wy h
  · split
    · rename_i h
      refine ⟨by split <;> omega, by split <;> omega, by split <;> omega, ?_⟩
      rw [add_comm]
      exact safe_size_aux A hA _ _ wy wx h
    · rename_i h1 h2
      have he : y.values.length = x.values.length := by omega
      refine ⟨by omega, by omega, by omega, ?_⟩
      have hx := wordsVal_lt wx
      have hy := wordsVal_lt wy
      rw [he] at hy
      rw [pow_succ]
      nlinarith

theorem make_bignum_size (n : Nat) : (make_bignum n).values.length = n := by
  simp [make_bignum]

/-- `bignum_add` denotes the sum (denormalized). -/
theorem bignum_add_spec (A : Arch) (hA : A.Ok) (x y : ScmBignum)
    (sx : x.sign = 1 ∨ x.sign = -1) (sy : y.sign = 1 ∨ y.sign = -1)
    (wx : WordsOk A x.values) (wy : WordsOk A y.values) :
    (bignum_add A x y).toInt A = x.toInt A + y.toInt A ∧
    WordsOk A (bignum_add A x y).values ∧
    ((bignum_add A x y).sign = 1 ∨ (bignum_add A x y).sign = -1) ∧
    (bignum_add A x y).values ≠ [] := by
  obtain ⟨h1, h2, h3, h4⟩ := bignum_safe_size_for_add_spec A hA x y wx wy
  unfold bignum_add
  simp only
  set br : ScmBignum := ⟨x.sign, (make_bignum (bignum_safe_size_for_add A x y)).values⟩
  have hbr : br.size = bignum_safe_size_for_add A x y := make_bignum_size _
  split
  · rename_i hs
    obtain ⟨m, sz, ok, sg⟩ := bignum_add_int_mag A br x y (by rw [hbr]; exact h1)
      (by rw [hbr]; exact h2) (by rw [hbr]; exact h4)
    refine ⟨?_, ok, by rw [sg]; exact sx, ?_⟩
    · simp only [ScmBignum.toInt, m, sg, ← hs]
      push_cast; ring
    · apply List.ne_nil_of_length_pos
      unfold ScmBignum.size at sz hbr
      omega
  · rename_i hs
    obtain ⟨m, sz, ok, sg⟩ := bignum_sub_int_spec A br x y (by rw [hbr]; exact h1)
      (by rw [hbr]; exact h2) wx wy
    refine ⟨?_, ok, ?_, ?_⟩
    · rw [m]
      have : y.sign = -x.sign := by omega
      simp only [ScmBignum.toInt, this]
      show x.sign * _ = _
      ring
    · have : br.sign = x.sign := rfl
      rw [this] at sg
      omega
    · apply List.ne_nil_of_length_pos
      unfold ScmBignum.size at sz hbr
      omega

/-- `bignum_sub` denotes the difference (denormalized). -/
theorem bignum_sub_spec (A : Arch) (hA : A.Ok) (x y : ScmBignum)
    (sx : x.sign = 1 ∨ x.sign = -1) (sy : y.sign = 1 ∨ y.sign = -1)
    (wx : WordsOk A x.values) (wy : WordsOk A y.values) :
    (bignum_sub A x y).toInt A = x.toInt A - y.toInt A ∧
    WordsOk A (bignum_sub A x y).values ∧
    ((bignum_sub A x y).sign = 1 ∨ (bignum_sub A x y).sign = -1) ∧
    (bignum_sub A x y).values ≠ [] := by
  obtain ⟨h1, h2, h3, h4⟩ := bignum_safe_size_for_add_spec A hA x y wx wy
  unfold bignum_sub
  simp only
  set br : ScmBignum := ⟨x.sign, (make_bignum (bignum_safe_size_for_add A x y)).values⟩
  have hbr : br.size = bignum_safe_size_for_add A x y := make_bignum_size _
  split
  · rename_i hs
    obtain ⟨m, sz, ok, sg⟩ := bignum_sub_int_spec A br x y (by rw [hbr]; exact h1)
      (by rw [hbr]; exact h2) wx wy
    refine ⟨?_, ok, ?_, ?_⟩
    · rw [m]
      simp only [ScmBignum.toInt, ← hs]
      show x.sign * _ = _
      ring
    · have : br.sign = x.sign := rfl
      rw [this] at sg
      omega
    · apply List.ne_nil_of_length_pos
      unfold ScmBignum.size at sz hbr
      omega
  · rename_i hs
    obtain ⟨m, sz, ok, sg⟩ := bignum_add_int_mag A br x y (by rw [hbr]; exact h1)
      (by rw [hbr]; exact h2) (by rw [hbr]; exact h4)
    refine ⟨?_, ok, by rw [sg]; exact sx, ?_⟩
    · have : y.sign = -x.sign := by omega
      simp only [ScmBignum.toInt, m, sg, this]
      show x.sign * _ = _
      push_cast; ring
    · apply List.ne_nil_of_length_pos
      unfold ScmBignum.size at sz hbr
      omega

/-! ## Claims on addition and subtraction -/

theorem arch64_ok : arch64.Ok := by
  constructor <;> simp [arch64, Arch.HALF_BITS]

theorem arch32_ok : arch32.Ok := by
  constructor <;> simp [arch32, Arch.HALF_BITS]

/-- C3: `Scm_BignumAdd` of two normalized bignums denotes the exact sum of their values,
for all sign combinations and sizes, and the result is in normal form: a fixnum when the
sum fits the fixnum range, a normalized bignum otherwise. -/
theorem Scm_BignumAdd_exact (A : Arch) (hA : A.Ok) (x y : ScmBignum)
    (hx : Normalized A x) (hy : Normalized A y) :
    (Scm_BignumAdd A x y).toInt A = x.toInt A + y.toInt A ∧
    (Scm_BignumAdd A x y).IsNormal A := by
  obtain ⟨v, ok, sg, ne⟩ := bignum_add_spec A hA x y hx.sign hy.sign hx.words hy.words
  unfold Scm_BignumAdd
  refine ⟨?_, Scm_NormalizeBignum_normal A hA _ sg ok ne⟩
  rw [Scm_NormalizeBignum_toInt A _ (by omega), v]

/-- Witness for C3 on a 64-bit platform: `(5 + 2^62 * 2^64) + (-(5 + 2^62 * 2^64))`
is the fixnum `0`. -/
theorem Scm_BignumAdd_exact_witness :
    arch64.Ok ∧ Normalized arch64 ⟨1, [5, 2 ^ 62]⟩ ∧ Normalized arch64 ⟨-1, [5, 2 ^ 62]⟩ ∧
    (Scm_BignumAdd arch64 ⟨1, [5, 2 ^ 62]⟩ ⟨-1, [5, 2 ^ 62]⟩).toInt arch64 =
      (⟨1, [5, 2 ^ 62]⟩ : ScmBignum).toInt arch64 + (⟨-1, [5, 2 ^ 62]⟩ : ScmBignum).toInt arch64 ∧
    (Scm_BignumAdd arch64 ⟨1, [5, 2 ^ 62]⟩ ⟨-1, [5, 2 ^ 62]⟩).IsNormal arch64 :=
  have hx : Normalized arch64 ⟨1, [5, 2 ^ 62]⟩ :=
    ⟨by decide, by decide, by decide, by decide⟩
  have hy : Normalized arch64 ⟨-1, [5, 2 ^ 62]⟩ :=
    ⟨by decide, by decide, by decide, by decide⟩
  ⟨arch64_ok, hx, hy, Scm_BignumAdd_exact arch64 arch64_ok _ _ hx hy⟩

/-- C4: `Scm_BignumSub` of two normalized bignums denotes the exact difference of their
values; this includes equal signs with `|x| < |y|`, where the borrow left by the ripple
subtraction makes the code complement the words and flip the sign. -/
theorem Scm_BignumSub_exact (A : Arch) (hA : A.Ok) (x y : ScmBignum)
    (hx : Normalized A x) (hy : Normalized A y) :
    (Scm_BignumSub A x y).toInt A = x.toInt A - y.toInt A := by
  obtain ⟨v, ok, sg, ne⟩ := bignum_sub_spec A hA x y hx.sign hy.sign hx.words hy.words
  unfold Scm_BignumSub
  rw [Scm_NormalizeBignum_toInt A _ (by omega), v]

/-- Witness for C4 on a 64-bit platform, with equal signs and `|x| < |y|`. -/
theorem Scm_BignumSub_exact_witness :
    arch64.Ok ∧ Normalized arch64 ⟨1, [5, 2 ^ 62]⟩ ∧ Normalized arch64 ⟨1, [7, 1, 3]⟩ ∧
    (Scm_BignumSub arch64 ⟨1, [5, 2 ^ 62]⟩ ⟨1, [7, 1, 3]⟩).toInt arch64 =
      (⟨1, [5, 2 ^ 62]⟩ : ScmBignum).toInt arch64 - (⟨1, [7, 1, 3]⟩ : ScmBignum).toInt arch64 :=
  have hx : Normalized arch64 ⟨1, [5, 2 ^ 62]⟩ :=
    ⟨by decide, by decide, by decide, by decide⟩
  have hy : Normalized arch64 ⟨1, [7, 1, 3]⟩ :=
    ⟨by decide, by decide, by decide, by decide⟩
  ⟨arch64_ok, hx, hy, Scm_BignumSub_exact arch64 arch64_ok _ _ hx hy⟩

/-! ## Multiplication -/

theorem wordsVal_set (A : Arch) (r : List Nat) (j w : Nat) (h : j < r.length) :
    wordsVal A (r.set j w) + r.getD j 0 * A.base ^ j = wordsVal A r + w * A.base ^ j := by
  rw [List.set_eq_take_append_cons_drop, if_pos h]
  conv_rhs => rw [← List.take_append_drop j r]
  rw [wordsVal_append, wordsVal_append, wordsVal_cons, wordsVal_drop A r j,
    List.length_take, Nat.min_eq_left (le_of_lt h)]
  ring

theorem WordsOk.set {A : Arch} {r : List Nat} (hr : WordsOk A r) (j : Nat) {w : Nat}
    (hw : w < A.base) : WordsOk A (r.set j w) := by
  intro v hv
  rcases List.mem_or_eq_of_mem_set hv with h | h
  · exact hr v h
  · rw [h]; exact hw

theorem bignum_mul_word_carry_spec (A : Arch) (r : List Nat) (n j c : Nat)
    (hr : WordsOk A r) (hn : j + n = r.length)
    (hfit : wordsVal A r + c * A.base ^ j < A.base ^ r.length) :
    wordsVal A (bignum_mul_word_carry A r n j c) = wordsVal A r + c * A.base ^ j ∧
    WordsOk A (bignum_mul_word_carry A r n j c) ∧
    (bignum_mul_word_carry A r n j c).length = r.length := by
  induction n generalizing r j c with
  | zero =>
    simp only [bignum_mul_word_carry]
    refine ⟨?_, hr, trivial⟩
    have hj : j = r.length := by omega
    rw [hj] at hfit
    have hpos : 0 < A.base ^ r.length := pow_pos A.base_pos _
    rcases Nat.eq_zero_or_pos c with h0 | h0
    · simp [h0]
    · exfalso; nlinarith
  | succ n ih =>
    unfold bignum_mul_word_carry
    split
    · rename_i h0
      simp [h0, hr]
    · obtain ⟨s1, s2⟩ := UADD_spec A c (r.getD j 0) 0
      have hs := wordsVal_set A r j (UADD A c (r.getD j 0) 0).1 (by omega)
      have key : wordsVal A (r.set j (UADD A c (r.getD j 0) 0).1)
          + (UADD A c (r.getD j 0) 0).2 * A.base ^ (j + 1) = wordsVal A r + c * A.base ^ j := by
        rw [pow_succ]
        linear_combination hs + A.base ^ j * s1
      obtain ⟨e, ok, len⟩ := ih (r.set j (UADD A c (r.getD j 0) 0).1) (j + 1)
        (UADD A c (r.getD j 0) 0).2 (hr.set j s2) (by simp; omega)
        (by rw [key]; simpa using hfit)
      refine ⟨by rw [e, key], ok, by simpa using len⟩

theorem bignum_mul_word_loop_spec (A : Arch) (bx : List Nat) (y off : Nat)
    (hbx : WordsOk A bx) (r : List Nat) (n i : Nat) (hr : WordsOk A r)
    (hn : i + n = bx.length) (hsz : bx.length + off + 1 ≤ r.length)
    (hfit : wordsVal A r + wordsVal A (bx.drop i) * y * A.base ^ (i + off)
      < A.base ^ r.length) :
    wordsVal A (bignum_mul_word_loop A bx y off r n i) =
      wordsVal A r + wordsVal A (bx.drop i) * y * A.base ^ (i + off) ∧
    WordsOk A (bignum_mul_word_loop A bx y off r n i) ∧
    (bignum_mul_word_loop A bx y off r n i).length = r.length := by
  induction n generalizing r i with
  | zero =>
    simp only [bignum_mul_word_loop]
    rw [List.drop_of_length_le (by omega)]
    simp [wordsVal, hr]
  | succ n ih =>
    unfold bignum_mul_word_loop
    simp only
    set x := bx.getD i 0
    set lo := (UMUL A x y).2
    set hi := (UMUL A x y).1
    have hxy : lo + A.base * hi = x * y := Nat.mod_add_div _ _
    have hlo : lo < A.base := Nat.mod_lt _ A.base_pos
    have hx : x < A.base := hbx.getD i
    obtain ⟨a1, a2⟩ := UADD_spec A 0 (r.getD (i + off) 0) lo
    set rc1 := UADD A 0 (r.getD (i + off) 0) lo
    set r1 := r.set (i + off) rc1.1
    have hr1 : WordsOk A r1 := hr.set _ a2
    have l1 : r1.length = r.length := by simp [r1]
    obtain ⟨b1, b2⟩ := UADD_spec A rc1.2 (r1.getD (i + off + 1) 0) hi
    set rc2 := UADD A rc1.2 (r1.getD (i + off + 1) 0) hi
    set r2 := r1.set (i + off + 1) rc2.1
    have hr2 : WordsOk A r2 := hr1.set _ b2
    have l2 : r2.length = r.length := by simp [r2, l1]
    have v1 := wordsVal_set A r (i + off) rc1.1 (by omega)
    have v2 := wordsVal_set A r1 (i + off + 1) rc2.1 (by omega)
    have hd := wordsVal_drop A bx i
    have key : wordsVal A r2 + rc2.2 * A.base ^ (i + off + 2)
        = wordsVal A r + x * y * A.base ^ (i + off) := by
      simp only [pow_succ] at v2 ⊢
      linear_combination v2 + v1 + A.base ^ (i + off) * a1
        + A.base ^ (i + off) * A.base * b1 + A.base ^ (i + off) * hxy
    have hstep : wordsVal A r + x * y * A.base ^ (i + off)
        + wordsVal A (bx.drop (i + 1)) * y * A.base ^ (i + 1 + off)
        = wordsVal A r + wordsVal A (bx.drop i) * y * A.base ^ (i + off) := by
      rw [hd, show i + 1 + off = i + off + 1 by omega, pow_succ]
      ring
    have hfit2 : wordsVal A r2 + rc2.2 * A.base ^ (i + off + 2) < A.base ^ r2.length := by
      rw [key, l2]
      have := Nat.zero_le (wordsVal A (bx.drop (i + 1)) * y * A.base ^ (i + 1 + off))
      omega
    obtain ⟨c1, c2, c3⟩ := bignum_mul_word_carry_spec A r2 (r2.length - (i + off + 2))
      (i + off + 2) rc2.2 hr2 (by omega) hfit2
    obtain ⟨e, ok, len⟩ := ih _ (i + 1) c2 (by omega) (by rw [c3, l2]; exact hsz)
      (by rw [c1, key, c3, l2, hstep]; exact hfit)
    refine ⟨?_, ok, by rw [len, c3, l2]⟩
    rw [e, c1, key, hstep]

/-- `bignum_mul_word` adds `bx * y * 2^(W*off)` to the accumulator when the sum fits. -/
theorem bignum_mul_word_spec (A : Arch) (br bx : ScmBignum) (y off : Nat)
    (hbx : WordsOk A bx.values) (hbr : WordsOk A br.values)
    (hsz : bx.size + off + 1 ≤ br.size)
    (hfit : br.mag A + bx.mag A * y * A.base ^ off < A.base ^ br.size) :
    (bignum_mul_word A br bx y off).mag A = br.mag A + bx.mag A * y * A.base ^ off ∧
    WordsOk A (bignum_mul_word A br bx y off).values ∧
    (bignum_mul_word A br bx y off).size = br.size ∧
    (bignum_mul_word A br bx y off).sign = br.sign := by
  unfold bignum_mul_word ScmBignum.mag ScmBignum.size at *
  obtain ⟨e, ok, len⟩ := bignum_mul_word_loop_spec A bx.values y off hbx br.values
    bx.values.length 0 hbr (by omega) hsz (by simpa using hfit)
  exact ⟨by simpa using e, ok, len, rfl⟩


theorem wordsVal_take_succ (A : Arch) (xs : List Nat) (i : Nat) :
    wordsVal A (xs.take (i + 1)) = wordsVal A (xs.take i) + A.base ^ i * xs.getD i 0 := by
  by_cases h : i < xs.length
  · rw [List.take_succ, wordsVal_append, List.getD_eq_getElem?_getD,
      List.getElem?_eq_getElem h, List.length_take, Nat.min_eq_left (le_of_lt h)]
    simp [wordsVal]
  · rw [List.take_of_length_le (by omega), List.take_of_length_le (by omega),
      List.getD_eq_default _ _ (by omega)]
    simp

theorem bignum_mul_loop_spec (A : Arch) (bx by_ : ScmBignum) (hbx : WordsOk A bx.values)
    (hby : WordsOk A by_.values) (br : ScmBignum) (n i : Nat)
    (hbr : WordsOk A br.values) (hsz : br.size = bx.size + by_.size)
    (hn : i + n = by_.size) (hinv : br.mag A = bx.mag A * wordsVal A (by_.values.take i)) :
    (bignum_mul_loop A bx by_ br n i).mag A = bx.mag A * by_.mag A ∧
    WordsOk A (bignum_mul_loop A bx by_ br n i).values ∧
    (bignum_mul_loop A bx by_ br n i).size = bx.size + by_.size := by
  induction n generalizing br i with
  | zero =>
    simp only [bignum_mul_loop]
    refine ⟨?_, hbr, hsz⟩
    rw [hinv, List.take_of_length_le (by unfold ScmBignum.size at hn; omega)]
    rfl
  | succ n ih =>
    unfold bignum_mul_loop
    have ht := wordsVal_take_succ A by_.values i
    have hlt := wordsVal_lt (hby.take (i + 1))
    rw [List.length_take, Nat.min_eq_left (by unfold ScmBignum.size at hn; omega)] at hlt
    have hx := wordsVal_lt hbx
    have hpow : A.base ^ bx.values.length * A.base ^ (i + 1) ≤ A.base ^ br.size := by
      rw [← pow_add, hsz]
      exact Nat.pow_le_pow_right A.base_pos (by unfold ScmBignum.size at *; omega)
    have hnew : br.mag A + bx.mag A * by_.values.getD i 0 * A.base ^ i
        = bx.mag A * wordsVal A (by_.values.take (i + 1)) := by
      rw [hinv, ht]; ring
    have hfit : br.mag A + bx.mag A * by_.values.getD i 0 * A.base ^ i < A.base ^ br.size := by
      rw [hnew]
      calc bx.mag A * wordsVal A (by_.values.take (i + 1))
          ≤ bx.mag A * A.base ^ (i + 1) := Nat.mul_le_mul_left _ (le_of_lt hlt)
        _ < A.base ^ bx.values.length * A.base ^ (i + 1) :=
            Nat.mul_lt_mul_of_pos_right hx (pow_pos A.base_pos _)
        _ ≤ _ := hpow
    obtain ⟨m, ok, sz, sg⟩ := bignum_mul_word_spec A br bx (by_.values.getD i 0) i hbx hbr
      (by rw [hsz]; omega) hfit
    exact ih _ (i + 1) ok (by rw [sz, hsz]) (by omega) (by rw [m, hnew])

/-- `bignum_mul` fills `size(x)+size(y)` words with the exact product of the magnitudes
and sets the sign to the product of the signs. -/
theorem bignum_mul_spec (A : Arch) (x y : ScmBignum) (hx : WordsOk A x.values)
    (hy : WordsOk A y.values) :
    (bignum_mul A x y).mag A = x.mag A * y.mag A ∧
    WordsOk A (bignum_mul A x y).values ∧
    (bignum_mul A x y).size = x.size + y.size ∧
    (bignum_mul A x y).sign = x.sign * y.sign := by
  unfold bignum_mul
  simp only
  obtain ⟨m, ok, sz⟩ := bignum_mul_loop_spec A x y hx hy (make_bignum (x.size + y.size))
    y.size 0 (WordsOk.replicate_zero A _) (make_bignum_size _) (by omega)
    (by simp [ScmBignum.mag, make_bignum, wordsVal_replicate_zero, wordsVal])
  exact ⟨m, ok, sz, trivial⟩

/-- C5: for bignums `x`, `y` of sign `1` or `-1`, `bignum_mul` yields `size(x)+size(y)`
words whose value is `value(x) * value(y)`, with sign the product of the operand signs
(no carry leaves the accumulator), and `Scm_BignumMul` denotes the same product. -/
theorem bignum_mul_exact (A : Arch) (x y : ScmBignum)
    (sx : x.sign = 1 ∨ x.sign = -1) (sy : y.sign = 1 ∨ y.sign = -1)
    (hx : WordsOk A x.values) (hy : WordsOk A y.values) :
    (bignum_mul A x y).size = x.size + y.size ∧
    (bignum_mul A x y).mag A = x.mag A * y.mag A ∧
    (bignum_mul A x y).sign = x.sign * y.sign ∧
    (bignum_mul A x y).toInt A = x.toInt A * y.toInt A ∧
    (Scm_BignumMul A x y).toInt A = x.toInt A * y.toInt A := by
  obtain ⟨m, ok, sz, sg⟩ := bignum_mul_spec A x y hx hy
  have hv : (bignum_mul A x y).toInt A = x.toInt A * y.toInt A := by
    simp only [ScmBignum.toInt, m, sg]; push_cast; ring
  refine ⟨sz, m, sg, hv, ?_⟩
  unfold Scm_BignumMul
  rw [Scm_NormalizeBignum_toInt A _ (by rw [sg]; rcases sx with h | h <;>
    rcases sy with h' | h' <;> simp [h, h']), hv]

/-- Witness for C5 on a 64-bit platform: `2^31 * 2^31 = 2^62`, held in two words before
normalization and in one word after. -/
theorem bignum_mul_exact_witness :
    WordsOk arch64 [2 ^ 31] ∧
    bignum_mul arch64 ⟨1, [2 ^ 31]⟩ ⟨1, [2 ^ 31]⟩ = ⟨1, [2 ^ 62, 0]⟩ ∧
    Scm_BignumMul arch64 ⟨1, [2 ^ 31]⟩ ⟨1, [2 ^ 31]⟩ = .big ⟨1, [2 ^ 62]⟩ ∧
    (Scm_BignumMul arch64 ⟨1, [2 ^ 31]⟩ ⟨1, [2 ^ 31]⟩).toInt arch64 =
      (⟨1, [2 ^ 31]⟩ : ScmBignum).toInt arch64 * (⟨1, [2 ^ 31]⟩ : ScmBignum).toInt arch64 :=
  ⟨by decide, by decide, by decide,
    (bignum_mul_exact arch64 ⟨1, [2 ^ 31]⟩ ⟨1, [2 ^ 31]⟩ (by decide) (by decide)
      (by decide) (by decide)).2.2.2.2⟩

/-! ## Shifts -/

theorem Arch.base_split (A : Arch) (s : Nat) (hs : s ≤ A.WORD_BITS) :
    A.base = 2 ^ (A.WORD_BITS - s) * 2 ^ s := by
  unfold Arch.base
  rw [← pow_add]; congr 1; omega

theorem shl_word (A : Arch) (x s : Nat) (hs : s ≤ A.WORD_BITS) :
    (x <<< s) % A.base = (x % 2 ^ (A.WORD_BITS - s)) * 2 ^ s := by
  rw [Nat.shiftLeft_eq, A.base_split s hs, Nat.mul_mod_mul_right]

theorem shr_word_lt (A : Arch) (y t : Nat) (ht : t ≤ A.WORD_BITS) (hy : y < A.base) :
    y / 2 ^ t < 2 ^ (A.WORD_BITS - t) := by
  rw [Nat.div_lt_iff_lt_mul (by positivity)]
  rw [A.base_split t ht] at hy
  exact hy

/-- A word split at bit `t`. -/
theorem word_split (y t : Nat) : y = y / 2 ^ t * 2 ^ t + y % 2 ^ t := by
  rw [mul_comm]; exact (Nat.div_add_mod y (2 ^ t)).symm

/-- `(x << s) | (y >> (W - s))` on machine words is a sum of disjoint bit fields. -/
theorem shl_or_shr (A : Arch) (x y s : Nat) (hs : s ≤ A.WORD_BITS) (hy : y < A.base) :
    ((x <<< s) % A.base) ||| (y >>> (A.WORD_BITS - s)) =
      (x % 2 ^ (A.WORD_BITS - s)) * 2 ^ s + y / 2 ^ (A.WORD_BITS - s) := by
  rw [shl_word A x s hs, Nat.shiftRight_eq_div_pow]
  have h := shr_word_lt A y (A.WORD_BITS - s) (by omega) hy
  rw [show A.WORD_BITS - (A.WORD_BITS - s) = s by omega] at h
  rw [mul_comm, Nat.mul_add_lt_is_or h]

theorem shl_or_shr_lt (A : Arch) (x y s : Nat) (hs : s ≤ A.WORD_BITS) (hy : y < A.base) :
    ((x <<< s) % A.base) ||| (y >>> (A.WORD_BITS - s)) < A.base := by
  rw [shl_or_shr A x y s hs hy]
  have h := shr_word_lt A y (A.WORD_BITS - s) (by omega) hy
  rw [show A.WORD_BITS - (A.WORD_BITS - s) = s by omega] at h
  have h2 : x % 2 ^ (A.WORD_BITS - s) < 2 ^ (A.WORD_BITS - s) := Nat.mod_lt _ (by positivity)
  rw [A.base_split s hs]
  calc x % 2 ^ (A.WORD_BITS - s) * 2 ^ s + y / 2 ^ (A.WORD_BITS - s)
      < x % 2 ^ (A.WORD_BITS - s) * 2 ^ s + 2 ^ s := by omega
    _ = (x % 2 ^ (A.WORD_BITS - s) + 1) * 2 ^ s := by ring
    _ ≤ 2 ^ (A.WORD_BITS - s) * 2 ^ s := Nat.mul_le_mul_right _ h2

theorem wordsVal_drop_set (A : Arch) (r : List Nat) (j w : Nat) (h : j < r.length) :
    wordsVal A ((r.set j w).drop j) = w + A.base * wordsVal A (r.drop (j + 1)) := by
  rw [wordsVal_drop, List.drop_set_of_lt _ _ (by omega)]
  simp [List.getD_eq_getElem?_getD, List.getElem?_set_self h]

theorem bignum_lshift_clear_eq (r : List Nat) (n : Nat) (h : n ≤ r.length) :
    bignum_lshift_clear r n = List.replicate n 0 ++ r.drop n := by
  induction n generalizing r with
  | zero => simp [bignum_lshift_clear]
  | succ n ih =>
    rw [bignum_lshift_clear, ih _ (by simp; omega)]
    have hd : (r.drop n).set 0 0 = 0 :: r.drop (n + 1) := by
      rw [List.drop_eq_getElem_cons (by omega : n < r.length)]
      rfl
    rw [List.drop_set, if_neg (by omega), Nat.sub_self, hd]
    simp [List.replicate_succ', List.append_assoc]

theorem bignum_lshift_clear_spec (A : Arch) (r : List Nat) (n : Nat) (h : n ≤ r.length)
    (hr : WordsOk A r) :
    wordsVal A (bignum_lshift_clear r n) = A.base ^ n * wordsVal A (r.drop n) ∧
    (bignum_lshift_clear r n).length = r.length ∧
    WordsOk A (bignum_lshift_clear r n) := by
  rw [bignum_lshift_clear_eq r n h]
  refine ⟨?_, by simp; omega, (WordsOk.replicate_zero A n).append (hr.drop n)⟩
  rw [wordsVal_append, wordsVal_replicate_zero]
  simp

theorem bignum_lshift_copy_spec (A : Arch) (bx : List Nat) (nw : Nat) (hbx : WordsOk A bx)
    (r : List Nat) (i R : Nat) (hlen : i + nw ≤ r.length) (hr : WordsOk A r)
    (hinv : wordsVal A (r.drop (i + nw)) = wordsVal A (bx.drop i) + R) :
    wordsVal A ((bignum_lshift_copy bx nw r i).drop nw) = wordsVal A bx + A.base ^ i * R ∧
    (bignum_lshift_copy bx nw r i).length = r.length ∧
    WordsOk A (bignum_lshift_copy bx nw r i) := by
  induction i generalizing r R with
  | zero =>
    simp only [bignum_lshift_copy]
    simp at hinv
    exact ⟨by rw [hinv]; simp, trivial, hr⟩
  | succ i ih =>
    unfold bignum_lshift_copy
    rw [if_pos (by omega)]
    have hv := wordsVal_drop_set A r (i + nw) (bx.getD i 0) (by omega)
    obtain ⟨e, len, ok⟩ := ih (r.set (i + nw) (bx.getD i 0)) (A.base * R) (by simp; omega)
      (hr.set _ (hbx.getD i))
      (by rw [hv, show i + nw + 1 = i + 1 + nw by omega, hinv, wordsVal_drop A bx i]; ring)
    refine ⟨?_, by simpa using len, ok⟩
    rw [e, pow_succ]; ring

theorem bignum_lshift_bits_spec (A : Arch) (bx : List Nat) (nw s : Nat)
    (hs : s ≤ A.WORD_BITS) (hbx : WordsOk A bx)
    (r : List Nat) (i R : Nat) (hlen : i + nw < r.length) (hr : WordsOk A r)
    (hinv : wordsVal A (r.drop (i + 1 + nw)) =
      bx.getD i 0 / 2 ^ (A.WORD_BITS - s) + 2 ^ s * wordsVal A (bx.drop (i + 1)) + R) :
    wordsVal A ((bignum_lshift_bits A bx nw s r i).drop (1 + nw)) =
      bx.getD 0 0 / 2 ^ (A.WORD_BITS - s) + 2 ^ s * wordsVal A (bx.drop 1)
        + A.base ^ i * R ∧
    (bignum_lshift_bits A bx nw s r i).length = r.length ∧
    WordsOk A (bignum_lshift_bits A bx nw s r i) := by
  induction i generalizing r R with
  | zero =>
    simp only [bignum_lshift_bits]
    refine ⟨?_, trivial, hr⟩
    rw [show 1 + nw = 0 + 1 + nw by omega, hinv]; simp
  | succ i ih =>
    unfold bignum_lshift_bits
    simp only
    rw [if_pos (by omega)]
    have hx := shl_or_shr A (bx.getD (i + 1) 0) (bx.getD i 0) s hs (hbx.getD i)
    have hxl := shl_or_shr_lt A (bx.getD (i + 1) 0) (bx.getD i 0) s hs (hbx.getD i)
    have hv := wordsVal_drop_set A r (i + 1 + nw)
      (((bx.getD (i + 1) 0 <<< s) % A.base) ||| (bx.getD i 0 >>> (A.WORD_BITS - s)))
      (by omega)
    have hsplit := word_split (bx.getD (i + 1) 0) (A.WORD_BITS - s)
    have hB := A.base_split s hs
    obtain ⟨e, len, ok⟩ := ih (r.set (i + 1 + nw) (((bx.getD (i + 1) 0 <<< s) % A.base) |||
      (bx.getD i 0 >>> (A.WORD_BITS - s)))) (A.base * R) (by simp; omega) (hr.set _ hxl)
      (by
        rw [hv, hx, show i + 1 + nw + 1 = i + 1 + 1 + nw by omega, hinv,
          wordsVal_drop A bx (i + 1)]
        generalize bx.getD (i + 1) 0 / 2 ^ (A.WORD_BITS - s) = hi at *
        generalize bx.getD (i + 1) 0 % 2 ^ (A.WORD_BITS - s) = lo at *
        rw [hsplit, hB]; ring)
    refine ⟨?_, by simpa using len, ok⟩
    rw [e, pow_succ]; ring


theorem Arch.Ok.word_bits_pos {A : Arch} (h : A.Ok) : 0 < A.WORD_BITS := by
  have := h.pos
  have := h.even
  omega

theorem ceil_words (W amount : Nat) (hW : 0 < W) :
    (amount + W - 1) / W = amount / W + (if amount % W = 0 then 0 else 1) := by
  have h := Nat.div_add_mod amount W
  split
  · rename_i h0
    rw [h0, add_zero] at h
    have : amount + W - 1 = (W - 1) + W * (amount / W) := by omega
    rw [this, Nat.add_mul_div_left _ _ hW, Nat.div_eq_of_lt (by omega)]
    simp
  · rename_i h0
    have hm := Nat.mod_lt amount hW
    have : amount + W - 1 = (amount % W - 1) + W * (amount / W + 1) := by
      rw [Nat.mul_add, mul_one]
      omega
    rw [this, Nat.add_mul_div_left _ _ hW, Nat.div_eq_of_lt (by omega)]
    simp

theorem two_pow_amount (A : Arch) (amount : Nat) :
    2 ^ amount = A.base ^ (amount / A.WORD_BITS) * 2 ^ (amount % A.WORD_BITS) := by
  unfold Arch.base
  rw [← pow_mul, ← pow_add, Nat.div_add_mod]

/-- `bignum_lshift` into a buffer with room for every shifted-out bit multiplies the
magnitude by `2^amount`; words of `br` above the written ones are kept. -/
theorem bignum_lshift_spec (A : Arch) (hA : A.Ok) (br bx : ScmBignum) (amount : Nat)
    (hn : 0 < bx.size) (hbx : WordsOk A bx.values) (hbr : WordsOk A br.values)
    (hsz : bx.size + (amount + A.WORD_BITS - 1) / A.WORD_BITS ≤ br.size) :
    (bignum_lshift A br bx amount).mag A =
      bx.mag A * 2 ^ amount
        + A.base ^ (bx.size + (amount + A.WORD_BITS - 1) / A.WORD_BITS)
          * wordsVal A (br.values.drop (bx.size + (amount + A.WORD_BITS - 1) / A.WORD_BITS)) ∧
    (bignum_lshift A br bx amount).size = br.size ∧
    WordsOk A (bignum_lshift A br bx amount).values ∧
    (bignum_lshift A br bx amount).sign = bx.sign := by
  have hW := hA.word_bits_pos
  have hc := ceil_words A.WORD_BITS amount hW
  have h2 := two_pow_amount A amount
  unfold bignum_lshift ScmBignum.mag ScmBignum.size at *
  simp only
  set nw := amount / A.WORD_BITS
  set s := amount % A.WORD_BITS
  have hsW : s < A.WORD_BITS := Nat.mod_lt _ hW
  split
  · rename_i h0
    rw [if_pos h0, add_zero] at hc
    rw [hc] at hsz ⊢
    obtain ⟨e, len, ok⟩ := bignum_lshift_copy_spec A bx.values nw hbx br.values
      bx.values.length (wordsVal A (br.values.drop (bx.values.length + nw))) hsz hbr
      (by rw [List.drop_of_length_le (le_refl bx.values.length)]; simp [wordsVal])
    obtain ⟨e2, len2, ok2⟩ := bignum_lshift_clear_spec A _ nw (by rw [len]; omega) ok
    refine ⟨?_, by rw [len2, len], ok2, rfl⟩
    rw [e2, e, h2, h0, pow_zero, pow_add]; ring
  · rename_i h0
    rw [if_neg h0] at hc
    rw [hc] at hsz ⊢
    rw [if_pos (by omega)]
    set t := A.WORD_BITS - s
    set n := bx.values.length
    set top := bx.values.getD (n - 1) 0 >>> t
    have htop : top = bx.values.getD (n - 1) 0 / 2 ^ t := Nat.shiftRight_eq_div_pow _ _
    have htoplt : top < A.base := by
      rw [htop]
      exact lt_of_le_of_lt (Nat.div_le_self _ _) (hbx.getD _)
    set r0 := br.values.set (n + nw) top
    have hr0 : WordsOk A r0 := hbr.set _ htoplt
    have l0 : r0.length = br.values.length := by simp [r0]
    have v0 := wordsVal_drop_set A br.values (n + nw) top (by omega)
    obtain ⟨e1, len1, ok1⟩ := bignum_lshift_bits_spec A bx.values nw s (le_of_lt hsW) hbx r0
      (n - 1) (A.base * wordsVal A (br.values.drop (n + nw + 1))) (by rw [l0]; omega) hr0
      (by
        rw [show n - 1 + 1 + nw = n + nw by omega, v0,
          show n - 1 + 1 = n by omega, List.drop_of_length_le (le_refl n), ← htop]
        simp [wordsVal])
    set r1 := bignum_lshift_bits A bx.values nw s r0 (n - 1)
    have hlow : (bx.values.getD 0 0 <<< s) % A.base < A.base := Nat.mod_lt _ A.base_pos
    have v2 := wordsVal_drop_set A r1 nw ((bx.values.getD 0 0 <<< s) % A.base)
      (by rw [len1, l0]; omega)
    obtain ⟨e3, len3, ok3⟩ := bignum_lshift_clear_spec A
      (r1.set nw ((bx.values.getD 0 0 <<< s) % A.base)) nw (by simp; rw [len1, l0]; omega)
      (ok1.set _ hlow)
    refine ⟨?_, by rw [len3]; simp [len1, l0], ok3, rfl⟩
    rw [show 1 + nw = nw + 1 by omega] at e1
    rw [e3, v2, e1, shl_word A _ s (le_of_lt hsW), h2]
    have hX := wordsVal_drop A bx.values 0
    rw [List.drop_zero, zero_add] at hX
    have hsplit := word_split (bx.values.getD 0 0) t
    have hB := A.base_split s (le_of_lt hsW)
    have hpn : A.base ^ (n + (nw + 1)) = A.base ^ nw * (A.base * (A.base ^ (n - 1) * A.base)) := by
      rw [← pow_succ, ← pow_succ', ← pow_add]; congr 1; omega
    rw [hX, hpn, show n + (nw + 1) = n + nw + 1 by omega]
    generalize bx.values.getD 0 0 / 2 ^ t = hi at *
    generalize bx.values.getD 0 0 % 2 ^ t = lo at *
    rw [hsplit]
    have hB' : A.base = 2 ^ t * 2 ^ s := hB
    generalize wordsVal A (List.drop 1 bx.values) = X1
    generalize wordsVal A (List.drop (n + nw + 1) br.values) = R
    generalize A.base ^ nw = P
    generalize A.base ^ (n - 1) = Q
    rw [hB']; ring


theorem wordsVal_drop_eq_div (A : Arch) (xs : List Nat) (hx : WordsOk A xs) (k : Nat) :
    wordsVal A (xs.drop k) = wordsVal A xs / A.base ^ k := by
  have hpos : 0 < A.base ^ k := pow_pos A.base_pos _
  by_cases h : k ≤ xs.length
  · have e := wordsVal_eq_take_add_drop A xs k h
    have hlt := wordsVal_lt (hx.take k)
    rw [List.length_take, Nat.min_eq_left h] at hlt
    rw [e, Nat.add_mul_div_left _ _ hpos, Nat.div_eq_of_lt hlt, zero_add]
  · rw [List.drop_of_length_le (by omega)]
    have hlt := wordsVal_lt hx
    have : A.base ^ xs.length ≤ A.base ^ k := Nat.pow_le_pow_right A.base_pos (by omega)
    rw [Nat.div_eq_of_lt (by omega)]
    rfl

theorem bignum_rshift_copy_eq (bx : List Nat) (nw : Nat) (r : List Nat) (n i : Nat)
    (hi : nw ≤ i) :
    bignum_rshift_copy bx nw r n i =
      (fillLoop (fun j (_ : Unit) => (bx.getD (j + nw) 0, ())) r n (i - nw) ()).1 := by
  induction n generalizing r i with
  | zero => rfl
  | succ n ih =>
    rw [bignum_rshift_copy, fillLoop, ih _ _ (by omega)]
    simp only
    rw [show i - nw + nw = i by omega, show i + 1 - nw = i - nw + 1 by omega]

theorem rshift_copy_gen (bx : List Nat) (nw n j : Nat) (h : j + nw + n ≤ bx.length) :
    (genLoop (fun j (_ : Unit) => (bx.getD (j + nw) 0, ())) n j ()).1 =
      (bx.drop (j + nw)).take n := by
  induction n generalizing j with
  | zero => simp [genLoop]
  | succ n ih =>
    simp only [genLoop]
    rw [ih _ (by omega), drop_eq_getD_cons bx _ (by omega : j + nw < bx.length),
      List.take_succ_cons, show j + 1 + nw = j + nw + 1 by omega]

theorem rshift_bits_word (A : Arch) (x y s : Nat) (hs : s ≤ A.WORD_BITS) (hy : y < A.base) :
    ((x <<< (A.WORD_BITS - s)) % A.base) ||| (y >>> s) =
      (x % 2 ^ s) * 2 ^ (A.WORD_BITS - s) + y / 2 ^ s ∧
    ((x <<< (A.WORD_BITS - s)) % A.base) ||| (y >>> s) < A.base := by
  have h1 := shl_or_shr A x y (A.WORD_BITS - s) (by omega) hy
  have h2 := shl_or_shr_lt A x y (A.WORD_BITS - s) (by omega) hy
  rw [show A.WORD_BITS - (A.WORD_BITS - s) = s by omega] at h1 h2
  exact ⟨h1, h2⟩

theorem bignum_rshift_bits_eq (A : Arch) (bx : List Nat) (nw s : Nat) (r : List Nat)
    (n i : Nat) (hi : nw ≤ i) :
    bignum_rshift_bits A bx nw s r n i =
      (fillLoop (fun j (_ : Unit) =>
        (((bx.getD (j + nw + 1) 0 <<< (A.WORD_BITS - s)) % A.base) |||
          (bx.getD (j + nw) 0 >>> s), ())) r n (i - nw) ()).1 := by
  induction n generalizing r i with
  | zero => rfl
  | succ n ih =>
    rw [bignum_rshift_bits, fillLoop, ih _ _ (by omega)]
    simp only
    rw [show i - nw + nw = i by omega, show i + 1 - nw = i - nw + 1 by omega]

theorem rshift_bits_gen (A : Arch) (bx : List Nat) (hbx : WordsOk A bx) (nw s : Nat)
    (hs : s ≤ A.WORD_BITS) (n j : Nat) :
    bx.getD (j + nw) 0 % 2 ^ s + 2 ^ s *
      (wordsVal A (genLoop (fun j (_ : Unit) =>
        (((bx.getD (j + nw + 1) 0 <<< (A.WORD_BITS - s)) % A.base) |||
          (bx.getD (j + nw) 0 >>> s), ())) n j ()).1
        + A.base ^ n * (bx.getD (j + nw + n) 0 / 2 ^ s))
      = wordsVal A ((bx.drop (j + nw)).take (n + 1)) ∧
    WordsOk A (genLoop (fun j (_ : Unit) =>
        (((bx.getD (j + nw + 1) 0 <<< (A.WORD_BITS - s)) % A.base) |||
          (bx.getD (j + nw) 0 >>> s), ())) n j ()).1 := by
  induction n generalizing j with
  | zero =>
    simp only [genLoop, wordsVal_nil, pow_zero, one_mul, zero_add, add_zero]
    refine ⟨?_, WordsOk.nil A⟩
    rw [wordsVal_take_drop_succ]
    simp only [List.take_zero, wordsVal_nil, mul_zero, add_zero]
    rw [add_comm]; exact Nat.div_add_mod _ _
  | succ n ih =>
    simp only [genLoop, wordsVal_cons]
    obtain ⟨e, ok⟩ := ih (j + 1)
    obtain ⟨w1, w2⟩ := rshift_bits_word A (bx.getD (j + nw + 1) 0) (bx.getD (j + nw) 0) s hs
      (hbx.getD _)
    refine ⟨?_, WordsOk.cons w2 ok⟩
    rw [show j + nw + 1 = j + 1 + nw by omega] at w1
    rw [wordsVal_take_drop_succ, show j + nw + 1 = j + 1 + nw by omega, ← e, w1,
      show j + nw + (n + 1) = j + 1 + nw + n by omega]
    have hsplit := Nat.div_add_mod (bx.getD (j + nw) 0) (2 ^ s)
    have hB := A.base_split (A.WORD_BITS - s) (by omega)
    rw [show A.WORD_BITS - (A.WORD_BITS - s) = s by omega] at hB
    generalize bx.getD (j + nw) 0 / 2 ^ s = hi at *
    generalize bx.getD (j + nw) 0 % 2 ^ s = lo at *
    generalize bx.getD (j + 1 + nw) 0 % 2 ^ s = lo1 at *
    rw [← hsplit, pow_succ]
    generalize wordsVal A (genLoop (fun j (_ : Unit) =>
        (((bx.getD (j + nw + 1) 0 <<< (A.WORD_BITS - s)) % A.base) |||
          (bx.getD (j + nw) 0 >>> s), ())) n (j + 1) ()).1 = V
    generalize bx.getD (j + 1 + nw + n) 0 / 2 ^ s = top
    generalize A.base ^ n = P
    rw [hB]; ring


theorem take_set_append (g rest : List Nat) (w : Nat) (h : rest ≠ []) :
    ((g ++ rest).set g.length w).take (g.length + 1) = g ++ [w] := by
  cases rest with
  | nil => exact absurd rfl h
  | cons a t =>
    rw [List.set_append_right _ _ (le_refl _), Nat.sub_self, List.set_cons_zero,
      List.take_append_eq_append_take]
    simp

/-- `bignum_rshift` divides the magnitude by `2^amount`, rounding down, and keeps
`size(bx) - amount / WORD_BITS` words. -/
theorem bignum_rshift_spec (A : Arch) (hA : A.Ok) (br bx : ScmBignum) (amount : Nat)
    (hbx : WordsOk A bx.values) (hsz : amount / A.WORD_BITS < bx.size)
    (hbr : bx.size - amount / A.WORD_BITS ≤ br.size) :
    (bignum_rshift A br bx amount).mag A = bx.mag A / 2 ^ amount ∧
    (bignum_rshift A br bx amount).size = bx.size - amount / A.WORD_BITS ∧
    WordsOk A (bignum_rshift A br bx amount).values ∧
    (bignum_rshift A br bx amount).sign = bx.sign := by
  have hW := hA.word_bits_pos
  have h2 := two_pow_amount A amount
  unfold bignum_rshift ScmBignum.mag ScmBignum.size at *
  simp only
  set nw := amount / A.WORD_BITS
  set s := amount % A.WORD_BITS
  have hsW : s < A.WORD_BITS := Nat.mod_lt _ hW
  clear_value nw s
  rw [if_neg (by omega)]
  split
  · rename_i h0
    rw [bignum_rshift_copy_eq _ _ _ _ _ (le_refl nw), Nat.sub_self,
      fillLoop_eq _ _ _ _ _ (by omega)]
    simp only [List.take_zero, List.nil_append, zero_add]
    have hl := genLoop_length (fun j (_ : Unit) => (bx.values.getD (j + nw) 0, ()))
      (bx.values.length - nw) 0 ()
    rw [List.take_append_eq_append_take, hl, Nat.sub_self, List.take_zero, List.append_nil,
      List.take_of_length_le (by omega)]
    rw [rshift_copy_gen _ _ _ _ (by omega), zero_add, List.take_of_length_le (by simp)]
    refine ⟨?_, by simp, hbx.drop _, trivial⟩
    rw [wordsVal_drop_eq_div A _ hbx, h2, h0]; simp
  · rename_i h0
    rw [bignum_rshift_bits_eq _ _ _ _ _ _ _ (le_refl nw), Nat.sub_self,
      fillLoop_eq _ _ _ _ _ (by omega)]
    simp only [List.take_zero, List.nil_append, zero_add]
    have hidx : 0 + nw + (bx.values.length - 1 - nw) = bx.values.length - 1 := by omega
    have hcnt : bx.values.length - 1 - nw + 1 = bx.values.length - nw := by omega
    set cnt := bx.values.length - 1 - nw
    set g := (genLoop (fun j (_ : Unit) =>
        (((bx.values.getD (j + nw + 1) 0 <<< (A.WORD_BITS - s)) % A.base) |||
          (bx.values.getD (j + nw) 0 >>> s), ())) cnt 0 ()).1
    have hl : g.length = cnt := genLoop_length _ _ _ _
    have hne : br.values.drop cnt ≠ [] := by
      intro h
      have := congrArg List.length h
      simp at this
      omega
    have key : List.take (bx.values.length - nw) ((g ++ br.values.drop cnt).set cnt
        (bx.values.getD (bx.values.length - 1) 0 >>> s))
        = g ++ [bx.values.getD (bx.values.length - 1) 0 >>> s] := by
      have := take_set_append g (br.values.drop cnt)
        (bx.values.getD (bx.values.length - 1) 0 >>> s) hne
      rw [hl] at this
      rw [← hcnt]
      exact this
    rw [key]
    obtain ⟨e, ok⟩ := rshift_bits_gen A bx.values hbx nw s (le_of_lt hsW) cnt 0
    have htop : bx.values.getD (bx.values.length - 1) 0 >>> s
        = bx.values.getD (0 + nw + cnt) 0 / 2 ^ s := by
      rw [Nat.shiftRight_eq_div_pow, hidx]
    have htoplt : bx.values.getD (bx.values.length - 1) 0 >>> s < A.base := by
      rw [Nat.shiftRight_eq_div_pow]
      exact lt_of_le_of_lt (Nat.div_le_self _ _) (hbx.getD _)
    refine ⟨?_, by simp [hl, hcnt], ok.append (WordsOk.cons htoplt (WordsOk.nil A)), trivial⟩
    rw [wordsVal_append, wordsVal_cons, wordsVal_nil, mul_zero, add_zero, hl, htop]
    rw [List.take_of_length_le (by simp [hcnt]), zero_add] at e
    have hd := wordsVal_drop_eq_div A _ hbx nw
    rw [h2, ← Nat.div_div_eq_div_mul, ← hd, ← e]
    rw [zero_add]
    have hm : bx.values.getD nw 0 % 2 ^ s < 2 ^ s := Nat.mod_lt _ (by positivity)
    rw [Nat.add_mul_div_left _ _ (by positivity), Nat.div_eq_of_lt hm, zero_add]

/-! ## The reference arithmetic -/


theorem natWords_val (A : Arch) (hB : 2 ≤ A.base) (fuel n : Nat) (h : n ≤ fuel) :
    wordsVal A (natWords A fuel n) = n := by
  induction fuel generalizing n with
  | zero => simp [natWords, wordsVal]; omega
  | succ fuel ih =>
    unfold natWords
    split
    · rename_i h0; simp [wordsVal, h0]
    · rename_i h0
      have hlt : n / A.base < n := Nat.div_lt_self (by omega) (by omega)
      rw [wordsVal_cons, ih _ (by omega)]
      exact Nat.mod_add_div _ _

theorem ScmObj.ofInt_toInt (A : Arch) (hA : A.Ok) (n : Int) :
    (ScmObj.ofInt A n).toInt A = n := by
  unfold ScmObj.ofInt
  split
  · rfl
  · simp only [ScmObj.toInt, ScmBignum.toInt, ScmBignum.mag]
    rw [natWords_val A hA.two_le_base _ _ le_rfl]
    split
    · rename_i h; rw [Int.ofNat_natAbs_of_nonpos (le_of_lt h)]; ring
    · rename_i h; rw [Int.natAbs_of_nonneg (by omega)]; ring

theorem exactArith_exact (A : Arch) (hA : A.Ok) : (exactArith A).Exact A := by
  constructor
  · intro a b; exact ScmObj.ofInt_toInt A hA _
  · intro a b _; exact ScmObj.ofInt_toInt A hA _
  · intro a k hk
    show (ScmObj.ofInt A _).toInt A = _
    rw [ScmObj.ofInt_toInt A hA, if_pos hk]
  · intro a b; exact ScmObj.ofInt_toInt A hA _
  · intro a; exact ScmObj.ofInt_toInt A hA _

/-! ## Claims on multiplication and shifts -/

theorem int_floor_of_neg (x d : Int) (hx : x < 0) (hd : 0 < d) :
    Int.tdiv (x + 1) d - 1 = x / d := by
  obtain ⟨m, hm⟩ : ∃ m : Nat, x = -(m : Int) - 1 := ⟨(-x - 1).toNat, by omega⟩
  obtain ⟨e, he⟩ : ∃ e : Nat, d = (e : Int) := ⟨d.toNat, by omega⟩
  have hx1 : x + 1 = -(m : Int) := by omega
  rw [hx1, Int.neg_tdiv, he, ← Int.ofNat_tdiv]
  symm
  have hmd := Nat.div_add_mod m e
  have hml : m % e < e := Nat.mod_lt _ (by omega)
  have key : x / (e : Int) = -((m / e : Nat) : Int) - 1 ∧
      x % (e : Int) = (e : Int) - (m % e : Nat) - 1 := by
    rw [Int.ediv_emod_unique (by omega)]
    refine ⟨?_, by omega, by omega⟩
    have : (m : Int) = (e : Int) * ((m / e : Nat) : Int) + ((m % e : Nat) : Int) := by
      exact_mod_cast hmd.symm
    rw [hm]
    linear_combination this
  exact key.1

theorem toInt_ediv_of_pos (A : Arch) (x r : ScmBignum) (k : Nat) (hs : x.sign = 1)
    (hr : r.sign = 1) (hm : r.mag A = x.mag A / 2 ^ k) :
    r.toInt A = x.toInt A / 2 ^ k := by
  simp only [ScmBignum.toInt, hs, hr, hm, one_mul]
  push_cast
  rfl

theorem Normalized.mag_pos {A : Arch} {x : ScmBignum} (h : Normalized A x) : 0 < x.mag A := by
  have h1 := wordsVal_ge_getD A x.values (x.size - 1)
  have h2 := h.top
  have h3 : 0 < A.base ^ (x.size - 1) := pow_pos A.base_pos _
  have : 0 < x.values.getD (x.size - 1) 0 * A.base ^ (x.size - 1) :=
    Nat.mul_pos (by omega) h3
  unfold ScmBignum.mag
  omega

theorem mag_lt_two_pow (A : Arch) (x : ScmBignum) (hx : WordsOk A x.values) (k : Nat)
    (h : x.size ≤ k / A.WORD_BITS) : x.mag A < 2 ^ k := by
  have h1 := wordsVal_lt hx
  have h2 : A.base ^ x.values.length ≤ A.base ^ (k / A.WORD_BITS) :=
    Nat.pow_le_pow_right A.base_pos h
  have h3 : A.base ^ (k / A.WORD_BITS) ≤ 2 ^ k := by
    unfold Arch.base
    rw [← pow_mul]
    exact Nat.pow_le_pow_right (by norm_num) (Nat.mul_div_le _ _)
  unfold ScmBignum.mag
  omega

theorem wrapInt_of_range (v : Int) (h1 : INT_MIN ≤ v) (h2 : v ≤ INT_MAX) : wrapInt v = v := by
  unfold wrapInt
  unfold INT_MIN at h1
  unfold INT_MAX at h2 ⊢
  split <;> omega

/-- For a positive count `k` with `k + WORD_BITS - 1` in the range of `int`,
`Scm_BignumAsh` shifts into a zeroed buffer of `size(x) + ceil(k / WORD_BITS)` words. -/
theorem Scm_BignumAsh_pos_eq (A : Arch) (G : GenericArith) (x : ScmBignum) (k : Nat)
    (hk : 0 < k) (hint : (k : Int) + A.WORD_BITS - 1 ≤ INT_MAX) :
    Scm_BignumAsh A G x (k : Int) = some (Scm_NormalizeBignum A
      (bignum_lshift A (make_bignum (x.size + (k + A.WORD_BITS - 1) / A.WORD_BITS)) x k)) := by
  have hcast : (k : Int) + A.WORD_BITS - 1 = ((k + A.WORD_BITS - 1 : Nat) : Int) := by omega
  have hmin : INT_MIN ≤ (k : Int) + A.WORD_BITS - 1 := by unfold INT_MIN; omega
  have hrs : (x.size : Int)
      + Int.tdiv (wrapInt ((k : Int) + A.WORD_BITS - 1)) (A.WORD_BITS : Int)
      = ((x.size + (k + A.WORD_BITS - 1) / A.WORD_BITS : Nat) : Int) := by
    rw [wrapInt_of_range _ hmin hint, hcast, ← Int.ofNat_tdiv]
    exact (Nat.cast_add _ _).symm
  unfold Scm_BignumAsh
  rw [if_neg (by omega), if_pos (by omega)]
  simp only
  rw [hrs]
  unfold make_bignum_checked
  rw [if_neg (not_lt.2 (Int.ofNat_nonneg _))]
  simp only [Int.toNat_ofNat]

/-- For a negative count `-k`, `Scm_BignumAsh` always returns: a fixnum when every word
is shifted out, the generic computation for a negative `x`, and the shift into a buffer
of `size(x) - k / WORD_BITS` words otherwise. -/
theorem Scm_BignumAsh_neg_eq (A : Arch) (G : GenericArith) (x : ScmBignum) (k : Nat)
    (hk : 0 < k) :
    Scm_BignumAsh A G x (-(k : Int)) = some
      (if x.size ≤ k / A.WORD_BITS then (if x.sign < 0 then .int (-1) else .int 0)
       else if x.sign < 0 then
         G.Scm_Add (G.Scm_Quotient (G.Scm_Add (.big x) (.int 1)) (G.Scm_Ash (.int 1) (k : Int)))
           (.int (-1))
       else Scm_NormalizeBignum A
         (bignum_rshift A (make_bignum (x.size - k / A.WORD_BITS)) x k)) := by
  have htd : Int.tdiv (-(k : Int)) (A.WORD_BITS : Int) = -((k / A.WORD_BITS : Nat) : Int) := by
    rw [Int.neg_tdiv, ← Int.ofNat_tdiv]
  unfold Scm_BignumAsh
  rw [if_neg (by omega), if_neg (by omega)]
  simp only [htd, neg_neg, Int.toNat_ofNat]
  by_cases hsz : x.size ≤ k / A.WORD_BITS
  · rw [if_pos (by omega), if_pos hsz]
    split <;> rfl
  · have hrs : ((x.size : Int) + -((k / A.WORD_BITS : Nat) : Int)).toNat
        = x.size - k / A.WORD_BITS := by omega
    rw [if_neg (by omega), if_neg hsz, hrs]
    split <;> rfl

/-- C9 fails for a count close to `INT_MAX`: on a 64-bit platform, for the one-word
bignum `1` and `cnt = 2147483647 = INT_MAX`, the sum `cnt+WORD_BITS-1` exceeds `INT_MAX`
and wraps around to `-2147483586`, `rsize` is `1 - 33554431`, and `make_bignum` raises
its error on the negative size: `Scm_BignumAsh` returns no result at all. -/
theorem Scm_BignumAsh_left_int_overflow :
    ((⟨1, [1]⟩ : ScmBignum).sign = 1 ∨ (⟨1, [1]⟩ : ScmBignum).sign = -1) ∧
    1 ≤ (⟨1, [1]⟩ : ScmBignum).size ∧ WordsOk arch64 (⟨1, [1]⟩ : ScmBignum).values ∧
    (0 : Int) < 2147483647 ∧ (2147483647 : Int) ≤ INT_MAX ∧
    wrapInt (2147483647 + (arch64.WORD_BITS : Int) - 1) = -2147483586 ∧
    Scm_BignumAsh arch64 (exactArith arch64) ⟨1, [1]⟩ 2147483647 = none ∧
    ¬ ∃ r, Scm_BignumAsh arch64 (exactArith arch64) ⟨1, [1]⟩ 2147483647 = some r := by
  have e : Scm_BignumAsh arch64 (exactArith arch64) ⟨1, [1]⟩ 2147483647 = none := by decide
  refine ⟨by decide, by decide, by decide, by decide, by decide, by decide, e, ?_⟩
  rintro ⟨r, h⟩
  rw [e] at h
  cases h

/-- C9, amended: for a bignum `x` of sign `1` or `-1` with at least one word and every
`k > 0` with `k + WORD_BITS - 1 ≤ INT_MAX`, `Scm_BignumAsh(x, k)` returns and denotes
`value(x) * 2^k`, whether or not `k` is a multiple of `WORD_BITS`; the buffer of
`size(x) + ceil(k / WORD_BITS)` words receives the whole shifted magnitude. -/
theorem Scm_BignumAsh_left_exact (A : Arch) (hA : A.Ok) (G : GenericArith) (x : ScmBignum)
    (k : Nat) (hk : 0 < k) (sx : x.sign = 1 ∨ x.sign = -1) (hn : 0 < x.size)
    (hx : WordsOk A x.values) (hint : (k : Int) + A.WORD_BITS - 1 ≤ INT_MAX) :
    (bignum_lshift A (make_bignum (x.size + (k + A.WORD_BITS - 1) / A.WORD_BITS)) x k).mag A
      = x.mag A * 2 ^ k ∧
    ∃ r, Scm_BignumAsh A G x (k : Int) = some r ∧ r.toInt A = x.toInt A * 2 ^ k := by
  obtain ⟨m, sz, ok, sg⟩ := bignum_lshift_spec A hA
    (make_bignum (x.size + (k + A.WORD_BITS - 1) / A.WORD_BITS)) x k hn hx
    (WordsOk.replicate_zero A _) (by simp [ScmBignum.size, make_bignum])
  have hm : (bignum_lshift A (make_bignum (x.size + (k + A.WORD_BITS - 1) / A.WORD_BITS))
      x k).mag A = x.mag A * 2 ^ k := by
    rw [m, List.drop_of_length_le (by rw [make_bignum_size])]
    simp [wordsVal]
  refine ⟨hm, _, Scm_BignumAsh_pos_eq A G x k hk hint, ?_⟩
  rw [Scm_NormalizeBignum_toInt A _ (by rw [sg]; omega)]
  simp only [ScmBignum.toInt, hm, sg]
  push_cast; ring

/-- Witness for C9 (amended) on a 64-bit platform: `1` shifted left by 130 is `2^130`,
three words with a single set bit. -/
theorem Scm_BignumAsh_left_exact_witness :
    arch64.Ok ∧ WordsOk arch64 [1] ∧
    Scm_BignumAsh arch64 (exactArith arch64) ⟨1, [1]⟩ 130 = some (.big ⟨1, [0, 0, 4]⟩) ∧
    ∃ r, Scm_BignumAsh arch64 (exactArith arch64) ⟨1, [1]⟩ ((130 : Nat) : Int) = some r ∧
      r.toInt arch64 = (⟨1, [1]⟩ : ScmBignum).toInt arch64 * 2 ^ 130 :=
  ⟨arch64_ok, by decide, by decide,
    (Scm_BignumAsh_left_exact arch64 arch64_ok (exactArith arch64) ⟨1, [1]⟩ 130 (by decide)
      (by decide) (by decide) (by decide) (by decide)).2⟩


/-- C10: for a normalized bignum `x` and `k > 0`, `Scm_BignumAsh(x, -k)` returns and
denotes `floor(value(x) / 2^k)` (integer division rounds toward negative infinity for a
positive divisor); when every stored word is shifted out the result is the fixnum `-1`
for negative `x` and `0` for positive `x`; and for negative `x` the truncating quotient
of `x + 1` by `2^k`, less one, is that floor. -/
theorem Scm_BignumAsh_right_floor (A : Arch) (hA : A.Ok) (G : GenericArith)
    (hG : G.Exact A) (x : ScmBignum) (hx : Normalized A x) (k : Nat) (hk : 0 < k) :
    (∃ r, Scm_BignumAsh A G x (-(k : Int)) = some r ∧ r.toInt A = x.toInt A / 2 ^ k ∧
      (x.size ≤ k / A.WORD_BITS → r = if x.sign < 0 then .int (-1) else .int 0)) ∧
    (x.toInt A < 0 → Int.tdiv (x.toInt A + 1) (2 ^ k) - 1 = x.toInt A / 2 ^ k) := by
  have hW := hA.word_bits_pos
  have hpow : (0 : Int) < 2 ^ k := by positivity
  have hmp := hx.mag_pos
  have hfloor : x.toInt A < 0 → Int.tdiv (x.toInt A + 1) (2 ^ k) - 1 = x.toInt A / 2 ^ k :=
    fun h => int_floor_of_neg _ _ h hpow
  refine ⟨⟨_, Scm_BignumAsh_neg_eq A G x k hk, ?_, fun h => by rw [if_pos h]⟩, hfloor⟩
  by_cases hsz : x.size ≤ k / A.WORD_BITS
  · rw [if_pos hsz]
    have hlt := mag_lt_two_pow A x hx.words k hsz
    have hlt' : (x.mag A : Int) < 2 ^ k := by exact_mod_cast hlt
    rcases hx.sign with hs | hs
    · rw [if_neg (by omega)]
      simp only [ScmObj.toInt, ScmBignum.toInt, hs, one_mul]
      rw [Int.ediv_eq_zero_of_lt (by omega) hlt']
    · rw [if_pos (by omega)]
      simp only [ScmObj.toInt, ScmBignum.toInt, hs]
      have key : (-1 * (x.mag A : Int)) / 2 ^ k = -1 ∧
          (-1 * (x.mag A : Int)) % 2 ^ k = 2 ^ k - (x.mag A : Int) := by
        rw [Int.ediv_emod_unique hpow]
        refine ⟨by ring, by omega, by omega⟩
      rw [key.1]
  · rw [if_neg hsz]
    rcases hx.sign with hs | hs
    · rw [if_neg (by omega)]
      obtain ⟨m, sz, ok, sg⟩ := bignum_rshift_spec A hA
        (make_bignum (x.size - k / A.WORD_BITS)) x k hx.words (by omega)
        (by simp [ScmBignum.size, make_bignum])
      rw [Scm_NormalizeBignum_toInt A _ (by rw [sg]; omega)]
      exact toInt_ediv_of_pos A x _ k hs (by rw [sg, hs]) m
    · rw [if_pos (by omega)]
      have hneg : x.toInt A < 0 := by
        simp only [ScmBignum.toInt, hs]
        have : (0 : Int) < x.mag A := by exact_mod_cast hmp
        omega
      have h1 : (ScmObj.int 1).toInt A = 1 := rfl
      have hm1 : (ScmObj.int (-1)).toInt A = -1 := rfl
      have hbig : (ScmObj.big x).toInt A = x.toInt A := rfl
      have hash : (G.Scm_Ash (.int 1) (k : Int)).toInt A = 2 ^ k := by
        rw [hG.ash _ _ (by omega), h1, Int.toNat_ofNat, one_mul]
      rw [hG.add, hG.quotient _ _ (by rw [hash]; omega), hG.add, hash, hm1, h1, hbig,
        ← hfloor hneg]
      ring

/-- Witness for C10 on a 64-bit platform: a negative three-word bignum shifted right by
70 bits, with the reference arithmetic. -/
theorem Scm_BignumAsh_right_floor_witness :
    arch64.Ok ∧ (exactArith arch64).Exact arch64 ∧ Normalized arch64 ⟨-1, [1, 5, 7]⟩ ∧
    ∃ r, Scm_BignumAsh arch64 (exactArith arch64) ⟨-1, [1, 5, 7]⟩ (-((70 : Nat) : Int))
        = some r ∧
      r.toInt arch64 = (⟨-1, [1, 5, 7]⟩ : ScmBignum).toInt arch64 / 2 ^ 70 ∧
      ((⟨-1, [1, 5, 7]⟩ : ScmBignum).size ≤ 70 / arch64.WORD_BITS →
        r = if (⟨-1, [1, 5, 7]⟩ : ScmBignum).sign < 0 then .int (-1) else .int 0) :=
  have hx : Normalized arch64 ⟨-1, [1, 5, 7]⟩ := ⟨by decide, by decide, by decide, by decide⟩
  ⟨arch64_ok, exactArith_exact arch64 arch64_ok, hx,
    (Scm_BignumAsh_right_floor arch64 arch64_ok (exactArith arch64)
      (exactArith_exact arch64 arch64_ok) _ hx 70 (by decide)).1⟩

/-! ## Bitwise or -/

theorem testBit_block (a X N i : Nat) (ha : a < 2 ^ N) :
    (a + 2 ^ N * X).testBit i = if i < N then a.testBit i else X.testBit (i - N) := by
  rw [add_comm]; exact Nat.testBit_mul_pow_two_add X ha i

/-- Bitwise or distributes over a split at bit `N`. -/
theorem lor_block (a b X Y N : Nat) (ha : a < 2 ^ N) (hb : b < 2 ^ N) :
    (a + 2 ^ N * X) ||| (b + 2 ^ N * Y) = (a ||| b) + 2 ^ N * (X ||| Y) := by
  apply Nat.eq_of_testBit_eq
  intro i
  rw [Nat.testBit_or, testBit_block _ _ _ _ ha, testBit_block _ _ _ _ hb,
    testBit_block _ _ _ _ (Nat.or_lt_two_pow ha hb)]
  split <;> simp

theorem lor_pos_right (a b : Nat) (hb : 0 < b) : 0 < a ||| b := by
  rcases Nat.eq_zero_or_pos (a ||| b) with h | h
  · exfalso
    have : b = 0 := by
      apply Nat.eq_of_testBit_eq
      intro i
      have hi := congrArg (fun n => Nat.testBit n i) h
      simp only [Nat.testBit_or, Nat.zero_testBit, Bool.or_eq_false_iff] at hi
      rw [hi.2, Nat.zero_testBit]
    omega
  · exact h

/-- Or of a nonnegative pattern with the complement of a negative operand, decoded. -/
theorem lor_pos_neg (X Y N : Nat) (hY0 : 0 < Y) (hY : Y < 2 ^ N) :
    2 ^ N - ((X % 2 ^ N) ||| (2 ^ N - Y)) = Nat.ldiff (Y - 1) X + 1 ∧
    0 < ((X % 2 ^ N) ||| (2 ^ N - Y)) ∧ ((X % 2 ^ N) ||| (2 ^ N - Y)) < 2 ^ N := by
  have hX : X % 2 ^ N < 2 ^ N := Nat.mod_lt _ (by positivity)
  have hZ : (X % 2 ^ N) ||| (2 ^ N - Y) < 2 ^ N := Nat.or_lt_two_pow hX (by omega)
  have hy' : Y - 1 < 2 ^ N := by omega
  have hYe : 2 ^ N - Y = 2 ^ N - ((Y - 1) + 1) := by omega
  have key : 2 ^ N - (((X % 2 ^ N) ||| (2 ^ N - Y)) + 1) = Nat.ldiff (Y - 1) X := by
    apply Nat.eq_of_testBit_eq
    intro i
    rw [Nat.testBit_two_pow_sub_succ hZ, Nat.testBit_or, Nat.testBit_mod_two_pow, hYe,
      Nat.testBit_two_pow_sub_succ hy', Nat.testBit_ldiff]
    by_cases hi : i < N
    · simp [hi]; cases (Y - 1).testBit i <;> cases X.testBit i <;> rfl
    · have : (Y - 1).testBit i = false :=
        Nat.testBit_lt_two_pow (lt_of_lt_of_le hy' (Nat.pow_le_pow_right (by norm_num)
          (by omega)))
      simp [hi, this]
  have hpos : 0 < ((X % 2 ^ N) ||| (2 ^ N - Y)) := lor_pos_right _ _ (by omega)
  refine ⟨by omega, hpos, hZ⟩

/-- Or of the complements of two negative operands over the shorter width, decoded. -/
theorem lor_neg_neg (X Y Nx Ny N : Nat) (hX0 : 0 < X) (hX : X < 2 ^ Nx) (hY0 : 0 < Y)
    (hY : Y < 2 ^ Ny) (hN : N = min Nx Ny) :
    2 ^ N - (((2 ^ Nx - X) % 2 ^ N) ||| ((2 ^ Ny - Y) % 2 ^ N)) = ((X - 1) &&& (Y - 1)) + 1 ∧
    0 < (((2 ^ Nx - X) % 2 ^ N) ||| ((2 ^ Ny - Y) % 2 ^ N)) ∧
    (((2 ^ Nx - X) % 2 ^ N) ||| ((2 ^ Ny - Y) % 2 ^ N)) < 2 ^ N := by
  have h1 : (2 ^ Nx - X) % 2 ^ N < 2 ^ N := Nat.mod_lt _ (by positivity)
  have h2 : (2 ^ Ny - Y) % 2 ^ N < 2 ^ N := Nat.mod_lt _ (by positivity)
  have hZ := Nat.or_lt_two_pow h1 h2
  have hx' : X - 1 < 2 ^ Nx := by omega
  have hy' : Y - 1 < 2 ^ Ny := by omega
  have hXe : 2 ^ Nx - X = 2 ^ Nx - ((X - 1) + 1) := by omega
  have hYe : 2 ^ Ny - Y = 2 ^ Ny - ((Y - 1) + 1) := by omega
  have key : 2 ^ N - ((((2 ^ Nx - X) % 2 ^ N) ||| ((2 ^ Ny - Y) % 2 ^ N)) + 1)
      = (X - 1) &&& (Y - 1) := by
    apply Nat.eq_of_testBit_eq
    intro i
    rw [Nat.testBit_two_pow_sub_succ hZ, Nat.testBit_or, Nat.testBit_mod_two_pow,
      Nat.testBit_mod_two_pow, hXe, hYe, Nat.testBit_two_pow_sub_succ hx',
      Nat.testBit_two_pow_sub_succ hy', Nat.testBit_and]
    by_cases hi : i < N
    · have hix : i < Nx := by omega
      have hiy : i < Ny := by omega
      simp [hi, hix, hiy]
    · have : (X - 1).testBit i = false ∨ (Y - 1).testBit i = false := by
        rcases Nat.le_total Nx Ny with h | h
        · left
          exact Nat.testBit_lt_two_pow (lt_of_lt_of_le hx' (Nat.pow_le_pow_right (by norm_num)
            (by omega)))
        · right
          exact Nat.testBit_lt_two_pow (lt_of_lt_of_le hy' (Nat.pow_le_pow_right (by norm_num)
            (by omega)))
      rcases this with h | h <;> simp [hi, h]
  have hand : (X - 1) &&& (Y - 1) < 2 ^ N - 1 := by
    rcases Nat.le_total Nx Ny with h | h
    · have hNx : N = Nx := by omega
      have : (X - 1) &&& (Y - 1) ≤ X - 1 := Nat.and_le_left
      rw [hNx]; omega
    · have hNy : N = Ny := by omega
      have : (X - 1) &&& (Y - 1) ≤ Y - 1 := Nat.and_le_right
      rw [hNy]; omega
  refine ⟨by omega, by omega, hZ⟩


theorem wordsVal_take_eq_mod (A : Arch) (xs : List Nat) (hx : WordsOk A xs) (k : Nat) :
    wordsVal A (xs.take k) = wordsVal A xs % A.base ^ k := by
  by_cases h : k ≤ xs.length
  · have e := wordsVal_eq_take_add_drop A xs k h
    have hlt := wordsVal_lt (hx.take k)
    rw [List.length_take, Nat.min_eq_left h] at hlt
    rw [e, Nat.add_mul_mod_self_left, Nat.mod_eq_of_lt hlt]
  · have hlt := wordsVal_lt hx
    have : A.base ^ xs.length ≤ A.base ^ k := Nat.pow_le_pow_right A.base_pos (by omega)
    rw [List.take_of_length_le (by omega), Nat.mod_eq_of_lt (by omega)]

theorem bignum_ior_loop_eq (x y z : List Nat) (n i : Nat) :
    bignum_ior_loop x y z n i =
      (fillLoop (fun i (_ : Unit) => (x.getD i 0 ||| y.getD i 0, ())) z n i ()).1 := by
  induction n generalizing z i with
  | zero => rfl
  | succ n ih => rw [bignum_ior_loop, fillLoop, ih]

theorem bignum_tail_loop_eq (x z : List Nat) (n i : Nat) :
    bignum_tail_loop x z n i =
      (fillLoop (fun i (_ : Unit) => (x.getD i 0, ())) z n i ()).1 := by
  induction n generalizing z i with
  | zero => rfl
  | succ n ih => rw [bignum_tail_loop, fillLoop, ih]

theorem tail_gen (x : List Nat) (n i : Nat) (h : i + n ≤ x.length) :
    (genLoop (fun i (_ : Unit) => (x.getD i 0, ())) n i ()).1 = (x.drop i).take n := by
  induction n generalizing i with
  | zero => simp [genLoop]
  | succ n ih =>
    simp only [genLoop]
    rw [ih _ (by omega), drop_eq_getD_cons x _ (by omega : i < x.length), List.take_succ_cons]

theorem ior_gen (A : Arch) (x y : List Nat) (hx : WordsOk A x) (hy : WordsOk A y) (n i : Nat) :
    wordsVal A (genLoop (fun i (_ : Unit) => (x.getD i 0 ||| y.getD i 0, ())) n i ()).1 =
      wordsVal A ((x.drop i).take n) ||| wordsVal A ((y.drop i).take n) ∧
    WordsOk A (genLoop (fun i (_ : Unit) => (x.getD i 0 ||| y.getD i 0, ())) n i ()).1 := by
  induction n generalizing i with
  | zero => simp [genLoop, wordsVal, WordsOk.nil]
  | succ n ih =>
    simp only [genLoop, wordsVal_cons]
    obtain ⟨e, ok⟩ := ih (i + 1)
    have h1 : x.getD i 0 < 2 ^ A.WORD_BITS := hx.getD i
    have h2 : y.getD i 0 < 2 ^ A.WORD_BITS := hy.getD i
    refine ⟨?_, WordsOk.cons (Nat.or_lt_two_pow h1 h2) ok⟩
    rw [wordsVal_take_drop_succ, wordsVal_take_drop_succ, e]
    exact (lor_block _ _ _ _ _ h1 h2).symm

theorem fill_two (g z t : List Nat) (c n : Nat) (hl : g.length = c)
    (hz : z.length = c + n) :
    (g ++ z.drop c).take c ++ t ++ (g ++ z.drop c).drop (c + n) = g ++ t := by
  have h1 : (g ++ z.drop c).take c = g := by
    rw [← hl]; exact List.take_left' rfl
  have h2 : (g ++ z.drop c).drop (c + n) = [] := by
    apply List.drop_of_length_le
    simp [hl, hz]
  rw [h1, h2, List.append_nil]

/-- `bignum_ior` ors the two patterns over the common words and copies the tail of the
operand selected by `xsize` and `ysize`. -/
theorem bignum_ior_spec (A : Arch) (z x y : ScmBignum) (c xs ys : Nat)
    (hx : WordsOk A x.values) (hy : WordsOk A y.values)
    (h1 : c < xs → xs = x.size ∧ z.size = xs)
    (h2 : ¬ c < xs → c < ys → ys = y.size ∧ z.size = ys)
    (h3 : ¬ c < xs → ¬ c < ys → z.size = c) :
    (bignum_ior z x y c xs ys).mag A =
      ((x.mag A % A.base ^ c) ||| (y.mag A % A.base ^ c)) + A.base ^ c *
        (if c < xs then x.mag A / A.base ^ c else if c < ys then y.mag A / A.base ^ c else 0) ∧
    WordsOk A (bignum_ior z x y c xs ys).values ∧
    (bignum_ior z x y c xs ys).size = z.size := by
  unfold bignum_ior ScmBignum.mag ScmBignum.size at *
  simp only
  rw [bignum_ior_loop_eq]
  obtain ⟨e, ok⟩ := ior_gen A x.values y.values hx hy c 0
  have hl := genLoop_length (fun i (_ : Unit) => (x.values.getD i 0 ||| y.values.getD i 0, ()))
    c 0 ()
  simp only [List.drop_zero] at e
  rw [wordsVal_take_eq_mod A _ hx, wordsVal_take_eq_mod A _ hy] at e
  have hzc : c ≤ z.values.length := by
    by_cases a : c < xs
    · have := h1 a; omega
    · by_cases b : c < ys
      · have := h2 a b; omega
      · have := h3 a b; omega
  rw [fillLoop_eq _ _ _ _ _ (by omega)]
  simp only [List.take_zero, List.nil_append, zero_add]
  generalize (genLoop (fun i (_ : Unit) => (x.values.getD i 0 ||| y.values.getD i 0, ()))
    c 0 ()).1 = g at e ok hl
  split
  · rename_i a
    obtain ⟨a1, a2⟩ := h1 a
    have hz : z.values.length = c + (xs - c) := by omega
    rw [bignum_tail_loop_eq, fillLoop_eq _ _ _ _ _ (by simp [hl]; omega),
      tail_gen _ _ _ (by omega)]
    simp only
    rw [fill_two g z.values _ c (xs - c) hl hz, List.take_of_length_le (by simp; omega)]
    refine ⟨?_, ok.append (hx.drop c), by simp [hl]; omega⟩
    rw [wordsVal_append, hl, e, wordsVal_drop_eq_div A _ hx]
  · rename_i a
    split
    · rename_i b
      obtain ⟨b1, b2⟩ := h2 a b
      have hz : z.values.length = c + (ys - c) := by omega
      rw [bignum_tail_loop_eq, fillLoop_eq _ _ _ _ _ (by simp [hl]; omega),
        tail_gen _ _ _ (by omega)]
      simp only
      rw [fill_two g z.values _ c (ys - c) hl hz, List.take_of_length_le (by simp; omega)]
      refine ⟨?_, ok.append (hy.drop c), by simp [hl]; omega⟩
      rw [wordsVal_append, hl, e, wordsVal_drop_eq_div A _ hy]
    · rename_i b
      have hz := h3 a b
      rw [List.drop_of_length_le (by omega)]
      simp only [List.append_nil]
      refine ⟨by rw [e]; simp, ok, by omega⟩


theorem Arch.base_pow (A : Arch) (c : Nat) : A.base ^ c = 2 ^ (A.WORD_BITS * c) := by
  unfold Arch.base; rw [pow_mul]

theorem lor_split (X Y N : Nat) :
    X ||| Y = ((X % 2 ^ N) ||| (Y % 2 ^ N)) + 2 ^ N * ((X / 2 ^ N) ||| (Y / 2 ^ N)) := by
  have hX : X % 2 ^ N < 2 ^ N := Nat.mod_lt _ (by positivity)
  have hY : Y % 2 ^ N < 2 ^ N := Nat.mod_lt _ (by positivity)
  rw [← lor_block _ _ _ _ _ hX hY, Nat.mod_add_div, Nat.mod_add_div]

/-- The value assembled by `bignum_ior` is the or of the two patterns when the shorter
pattern is zero-extended. -/
theorem lor_assemble (X Y M N : Nat) (hM : M = 2 ^ N) (T : Nat)
    (hT : T = (X / M) ||| (Y / M)) :
    ((X % M) ||| (Y % M)) + M * T = X ||| Y := by
  subst hM hT
  exact (lor_split X Y N).symm

theorem Scm_BignumComplement_neg (A : Arch) (x : ScmBignum) (hx : WordsOk A x.values)
    (hpos : 0 < x.mag A) :
    (Scm_BignumComplement A x).mag A = A.base ^ x.size - x.mag A ∧
    (Scm_BignumComplement A x).size = x.size ∧
    WordsOk A (Scm_BignumComplement A x).values := by
  unfold Scm_BignumComplement Scm_BignumCopy
  obtain ⟨m, sz, ok, _⟩ := bignum_2scmpl_spec A ⟨x.sign, x.values⟩ hx
  refine ⟨?_, sz, ok⟩
  rw [m]
  have hlt := wordsVal_lt hx
  show (A.base ^ x.values.length - wordsVal A x.values) % A.base ^ x.values.length = _
  unfold ScmBignum.mag at hpos
  rw [Nat.mod_eq_of_lt (by omega)]
  rfl

/-- Decoding a negative result: the pattern `Z` over `n` words, complemented and marked
negative, denotes `Z - 2^(W*n)`. -/
theorem decode_negative (A : Arch) (z : List Nat) (hz : WordsOk A z)
    (hpos : 0 < wordsVal A z) :
    (Scm_NormalizeBignum A (bignum_2scmpl A ⟨-1, z⟩)).toInt A =
      -((A.base ^ z.length - wordsVal A z : Nat) : Int) := by
  obtain ⟨m, sz, ok, sg⟩ := bignum_2scmpl_spec A ⟨-1, z⟩ hz
  have hlt := wordsVal_lt hz
  rw [Scm_NormalizeBignum_toInt A _ (by rw [sg]; simp)]
  simp only [ScmBignum.toInt, sg, m]
  show -1 * ((((A.base ^ z.length - wordsVal A z) % A.base ^ z.length : Nat)) : Int) = _
  rw [Nat.mod_eq_of_lt (by omega)]
  ring

theorem toInt_pos (A : Arch) (x : ScmBignum) (h : x.sign = 1) : x.toInt A = (x.mag A : Int) := by
  simp [ScmBignum.toInt, h]

theorem toInt_neg (A : Arch) (x : ScmBignum) (h : x.sign = -1) (hpos : 0 < x.mag A) :
    x.toInt A = Int.negSucc (x.mag A - 1) := by
  simp only [ScmBignum.toInt, h, Int.negSucc_eq]
  have : ((x.mag A - 1 : Nat) : Int) = (x.mag A : Int) - 1 := by omega
  rw [this]; ring


theorem bignum_ior_sign (z x y : ScmBignum) (c xs ys : Nat) :
    (bignum_ior z x y c xs ys).sign = z.sign := by
  unfold bignum_ior
  simp only
  split
  · rfl
  · split <;> rfl

theorem div_eq_zero_of_lt_pow (A : Arch) (X a b : Nat) (hX : X < A.base ^ a) (hab : a ≤ b) :
    X / A.base ^ b = 0 ∧ X % A.base ^ b = X := by
  have : A.base ^ a ≤ A.base ^ b := Nat.pow_le_pow_right A.base_pos hab
  exact ⟨Nat.div_eq_of_lt (by omega), Nat.mod_eq_of_lt (by omega)⟩

theorem ior_value_pos_pos (A : Arch) (X Y xs ys : Nat) (hX : X < A.base ^ xs)
    (hY : Y < A.base ^ ys) :
    ((X % A.base ^ (min xs ys)) ||| (Y % A.base ^ (min xs ys))) + A.base ^ (min xs ys) *
      (if min xs ys < xs then X / A.base ^ (min xs ys)
        else if min xs ys < ys then Y / A.base ^ (min xs ys) else 0) = X ||| Y := by
  apply lor_assemble X Y _ _ (A.base_pow _)
  split
  · rename_i h
    rw [(div_eq_zero_of_lt_pow A Y ys _ hY (by omega)).1]; simp
  · split
    · rename_i h1 h2
      rw [(div_eq_zero_of_lt_pow A X xs _ hX (by omega)).1]; simp
    · rename_i h1 h2
      rw [(div_eq_zero_of_lt_pow A X xs _ hX (by omega)).1,
        (div_eq_zero_of_lt_pow A Y ys _ hY (by omega)).1]; simp

theorem ior_value_pos_neg (A : Arch) (X YY xs ys : Nat) (hX : X < A.base ^ xs)
    (hYY : YY < A.base ^ ys) :
    ((X % A.base ^ (min xs ys)) ||| (YY % A.base ^ (min xs ys))) + A.base ^ (min xs ys) *
      (if min xs ys < 0 then X / A.base ^ (min xs ys)
        else if min xs ys < ys then YY / A.base ^ (min xs ys) else 0)
      = (X % A.base ^ ys) ||| YY := by
  rw [if_neg (by omega)]
  split
  · rename_i h
    rw [(div_eq_zero_of_lt_pow A X xs ys hX (by omega)).2]
    apply lor_assemble X YY _ _ (A.base_pow _)
    rw [(div_eq_zero_of_lt_pow A X xs _ hX (by omega)).1]; simp
  · rename_i h
    have hc : min xs ys = ys := by omega
    rw [hc, Nat.mod_eq_of_lt hYY]; simp

theorem ior_value_neg_pos (A : Arch) (XX Y xs ys : Nat) (hXX : XX < A.base ^ xs)
    (hY : Y < A.base ^ ys) :
    ((XX % A.base ^ (min xs ys)) ||| (Y % A.base ^ (min xs ys))) + A.base ^ (min xs ys) *
      (if min xs ys < xs then XX / A.base ^ (min xs ys)
        else if min xs ys < 0 then Y / A.base ^ (min xs ys) else 0)
      = (Y % A.base ^ xs) ||| XX := by
  split
  · rename_i h
    rw [(div_eq_zero_of_lt_pow A Y ys xs hY (by omega)).2, Nat.lor_comm Y XX]
    apply lor_assemble XX Y _ _ (A.base_pow _)
    rw [(div_eq_zero_of_lt_pow A Y ys _ hY (by omega)).1]; simp
  · rename_i h
    have hc : min xs ys = xs := by omega
    rw [if_neg (by omega), hc, Nat.mod_eq_of_lt hXX, Nat.lor_comm]; simp

/-! ## Claims on bitwise logic -/

theorem make_bignum_size' (n : Nat) : (make_bignum n).size = n := by
  simp [ScmBignum.size, make_bignum]

/-- C7: for normalized bignums `x` and `y`, in each of the four sign combinations and for
equal or differing sizes, `Scm_BignumLogIor(x, y)` denotes the bitwise or of the infinite
two's complement patterns of `value(x)` and `value(y)`. -/
theorem Scm_BignumLogIor_exact (A : Arch) (x y : ScmBignum)
    (hx : Normalized A x) (hy : Normalized A y) :
    (Scm_BignumLogIor A x y).toInt A = Int.lor (x.toInt A) (y.toInt A) := by
  have hXlt : x.mag A < A.base ^ x.size := wordsVal_lt hx.words
  have hYlt : y.mag A < A.base ^ y.size := wordsVal_lt hy.words
  have hXpos := hx.mag_pos
  have hYpos := hy.mag_pos
  unfold Scm_BignumLogIor
  simp only
  rcases hx.sign with sx | sx <;> rcases hy.sign with sy | sy
  · -- both nonnegative
    rw [if_pos (by omega), if_pos (by omega)]
    obtain ⟨m, ok, sz⟩ := bignum_ior_spec A (make_bignum (max x.size y.size)) x y
      (min x.size y.size) x.size y.size hx.words hy.words
      (fun h => ⟨rfl, by rw [make_bignum_size']; omega⟩)
      (fun h1 h2 => ⟨rfl, by rw [make_bignum_size']; omega⟩)
      (fun h1 h2 => by rw [make_bignum_size']; omega)
    have sg := bignum_ior_sign (make_bignum (max x.size y.size)) x y
      (min x.size y.size) x.size y.size
    rw [Scm_NormalizeBignum_toInt A _ (by rw [sg]; simp [make_bignum])]
    rw [toInt_pos A _ (by rw [sg]; rfl), m, ior_value_pos_pos A _ _ _ _ hXlt hYlt,
      toInt_pos A x sx, toInt_pos A y sy]
    rfl
  · -- x nonnegative, y negative
    rw [if_pos (by omega), if_neg (by omega)]
    obtain ⟨cm, csz, cok⟩ := Scm_BignumComplement_neg A y hy.words hYpos
    have hYYlt : (Scm_BignumComplement A y).mag A < A.base ^ y.size := by
      rw [cm]; omega
    obtain ⟨m, ok, sz⟩ := bignum_ior_spec A (make_bignum y.size) x (Scm_BignumComplement A y)
      (min x.size y.size) 0 y.size hx.words cok
      (fun h => absurd h (by omega))
      (fun h1 h2 => ⟨csz.symm, make_bignum_size' _⟩)
      (fun h1 h2 => by rw [make_bignum_size']; omega)
    rw [ior_value_pos_neg A _ _ _ _ hXlt hYYlt, cm, A.base_pow] at m
    obtain ⟨d1, d2, d3⟩ := lor_pos_neg (x.mag A) (y.mag A) (A.WORD_BITS * y.size) hYpos
      (by rw [← A.base_pow]; exact hYlt)
    have hzl : (bignum_ior (make_bignum y.size) x (Scm_BignumComplement A y)
        (min x.size y.size) 0 y.size).values.length = y.size := by
      have := sz; simp only [ScmBignum.size, make_bignum_size] at this ⊢; exact this
    rw [decode_negative A _ ok (by unfold ScmBignum.mag at m; rw [m]; exact d2)]
    unfold ScmBignum.mag at m d1
    rw [m, hzl, A.base_pow, d1, toInt_pos A x sx, toInt_neg A y sy hYpos]
    show _ = Int.negSucc (Nat.ldiff (y.mag A - 1) (x.mag A))
    rw [Int.negSucc_eq]; push_cast; rfl
  · -- x negative, y nonnegative
    rw [if_neg (by omega), if_pos (by omega)]
    obtain ⟨cm, csz, cok⟩ := Scm_BignumComplement_neg A x hx.words hXpos
    have hXXlt : (Scm_BignumComplement A x).mag A < A.base ^ x.size := by
      rw [cm]; omega
    obtain ⟨m, ok, sz⟩ := bignum_ior_spec A (make_bignum x.size) (Scm_BignumComplement A x) y
      (min x.size y.size) x.size 0 cok hy.words
      (fun h => ⟨csz.symm, make_bignum_size' _⟩)
      (fun h1 h2 => absurd h2 (by omega))
      (fun h1 h2 => by rw [make_bignum_size']; omega)
    rw [ior_value_neg_pos A _ _ _ _ hXXlt hYlt, cm, A.base_pow] at m
    obtain ⟨d1, d2, d3⟩ := lor_pos_neg (y.mag A) (x.mag A) (A.WORD_BITS * x.size) hXpos
      (by rw [← A.base_pow]; exact hXlt)
    have hzl : (bignum_ior (make_bignum x.size) (Scm_BignumComplement A x) y
        (min x.size y.size) x.size 0).values.length = x.size := by
      have := sz; simp only [ScmBignum.size, make_bignum_size] at this ⊢; exact this
    rw [decode_negative A _ ok (by unfold ScmBignum.mag at m; rw [m]; exact d2)]
    unfold ScmBignum.mag at m d1
    rw [m, hzl, A.base_pow, d1, toInt_neg A x sx hXpos, toInt_pos A y sy]
    show _ = Int.negSucc (Nat.ldiff (x.mag A - 1) (y.mag A))
    rw [Int.negSucc_eq]; push_cast; rfl
  · -- both negative
    rw [if_neg (by omega), if_neg (by omega)]
    obtain ⟨cxm, cxsz, cxok⟩ := Scm_BignumComplement_neg A x hx.words hXpos
    obtain ⟨cym, cysz, cyok⟩ := Scm_BignumComplement_neg A y hy.words hYpos
    obtain ⟨m, ok, sz⟩ := bignum_ior_spec A (make_bignum (min x.size y.size))
      (Scm_BignumComplement A x) (Scm_BignumComplement A y)
      (min x.size y.size) 0 0 cxok cyok
      (fun h => absurd h (by omega))
      (fun h1 h2 => absurd h2 (by omega))
      (fun h1 h2 => make_bignum_size' _)
    rw [if_neg (by omega), if_neg (by omega), mul_zero, add_zero, cxm, cym, A.base_pow,
      A.base_pow, A.base_pow] at m
    obtain ⟨d1, d2, d3⟩ := lor_neg_neg (x.mag A) (y.mag A) (A.WORD_BITS * x.size)
      (A.WORD_BITS * y.size) (A.WORD_BITS * min x.size y.size) hXpos
      (by rw [← A.base_pow]; exact hXlt) hYpos (by rw [← A.base_pow]; exact hYlt)
      (by rw [Nat.mul_min_mul_left])
    have hzl : (bignum_ior (make_bignum (min x.size y.size)) (Scm_BignumComplement A x)
        (Scm_BignumComplement A y) (min x.size y.size) 0 0).values.length
        = min x.size y.size := by
      have := sz; simp only [ScmBignum.size, make_bignum_size] at this ⊢; exact this
    rw [decode_negative A _ ok (by unfold ScmBignum.mag at m; rw [m]; exact d2)]
    unfold ScmBignum.mag at m d1
    rw [m, hzl, A.base_pow, d1, toInt_neg A x sx hXpos, toInt_neg A y sy hYpos]
    show _ = Int.negSucc ((x.mag A - 1) &&& (y.mag A - 1))
    rw [Int.negSucc_eq]; push_cast; rfl


/-- Witness for C7 on a 64-bit platform: a negative two-word operand and a positive
three-word operand. -/
theorem Scm_BignumLogIor_exact_witness :
    Normalized arch64 ⟨-1, [5, 2 ^ 62]⟩ ∧ Normalized arch64 ⟨1, [7, 1, 3]⟩ ∧
    (Scm_BignumLogIor arch64 ⟨-1, [5, 2 ^ 62]⟩ ⟨1, [7, 1, 3]⟩).toInt arch64 =
      Int.lor ((⟨-1, [5, 2 ^ 62]⟩ : ScmBignum).toInt arch64)
        ((⟨1, [7, 1, 3]⟩ : ScmBignum).toInt arch64) :=
  have hx : Normalized arch64 ⟨-1, [5, 2 ^ 62]⟩ :=
    ⟨by decide, by decide, by decide, by decide⟩
  have hy : Normalized arch64 ⟨1, [7, 1, 3]⟩ :=
    ⟨by decide, by decide, by decide, by decide⟩
  ⟨hx, hy, Scm_BignumLogIor_exact arch64 _ _ hx hy⟩

set_option maxRecDepth 100000 in
/-- C6 fails on the code: on a 64-bit platform, for the normalized bignums `-2^64` and
`-(2^128 - 1)` the bitwise and of the two's complement patterns is `-2^128`, whose
magnitude needs one word more than the `max(xsize, ysize)` words of the result buffer;
`Scm_BignumLogAnd` returns the fixnum `0`.  The function does return `5` for `-1` and `5`
held in one word each. -/
theorem Scm_BignumLogAnd_neg_neg_overflow :
    Normalized arch64 ⟨-1, [0, 1]⟩ ∧ Normalized arch64 ⟨-1, [2 ^ 64 - 1, 2 ^ 64 - 1]⟩ ∧
    (⟨-1, [0, 1]⟩ : ScmBignum).toInt arch64 = -(2 ^ 64) ∧
    (⟨-1, [2 ^ 64 - 1, 2 ^ 64 - 1]⟩ : ScmBignum).toInt arch64 = -(2 ^ 128 - 1) ∧
    Int.land (-(2 ^ 64)) (-(2 ^ 128 - 1)) = -(2 ^ 128) ∧
    Scm_BignumLogAnd arch64 ⟨-1, [0, 1]⟩ ⟨-1, [2 ^ 64 - 1, 2 ^ 64 - 1]⟩ = .int 0 ∧
    Scm_BignumLogAnd arch64 ⟨-1, [1]⟩ ⟨1, [5]⟩ = .int 5 :=
  ⟨⟨by decide, by decide, by decide, by decide⟩, ⟨by decide, by decide, by decide, by decide⟩,
    by decide, by decide, by decide, by decide, by decide⟩

set_option maxRecDepth 100000 in
/-- C8 fails on the code: on a 64-bit platform, for the normalized bignums `-2^64` and
`-(2^128 - 1)` the exclusive or is `2^128 - 2^64 + 1`, while `Scm_BignumLogXor`, with exact
generic `Scm_LogAnd` and `Scm_LogNot`, returns `-(2^64 - 1)`: its first step
`Scm_BignumLogAnd` yields `0` instead of `-2^128`. -/
theorem Scm_BignumLogXor_neg_neg_wrong :
    Int.xor (-(2 ^ 64)) (-(2 ^ 128 - 1)) = 2 ^ 128 - 2 ^ 64 + 1 ∧
    Scm_BignumLogIor arch64 ⟨-1, [0, 1]⟩ ⟨-1, [2 ^ 64 - 1, 2 ^ 64 - 1]⟩
      = .big ⟨-1, [2 ^ 64 - 1]⟩ ∧
    Scm_BignumLogXor arch64 (exactArith arch64) ⟨-1, [0, 1]⟩ ⟨-1, [2 ^ 64 - 1, 2 ^ 64 - 1]⟩
      = .big ⟨-1, [2 ^ 64 - 1]⟩ :=
  ⟨by decide, by decide, by decide⟩

/-! ## Claims on division -/

set_option maxRecDepth 100000 in
/-- C1 fails on the code: on a 64-bit platform, for the normalized dividend
`2^128 + 2^97 - 2^65 + 2^32` and the normalized divisor `2^95 + 2^64 - 2^32 + 1` the
truncating quotient is `2^33 - 1` with remainder `2^95 + 2^64 - 2^33 + 1`, while
`Scm_BignumDivRem` returns the quotient `2^32` and the remainder `2^96 - 2^32`, which is
not below the divisor and does not satisfy the division law.  At the last quotient digit
the estimate `qq` starts at `HALF_WORD + 1`, escapes the test `qq == HALF_WORD`, leaves
the correction loop as `HALF_WORD`, and `qq * digit + cy` wraps around in the
multiply-and-subtract step. -/
theorem Scm_BignumDivRem_law_fails :
    Normalized arch64 ⟨1, [2 ^ 32, 2 ^ 33 - 2, 1]⟩ ∧
    Normalized arch64 ⟨1, [2 ^ 64 - 2 ^ 32 + 1, 2 ^ 31]⟩ ∧
    (⟨1, [2 ^ 32, 2 ^ 33 - 2, 1]⟩ : ScmBignum).toInt arch64
      = 2 ^ 128 + 2 ^ 97 - 2 ^ 65 + 2 ^ 32 ∧
    (⟨1, [2 ^ 64 - 2 ^ 32 + 1, 2 ^ 31]⟩ : ScmBignum).toInt arch64
      = 2 ^ 95 + 2 ^ 64 - 2 ^ 32 + 1 ∧
    Int.tdiv (2 ^ 128 + 2 ^ 97 - 2 ^ 65 + 2 ^ 32) (2 ^ 95 + 2 ^ 64 - 2 ^ 32 + 1) = 2 ^ 33 - 1 ∧
    Int.tmod (2 ^ 128 + 2 ^ 97 - 2 ^ 65 + 2 ^ 32) (2 ^ 95 + 2 ^ 64 - 2 ^ 32 + 1)
      = 2 ^ 95 + 2 ^ 64 - 2 ^ 33 + 1 ∧
    Scm_BignumDivRem arch64 ⟨1, [2 ^ 32, 2 ^ 33 - 2, 1]⟩ ⟨1, [2 ^ 64 - 2 ^ 32 + 1, 2 ^ 31]⟩
      = some (.int (2 ^ 32), .big ⟨1, [2 ^ 64 - 2 ^ 32, 2 ^ 32 - 1]⟩) ∧
    (ScmObj.int (2 ^ 32)).toInt arch64 * (2 ^ 95 + 2 ^ 64 - 2 ^ 32 + 1)
        + (ScmObj.big ⟨1, [2 ^ 64 - 2 ^ 32, 2 ^ 32 - 1]⟩).toInt arch64
      ≠ 2 ^ 128 + 2 ^ 97 - 2 ^ 65 + 2 ^ 32 ∧
    ¬ (ScmObj.big ⟨1, [2 ^ 64 - 2 ^ 32, 2 ^ 32 - 1]⟩).toInt arch64
      < 2 ^ 95 + 2 ^ 64 - 2 ^ 32 + 1 :=
  ⟨⟨by decide, by decide, by decide, by decide⟩, ⟨by decide, by decide, by decide, by decide⟩,
    by decide, by decide, by decide, by decide, by decide, by decide, by decide⟩

/-! ## Half-word digits -/

theorem Arch.half_base (A : Arch) : A.half.base = A.HALF_WORD := rfl

theorem Arch.HALF_WORD_pos (A : Arch) : 0 < A.HALF_WORD := by
  unfold Arch.HALF_WORD; positivity

theorem Arch.Ok.base_eq {A : Arch} (h : A.Ok) : A.base = A.HALF_WORD * A.HALF_WORD := by
  unfold Arch.base Arch.HALF_WORD
  rw [← pow_add]; congr 1
  have := h.even; omega

theorem Arch.Ok.two_le_half {A : Arch} (h : A.Ok) : 2 ≤ A.HALF_WORD := by
  unfold Arch.HALF_WORD
  calc 2 = 2 ^ 1 := rfl
    _ ≤ 2 ^ A.HALF_BITS := Nat.pow_le_pow_right (by norm_num) h.pos

theorem LO_eq (A : Arch) (w : Nat) : LO A w = w % A.HALF_WORD := by
  unfold LO Arch.LOMASK Arch.HALF_WORD
  exact Nat.and_pow_two_sub_one_eq_mod _ _

theorem HI_eq (A : Arch) (w : Nat) : HI A w = (w / A.HALF_WORD) % A.HALF_WORD := by
  unfold HI Arch.LOMASK Arch.HALF_WORD
  rw [Nat.and_pow_two_sub_one_eq_mod, Nat.shiftRight_eq_div_pow]

theorem div_half_lt {A : Arch} (hA : A.Ok) {w : Nat} (hw : w < A.base) :
    w / A.HALF_WORD < A.HALF_WORD := by
  rw [Nat.div_lt_iff_lt_mul A.HALF_WORD_pos, ← hA.base_eq]; exact hw

theorem HI_eq_div {A : Arch} (hA : A.Ok) {w : Nat} (hw : w < A.base) :
    HI A w = w / A.HALF_WORD := by
  rw [HI_eq, Nat.mod_eq_of_lt (div_half_lt hA hw)]

theorem and_HIMASK {A : Arch} (hA : A.Ok) {w : Nat} (hw : w < A.base) :
    w &&& A.HIMASK = (w / A.HALF_WORD) * A.HALF_WORD := by
  have hb : A.HALF_WORD - 1 < 2 ^ A.WORD_BITS := by
    have := hA.base_eq
    have := hA.two_le_half
    unfold Arch.base at *
    have : A.HALF_WORD ≤ A.HALF_WORD * A.HALF_WORD := Nat.le_mul_of_pos_left _ A.HALF_WORD_pos
    omega
  have hm : A.HIMASK = 2 ^ A.WORD_BITS - ((A.HALF_WORD - 1) + 1) := by
    unfold Arch.HIMASK Arch.SCM_ULONG_MAX Arch.LOMASK Arch.base
    have := A.HALF_WORD_pos
    omega
  apply Nat.eq_of_testBit_eq
  intro i
  rw [Nat.testBit_and, hm, Nat.testBit_two_pow_sub_succ hb, mul_comm]
  unfold Arch.HALF_WORD
  rw [Nat.testBit_two_pow_sub_one, Nat.testBit_mul_pow_two, ← Nat.shiftRight_eq_div_pow,
    Nat.testBit_shiftRight]
  by_cases h1 : A.HALF_BITS ≤ i
  · by_cases h2 : i < A.WORD_BITS
    · simp [h1, h2, show ¬ i < A.HALF_BITS by omega, show A.HALF_BITS + (i - A.HALF_BITS) = i by omega]
    · have : w.testBit i = false :=
        Nat.testBit_lt_two_pow (lt_of_lt_of_le hw (Nat.pow_le_pow_right (by norm_num)
          (by omega)))
      simp [h1, h2, this, show A.HALF_BITS + (i - A.HALF_BITS) = i by omega]
  · simp [h1, show i < A.HALF_BITS by omega]

theorem shl_half {A : Arch} (hA : A.Ok) (x : Nat) :
    (x <<< A.HALF_BITS) % A.base = (x % A.HALF_WORD) * A.HALF_WORD := by
  rw [shl_word A x A.HALF_BITS (by have := hA.even; omega)]
  unfold Arch.HALF_WORD
  rw [show A.WORD_BITS - A.HALF_BITS = A.HALF_BITS by have := hA.even; omega]

theorem hi_or_lo (A : Arch) (hi lo : Nat) (hlo : lo < A.HALF_WORD) :
    (hi * A.HALF_WORD) ||| lo = hi * A.HALF_WORD + lo := by
  unfold Arch.HALF_WORD at *
  rw [mul_comm, Nat.mul_add_lt_is_or hlo]

theorem lo_or_hi (A : Arch) (hi lo : Nat) (hlo : lo < A.HALF_WORD) :
    lo ||| (hi * A.HALF_WORD) = hi * A.HALF_WORD + lo := by
  rw [Nat.lor_comm, hi_or_lo A hi lo hlo]

theorem hi_lo_lt {A : Arch} (hA : A.Ok) {hi lo : Nat} (hhi : hi < A.HALF_WORD)
    (hlo : lo < A.HALF_WORD) : hi * A.HALF_WORD + lo < A.base := by
  rw [hA.base_eq]
  calc hi * A.HALF_WORD + lo < hi * A.HALF_WORD + A.HALF_WORD := by omega
    _ = (hi + 1) * A.HALF_WORD := by ring
    _ ≤ A.HALF_WORD * A.HALF_WORD := Nat.mul_le_mul_right _ hhi

theorem hi_lo_div (A : Arch) (hi lo : Nat) (hlo : lo < A.HALF_WORD) :
    (hi * A.HALF_WORD + lo) / A.HALF_WORD = hi ∧ (hi * A.HALF_WORD + lo) % A.HALF_WORD = lo := by
  constructor
  · rw [add_comm, Nat.add_mul_div_right _ _ A.HALF_WORD_pos, Nat.div_eq_of_lt hlo, zero_add]
  · rw [add_comm, Nat.add_mul_mod_self_right, Nat.mod_eq_of_lt hlo]

/-! ### The digit view of a word sequence -/

theorem digitsOf_length (A : Arch) (ws : List Nat) : (digitsOf A ws).length = 2 * ws.length := by
  induction ws with
  | nil => rfl
  | cons w ws ih => simp [digitsOf, ih]; omega

theorem digitsOf_val {A : Arch} (hA : A.Ok) (ws : List Nat) :
    wordsVal A.half (digitsOf A ws) = wordsVal A ws := by
  induction ws with
  | nil => rfl
  | cons w ws ih =>
    simp only [digitsOf, wordsVal, ih, A.half_base, hA.base_eq]
    have := Nat.mod_add_div w A.HALF_WORD
    linear_combination this

theorem digitsOf_ok {A : Arch} (hA : A.Ok) {ws : List Nat} (h : WordsOk A ws) :
    WordsOk A.half (digitsOf A ws) := by
  induction ws with
  | nil => exact WordsOk.nil _
  | cons w ws ih =>
    simp only [digitsOf]
    exact WordsOk.cons (Nat.mod_lt _ A.HALF_WORD_pos)
      (WordsOk.cons (div_half_lt hA h.head) (ih h.tail))

theorem digitsOf_getD (A : Arch) (ws : List Nat) (i : Nat) :
    (digitsOf A ws).getD i 0 =
      if i % 2 ≠ 0 then ws.getD (i / 2) 0 / A.HALF_WORD else ws.getD (i / 2) 0 % A.HALF_WORD := by
  induction ws generalizing i with
  | nil => simp [digitsOf]
  | cons w ws ih =>
    match i with
    | 0 => simp [digitsOf]
    | 1 => simp [digitsOf]
    | i + 2 =>
      simp only [digitsOf, List.getD_cons_succ]
      rw [ih i, show (i + 2) % 2 = i % 2 by omega, show (i + 2) / 2 = i / 2 + 1 by omega]
      simp

theorem DIGIT_eq {A : Arch} (hA : A.Ok) {ws : List Nat} (h : WordsOk A ws) (i : Nat) :
    DIGIT A ws i = (digitsOf A ws).getD i 0 := by
  unfold DIGIT
  rw [digitsOf_getD, HI_eq_div hA (h.getD _), LO_eq]


theorem set_getD_self (l : List Nat) (i : Nat) : l.set i (l.getD i 0) = l := by
  induction l generalizing i with
  | nil => rfl
  | cons a l ih =>
    match i with
    | 0 => rfl
    | i + 1 => simp only [List.set_cons_succ, List.getD_cons_succ, ih]

theorem getD_set_eq (l : List Nat) (i v : Nat) (h : i < l.length) : (l.set i v).getD i 0 = v := by
  simp [List.getD_eq_getElem?_getD, List.getElem?_set_self h]

theorem digitsOf_set (A : Arch) (ws : List Nat) (k w : Nat) (h : k < ws.length) :
    digitsOf A (ws.set k w) =
      ((digitsOf A ws).set (2 * k) (w % A.HALF_WORD)).set (2 * k + 1) (w / A.HALF_WORD) := by
  induction ws generalizing k with
  | nil => simp at h
  | cons a ws ih =>
    match k with
    | 0 => simp [digitsOf]
    | k + 1 =>
      simp only [List.set_cons_succ, digitsOf]
      rw [ih k (by simpa using h), show 2 * (k + 1) = 2 * k + 1 + 1 by omega]
      simp [List.set_cons_succ]

theorem DIGIT2_eq {A : Arch} (hA : A.Ok) {ws : List Nat} (h : WordsOk A ws) (i : Nat) :
    DIGIT2 A ws i = (digitsOf A ws).getD i 0 + A.HALF_WORD * (digitsOf A ws).getD (i + 1) 0 := by
  unfold DIGIT2
  rw [digitsOf_getD, digitsOf_getD]
  by_cases hi : i % 2 = 0
  · rw [if_neg (by omega), if_neg (by omega), if_pos (by omega),
      show (i + 1) / 2 = i / 2 by omega]
    exact (Nat.mod_add_div _ _).symm
  · rw [if_pos (by omega), if_pos (by omega), if_neg (by omega),
      show (i + 1) / 2 = i / 2 + 1 by omega, shl_half hA, LO_eq, Nat.mod_mod,
      HI_eq_div hA (h.getD _), hi_or_lo A _ _ (div_half_lt hA (h.getD _))]
    ring

theorem SETDIGIT_eq {A : Arch} (hA : A.Ok) {ws : List Nat} (h : WordsOk A ws) (i v : Nat)
    (hi : i / 2 < ws.length) :
    digitsOf A (SETDIGIT A ws i v) = (digitsOf A ws).set i (v % A.HALF_WORD) ∧
    WordsOk A (SETDIGIT A ws i v) ∧ (SETDIGIT A ws i v).length = ws.length := by
  unfold SETDIGIT
  have hw := h.getD (i / 2)
  have hlo : ws.getD (i / 2) 0 % A.HALF_WORD < A.HALF_WORD := Nat.mod_lt _ A.HALF_WORD_pos
  have hv : v % A.HALF_WORD < A.HALF_WORD := Nat.mod_lt _ A.HALF_WORD_pos
  have hhi := div_half_lt hA hw
  by_cases hp : i % 2 = 0
  · rw [if_neg (by omega)]
    have e : (ws.getD (i / 2) 0 &&& A.HIMASK) ||| (v &&& A.LOMASK)
        = ws.getD (i / 2) 0 / A.HALF_WORD * A.HALF_WORD + v % A.HALF_WORD := by
      rw [and_HIMASK hA hw, ← LO, LO_eq, hi_or_lo A _ _ hv]
    rw [e]
    refine ⟨?_, h.set _ (hi_lo_lt hA hhi hv), by simp⟩
    obtain ⟨d1, d2⟩ := hi_lo_div A (ws.getD (i / 2) 0 / A.HALF_WORD) (v % A.HALF_WORD) hv
    rw [digitsOf_set A ws _ _ hi, d1, d2, show 2 * (i / 2) = i by omega]
    have : ws.getD (i / 2) 0 / A.HALF_WORD
        = ((digitsOf A ws).set i (v % A.HALF_WORD)).getD (i + 1) 0 := by
      rw [getD_set_ne' _ _ _ _ (by omega), digitsOf_getD, if_pos (by omega),
        show (i + 1) / 2 = i / 2 by omega]
    rw [this, set_getD_self]
  · rw [if_pos (by omega)]
    have e : (ws.getD (i / 2) 0 &&& A.LOMASK) ||| ((v <<< A.HALF_BITS) % A.base)
        = v % A.HALF_WORD * A.HALF_WORD + ws.getD (i / 2) 0 % A.HALF_WORD := by
      rw [← LO, LO_eq, shl_half hA, lo_or_hi A _ _ hlo]
    rw [e]
    refine ⟨?_, h.set _ (hi_lo_lt hA hv hlo), by simp⟩
    obtain ⟨d1, d2⟩ := hi_lo_div A (v % A.HALF_WORD) (ws.getD (i / 2) 0 % A.HALF_WORD) hlo
    rw [digitsOf_set A ws _ _ hi, d1, d2, show 2 * (i / 2) + 1 = i by omega]
    have : ws.getD (i / 2) 0 % A.HALF_WORD = (digitsOf A ws).getD (2 * (i / 2)) 0 := by
      rw [digitsOf_getD, if_neg (by omega), show 2 * (i / 2) / 2 = i / 2 by omega]
    rw [this, set_getD_self]


theorem SETDIGIT2_eq {A : Arch} (hA : A.Ok) {ws : List Nat} (h : WordsOk A ws) (i v : Nat)
    (hv : v < A.base) (hi : (i + 1) / 2 < ws.length) :
    digitsOf A (SETDIGIT2 A ws i v) =
      ((digitsOf A ws).set i (v % A.HALF_WORD)).set (i + 1) (v / A.HALF_WORD) ∧
    WordsOk A (SETDIGIT2 A ws i v) ∧ (SETDIGIT2 A ws i v).length = ws.length := by
  by_cases hp : i % 2 = 0
  · unfold SETDIGIT2
    rw [if_neg (by omega)]
    refine ⟨?_, h.set _ hv, by simp⟩
    rw [digitsOf_set A ws _ _ (by omega), show 2 * (i / 2) = i by omega]
  · have hhv : HI A v < A.HALF_WORD := by
      rw [HI_eq]; exact Nat.mod_lt _ A.HALF_WORD_pos
    have e1 : SETDIGIT A ws i v =
        ws.set (i / 2) (LO A (ws.getD (i / 2) 0) ||| ((v <<< A.HALF_BITS) % A.base)) := by
      unfold SETDIGIT LO
      rw [if_pos (by omega)]
    have e2 : ∀ num : List Nat, SETDIGIT A num (i + 1) (HI A v) =
        num.set (i / 2 + 1) ((num.getD (i / 2 + 1) 0 &&& A.HIMASK) ||| HI A v) := by
      intro num
      unfold SETDIGIT
      rw [if_neg (by omega), show (i + 1) / 2 = i / 2 + 1 by omega]
      congr 2
      rw [← LO, LO_eq, Nat.mod_eq_of_lt hhv]
    have e : SETDIGIT2 A ws i v = SETDIGIT A (SETDIGIT A ws i v) (i + 1) (HI A v) := by
      rw [e2, e1]
      unfold SETDIGIT2
      rw [if_pos (by omega)]
    obtain ⟨a1, a2, a3⟩ := SETDIGIT_eq hA h i v (by omega)
    obtain ⟨b1, b2, b3⟩ := SETDIGIT_eq hA a2 (i + 1) (HI A v) (by rw [a3]; exact hi)
    rw [e]
    refine ⟨?_, b2, by rw [b3, a3]⟩
    rw [b1, a1, Nat.mod_eq_of_lt hhv, HI_eq_div hA hv]

/-! ## Division by a half-word divisor -/

theorem shl_half_small {A : Arch} (hA : A.Ok) {x : Nat} (hx : x < A.HALF_WORD) :
    (x <<< A.HALF_BITS) % A.base = x * A.HALF_WORD := by
  rw [shl_half hA, Nat.mod_eq_of_lt hx]

theorem shl_half_raw (A : Arch) (x : Nat) : x <<< A.HALF_BITS = x * A.HALF_WORD := by
  rw [Nat.shiftLeft_eq]; rfl

theorem take_set_ge (l : List Nat) (n i v : Nat) (h : n ≤ i) : (l.set i v).take n = l.take n := by
  rw [List.set_take]
  exact List.set_eq_of_length_le (by rw [List.length_take]; omega)

theorem bignum_sdiv_loop_spec (A : Arch) (hA : A.Ok) (D : Nat) (hD0 : 0 < D)
    (hD : D < A.HALF_WORD) (n : Nat) (pu : List Nat) (q0 : Nat) (hn : n < pu.length)
    (hok : WordsOk A pu) (hq : pu.getD n 0 / D + q0 < A.base) :
    (bignum_sdiv_loop A D n pu q0).1.length = pu.length ∧
    WordsOk A (bignum_sdiv_loop A D n pu q0).1 ∧
    (bignum_sdiv_loop A D n pu q0).1.getD 0 0 / D + (bignum_sdiv_loop A D n pu q0).2 < A.base ∧
    (bignum_sdiv_loop A D n pu q0).1.getD 0 0 + D * (bignum_sdiv_loop A D n pu q0).2
        + D * A.base * wordsVal A ((bignum_sdiv_loop A D n pu q0).1.drop 1)
      = wordsVal A (pu.take n) + A.base ^ n *
          (pu.getD n 0 + D * q0 + D * A.base * wordsVal A (pu.drop (n + 1))) := by
  induction n generalizing pu q0 with
  | zero =>
    simp only [bignum_sdiv_loop]
    refine ⟨trivial, hok, hq, ?_⟩
    simp [wordsVal]
  | succ n ih =>
    unfold bignum_sdiv_loop
    simp only
    have hB := hA.base_eq
    have hb := A.HALF_WORD_pos
    set w1 := pu.getD (n + 1) 0 with hw1
    set w0 := pu.getD n 0 with hw0e
    clear_value w1 w0
    have hw0 : w0 < A.base := by rw [hw0e]; exact hok.getD n
    have hw0hi := div_half_lt hA hw0
    have hmod : w1 % D < D := Nat.mod_lt _ hD0
    have eq1 : (w1 / D + q0) % A.base = w1 / D + q0 := Nat.mod_eq_of_lt hq
    have hr1lt : (w1 % D) * A.HALF_WORD + w0 / A.HALF_WORD < D * A.HALF_WORD := by
      calc (w1 % D) * A.HALF_WORD + w0 / A.HALF_WORD
          < (w1 % D) * A.HALF_WORD + A.HALF_WORD := by omega
        _ = (w1 % D + 1) * A.HALF_WORD := by ring
        _ ≤ D * A.HALF_WORD := Nat.mul_le_mul_right _ hmod
    have hDb : D * A.HALF_WORD ≤ A.base := by
      rw [hB]; exact Nat.mul_le_mul_right _ (le_of_lt hD)
    have er1 : (((w1 % D) <<< A.HALF_BITS) + HI A w0) % A.base
        = (w1 % D) * A.HALF_WORD + w0 / A.HALF_WORD := by
      rw [shl_half_raw, HI_eq_div hA hw0, Nat.mod_eq_of_lt (by omega)]
    rw [eq1, er1]
    set r1 := (w1 % D) * A.HALF_WORD + w0 / A.HALF_WORD with e4
    clear_value r1
    have hr1q : r1 / D < A.HALF_WORD := by
      rw [Nat.div_lt_iff_lt_mul hD0, mul_comm A.HALF_WORD D]; exact hr1lt
    have eq0 : ((r1 / D) <<< A.HALF_BITS) % A.base = (r1 / D) * A.HALF_WORD :=
      shl_half_small hA hr1q
    rw [eq0]
    have hr0 : r1 % D < D := Nat.mod_lt _ hD0
    have hpu1n : (pu.set (n + 1) (w1 / D + q0)).getD n 0 = w0 := by
      rw [hw0e]; exact getD_set_ne' _ _ _ _ (by omega)
    rw [hpu1n, LO_eq]
    have hlo : w0 % A.HALF_WORD < A.HALF_WORD := Nat.mod_lt _ hb
    have hnewlt : (r1 % D) * A.HALF_WORD + w0 % A.HALF_WORD < D * A.HALF_WORD := by
      calc (r1 % D) * A.HALF_WORD + w0 % A.HALF_WORD
          < (r1 % D) * A.HALF_WORD + A.HALF_WORD := by omega
        _ = (r1 % D + 1) * A.HALF_WORD := by ring
        _ ≤ D * A.HALF_WORD := Nat.mul_le_mul_right _ hr0
    have enew : (((r1 % D) <<< A.HALF_BITS) + w0 % A.HALF_WORD) % A.base
        = (r1 % D) * A.HALF_WORD + w0 % A.HALF_WORD := by
      rw [shl_half_raw, Nat.mod_eq_of_lt (by omega)]
    rw [enew]
    have hq' : w1 / D + q0 < A.base := hq
    set pu2 := (pu.set (n + 1) (w1 / D + q0)).set n
      ((r1 % D) * A.HALF_WORD + w0 % A.HALF_WORD) with hpu2
    have hlen2 : pu2.length = pu.length := by simp [pu2]
    have hok2 : WordsOk A pu2 := (hok.set _ hq').set _ (by omega)
    have hpu2n : pu2.getD n 0 = (r1 % D) * A.HALF_WORD + w0 % A.HALF_WORD :=
      getD_set_eq _ _ _ (by simp; omega)
    have ht : pu2.take n = pu.take n := by
      rw [hpu2, take_set_ge _ _ _ _ le_rfl, take_set_ge _ _ _ _ (by omega)]
    have hd : wordsVal A (pu2.drop (n + 1))
        = (w1 / D + q0) + A.base * wordsVal A (pu.drop (n + 2)) := by
      rw [hpu2, List.drop_set_of_lt _ _ (by omega),
        wordsVal_drop_set A pu (n + 1) _ (by omega)]
    clear_value pu2
    have hq2 : pu2.getD n 0 / D + (r1 / D) * A.HALF_WORD < A.base := by
      rw [hpu2n]
      have h1 : ((r1 % D) * A.HALF_WORD + w0 % A.HALF_WORD) / D < A.HALF_WORD := by
        rw [Nat.div_lt_iff_lt_mul hD0, mul_comm A.HALF_WORD D]; exact hnewlt
      have h2 : (r1 / D) * A.HALF_WORD ≤ (A.HALF_WORD - 1) * A.HALF_WORD :=
        Nat.mul_le_mul_right _ (by omega)
      have h3 : (A.HALF_WORD - 1) * A.HALF_WORD + A.HALF_WORD = A.HALF_WORD * A.HALF_WORD := by
        have : A.HALF_WORD - 1 + 1 = A.HALF_WORD := by omega
        calc (A.HALF_WORD - 1) * A.HALF_WORD + A.HALF_WORD
            = (A.HALF_WORD - 1 + 1) * A.HALF_WORD := by ring
          _ = _ := by rw [this]
      rw [hB]; omega
    obtain ⟨i1, i2, i3, i4⟩ := ih pu2 ((r1 / D) * A.HALF_WORD) (by omega) hok2 hq2
    refine ⟨by rw [i1, hlen2], i2, i3, ?_⟩
    rw [i4, hpu2n]
    rw [ht, hd, wordsVal_take_succ A pu n, pow_succ, ← hw0e]
    have e1 := Nat.mod_add_div w1 D
    have e2 := Nat.mod_add_div r1 D
    have e3 := Nat.mod_add_div w0 A.HALF_WORD
    generalize wordsVal A (List.take n pu) = T
    generalize wordsVal A (List.drop (n + 1 + 1) pu) = R
    generalize A.base ^ n = P
    rw [hB]
    generalize A.HALF_WORD = b at *
    generalize w1 % D = a1 at *
    generalize w1 / D = a2 at *
    generalize r1 % D = c1 at *
    generalize r1 / D = c2 at *
    generalize w0 % b = l0 at *
    generalize w0 / b = h0 at *
    subst e4
    linear_combination P * b * e2 + P * b * b * e1 + P * e3


/-- `bignum_sdiv` leaves `floor(U / d)` in the words and returns `U mod d`, for
`0 < d < HALF_WORD`. -/
theorem bignum_sdiv_spec (A : Arch) (hA : A.Ok) (x : ScmBignum) (D : Nat) (hD0 : 0 < D)
    (hD : D < A.HALF_WORD) (hx : WordsOk A x.values) (hn : 0 < x.size) :
    (bignum_sdiv A x D).2.mag A = x.mag A / D ∧ (bignum_sdiv A x D).1 = x.mag A % D ∧
    WordsOk A (bignum_sdiv A x D).2.values ∧ (bignum_sdiv A x D).2.size = x.size ∧
    (bignum_sdiv A x D).2.sign = x.sign := by
  unfold ScmBignum.size at hn
  have hq : x.values.getD (x.values.length - 1) 0 / D + 0 < A.base :=
    lt_of_le_of_lt (by rw [add_zero]; exact Nat.div_le_self _ _) (hx.getD _)
  obtain ⟨l, ok, q, e⟩ := bignum_sdiv_loop_spec A hA D hD0 hD (x.values.length - 1) x.values 0
    (by omega) hx hq
  unfold bignum_sdiv ScmBignum.mag ScmBignum.size
  simp only
  generalize bignum_sdiv_loop A D (x.values.length - 1) x.values 0 = st at l ok q e
  have hX : wordsVal A (x.values.take (x.values.length - 1)) + A.base ^ (x.values.length - 1) *
      (x.values.getD (x.values.length - 1) 0 + D * 0
        + D * A.base * wordsVal A (x.values.drop (x.values.length - 1 + 1)))
      = wordsVal A x.values := by
    rw [List.drop_of_length_le (by omega)]
    simp only [wordsVal_nil, mul_zero, add_zero]
    rw [← wordsVal_take_succ, List.take_of_length_le (by omega)]
  rw [hX] at e
  rw [Nat.mod_eq_of_lt q]
  have hv := wordsVal_set A st.1 0 (st.1.getD 0 0 / D + st.2) (by omega)
  have hd0 := wordsVal_drop A st.1 0
  simp only [List.drop_zero, zero_add, pow_zero, mul_one] at hv hd0
  have hmd := Nat.mod_add_div (st.1.getD 0 0) D
  have hml : st.1.getD 0 0 % D < D := Nat.mod_lt _ hD0
  have key : wordsVal A x.values
      = st.1.getD 0 0 % D + D * wordsVal A (st.1.set 0 (st.1.getD 0 0 / D + st.2)) := by
    have : wordsVal A (st.1.set 0 (st.1.getD 0 0 / D + st.2))
        = st.1.getD 0 0 / D + st.2 + A.base * wordsVal A (st.1.drop 1) := by omega
    rw [this, ← e]
    linear_combination -hmd
  refine ⟨?_, ?_, ok.set _ q, by simp [l], trivial⟩
  · rw [key, Nat.add_mul_div_left _ _ hD0, Nat.div_eq_of_lt hml, zero_add]
  · rw [key, Nat.add_mul_mod_self_left, Nat.mod_eq_of_lt hml]

/-! ## Long division with a one-word divisor -/

theorem and_two_pow_ne_zero_iff (w k : Nat) : w &&& 2 ^ k ≠ 0 ↔ w.testBit k = true := by
  constructor
  · intro h
    obtain ⟨i, hi⟩ := Nat.ne_zero_implies_bit_true h
    rw [Nat.testBit_and, Nat.testBit_two_pow] at hi
    simp only [Bool.and_eq_true, decide_eq_true_eq] at hi
    rw [hi.2]; exact hi.1
  · intro h h0
    have := congrArg (fun n => Nat.testBit n k) h0
    simp [Nat.testBit_and, Nat.testBit_two_pow, h] at this

theorem lt_two_pow_of_not_testBit (w k : Nat) (hw : w < 2 ^ (k + 1)) (h : w.testBit k = false) :
    w < 2 ^ k := by
  apply Nat.lt_pow_two_of_testBit
  intro i hi
  rcases Nat.eq_or_lt_of_le hi with rfl | hlt
  · exact h
  · exact Nat.testBit_lt_two_pow (lt_of_lt_of_le hw (Nat.pow_le_pow_right (by norm_num)
      (by omega)))

theorem div_normalization_factor_loop_spec (w : Nat) (hw0 : 0 < w) (k c : Nat)
    (hw : w < 2 ^ k) :
    ∃ d, div_normalization_factor_loop w k c = some d ∧ c ≤ d ∧ d < c + k ∧
      2 ^ (c + k - 1) ≤ w * 2 ^ d ∧ w * 2 ^ d < 2 ^ (c + k) := by
  induction k generalizing c with
  | zero => simp at hw; omega
  | succ k ih =>
    unfold div_normalization_factor_loop
    by_cases hb : w &&& 2 ^ k ≠ 0
    · rw [if_pos hb]
      have hge := Nat.testBit_implies_ge ((and_two_pow_ne_zero_iff w k).1 hb)
      refine ⟨c, rfl, le_rfl, by omega, ?_, ?_⟩
      · rw [show c + (k + 1) - 1 = k + c by omega, pow_add]
        exact Nat.mul_le_mul_right _ hge
      · rw [show c + (k + 1) = (k + 1) + c by omega, pow_add (n := c)]
        exact Nat.mul_lt_mul_of_pos_right hw (by positivity)
    · rw [if_neg hb]
      have hbit : w.testBit k = false := by
        by_contra h
        exact hb ((and_two_pow_ne_zero_iff w k).2 (by simpa using h))
      obtain ⟨d, h1, h2, h3, h4, h5⟩ := ih (c + 1) (lt_two_pow_of_not_testBit w k hw hbit)
      refine ⟨d, h1, by omega, by omega, ?_, ?_⟩
      · rw [show c + (k + 1) - 1 = c + 1 + k - 1 by omega]; exact h4
      · rw [show c + (k + 1) = c + 1 + k by omega]; exact h5

/-- `div_normalization_factor` of a nonzero word returns the shift that moves its
leftmost one to the top bit. -/
theorem div_normalization_factor_spec (A : Arch) (w : Nat) (hw0 : 0 < w) (hw : w < A.base) :
    ∃ d, div_normalization_factor A w = some d ∧ d < A.WORD_BITS ∧
      2 ^ (A.WORD_BITS - 1) ≤ w * 2 ^ d ∧ w * 2 ^ d < A.base := by
  obtain ⟨d, h1, _, h3, h4, h5⟩ := div_normalization_factor_loop_spec w hw0 A.WORD_BITS 0 hw
  refine ⟨d, h1, by omega, ?_, ?_⟩
  · rw [zero_add] at h4; exact h4
  · rw [zero_add] at h5; exact h5


theorem half_sq_bounds {A : Arch} (hA : A.Ok) :
    2 * A.HALF_WORD ≤ A.base ∧ (A.HALF_WORD + 1) * (A.HALF_WORD - 1) < A.base := by
  have hB := hA.base_eq
  have hb2 := hA.two_le_half
  obtain ⟨c, hc⟩ : ∃ c, A.HALF_WORD = c + 2 := ⟨A.HALF_WORD - 2, by omega⟩
  rw [hB, hc]
  constructor
  · nlinarith
  · simp only [Nat.add_sub_cancel, show c + 2 - 1 = c + 1 by omega]
    nlinarith

/-- The correction loop of `bignum_gdiv`, for a two-digit divisor `v1 * b + v0`: from an
estimate `qq` with `qq * v1 + rr = R` that is not below the true digit `q` of
`d0 + b * R`, the loop ends on `q`. -/
theorem bignum_gdiv_correct_spec (A : Arch) (hA : A.Ok) (v1 v0 d0 R q : Nat)
    (hv1b : v1 < A.HALF_WORD) (hv0 : v0 < A.HALF_WORD)
    (hd0 : d0 < A.HALF_WORD)
    (hq1 : q * (v1 * A.HALF_WORD + v0) ≤ d0 + A.HALF_WORD * R)
    (hq2 : d0 + A.HALF_WORD * R < (q + 1) * (v1 * A.HALF_WORD + v0))
    (fuel qq rr : Nat)
    (hinv : qq * v1 + rr = R) (hge : q ≤ qq)
    (hle : qq ≤ A.HALF_WORD + 1) (hfuel : A.HALF_WORD ≤ rr + fuel * v1) :
    (bignum_gdiv_correct A v1 v0 d0 fuel qq rr).1 = q := by
  have hB := hA.base_eq
  have hb2 := hA.two_le_half
  obtain ⟨hB2, hB3⟩ := half_sq_bounds hA
  -- the estimate is exact as soon as `qq * v0 ≤ rr * b + d0`
  have hexact : ∀ t r : Nat, t * v1 + r = R → q ≤ t →
      t * v0 ≤ r * A.HALF_WORD + d0 → t = q := by
    intro t r h1 h2 h3
    apply le_antisymm _ h2
    by_contra hcon
    have h4 : q + 1 ≤ t := by omega
    have h5 : (q + 1) * (v1 * A.HALF_WORD + v0) ≤ t * (v1 * A.HALF_WORD + v0) :=
      Nat.mul_le_mul_right _ h4
    have h6 : t * (v1 * A.HALF_WORD + v0) ≤ d0 + A.HALF_WORD * R := by
      rw [← h1]; nlinarith
    omega
  have hqvb : ∀ t, t ≤ A.HALF_WORD + 1 → t * v0 < A.base := by
    intro t ht
    calc t * v0 ≤ (A.HALF_WORD + 1) * (A.HALF_WORD - 1) := Nat.mul_le_mul ht (by omega)
      _ < A.base := hB3
  have hrbb : ∀ r, r < A.HALF_WORD → r * A.HALF_WORD + d0 < A.base := by
    intro r hr
    rw [hB]
    calc r * A.HALF_WORD + d0 < r * A.HALF_WORD + A.HALF_WORD := by omega
      _ = (r + 1) * A.HALF_WORD := by ring
      _ ≤ A.HALF_WORD * A.HALF_WORD := Nat.mul_le_mul_right _ hr
  have hbig : ∀ t r, t ≤ A.HALF_WORD + 1 → A.HALF_WORD ≤ r →
      t * v0 ≤ r * A.HALF_WORD + d0 := by
    intro t r ht hr
    have h1 := hqvb t ht
    have h2 : A.HALF_WORD * A.HALF_WORD ≤ r * A.HALF_WORD := Nat.mul_le_mul_right _ hr
    rw [hB] at h1
    omega
  induction fuel generalizing qq rr with
  | zero =>
    simp only [bignum_gdiv_correct]
    simp only [zero_mul, add_zero] at hfuel
    exact hexact qq rr hinv hge (hbig qq rr hle hfuel)
  | succ fuel ih =>
    unfold bignum_gdiv_correct
    split
    · rename_i hc
      obtain ⟨hc1, hc2⟩ := hc
      rw [Nat.mod_eq_of_lt (hqvb qq hle), shl_half_raw, Nat.mod_eq_of_lt (hrbb rr hc2)] at hc1
      have hgt : q < qq := by
        by_contra hcon
        have hqq : qq = q := by omega
        rw [hqq] at hc1 hinv
        have : q * (v1 * A.HALF_WORD + v0) ≤ d0 + A.HALF_WORD * R := hq1
        rw [← hinv] at this
        nlinarith
      have hq1' : (qq + A.base - 1) % A.base = qq - 1 := by
        have : qq + A.base - 1 = (qq - 1) + A.base := by omega
        rw [this, Nat.add_mod_right, Nat.mod_eq_of_lt (by omega)]
      have hr1 : (rr + v1) % A.base = rr + v1 := Nat.mod_eq_of_lt (by omega)
      rw [hq1', hr1]
      apply ih (qq - 1) (rr + v1)
      · obtain ⟨q', rfl⟩ : ∃ q', qq = q' + 1 := ⟨qq - 1, by omega⟩
        simp only [Nat.add_sub_cancel]
        rw [← hinv]; ring
      · omega
      · omega
      · calc A.HALF_WORD ≤ rr + (fuel + 1) * v1 := hfuel
          _ = rr + v1 + fuel * v1 := by ring
    · rename_i hc
      apply hexact qq rr hinv hge
      by_cases hr : rr < A.HALF_WORD
      · rw [Nat.mod_eq_of_lt (hqvb qq hle), shl_half_raw, Nat.mod_eq_of_lt (hrbb rr hr)] at hc
        by_contra hcon
        exact hc ⟨by omega, hr⟩
      · exact hbig qq rr hle (by omega)

/-- The quotient digit that enters the multiply-and-subtract step of `bignum_gdiv` is the
true digit, for a normalized two-digit divisor `v1 * b + v0` and a running remainder
`R` below the divisor. -/
theorem bignum_gdiv_estimate (A : Arch) (hA : A.Ok) (v1 v0 d0 R : Nat)
    (hv1 : A.HALF_WORD ≤ 2 * v1) (hv1b : v1 < A.HALF_WORD) (hv0 : v0 < A.HALF_WORD)
    (hd0 : d0 < A.HALF_WORD) (hR : R < v1 * A.HALF_WORD + v0) :
    (bignum_gdiv_correct A v1 v0 d0 (A.HALF_WORD + 1)
        (if R / v1 = A.HALF_WORD then (R / v1 - 1, (R % v1 + v1) % A.base)
          else (R / v1, R % v1)).1
        (if R / v1 = A.HALF_WORD then (R / v1 - 1, (R % v1 + v1) % A.base)
          else (R / v1, R % v1)).2).1
      = (d0 + A.HALF_WORD * R) / (v1 * A.HALF_WORD + v0) ∧
    (d0 + A.HALF_WORD * R) / (v1 * A.HALF_WORD + v0) < A.HALF_WORD := by
  have hb2 := hA.two_le_half
  obtain ⟨hB2, hB3⟩ := half_sq_bounds hA
  have hv1pos : 0 < v1 := by omega
  have hVpos : 0 < v1 * A.HALF_WORD + v0 := by
    have := Nat.mul_pos hv1pos A.HALF_WORD_pos
    omega
  obtain ⟨q, hq⟩ : ∃ q, q = (d0 + A.HALF_WORD * R) / (v1 * A.HALF_WORD + v0) := ⟨_, rfl⟩
  have hq1 : q * (v1 * A.HALF_WORD + v0) ≤ d0 + A.HALF_WORD * R := by
    rw [hq]; exact Nat.div_mul_le_self _ _
  have hq2 : d0 + A.HALF_WORD * R < (q + 1) * (v1 * A.HALF_WORD + v0) := by
    have h := Nat.lt_mul_div_succ (d0 + A.HALF_WORD * R) hVpos
    rw [hq]; linarith [h]
  have hqb : q < A.HALF_WORD := by
    by_contra hcon
    have h1 : A.HALF_WORD * (v1 * A.HALF_WORD + v0) ≤ q * (v1 * A.HALF_WORD + v0) :=
      Nat.mul_le_mul_right _ (by omega)
    have h2 : d0 + A.HALF_WORD * R < A.HALF_WORD * (v1 * A.HALF_WORD + v0) := by
      have : A.HALF_WORD * (R + 1) ≤ A.HALF_WORD * (v1 * A.HALF_WORD + v0) :=
        Nat.mul_le_mul_left _ hR
      nlinarith
    omega
  have hmd := Nat.div_add_mod R v1
  have hml : R % v1 < v1 := Nat.mod_lt _ hv1pos
  have hge : q ≤ R / v1 := by
    rw [Nat.le_div_iff_mul_le hv1pos]
    by_contra hcon
    have h1 : R + 1 ≤ q * v1 := by omega
    have h2 : A.HALF_WORD * (R + 1) ≤ A.HALF_WORD * (q * v1) := Nat.mul_le_mul_left _ h1
    nlinarith
  have hle : R / v1 ≤ A.HALF_WORD + 1 := by
    by_contra hcon
    have h1 : A.HALF_WORD + 2 ≤ R / v1 := by omega
    have h2 : v1 * (A.HALF_WORD + 2) ≤ v1 * (R / v1) := Nat.mul_le_mul_left _ h1
    have h3 : v1 * (A.HALF_WORD + 2) = v1 * A.HALF_WORD + 2 * v1 := by ring
    generalize v1 * A.HALF_WORD = P at *
    generalize v1 * (R / v1) = T at *
    omega
  have hfu : A.HALF_WORD + 1 ≤ (A.HALF_WORD + 1) * v1 := Nat.le_mul_of_pos_right _ hv1pos
  rw [← hq]
  refine ⟨?_, hqb⟩
  split
  · rename_i heq
    have hr : (R % v1 + v1) % A.base = R % v1 + v1 := Nat.mod_eq_of_lt (by omega)
    simp only
    rw [hr]
    apply bignum_gdiv_correct_spec A hA v1 v0 d0 R q hv1b hv0 hd0 hq1 hq2
    · rw [heq] at hmd ⊢
      obtain ⟨c, hc⟩ : ∃ c, A.HALF_WORD = c + 1 := ⟨A.HALF_WORD - 1, by omega⟩
      rw [hc] at hmd ⊢
      simp only [Nat.add_sub_cancel]
      linarith [hmd]
    · omega
    · omega
    · omega
  · simp only
    apply bignum_gdiv_correct_spec A hA v1 v0 d0 R q hv1b hv0 hd0 hq1 hq2
    · linarith [hmd]
    · exact hge
    · exact hle
    · omega


/-- One subtraction of the multiply-and-subtract loop, on a two-digit window: the
window loses `vv + cy`, and the borrow out is `HALF_WORD`. -/
theorem mulsub_word {A : Arch} (hA : A.Ok) (x vv cy : Nat) (hx : x < A.base)
    (hv : vv + cy < A.base) :
    (x + A.base - vv + A.base - cy) % A.base < A.base ∧
    (x + A.base - vv + A.base - cy) % A.base + vv + cy =
      x + (if (x + A.base - vv + A.base - cy) % A.base > x then A.HALF_WORD else 0)
        * A.HALF_WORD := by
  refine ⟨Nat.mod_lt _ A.base_pos, ?_⟩
  by_cases h : vv + cy ≤ x
  · have e : x + A.base - vv + A.base - cy = (x - vv - cy) + A.base + A.base := by omega
    rw [e, Nat.add_mod_right, Nat.add_mod_right, Nat.mod_eq_of_lt (by omega),
      if_neg (by omega)]
    omega
  · have e : x + A.base - vv + A.base - cy = (x + A.base - vv - cy) + A.base := by omega
    rw [e, Nat.add_mod_right, Nat.mod_eq_of_lt (by omega), if_pos (by omega), ← hA.base_eq]
    omega

theorem half_mul_bound (b x y : Nat) (hb : 2 ≤ b) (hx : x < b) (hy : y < b) :
    x * y + b < b * b := by
  obtain ⟨c, rfl⟩ := Nat.exists_eq_add_of_le hb
  have : x * y ≤ (c + 1) * (c + 1) := Nat.mul_le_mul (by omega) (by omega)
  nlinarith

theorem getD_set_ne (l : List Nat) (i k v : Nat) (h : i ≠ k) :
    (l.set i v).getD k 0 = l.getD k 0 := by
  simp [List.getD_eq_getElem?_getD, List.getElem?_set_ne h]

/-- The multiply-and-subtract loop of `bignum_gdiv` for a one-word divisor `V` (two
digits) and a digit `Q`: the three digits of `u` from `j` lose `Q * V`, up to the
borrow out. -/
theorem bignum_gdiv_mulsub_two (A : Arch) (hA : A.Ok) (V : Nat) (hV : V < A.base)
    (u : List Nat) (hu : WordsOk A u) (j Q : Nat) (hQ : Q < A.HALF_WORD)
    (hju : (j + 2) / 2 < u.length) :
    WordsOk A (bignum_gdiv_mulsub A [V] Q j u 2 0 0).1 ∧
    (bignum_gdiv_mulsub A [V] Q j u 2 0 0).1.length = u.length ∧
    (digitsOf A (bignum_gdiv_mulsub A [V] Q j u 2 0 0).1).take j = (digitsOf A u).take j ∧
    ∃ N2 c, N2 < A.HALF_WORD * A.base ∧
      (bignum_gdiv_mulsub A [V] Q j u 2 0 0).2 = c * A.HALF_WORD ∧
      N2 + Q * V = (digitsOf A u).getD j 0 + A.HALF_WORD * (digitsOf A u).getD (j + 1) 0
        + A.base * (digitsOf A u).getD (j + 2) 0 + c * (A.HALF_WORD * A.base) ∧
      wordsVal A (bignum_gdiv_mulsub A [V] Q j u 2 0 0).1
          + ((digitsOf A u).getD j 0 + A.HALF_WORD * (digitsOf A u).getD (j + 1) 0
            + A.base * (digitsOf A u).getD (j + 2) 0) * A.HALF_WORD ^ j
        = wordsVal A u + N2 * A.HALF_WORD ^ j := by
  have hB := hA.base_eq
  have hb2 := hA.two_le_half
  have hVok : WordsOk A [V] := by
    intro w hw; simp at hw; rw [hw]; exact hV
  have hv0 : DIGIT A [V] 0 = V % A.HALF_WORD := by
    rw [DIGIT_eq hA hVok]; simp [digitsOf]
  have hv1 : DIGIT A [V] 1 = V / A.HALF_WORD := by
    rw [DIGIT_eq hA hVok]; simp [digitsOf]
  have hv0lt : V % A.HALF_WORD < A.HALF_WORD := Nat.mod_lt _ A.HALF_WORD_pos
  have hv1lt : V / A.HALF_WORD < A.HALF_WORD := div_half_lt hA hV
  have hVsplit := Nat.mod_add_div V A.HALF_WORD
  have hdlen := digitsOf_length A u
  have hdok := digitsOf_ok hA hu
  have hqv0 : Q * (V % A.HALF_WORD) < A.base := by
    rw [hB]; exact Nat.mul_lt_mul'' hQ hv0lt
  have hqv1 : Q * (V / A.HALF_WORD) + A.HALF_WORD < A.base := by
    rw [hB]; exact half_mul_bound _ _ _ hb2 hQ hv1lt
  -- the two turns of the loop, named
  obtain ⟨w0, hw0def⟩ : ∃ w0, w0 =
      (DIGIT2 A u j + A.base - (Q * DIGIT A [V] 0) % A.base + A.base - 0) % A.base := ⟨_, rfl⟩
  obtain ⟨c0, hc0⟩ : ∃ c0, c0 = if w0 > DIGIT2 A u j then A.HALF_WORD else 0 := ⟨_, rfl⟩
  obtain ⟨u1, hu1⟩ : ∃ u1, u1 = SETDIGIT2 A u j w0 := ⟨_, rfl⟩
  obtain ⟨w1, hw1def⟩ : ∃ w1, w1 =
      (DIGIT2 A u1 (j + 1) + A.base - (Q * DIGIT A [V] 1) % A.base + A.base - c0) % A.base :=
    ⟨_, rfl⟩
  obtain ⟨c1, hc1⟩ : ∃ c1, c1 = if w1 > DIGIT2 A u1 (j + 1) then A.HALF_WORD else 0 :=
    ⟨_, rfl⟩
  obtain ⟨u2, hu2⟩ : ∃ u2, u2 = SETDIGIT2 A u1 (j + 1) w1 := ⟨_, rfl⟩
  have hres : bignum_gdiv_mulsub A [V] Q j u 2 0 0 = (u2, c1) := by
    rw [hu2, hc1, hw1def, hu1, hc0, hw0def]; rfl
  rw [hres]
  simp only
  rw [hv0, Nat.mod_eq_of_lt hqv0] at hw0def
  rw [hv1, Nat.mod_eq_of_lt (by omega : Q * (V / A.HALF_WORD) < A.base)] at hw1def
  have hx0 : DIGIT2 A u j < A.base := by
    rw [DIGIT2_eq hA hu]
    have h1 := hdok.getD j
    have h2 := hdok.getD (j + 1)
    rw [A.half_base] at h1 h2
    have := hi_lo_lt hA h2 h1
    linarith
  obtain ⟨hw0, he0⟩ := mulsub_word hA (DIGIT2 A u j) (Q * (V % A.HALF_WORD)) 0 hx0
    (by omega)
  rw [← hw0def, ← hc0] at he0
  rw [← hw0def] at hw0
  simp only [add_zero] at he0
  obtain ⟨hd1, hok1, hl1⟩ := SETDIGIT2_eq hA hu j w0 hw0 (by omega)
  rw [← hu1] at hd1 hok1 hl1
  have hc0' : c0 = 0 ∨ c0 = A.HALF_WORD := by
    rw [hc0]; split <;> simp
  have hx1 : DIGIT2 A u1 (j + 1) < A.base := by
    rw [DIGIT2_eq hA hok1]
    have h1 := (digitsOf_ok hA hok1).getD (j + 1)
    have h2 := (digitsOf_ok hA hok1).getD (j + 1 + 1)
    rw [A.half_base] at h1 h2
    have := hi_lo_lt hA h2 h1
    linarith
  obtain ⟨hw1, he1⟩ := mulsub_word hA (DIGIT2 A u1 (j + 1)) (Q * (V / A.HALF_WORD)) c0 hx1
    (by rcases hc0' with h | h <;> rw [h] <;> omega)
  rw [← hw1def, ← hc1] at he1
  rw [← hw1def] at hw1
  obtain ⟨hd2, hok2, hl2⟩ := SETDIGIT2_eq hA hok1 (j + 1) w1 hw1 (by omega)
  rw [← hu2] at hd2 hok2 hl2
  have hc1' : ∃ c, c1 = c * A.HALF_WORD ∧ c1 * A.HALF_WORD = c * A.base := by
    by_cases h : w1 > DIGIT2 A u1 (j + 1)
    · exact ⟨1, by rw [hc1, if_pos h, one_mul], by rw [hc1, if_pos h, one_mul, hB]⟩
    · exact ⟨0, by rw [hc1, if_neg h, zero_mul], by rw [hc1, if_neg h, zero_mul, zero_mul]⟩
  obtain ⟨c, hc1e, hc1m⟩ := hc1'
  -- digits
  have e0 : DIGIT2 A u j = (digitsOf A u).getD j 0
      + A.HALF_WORD * (digitsOf A u).getD (j + 1) 0 := DIGIT2_eq hA hu j
  have e1 : DIGIT2 A u1 (j + 1) = w0 / A.HALF_WORD
      + A.HALF_WORD * (digitsOf A u).getD (j + 2) 0 := by
    rw [DIGIT2_eq hA hok1, hd1, getD_set_eq _ _ _ (by simp; omega),
      getD_set_ne _ _ _ _ (by omega), getD_set_ne _ _ _ _ (by omega)]
  refine ⟨hok2, by omega, ?_, ?_⟩
  · rw [hd2, hd1, take_set_ge _ _ _ _ (by omega), take_set_ge _ _ _ _ (by omega),
      take_set_ge _ _ _ _ (by omega), take_set_ge _ _ _ _ (by omega)]
  · refine ⟨w0 % A.HALF_WORD + A.HALF_WORD * w1, c, ?_, hc1e, ?_, ?_⟩
    · have := Nat.mod_lt w0 A.HALF_WORD_pos
      calc w0 % A.HALF_WORD + A.HALF_WORD * w1 < A.HALF_WORD * (w1 + 1) := by
            rw [mul_add]; omega
        _ ≤ A.HALF_WORD * A.base := Nat.mul_le_mul_left _ hw1
    · have hw0s := Nat.mod_add_div w0 A.HALF_WORD
      rw [e0] at he0
      rw [e1] at he1
      rw [hc1m] at he1
      have hc0m : c0 * A.HALF_WORD = A.HALF_WORD * c0 := mul_comm _ _
      rw [hB] at he1 ⊢
      linear_combination he0 + A.HALF_WORD * he1 + hw0s - Q * hVsplit
    · rw [← digitsOf_val hA u2, ← digitsOf_val hA u, hd2, hd1]
      have s1 := wordsVal_set A.half (digitsOf A u) j (w0 % A.HALF_WORD) (by omega)
      have s2 := wordsVal_set A.half ((digitsOf A u).set j (w0 % A.HALF_WORD)) (j + 1)
        (w0 / A.HALF_WORD) (by simp; omega)
      have s3 := wordsVal_set A.half
        (((digitsOf A u).set j (w0 % A.HALF_WORD)).set (j + 1) (w0 / A.HALF_WORD)) (j + 1)
        (w1 % A.HALF_WORD) (by simp; omega)
      have s4 := wordsVal_set A.half
        ((((digitsOf A u).set j (w0 % A.HALF_WORD)).set (j + 1) (w0 / A.HALF_WORD)).set (j + 1)
          (w1 % A.HALF_WORD)) (j + 1 + 1) (w1 / A.HALF_WORD) (by simp; omega)
      rw [getD_set_ne _ _ _ _ (by omega)] at s2
      rw [getD_set_eq _ _ _ (by simp; omega)] at s3
      rw [getD_set_ne _ _ _ _ (by omega), getD_set_ne _ _ _ _ (by omega),
        getD_set_ne _ _ _ _ (by omega)] at s4
      rw [A.half_base] at s1 s2 s3 s4
      have hw1s := Nat.mod_add_div w1 A.HALF_WORD
      rw [hB]
      simp only [pow_succ] at s2 s3 s4
      linear_combination s1 + s2 + s3 + s4 + A.HALF_WORD ^ j * A.HALF_WORD * hw1s


theorem half_even {A : Arch} (hA : A.Ok) : ∃ h, A.HALF_WORD = 2 * h := by
  refine ⟨2 ^ (A.HALF_BITS - 1), ?_⟩
  unfold Arch.HALF_WORD
  rw [← pow_succ', show A.HALF_BITS - 1 + 1 = A.HALF_BITS by have := hA.pos; omega]

/-- One turn of the main loop of `bignum_gdiv` for a normalized one-word divisor `V`:
the digit stored is the true quotient digit and `u` loses that multiple of `V`. -/
theorem bignum_gdiv_step_spec (A : Arch) (hA : A.Ok) (V : Nat) (hV : V < A.base)
    (hVn : A.base ≤ 2 * V) (u q : List Nat) (hu : WordsOk A u) (hq : WordsOk A q) (j : Nat)
    (hju : (j + 2) / 2 < u.length) (hjq : j / 2 < q.length)
    (hinv : wordsVal A.half ((digitsOf A u).drop (j + 1)) < V) :
    WordsOk A (bignum_gdiv_step A [V] 2 (DIGIT A [V] 1) (DIGIT A [V] 0) j u q).1 ∧
    (bignum_gdiv_step A [V] 2 (DIGIT A [V] 1) (DIGIT A [V] 0) j u q).1.length = u.length ∧
    WordsOk A (bignum_gdiv_step A [V] 2 (DIGIT A [V] 1) (DIGIT A [V] 0) j u q).2 ∧
    (bignum_gdiv_step A [V] 2 (DIGIT A [V] 1) (DIGIT A [V] 0) j u q).2.length = q.length ∧
    wordsVal A.half
      ((digitsOf A (bignum_gdiv_step A [V] 2 (DIGIT A [V] 1) (DIGIT A [V] 0) j u q).1).drop j)
      < V ∧
    ∃ Q, Q < A.HALF_WORD ∧
      digitsOf A (bignum_gdiv_step A [V] 2 (DIGIT A [V] 1) (DIGIT A [V] 0) j u q).2
        = (digitsOf A q).set j Q ∧
      wordsVal A u
        = wordsVal A (bignum_gdiv_step A [V] 2 (DIGIT A [V] 1) (DIGIT A [V] 0) j u q).1
          + Q * V * A.HALF_WORD ^ j := by
  have hB := hA.base_eq
  have hb2 := hA.two_le_half
  have hbpos := A.HALF_WORD_pos
  have hVok : WordsOk A [V] := by
    intro w hw; simp at hw; rw [hw]; exact hV
  have hv0 : DIGIT A [V] 0 = V % A.HALF_WORD := by
    rw [DIGIT_eq hA hVok]; simp [digitsOf]
  have hv1 : DIGIT A [V] 1 = V / A.HALF_WORD := by
    rw [DIGIT_eq hA hVok]; simp [digitsOf]
  have hv0lt : V % A.HALF_WORD < A.HALF_WORD := Nat.mod_lt _ hbpos
  have hv1lt : V / A.HALF_WORD < A.HALF_WORD := div_half_lt hA hV
  have hVsplit := Nat.div_add_mod V A.HALF_WORD
  have hVs : V / A.HALF_WORD * A.HALF_WORD + V % A.HALF_WORD = V := by
    rw [mul_comm]; exact hVsplit
  have hdlen := digitsOf_length A u
  have hdok := digitsOf_ok hA hu
  -- the digits of the window
  obtain ⟨d0, hd0⟩ : ∃ d0, d0 = (digitsOf A u).getD j 0 := ⟨_, rfl⟩
  obtain ⟨d1, hd1⟩ : ∃ d1, d1 = (digitsOf A u).getD (j + 1) 0 := ⟨_, rfl⟩
  obtain ⟨d2, hd2⟩ : ∃ d2, d2 = (digitsOf A u).getD (j + 2) 0 := ⟨_, rfl⟩
  have hd0lt : d0 < A.HALF_WORD := by rw [hd0]; exact hdok.getD j
  have hd1lt : d1 < A.HALF_WORD := by rw [hd1]; exact hdok.getD (j + 1)
  have hd2lt : d2 < A.HALF_WORD := by rw [hd2]; exact hdok.getD (j + 2)
  have hR : d2 * A.HALF_WORD + d1 < V ∧ wordsVal A.half ((digitsOf A u).drop (j + 3)) = 0 := by
    rw [wordsVal_drop, wordsVal_drop A.half _ (j + 1 + 1), A.half_base, ← hd1,
      show j + 1 + 1 = j + 2 by omega, ← hd2, show j + 2 + 1 = j + 3 by omega] at hinv
    generalize wordsVal A.half ((digitsOf A u).drop (j + 3)) = T at hinv
    have hT : T = 0 := by
      by_contra hT
      have h1 : A.HALF_WORD * 1 ≤ A.HALF_WORD * T := Nat.mul_le_mul_left _ (by omega)
      have h2 : A.HALF_WORD * A.HALF_WORD ≤ A.HALF_WORD * (d2 + A.HALF_WORD * T) :=
        Nat.mul_le_mul_left _ (by omega)
      omega
    subst hT
    simp only [mul_zero, add_zero] at hinv
    exact ⟨by rw [mul_comm]; omega, rfl⟩
  obtain ⟨hRV, hT⟩ := hR
  have hRB : d2 * A.HALF_WORD + d1 < A.base := hi_lo_lt hA hd2lt hd1lt
  -- the estimate
  have hv1n : A.HALF_WORD ≤ 2 * (V / A.HALF_WORD) := by
    obtain ⟨h, hh⟩ := half_even hA
    have h1 : h * A.HALF_WORD ≤ V := by
      have : 2 * (h * A.HALF_WORD) ≤ 2 * V := by
        calc 2 * (h * A.HALF_WORD) = A.HALF_WORD * A.HALF_WORD := by rw [hh]; ring
          _ = A.base := hB.symm
          _ ≤ 2 * V := hVn
      omega
    have h2 : h ≤ V / A.HALF_WORD := (Nat.le_div_iff_mul_le hbpos).2 h1
    omega
  obtain ⟨hest, hQlt⟩ := bignum_gdiv_estimate A hA (V / A.HALF_WORD) (V % A.HALF_WORD) d0
    (d2 * A.HALF_WORD + d1) hv1n hv1lt hv0lt hd0lt (by rw [hVs]; exact hRV)
  rw [hVs] at hest hQlt
  obtain ⟨Q, hQ⟩ : ∃ Q, Q = (d0 + A.HALF_WORD * (d2 * A.HALF_WORD + d1)) / V := ⟨_, rfl⟩
  rw [← hQ] at hest hQlt
  have huu : ((DIGIT A u (j + 2) <<< A.HALF_BITS) + DIGIT A u (j + 2 - 1)) % A.base
      = d2 * A.HALF_WORD + d1 := by
    rw [DIGIT_eq hA hu, DIGIT_eq hA hu, shl_half_raw, show j + 2 - 1 = j + 1 by omega,
      ← hd1, ← hd2, Nat.mod_eq_of_lt hRB]
  have hdj : DIGIT A u (j + 2 - 2) = d0 := by
    rw [DIGIT_eq hA hu, show j + 2 - 2 = j by omega, ← hd0]
  obtain ⟨mok, mlen, mtake, N2, c, hN2, hcy, hval, hwv⟩ :=
    bignum_gdiv_mulsub_two A hA V hV u hu j Q hQlt hju
  rw [← hd0, ← hd1, ← hd2] at hval hwv
  -- no borrow is left
  have hVpos : 0 < V := by omega
  have hN : d0 + A.HALF_WORD * d1 + A.base * d2
      = d0 + A.HALF_WORD * (d2 * A.HALF_WORD + d1) := by rw [hB]; ring
  rw [hN] at hval hwv
  have hQV : Q * V ≤ d0 + A.HALF_WORD * (d2 * A.HALF_WORD + d1) := by
    rw [hQ]; exact Nat.div_mul_le_self _ _
  have hQV2 : d0 + A.HALF_WORD * (d2 * A.HALF_WORD + d1) < Q * V + V := by
    have h := Nat.lt_mul_div_succ (d0 + A.HALF_WORD * (d2 * A.HALF_WORD + d1)) hVpos
    rw [hQ]; linarith [h]
  have hc : c = 0 := by
    by_contra hc
    have : 1 * (A.HALF_WORD * A.base) ≤ c * (A.HALF_WORD * A.base) :=
      Nat.mul_le_mul_right _ (by omega)
    omega
  subst hc
  simp only [zero_mul, add_zero] at hval hcy
  have hN2V : N2 < V := by omega
  have hstep : bignum_gdiv_step A [V] 2 (DIGIT A [V] 1) (DIGIT A [V] 0) j u q
      = ((bignum_gdiv_mulsub A [V] Q j u 2 0 0).1, SETDIGIT A q j Q) := by
    unfold bignum_gdiv_step
    simp only
    rw [huu, hdj, hv1, hv0, hest, if_neg (by rw [hcy]; simp)]
  rw [hstep]
  simp only
  obtain ⟨sd, sok, slen⟩ := SETDIGIT_eq hA hq j Q hjq
  rw [Nat.mod_eq_of_lt hQlt] at sd
  have hlen2 : j ≤ (digitsOf A (bignum_gdiv_mulsub A [V] Q j u 2 0 0).1).length := by
    rw [digitsOf_length, mlen]; omega
  have hsplit1 := wordsVal_eq_take_add_drop A.half
    (digitsOf A (bignum_gdiv_mulsub A [V] Q j u 2 0 0).1) j hlen2
  have hsplit0 := wordsVal_eq_take_add_drop A.half (digitsOf A u) j (by omega)
  rw [mtake, digitsOf_val hA, A.half_base] at hsplit1
  rw [digitsOf_val hA, A.half_base] at hsplit0
  have hdrop0 : wordsVal A.half ((digitsOf A u).drop j)
      = d0 + A.HALF_WORD * (d2 * A.HALF_WORD + d1) := by
    rw [wordsVal_drop, wordsVal_drop A.half _ (j + 1), wordsVal_drop A.half _ (j + 1 + 1),
      A.half_base, ← hd0, ← hd1, show j + 1 + 1 = j + 2 by omega, ← hd2,
      show j + 2 + 1 = j + 3 by omega, hT]
    ring
  rw [hdrop0] at hsplit0
  have hpow : 0 < A.HALF_WORD ^ j := by positivity
  have hdrop1 : wordsVal A.half
      ((digitsOf A (bignum_gdiv_mulsub A [V] Q j u 2 0 0).1).drop j) = N2 := by
    apply Nat.eq_of_mul_eq_mul_left hpow
    linear_combination hwv + hsplit0 - hsplit1
  refine ⟨mok, mlen, sok, slen, by rw [hdrop1]; exact hN2V, Q, hQlt, sd, ?_⟩
  rw [← hval, add_mul] at hwv
  omega

theorem getD_of_drop (l : List Nat) (c : Nat) : l.getD c 0 = (l.drop c).getD 0 0 := by
  simp [List.getD_eq_getElem?_getD, List.getElem?_drop]

theorem drop_succ_set (l : List Nat) (c v : Nat) : (l.set c v).drop (c + 1) = l.drop (c + 1) := by
  induction l generalizing c with
  | nil => simp
  | cons a l ih =>
    match c with
    | 0 => simp
    | c + 1 => simp only [List.set_cons_succ, List.drop_succ_cons]; exact ih c

theorem drop_succ_of_drop (l m : List Nat) (c : Nat) (h : l.drop c = m.drop c) :
    l.drop (c + 1) = m.drop (c + 1) := by
  rw [← List.drop_drop, ← List.drop_drop, h]

/-- The main loop of `bignum_gdiv` for a normalized one-word divisor `V`, from the
counter `c`: the digits below `c` of the quotient and the remainder left in `u`. -/
theorem bignum_gdiv_loop_spec (A : Arch) (hA : A.Ok) (V : Nat) (hV : V < A.base)
    (hVn : A.base ≤ 2 * V) (c : Nat) (u q : List Nat) (hu : WordsOk A u) (hq : WordsOk A q)
    (hcu : c + 1 < 2 * u.length) (hcq : c ≤ 2 * q.length)
    (hinv : wordsVal A.half ((digitsOf A u).drop c) < V) :
    WordsOk A (bignum_gdiv_loop A [V] 2 (DIGIT A [V] 1) (DIGIT A [V] 0) c u q).1 ∧
    (bignum_gdiv_loop A [V] 2 (DIGIT A [V] 1) (DIGIT A [V] 0) c u q).1.length = u.length ∧
    WordsOk A (bignum_gdiv_loop A [V] 2 (DIGIT A [V] 1) (DIGIT A [V] 0) c u q).2 ∧
    (bignum_gdiv_loop A [V] 2 (DIGIT A [V] 1) (DIGIT A [V] 0) c u q).2.length = q.length ∧
    wordsVal A (bignum_gdiv_loop A [V] 2 (DIGIT A [V] 1) (DIGIT A [V] 0) c u q).1 < V ∧
    wordsVal A u =
      V * wordsVal A.half
          ((digitsOf A (bignum_gdiv_loop A [V] 2 (DIGIT A [V] 1) (DIGIT A [V] 0) c u q).2).take c)
        + wordsVal A (bignum_gdiv_loop A [V] 2 (DIGIT A [V] 1) (DIGIT A [V] 0) c u q).1 ∧
    (digitsOf A (bignum_gdiv_loop A [V] 2 (DIGIT A [V] 1) (DIGIT A [V] 0) c u q).2).drop c
      = (digitsOf A q).drop c := by
  induction c generalizing u q with
  | zero =>
    simp only [bignum_gdiv_loop, List.drop_zero, List.take_zero, wordsVal_nil, mul_zero,
      zero_add, and_true, true_and]
    rw [List.drop_zero, digitsOf_val hA] at hinv
    exact ⟨hu, hq, hinv⟩
  | succ c ih =>
    obtain ⟨sok, slen, qok, qlen, sinv, Q, hQ, sd, sval⟩ :=
      bignum_gdiv_step_spec A hA V hV hVn u q hu hq c (by omega) (by omega) hinv
    simp only [bignum_gdiv_loop]
    generalize bignum_gdiv_step A [V] 2 (DIGIT A [V] 1) (DIGIT A [V] 0) c u q = st
      at sok slen qok qlen sinv sd sval ⊢
    obtain ⟨lok, llen, lqok, lqlen, lv, lval, ldrop⟩ :=
      ih st.1 st.2 sok qok (by omega) (by omega) sinv
    generalize bignum_gdiv_loop A [V] 2 (DIGIT A [V] 1) (DIGIT A [V] 0) c st.1 st.2 = r
      at lok llen lqok lqlen lv lval ldrop ⊢
    have hget : (digitsOf A r.2).getD c 0 = Q := by
      rw [getD_of_drop, ldrop, sd, ← getD_of_drop,
        getD_set_eq _ _ _ (by rw [digitsOf_length]; omega)]
    refine ⟨lok, by omega, lqok, by omega, lv, ?_, ?_⟩
    · rw [wordsVal_take_succ, hget, sval, lval, A.half_base]
      ring
    · rw [drop_succ_of_drop _ _ c ldrop, sd, drop_succ_set]


theorem digitsOf_replicate_zero (A : Arch) (n : Nat) :
    digitsOf A (List.replicate n 0) = List.replicate (2 * n) 0 := by
  induction n with
  | zero => rfl
  | succ n ih =>
    rw [List.replicate_succ, digitsOf, ih, show 2 * (n + 1) = 2 * n + 1 + 1 by omega,
      List.replicate_succ, List.replicate_succ]
    simp

/-- The divisor buffer of `bignum_gdiv` for a one-word divisor: the word shifted by the
normalization factor. -/
theorem bignum_lshift_one_word (A : Arch) (s : Int) (w d : Nat)
    (hd : d < A.WORD_BITS) (hw : w * 2 ^ d < A.base) :
    (bignum_lshift A (make_bignum 1) ⟨s, [w]⟩ d).values = [w * 2 ^ d] := by
  unfold bignum_lshift
  rw [Nat.div_eq_of_lt hd, Nat.mod_eq_of_lt hd]
  by_cases h0 : d = 0
  · subst h0
    simp [bignum_lshift_copy, bignum_lshift_clear, make_bignum, ScmBignum.size]
  · rw [if_neg h0]
    simp only [make_bignum, ScmBignum.size, List.length_cons, List.length_nil,
      List.replicate, zero_add, add_zero, Nat.lt_irrefl, if_false, gt_iff_lt,
      Nat.sub_self, bignum_lshift_bits, bignum_lshift_clear, List.set_cons_zero,
      List.getD_cons_zero]
    rw [Nat.shiftLeft_eq, Nat.mod_eq_of_lt hw]

theorem quot_rem_of_scaled (D dd P Qv Rv : Nat) (hP : 0 < P) (hdd : 0 < dd)
    (h : D * P = dd * P * Qv + Rv) (hR : Rv < dd * P) :
    Qv = D / dd ∧ Rv / P = D % dd := by
  have hmod : Rv % P = 0 := by
    have h1 : (D * P) % P = 0 := Nat.mul_mod_left _ _
    rw [h, show dd * P * Qv = P * (dd * Qv) by ring, Nat.mul_add_mod] at h1
    exact h1
  have hRv := Nat.div_add_mod Rv P
  rw [hmod, add_zero] at hRv
  have hr : Rv / P < dd := by
    rw [Nat.div_lt_iff_lt_mul hP]; exact hR
  have hD : D = Rv / P + dd * Qv := by
    apply Nat.eq_of_mul_eq_mul_right hP
    calc D * P = dd * P * Qv + Rv := h
      _ = dd * P * Qv + P * (Rv / P) := by rw [hRv]
      _ = (Rv / P + dd * Qv) * P := by ring
  constructor
  · rw [hD, Nat.add_mul_div_left _ _ hdd, Nat.div_eq_of_lt hr, zero_add]
  · rw [hD, Nat.add_mul_mod_self_left, Nat.mod_eq_of_lt hr]


/-- `bignum_gdiv` by a one-word divisor `dd` of at least `HALF_WORD`: the quotient
buffer holds `floor(D / dd)` and the first word of the remainder is `D mod dd`. -/
theorem bignum_gdiv_one_word (A : Arch) (hA : A.Ok) (x : ScmBignum)
    (hx : WordsOk A x.values) (hn : 0 < x.size) (s : Int) (dd : Nat)
    (hdd1 : A.HALF_WORD ≤ dd) (hdd2 : dd < A.base) :
    ∃ r q, bignum_gdiv A x ⟨s, [dd]⟩ (make_bignum (x.size + 1)) = some (r, q) ∧
      q.mag A = x.mag A / dd ∧ r.values.getD 0 0 = x.mag A % dd ∧
      WordsOk A q.values ∧ q.values ≠ [] := by
  have hB := hA.base_eq
  have hbpos := A.HALF_WORD_pos
  have hddpos : 0 < dd := by omega
  have hW := hA.even
  obtain ⟨d0, hd0, hd0W, hlow, hhigh⟩ := div_normalization_factor_spec A dd hddpos hdd2
  have hd0H : d0 < A.HALF_BITS := by
    by_contra hcon
    have h1 : 2 ^ A.HALF_BITS ≤ 2 ^ d0 := Nat.pow_le_pow_right (by norm_num) (by omega)
    have h2 : A.HALF_WORD * A.HALF_WORD ≤ dd * 2 ^ d0 := Nat.mul_le_mul hdd1 h1
    omega
  obtain ⟨V, hVdef⟩ : ∃ V, V = dd * 2 ^ d0 := ⟨_, rfl⟩
  have hV : V < A.base := by rw [hVdef]; exact hhigh
  have hVn : A.base ≤ 2 * V := by
    rw [hVdef]
    calc A.base = 2 * 2 ^ (A.WORD_BITS - 1) := by
          unfold Arch.base
          rw [← pow_succ', show A.WORD_BITS - 1 + 1 = A.WORD_BITS by
            have := hA.word_bits_pos; omega]
      _ ≤ 2 * (dd * 2 ^ d0) := Nat.mul_le_mul_left _ hlow
  -- the shifted dividend
  have hceil : (d0 + A.WORD_BITS - 1) / A.WORD_BITS ≤ 1 := by
    rw [ceil_words _ _ hA.word_bits_pos, Nat.div_eq_of_lt hd0W]
    split <;> omega
  obtain ⟨umag, usize, uok, -⟩ := bignum_lshift_spec A hA (make_bignum (x.size + 1)) x d0 hn hx
    (WordsOk.replicate_zero A _) (by rw [make_bignum_size']; omega)
  have hzero : wordsVal A ((make_bignum (x.size + 1)).values.drop
      (x.size + (d0 + A.WORD_BITS - 1) / A.WORD_BITS)) = 0 := by
    apply wordsVal_eq_zero_of_all_zero
    intro w hw
    exact (List.mem_replicate.1 (List.mem_of_mem_drop hw)).2
  rw [hzero, mul_zero, add_zero] at umag
  rw [make_bignum_size'] at usize
  have hvv := bignum_lshift_one_word A s dd d0 hd0W hhigh
  obtain ⟨u, hu⟩ : ∃ u, u = bignum_lshift A (make_bignum (x.size + 1)) x d0 := ⟨_, rfl⟩
  rw [← hu] at umag usize uok
  unfold ScmBignum.size at usize
  unfold ScmBignum.mag at umag
  -- the loop
  have hDlt : wordsVal A x.values < A.HALF_WORD ^ (2 * x.values.length) := by
    have := wordsVal_lt hx
    rw [pow_mul, sq, ← hB]; exact this
  have hdu := digitsOf_length A u.values
  have hinv : wordsVal A.half ((digitsOf A u.values).drop (2 * x.size - 1)) < V := by
    rw [wordsVal_drop_eq_div A.half _ (digitsOf_ok hA uok), digitsOf_val hA, umag, A.half_base,
      Nat.div_lt_iff_lt_mul (by positivity), hVdef]
    show wordsVal A x.values * 2 ^ d0
      < dd * 2 ^ d0 * A.HALF_WORD ^ (2 * x.values.length - 1)
    unfold ScmBignum.size at hn
    have h1 : wordsVal A x.values * 2 ^ d0 < A.HALF_WORD ^ (2 * x.values.length) * 2 ^ d0 :=
      Nat.mul_lt_mul_of_pos_right hDlt (by positivity)
    have h2 : A.HALF_WORD ^ (2 * x.values.length)
        = A.HALF_WORD * A.HALF_WORD ^ (2 * x.values.length - 1) := by
      rw [← pow_succ']; congr 1; omega
    have h3 : A.HALF_WORD * A.HALF_WORD ^ (2 * x.values.length - 1) * 2 ^ d0
        ≤ dd * 2 ^ d0 * A.HALF_WORD ^ (2 * x.values.length - 1) := by
      have := Nat.mul_le_mul_right (A.HALF_WORD ^ (2 * x.values.length - 1) * 2 ^ d0) hdd1
      calc A.HALF_WORD * A.HALF_WORD ^ (2 * x.values.length - 1) * 2 ^ d0
          = A.HALF_WORD * (A.HALF_WORD ^ (2 * x.values.length - 1) * 2 ^ d0) := by ring
        _ ≤ dd * (A.HALF_WORD ^ (2 * x.values.length - 1) * 2 ^ d0) := this
        _ = dd * 2 ^ d0 * A.HALF_WORD ^ (2 * x.values.length - 1) := by ring
    rw [h2] at h1
    exact lt_of_lt_of_le h1 h3
  have hn2 : 0 < x.size := hn
  unfold ScmBignum.size at hn
  obtain ⟨lok, llen, lqok, lqlen, lv, lval, ldrop⟩ := bignum_gdiv_loop_spec A hA V hV hVn
    (2 * x.size - 1) u.values (make_bignum (x.size + 1)).values uok
    (WordsOk.replicate_zero A _) (by unfold ScmBignum.size; omega)
    (by rw [make_bignum_size]; unfold ScmBignum.size; omega) hinv
  -- the result of the function
  have hres : bignum_gdiv A x ⟨s, [dd]⟩ (make_bignum (x.size + 1)) =
      some (bignum_rshift A
        ⟨u.sign, (bignum_gdiv_loop A [V] 2 (DIGIT A [V] 1) (DIGIT A [V] 0) (2 * x.size - 1)
          u.values (make_bignum (x.size + 1)).values).1⟩
        ⟨u.sign, (bignum_gdiv_loop A [V] 2 (DIGIT A [V] 1) (DIGIT A [V] 0) (2 * x.size - 1)
          u.values (make_bignum (x.size + 1)).values).1⟩ d0,
        ⟨(make_bignum (x.size + 1)).sign,
          (bignum_gdiv_loop A [V] 2 (DIGIT A [V] 1) (DIGIT A [V] 0) (2 * x.size - 1)
          u.values (make_bignum (x.size + 1)).values).2⟩) := by
    unfold bignum_gdiv
    simp only [show (⟨s, [dd]⟩ : ScmBignum).size = 1 from rfl, Nat.sub_self,
      List.getD_cons_zero, hd0]
    rw [if_neg (by omega), if_neg (by omega), hvv, ← hu, ← hVdef]
    have hm : ((x.size : Int) * 2 - ((1 * 2 : Nat) : Int) + 1).toNat
        = 2 * x.size - 1 := by omega
    rw [hm]
  generalize bignum_gdiv_loop A [V] 2 (DIGIT A [V] 1) (DIGIT A [V] 0) (2 * x.size - 1)
    u.values (make_bignum (x.size + 1)).values = st at lok llen lqok lqlen lv lval ldrop hres
  obtain ⟨rmag, rsize, rok, -⟩ := bignum_rshift_spec A hA ⟨u.sign, st.1⟩ ⟨u.sign, st.1⟩ d0 lok
    (by rw [Nat.div_eq_of_lt hd0W]; unfold ScmBignum.size; simp only; omega) (Nat.sub_le _ _)
  refine ⟨_, _, hres, ?_, ?_, lqok, ?_⟩
  · -- the quotient
    unfold ScmBignum.mag
    simp only
    have hq : wordsVal A st.2 = wordsVal A.half ((digitsOf A st.2).take (2 * x.size - 1)) := by
      rw [← digitsOf_val hA st.2, wordsVal_eq_take_add_drop A.half (digitsOf A st.2)
        (2 * x.size - 1) (by rw [digitsOf_length, lqlen, make_bignum_size]
                             unfold ScmBignum.size; omega), ldrop]
      have : wordsVal A.half ((digitsOf A (make_bignum (x.size + 1)).values).drop
          (2 * x.size - 1)) = 0 := by
        apply wordsVal_eq_zero_of_all_zero
        intro w hw
        have := List.mem_of_mem_drop hw
        rw [make_bignum, digitsOf_replicate_zero] at this
        exact (List.mem_replicate.1 this).2
      rw [this, mul_zero, add_zero]
    rw [← hq, umag] at lval
    exact (quot_rem_of_scaled (wordsVal A x.values) dd (2 ^ d0) (wordsVal A st.2)
      (wordsVal A st.1) (by positivity) hddpos (by rw [lval, hVdef])
      (by rw [← hVdef]; exact lv)).1
  · -- the remainder
    have hq : wordsVal A st.2 = wordsVal A.half ((digitsOf A st.2).take (2 * x.size - 1)) := by
      rw [← digitsOf_val hA st.2, wordsVal_eq_take_add_drop A.half (digitsOf A st.2)
        (2 * x.size - 1) (by rw [digitsOf_length, lqlen, make_bignum_size]
                             unfold ScmBignum.size; omega), ldrop]
      have : wordsVal A.half ((digitsOf A (make_bignum (x.size + 1)).values).drop
          (2 * x.size - 1)) = 0 := by
        apply wordsVal_eq_zero_of_all_zero
        intro w hw
        have := List.mem_of_mem_drop hw
        rw [make_bignum, digitsOf_replicate_zero] at this
        exact (List.mem_replicate.1 this).2
      rw [this, mul_zero, add_zero]
    rw [← hq, umag] at lval
    unfold ScmBignum.mag at rmag
    simp only at rmag
    have hr := (quot_rem_of_scaled (wordsVal A x.values) dd (2 ^ d0) (wordsVal A st.2)
      (wordsVal A st.1) (by positivity) hddpos (by rw [lval, hVdef])
      (by rw [← hVdef]; exact lv)).2
    rw [← rmag] at hr
    have hlt : x.mag A % dd < A.base := lt_trans (Nat.mod_lt _ hddpos) hdd2
    unfold ScmBignum.mag at hlt ⊢
    rw [← wordsVal_take_one A, wordsVal_take_eq_mod A _ rok, pow_one, hr,
      Nat.mod_eq_of_lt hlt]
  · simp only
    intro h
    rw [h] at lqlen
    rw [make_bignum_size] at lqlen
    simp at lqlen


theorem Arch.Ok.base_two_mul {A : Arch} (hA : A.Ok) : A.base = 2 * 2 ^ (A.WORD_BITS - 1) := by
  unfold Arch.base
  rw [← pow_succ', show A.WORD_BITS - 1 + 1 = A.WORD_BITS by
    have := hA.word_bits_pos; omega]

theorem Arch.LONG_MAX_succ (A : Arch) : A.LONG_MAX + 1 = 2 ^ (A.WORD_BITS - 1) := by
  unfold Arch.LONG_MAX
  have : 0 < 2 ^ (A.WORD_BITS - 1) := by positivity
  omega

/-- The remainder stored by `Scm_BignumDivSI`, `(dividend->sign < 0)? -rr : rr` read as a
`long`, is the remainder with the sign of the dividend. -/
theorem divsi_remainder (A : Arch) (hA : A.Ok) (s : Int) (hs : s = 1 ∨ s = -1) (r : Nat)
    (hr : r < 2 ^ (A.WORD_BITS - 1)) :
    (if s < 0 then toLong A ((A.base - r) % A.base) else toLong A r) = s * (r : Int) := by
  have hB := hA.base_two_mul
  have hL := A.LONG_MAX_succ
  rcases hs with rfl | rfl
  · rw [if_neg (by norm_num)]
    unfold toLong
    rw [if_pos (by omega)]; simp
  · rw [if_pos (by norm_num)]
    unfold toLong
    by_cases h0 : r = 0
    · subst h0
      simp
    · rw [Nat.mod_eq_of_lt (by omega), if_neg (by omega)]
      push_cast [Nat.cast_sub (by omega : r ≤ A.base)]
      ring

/-- The value returned by `Scm_BignumDivSI` from the magnitude quotient and remainder. -/
theorem divsi_assemble (A : Arch) (hA : A.Ok) (a : ScmBignum) (ha : Normalized A a) (d : Int)
    (hd0 : d ≠ 0) (hdlo : -(2 ^ (A.WORD_BITS - 1)) ≤ d)
    (qv : List Nat) (hq : WordsOk A qv) (hne : qv ≠ [])
    (hqv : wordsVal A qv = a.mag A / d.natAbs) (r : Nat) (hr : r = a.mag A % d.natAbs)
    (hdhi : d < 2 ^ (A.WORD_BITS - 1)) :
    (Scm_NormalizeBignum A ⟨a.sign * (if d < 0 then -1 else 1), qv⟩).IsNormal A ∧
    (Scm_NormalizeBignum A ⟨a.sign * (if d < 0 then -1 else 1), qv⟩).toInt A * d
        + (if a.sign < 0 then toLong A ((A.base - r) % A.base) else toLong A r)
      = a.toInt A ∧
    |(if a.sign < 0 then toLong A ((A.base - r) % A.base) else toLong A r)| < |d| ∧
    ((if a.sign < 0 then toLong A ((A.base - r) % A.base) else toLong A r) = 0 ∨
      Int.sign (if a.sign < 0 then toLong A ((A.base - r) % A.base) else toLong A r)
        = Int.sign (a.toInt A)) := by
  have hdpos : 0 < d.natAbs := Int.natAbs_pos.2 hd0
  have hrlt : r < d.natAbs := by rw [hr]; exact Nat.mod_lt _ hdpos
  have hdabs : d.natAbs ≤ 2 ^ (A.WORD_BITS - 1) := by
    have : (d.natAbs : Int) ≤ 2 ^ (A.WORD_BITS - 1) := by
      rw [Int.natCast_natAbs]; exact abs_le.2 ⟨hdlo, le_of_lt hdhi⟩
    exact_mod_cast this
  have hsd : (if d < 0 then (-1 : Int) else 1) = 1 ∨ (if d < 0 then (-1 : Int) else 1) = -1 := by
    split <;> simp
  have hsign : a.sign * (if d < 0 then (-1 : Int) else 1) = 1
      ∨ a.sign * (if d < 0 then (-1 : Int) else 1) = -1 := by
    rcases ha.sign with h | h <;> rcases hsd with h' | h' <;> rw [h, h'] <;> simp
  have hdd : d = (if d < 0 then (-1 : Int) else 1) * (d.natAbs : Int) := by
    split
    · rw [Int.ofNat_natAbs_of_nonpos (by omega)]; ring
    · rw [Int.natAbs_of_nonneg (by omega)]; ring
  rw [divsi_remainder A hA a.sign ha.sign r (by omega)]
  have hD := Nat.div_add_mod (a.mag A) d.natAbs
  rw [← hr, ← hqv] at hD
  have hmag := ha.mag_pos
  refine ⟨Scm_NormalizeBignum_normal A hA _ hsign hq hne, ?_, ?_, ?_⟩
  · rw [Scm_NormalizeBignum_toInt A _ (by rcases hsign with h | h <;> simp [h])]
    unfold ScmBignum.toInt ScmBignum.mag
    simp only
    have hD' : ((d.natAbs : Int)) * (wordsVal A qv : Int) + (r : Int) = (a.mag A : Int) := by
      exact_mod_cast hD
    unfold ScmBignum.mag at hD'
    have hsq : (if d < 0 then (-1 : Int) else 1) * (if d < 0 then (-1 : Int) else 1) = 1 := by
      split <;> norm_num
    calc a.sign * (if d < 0 then (-1 : Int) else 1) * (wordsVal A qv : Int) * d + a.sign * r
        = a.sign * (if d < 0 then (-1 : Int) else 1) * (wordsVal A qv : Int)
            * ((if d < 0 then (-1 : Int) else 1) * (d.natAbs : Int)) + a.sign * r := by
          rw [← hdd]
      _ = a.sign * (((if d < 0 then (-1 : Int) else 1) * (if d < 0 then (-1 : Int) else 1))
            * ((d.natAbs : Int) * (wordsVal A qv : Int)) + r) := by ring
      _ = a.sign * (wordsVal A a.values : Int) := by rw [hsq, one_mul, hD']
  · rw [abs_mul, Int.abs_eq_natAbs d]
    have : |a.sign| = 1 := by rcases ha.sign with h | h <;> simp [h]
    rw [this, one_mul, abs_of_nonneg (by positivity)]
    exact_mod_cast hrlt
  · by_cases h0 : r = 0
    · left; rw [h0]; simp
    · right
      unfold ScmBignum.toInt
      rw [Int.sign_mul, Int.sign_mul, Int.sign_natCast_of_ne_zero h0,
        Int.sign_natCast_of_ne_zero (by omega)]

/-! ## Division by a native integer -/

/-- C2: for every normalized bignum `a` and every nonzero `long` `d`,
`Scm_BignumDivSI(a, d, &rem)` returns a quotient `q` in normal form and stores `rem` with
`value(q) * d + rem = value(a)`, `|rem| < |d|`, and `rem` zero or of the sign of `a`.  The
quotient comes from `bignum_sdiv` when `|d| < HALF_WORD` and from `bignum_gdiv` (which
does not panic) otherwise. -/
theorem Scm_BignumDivSI_law (A : Arch) (hA : A.Ok) (a : ScmBignum) (ha : Normalized A a)
    (d : Int) (hd0 : d ≠ 0) (hdlo : -(2 ^ (A.WORD_BITS - 1)) ≤ d)
    (hdhi : d < 2 ^ (A.WORD_BITS - 1)) :
    ∃ q rem, Scm_BignumDivSI A a d = some (q, rem) ∧ q.IsNormal A ∧
      q.toInt A * d + rem = a.toInt A ∧ |rem| < |d| ∧
      (rem = 0 ∨ Int.sign rem = Int.sign (a.toInt A)) ∧
      (d.natAbs < A.HALF_WORD →
        q = Scm_NormalizeBignum A ⟨a.sign * (if d < 0 then -1 else 1),
          (bignum_sdiv A (Scm_BignumCopy a) d.natAbs).2.values⟩) ∧
      (A.HALF_WORD ≤ d.natAbs →
        ∃ br bq, bignum_gdiv A a (Scm_MakeBignumFromSI A (toLong A d.natAbs))
            (make_bignum (a.size + 1)) = some (br, bq) ∧
          q = Scm_NormalizeBignum A ⟨a.sign * (if d < 0 then -1 else 1), bq.values⟩) := by
  have hB := hA.base_two_mul
  have hL := A.LONG_MAX_succ
  have hdpos : 0 < d.natAbs := Int.natAbs_pos.2 hd0
  have hdabs : d.natAbs ≤ 2 ^ (A.WORD_BITS - 1) := by
    have : (d.natAbs : Int) ≤ 2 ^ (A.WORD_BITS - 1) := by
      rw [Int.natCast_natAbs]; exact abs_le.2 ⟨hdlo, le_of_lt hdhi⟩
    exact_mod_cast this
  have hdd : (if d < 0 then (-d).toNat % A.base else d.toNat % A.base) = d.natAbs := by
    have h1 : d.natAbs < A.base := by omega
    split
    · rw [show (-d).toNat = d.natAbs by omega, Nat.mod_eq_of_lt h1]
    · rw [show d.toNat = d.natAbs by omega, Nat.mod_eq_of_lt h1]
  unfold Scm_BignumDivSI
  simp only [hdd]
  by_cases hsmall : d.natAbs < A.HALF_WORD
  · rw [if_pos hsmall]
    obtain ⟨qmag, qrem, qok, qsize, -⟩ := bignum_sdiv_spec A hA (Scm_BignumCopy a) d.natAbs
      hdpos hsmall ha.words ha.size_pos
    have hne : (bignum_sdiv A (Scm_BignumCopy a) d.natAbs).2.values ≠ [] := by
      intro h
      have := ha.size_pos
      unfold ScmBignum.size at qsize this
      rw [h] at qsize
      simp only [Scm_BignumCopy, List.length_nil] at qsize
      omega
    obtain ⟨h1, h2, h3, h4⟩ := divsi_assemble A hA a ha d hd0 hdlo
      (bignum_sdiv A (Scm_BignumCopy a) d.natAbs).2.values qok hne qmag
      (bignum_sdiv A (Scm_BignumCopy a) d.natAbs).1 qrem hdhi
    exact ⟨_, _, rfl, h1, h2, h3, h4, fun _ => rfl, fun h => absurd hsmall (by omega)⟩
  · rw [if_neg hsmall]
    have hbv : ∃ s, Scm_MakeBignumFromSI A (toLong A d.natAbs) = ⟨s, [d.natAbs]⟩ := by
      unfold toLong Scm_MakeBignumFromSI
      by_cases hle : d.natAbs ≤ A.LONG_MAX
      · rw [if_pos hle, if_neg (by omega), if_neg (by omega)]
        exact ⟨1, by rw [Int.toNat_ofNat]⟩
      · rw [if_neg hle, if_pos (by omega)]
        exact ⟨-1, by rw [show A.LONG_MAX + 1 = d.natAbs by omega]⟩
    obtain ⟨s, hs⟩ := hbv
    obtain ⟨r, q, hg, qmag, rget, qok, qne⟩ := bignum_gdiv_one_word A hA a ha.words ha.size_pos
      s d.natAbs (by omega) (by omega)
    rw [hs, hg]
    simp only
    obtain ⟨h1, h2, h3, h4⟩ := divsi_assemble A hA a ha d hd0 hdlo q.values qok qne qmag
      (r.values.getD 0 0) rget hdhi
    exact ⟨_, _, rfl, h1, h2, h3, h4, fun h => absurd h hsmall, fun _ => ⟨r, q, rfl, rfl⟩⟩

set_option maxRecDepth 100000 in
/-- Witness for C2 on a 64-bit platform: `100000000000000000000` divided by `7` gives the
quotient `14285714285714285714` and the remainder `2` (through `bignum_sdiv`); divided by
`-2^63` it gives the quotient `-10` and the remainder `7766279631452241920` (through
`bignum_gdiv`). -/
theorem Scm_BignumDivSI_law_witness :
    arch64.Ok ∧ Normalized arch64 ⟨1, [100000000000000000000 % 2 ^ 64, 5]⟩ ∧
    (⟨1, [100000000000000000000 % 2 ^ 64, 5]⟩ : ScmBignum).toInt arch64
      = 100000000000000000000 ∧
    Scm_BignumDivSI arch64 ⟨1, [100000000000000000000 % 2 ^ 64, 5]⟩ 7
      = some (.big ⟨1, [14285714285714285714]⟩, 2) ∧
    Scm_BignumDivSI arch64 ⟨1, [100000000000000000000 % 2 ^ 64, 5]⟩ (-(2 ^ 63))
      = some (.int (-10), 7766279631452241920) ∧
    ∃ q rem, Scm_BignumDivSI arch64 ⟨1, [100000000000000000000 % 2 ^ 64, 5]⟩ 7
        = some (q, rem) ∧ q.IsNormal arch64 ∧
      q.toInt arch64 * 7 + rem
        = (⟨1, [100000000000000000000 % 2 ^ 64, 5]⟩ : ScmBignum).toInt arch64 ∧
      |rem| < |(7 : Int)| ∧
      (rem = 0 ∨ Int.sign rem
        = Int.sign ((⟨1, [100000000000000000000 % 2 ^ 64, 5]⟩ : ScmBignum).toInt arch64)) ∧
      ((7 : Int).natAbs < arch64.HALF_WORD →
        q = Scm_NormalizeBignum arch64 ⟨1 * (if (7 : Int) < 0 then -1 else 1),
          (bignum_sdiv arch64 (Scm_BignumCopy ⟨1, [100000000000000000000 % 2 ^ 64, 5]⟩)
            (7 : Int).natAbs).2.values⟩) ∧
      (arch64.HALF_WORD ≤ (7 : Int).natAbs →
        ∃ br bq, bignum_gdiv arch64 ⟨1, [100000000000000000000 % 2 ^ 64, 5]⟩
            (Scm_MakeBignumFromSI arch64 (toLong arch64 (7 : Int).natAbs))
            (make_bignum ((⟨1, [100000000000000000000 % 2 ^ 64, 5]⟩ : ScmBignum).size + 1))
              = some (br, bq) ∧
          q = Scm_NormalizeBignum arch64 ⟨1 * (if (7 : Int) < 0 then -1 else 1), bq.values⟩) :=
  have ha : Normalized arch64 ⟨1, [100000000000000000000 % 2 ^ 64, 5]⟩ :=
    ⟨by decide, by decide, by decide, by decide⟩
  ⟨arch64_ok, ha, by decide, by decide, by decide,
    Scm_BignumDivSI_law arch64 arch64_ok _ ha 7 (by decide) (by decide) (by decide)⟩

/-! ## Claims on normalization -/

/-- C13: for every bignum `b` of sign `1` or `-1`, with any number of leading zero
words, `Scm_NormalizeBignum(b)` denotes `sign(b) * magnitude(b)`, whether it is a fixnum
or a bignum. -/
theorem Scm_NormalizeBignum_value (A : Arch) (b : ScmBignum) (hs : b.sign = 1 ∨ b.sign = -1) :
    (Scm_NormalizeBignum A b).toInt A = b.sign * (wordsVal A b.values : Int) ∧
    (∀ n, Scm_NormalizeBignum A b = .int n → n = b.sign * (wordsVal A b.values : Int)) ∧
    (∀ c, Scm_NormalizeBignum A b = .big c →
      c.sign * (wordsVal A c.values : Int) = b.sign * (wordsVal A b.values : Int)) := by
  have h := Scm_NormalizeBignum_toInt A b (by omega)
  refine ⟨h, ?_, ?_⟩
  · intro n hn
    rw [hn] at h
    exact h
  · intro c hc
    rw [hc] at h
    exact h

/-- Witness for C13 on a 64-bit platform: `-5` held in three words is the fixnum `-5`. -/
theorem Scm_NormalizeBignum_value_witness :
    Scm_NormalizeBignum arch64 ⟨-1, [5, 0, 0]⟩ = .int (-5) ∧
    ((Scm_NormalizeBignum arch64 ⟨-1, [5, 0, 0]⟩).toInt arch64
        = (⟨-1, [5, 0, 0]⟩ : ScmBignum).sign
          * (wordsVal arch64 (⟨-1, [5, 0, 0]⟩ : ScmBignum).values : Int) ∧
      (∀ n, Scm_NormalizeBignum arch64 ⟨-1, [5, 0, 0]⟩ = .int n →
        n = (⟨-1, [5, 0, 0]⟩ : ScmBignum).sign
          * (wordsVal arch64 (⟨-1, [5, 0, 0]⟩ : ScmBignum).values : Int)) ∧
      (∀ c, Scm_NormalizeBignum arch64 ⟨-1, [5, 0, 0]⟩ = .big c →
        c.sign * (wordsVal arch64 c.values : Int)
          = (⟨-1, [5, 0, 0]⟩ : ScmBignum).sign
            * (wordsVal arch64 (⟨-1, [5, 0, 0]⟩ : ScmBignum).values : Int))) :=
  ⟨by decide, Scm_NormalizeBignum_value arch64 ⟨-1, [5, 0, 0]⟩ (by decide)⟩

/-- C14 fails for the empty bignum: `Scm_NormalizeBignum` returns a bignum of size 0 and
sign 1 unchanged, although its value `0` is a fixnum. -/
theorem Scm_NormalizeBignum_empty_stays_big :
    ¬ ((∃ n, Scm_NormalizeBignum arch64 ⟨1, []⟩ = .int n) ↔
      (arch64.SCM_SMALL_INT_MIN ≤ (⟨1, []⟩ : ScmBignum).toInt arch64 ∧
        (⟨1, []⟩ : ScmBignum).toInt arch64 ≤ arch64.SCM_SMALL_INT_MAX)) := by
  intro h
  obtain ⟨n, hn⟩ := h.2 ⟨by decide, by decide⟩
  have e : Scm_NormalizeBignum arch64 ⟨1, []⟩ = .big ⟨1, []⟩ := by decide
  rw [e] at hn
  cases hn

/-- C14, amended: for every bignum `b` of sign `1` or `-1` and of size at least 1,
`Scm_NormalizeBignum(b)` is a fixnum exactly when `value(b)` lies in
`[SCM_SMALL_INT_MIN, SCM_SMALL_INT_MAX]`, and otherwise a bignum of at least one word
whose most significant word is nonzero and whose value is outside that range. -/
theorem Scm_NormalizeBignum_normal_form (A : Arch) (hA : A.Ok) (b : ScmBignum)
    (hs : b.sign = 1 ∨ b.sign = -1) (hw : WordsOk A b.values) (hn : 1 ≤ b.size) :
    ((∃ n, Scm_NormalizeBignum A b = .int n) ↔
      (A.SCM_SMALL_INT_MIN ≤ b.toInt A ∧ b.toInt A ≤ A.SCM_SMALL_INT_MAX)) ∧
    (∀ n, Scm_NormalizeBignum A b = .int n → n = b.toInt A) ∧
    (∀ c, Scm_NormalizeBignum A b = .big c →
      1 ≤ c.size ∧ c.values.getD (c.size - 1) 0 ≠ 0 ∧ c.toInt A = b.toInt A ∧
      (b.toInt A < A.SCM_SMALL_INT_MIN ∨ A.SCM_SMALL_INT_MAX < b.toInt A)) := by
  have hne : b.values ≠ [] := by
    intro h
    unfold ScmBignum.size at hn
    rw [h] at hn
    simp at hn
  have hv := Scm_NormalizeBignum_toInt A b (by omega)
  have hnorm := Scm_NormalizeBignum_normal A hA b hs hw hne
  cases hres : Scm_NormalizeBignum A b with
  | int n =>
    rw [hres] at hv hnorm
    have hv' : n = b.toInt A := hv
    refine ⟨⟨fun _ => ?_, fun _ => ⟨n, rfl⟩⟩, ?_, ?_⟩
    · rw [← hv']; exact hnorm
    · intro m hm
      cases hm
      exact hv'
    · intro c hc
      cases hc
  | big c =>
    rw [hres] at hv hnorm
    have hv' : c.toInt A = b.toInt A := hv
    have hc : Normalized A c := hnorm
    refine ⟨⟨fun h => ?_, fun h => ?_⟩, ?_, ?_⟩
    · obtain ⟨n, hn⟩ := h
      cases hn
    · exfalso
      have := hc.big
      rw [hv'] at this
      omega
    · intro n hn
      cases hn
    · intro c' hc'
      cases hc'
      refine ⟨hc.size_pos, hc.top, hv', ?_⟩
      have := hc.big
      rw [hv'] at this
      exact this

/-- Witness for C14 (amended) on a 64-bit platform: `2^61` with a leading zero word stays
a bignum of one word. -/
theorem Scm_NormalizeBignum_normal_form_witness :
    Scm_NormalizeBignum arch64 ⟨1, [2 ^ 61, 0]⟩ = .big ⟨1, [2 ^ 61]⟩ ∧
    (((∃ n, Scm_NormalizeBignum arch64 ⟨1, [2 ^ 61, 0]⟩ = .int n) ↔
      (arch64.SCM_SMALL_INT_MIN ≤ (⟨1, [2 ^ 61, 0]⟩ : ScmBignum).toInt arch64 ∧
        (⟨1, [2 ^ 61, 0]⟩ : ScmBignum).toInt arch64 ≤ arch64.SCM_SMALL_INT_MAX)) ∧
    (∀ n, Scm_NormalizeBignum arch64 ⟨1, [2 ^ 61, 0]⟩ = .int n →
      n = (⟨1, [2 ^ 61, 0]⟩ : ScmBignum).toInt arch64) ∧
    (∀ c, Scm_NormalizeBignum arch64 ⟨1, [2 ^ 61, 0]⟩ = .big c →
      1 ≤ c.size ∧ c.values.getD (c.size - 1) 0 ≠ 0 ∧
      c.toInt arch64 = (⟨1, [2 ^ 61, 0]⟩ : ScmBignum).toInt arch64 ∧
      ((⟨1, [2 ^ 61, 0]⟩ : ScmBignum).toInt arch64 < arch64.SCM_SMALL_INT_MIN ∨
        arch64.SCM_SMALL_INT_MAX < (⟨1, [2 ^ 61, 0]⟩ : ScmBignum).toInt arch64))) :=
  ⟨by decide, Scm_NormalizeBignum_normal_form arch64 arch64_ok ⟨1, [2 ^ 61, 0]⟩ (by decide)
    (by decide) (by decide)⟩


theorem Scm_NormalizeBignum_loop_stop (values : List Nat) (i : Nat)
    (h : i = 0 ∨ values.getD i 0 ≠ 0) :
    Scm_NormalizeBignum_loop values i (i + 1) = (i, i + 1) := by
  cases i with
  | zero => rfl
  | succ i =>
    unfold Scm_NormalizeBignum_loop
    have hz : ¬ values.getD (i + 1) 0 = 0 := by
      rcases h with h | h
      · omega
      · exact h
    rw [if_neg hz]

/-- C15: when `Scm_NormalizeBignum(b)` is a bignum `c`, running `Scm_NormalizeBignum` on
`c` returns `c` again, with the same sign, size and words; a fixnum result is not a
bignum and is left as it is. -/
theorem Scm_NormalizeBignum_idempotent (A : Arch) (b c : ScmBignum)
    (h : Scm_NormalizeBignum A b = .big c) : Scm_NormalizeBignum A c = .big c := by
  by_cases hsz : b.size = 0
  · have hb : Scm_NormalizeBignum A b = .big b := by
      unfold Scm_NormalizeBignum; rw [if_pos hsz]
    rw [hb] at h
    cases h
    exact hb
  · obtain ⟨h1, h2, h3, h4⟩ := Scm_NormalizeBignum_loop_spec b.values (b.size - 1)
    have hlen : b.size - 1 + 1 = b.size := by omega
    rw [hlen] at h1 h2 h3 h4
    obtain ⟨st, hst⟩ : ∃ st, st = Scm_NormalizeBignum_loop b.values (b.size - 1) b.size :=
      ⟨_, rfl⟩
    rw [← hst] at h1 h2 h3 h4
    have hform : Scm_NormalizeBignum A b =
        if st.1 = 0 ∧ b.sign = 0 then .int 0
        else if st.1 = 0 ∧ b.sign > 0 ∧ (b.values.getD 0 0 : Int) ≤ A.SCM_SMALL_INT_MAX then
          .int (b.values.getD 0 0)
        else if st.1 = 0 ∧ b.sign < 0 ∧ (b.values.getD 0 0 : Int) ≤ -A.SCM_SMALL_INT_MIN then
          .int (-(b.values.getD 0 0 : Int))
        else .big ⟨b.sign, b.values.take st.2⟩ := by
      unfold Scm_NormalizeBignum
      rw [if_neg hsz, hst]
    rw [hform] at h
    split at h
    · cases h
    · rename_i c1
      split at h
      · cases h
      · rename_i c2
        split at h
        · cases h
        · rename_i c3
          cases h
          -- the second run
          have hsize : (⟨b.sign, b.values.take st.2⟩ : ScmBignum).size = st.1 + 1 := by
            unfold ScmBignum.size at *
            simp only [List.length_take]
            omega
          have hget : ∀ k, k ≤ st.1 → (b.values.take st.2).getD k 0 = b.values.getD k 0 := by
            intro k hk
            simp only [List.getD_eq_getElem?_getD]
            rw [List.getElem?_take_of_lt (by omega)]
          have hloop : Scm_NormalizeBignum_loop (b.values.take st.2) st.1 (st.1 + 1)
              = (st.1, st.1 + 1) := by
            apply Scm_NormalizeBignum_loop_stop
            rcases h4 with h4 | h4
            · exact Or.inl h4
            · right; rw [hget _ le_rfl]; exact h4
          unfold Scm_NormalizeBignum
          rw [if_neg (by rw [hsize]; omega), hsize]
          simp only [Nat.add_sub_cancel, hloop, hget 0 (Nat.zero_le _)]
          rw [if_neg c1, if_neg c2, if_neg c3, ← h1, List.take_take, Nat.min_self]

/-- Witness for C15 on a 64-bit platform: `2^61 + 2^64` with two leading zero words. -/
theorem Scm_NormalizeBignum_idempotent_witness :
    Scm_NormalizeBignum arch64 ⟨1, [2 ^ 61, 1, 0, 0]⟩ = .big ⟨1, [2 ^ 61, 1]⟩ ∧
    Scm_NormalizeBignum arch64 ⟨1, [2 ^ 61, 1]⟩ = .big ⟨1, [2 ^ 61, 1]⟩ :=
  ⟨by decide, Scm_NormalizeBignum_idempotent arch64 ⟨1, [2 ^ 61, 1, 0, 0]⟩ ⟨1, [2 ^ 61, 1]⟩
    (by decide)⟩

/-! ## Conversion to and from native integers -/

theorem toLong_small (A : Arch) (w : Nat) (h : w ≤ A.LONG_MAX) : toLong A w = (w : Int) := by
  unfold toLong; rw [if_pos h]

theorem wrapLong_of_range (A : Arch) (hA : A.Ok) (x : Int) (h1 : A.LONG_MIN ≤ x)
    (h2 : x ≤ A.LONG_MAX) : wrapLong A x = x := by
  have hB := hA.base_two_mul
  have hL := A.LONG_MAX_succ
  unfold Arch.LONG_MIN at h1
  unfold wrapLong toLong
  have hBi : (A.base : Int) = 2 * ((A.LONG_MAX : Int) + 1) := by
    have : A.base = 2 * (A.LONG_MAX + 1) := by omega
    exact_mod_cast this
  by_cases hx : 0 ≤ x
  · have e : x % (A.base : Int) = x := Int.emod_eq_of_lt hx (by omega)
    rw [e, if_pos (by omega)]
    omega
  · have e : x % (A.base : Int) = x + A.base := by
      rw [← Int.add_emod_self]
      exact Int.emod_eq_of_lt (by omega) (by omega)
    rw [e, if_neg (by omega)]
    omega

theorem wrapLong_neg_min (A : Arch) (hA : A.Ok) : wrapLong A (-A.LONG_MIN) = A.LONG_MIN := by
  have hB := hA.base_two_mul
  have hL := A.LONG_MAX_succ
  unfold Arch.LONG_MIN
  unfold wrapLong toLong
  have hBi : (A.base : Int) = 2 * ((A.LONG_MAX : Int) + 1) := by
    have : A.base = 2 * (A.LONG_MAX + 1) := by omega
    exact_mod_cast this
  have e : (-(-(A.LONG_MAX : Int) - 1)) % (A.base : Int) = (A.LONG_MAX : Int) + 1 := by
    rw [show -(-(A.LONG_MAX : Int) - 1) = (A.LONG_MAX : Int) + 1 by ring]
    exact Int.emod_eq_of_lt (by omega) (by omega)
  rw [e, if_neg (by omega)]
  omega

/-- C16: for every `long` `a`, `Scm_MakeBignumFromSI(a)` is a one-word bignum that holds
`|a|` with sign `-1` for `a < 0` and `1` otherwise, and `Scm_BignumToSI` gives back `a`;
this includes `0` and `LONG_MIN`. -/
theorem Scm_BignumToSI_MakeBignumFromSI (A : Arch) (hA : A.Ok) (a : Int)
    (h1 : A.LONG_MIN ≤ a) (h2 : a ≤ A.LONG_MAX) :
    Scm_BignumToSI A (Scm_MakeBignumFromSI A a) = a ∧
    (Scm_MakeBignumFromSI A a).values = [a.natAbs] ∧
    (Scm_MakeBignumFromSI A a).sign = (if a < 0 then -1 else 1) := by
  have hB := hA.base_two_mul
  have hL := A.LONG_MAX_succ
  have hmin : A.LONG_MIN = -(A.LONG_MAX : Int) - 1 := rfl
  unfold Scm_MakeBignumFromSI
  by_cases hm : a = -(A.LONG_MAX : Int) - 1
  · rw [if_pos hm]
    have hn : a.natAbs = A.LONG_MAX + 1 := by omega
    refine ⟨?_, by rw [hn], by rw [if_pos (by omega)]⟩
    unfold Scm_BignumToSI
    simp only [List.getD_cons_zero, ScmBignum.size, List.length_cons, List.length_nil]
    rw [if_neg (by norm_num), Nat.mod_eq_of_lt (by omega), if_neg (by omega)]
    have e : toLong A (A.LONG_MAX + 1) = A.LONG_MIN := by
      unfold toLong
      rw [if_neg (by omega), hmin]
      have : (A.base : Int) = 2 * ((A.LONG_MAX : Int) + 1) := by
        have : A.base = 2 * (A.LONG_MAX + 1) := by omega
        exact_mod_cast this
      push_cast
      omega
    rw [e, wrapLong_neg_min A hA, hm, hmin]
  · rw [if_neg hm]
    by_cases hneg : a < 0
    · rw [if_pos hneg]
      refine ⟨?_, by simp only; rw [show (-a).toNat = a.natAbs by omega],
        by rw [if_pos hneg]⟩
      unfold Scm_BignumToSI
      simp only [List.getD_cons_zero, ScmBignum.size, List.length_cons, List.length_nil]
      rw [if_neg (by norm_num), Nat.mod_eq_of_lt (by omega), if_neg (by omega),
        toLong_small A _ (by omega), show (((-a).toNat : Nat) : Int) = -a by omega, neg_neg]
      exact wrapLong_of_range A hA a h1 h2
    · rw [if_neg hneg]
      refine ⟨?_, by simp only; rw [show a.toNat = a.natAbs by omega], by rw [if_neg hneg]⟩
      unfold Scm_BignumToSI
      simp only [List.getD_cons_zero, ScmBignum.size, List.length_cons, List.length_nil]
      rw [if_pos (by norm_num), if_neg (by omega), toLong_small A _ (by omega)]
      omega

/-- Witness for C16 on a 64-bit platform, at `LONG_MIN`. -/
theorem Scm_BignumToSI_MakeBignumFromSI_witness :
    arch64.LONG_MIN = -(2 ^ 63) ∧
    Scm_MakeBignumFromSI arch64 (-(2 ^ 63)) = ⟨-1, [2 ^ 63]⟩ ∧
    (Scm_BignumToSI arch64 (Scm_MakeBignumFromSI arch64 (-(2 ^ 63))) = -(2 ^ 63) ∧
      (Scm_MakeBignumFromSI arch64 (-(2 ^ 63))).values = [(-(2 ^ 63) : Int).natAbs] ∧
      (Scm_MakeBignumFromSI arch64 (-(2 ^ 63))).sign
        = (if (-(2 ^ 63) : Int) < 0 then -1 else 1)) :=
  ⟨by decide, by decide,
    Scm_BignumToSI_MakeBignumFromSI arch64 arch64_ok (-(2 ^ 63)) (by decide) (by decide)⟩


theorem wordsVal_singleton (A : Arch) (v : Nat) : wordsVal A [v] = v := by
  simp [wordsVal]

theorem mag_of_size_one (A : Arch) (b : ScmBignum) (h : b.size = 1) :
    b.mag A = b.values.getD 0 0 := by
  unfold ScmBignum.size at h
  unfold ScmBignum.mag
  match hv : b.values with
  | [] => rw [hv] at h; simp at h
  | [v] => simp [wordsVal]
  | _ :: _ :: _ => rw [hv] at h; simp at h

theorem Normalized.base_le_mag {A : Arch} {b : ScmBignum} (h : Normalized A b)
    (h2 : 2 ≤ b.size) : A.base ≤ b.mag A := by
  have h1 := wordsVal_ge_getD A b.values (b.size - 1)
  have ht := h.top
  have hp : A.base ^ 1 ≤ A.base ^ (b.size - 1) := Nat.pow_le_pow_right A.base_pos (by omega)
  rw [pow_one] at hp
  have : 1 * A.base ^ (b.size - 1) ≤ b.values.getD (b.size - 1) 0 * A.base ^ (b.size - 1) :=
    Nat.mul_le_mul_right _ (by omega)
  unfold ScmBignum.mag
  omega

/-- C17: for every normalized bignum `b`, `Scm_BignumToSI(b)` is `value(b)` clipped to
`[LONG_MIN, LONG_MAX]`; it is `LONG_MIN` exactly when `value(b) ≤ LONG_MIN`, which
includes the magnitude `2^(WORD_BITS-1)`. -/
theorem Scm_BignumToSI_saturates (A : Arch) (hA : A.Ok) (b : ScmBignum)
    (hb : Normalized A b) :
    Scm_BignumToSI A b = min (A.LONG_MAX : Int) (max A.LONG_MIN (b.toInt A)) ∧
    (Scm_BignumToSI A b = A.LONG_MIN ↔ b.toInt A ≤ A.LONG_MIN) := by
  have hB := hA.base_two_mul
  have hL := A.LONG_MAX_succ
  have hmin : A.LONG_MIN = -(A.LONG_MAX : Int) - 1 := rfl
  have hBi : (A.base : Int) = 2 * ((A.LONG_MAX : Int) + 1) := by
    have : A.base = 2 * (A.LONG_MAX + 1) := by omega
    exact_mod_cast this
  have hsz := hb.size_pos
  have hkey : Scm_BignumToSI A b = min (A.LONG_MAX : Int) (max A.LONG_MIN (b.toInt A)) := by
    unfold Scm_BignumToSI
    rcases hb.sign with hs | hs
    · rw [hs, if_pos (by norm_num)]
      have hv : b.toInt A = (b.mag A : Int) := toInt_pos A b hs
      by_cases h2 : 2 ≤ b.size
      · rw [if_pos (Or.inr h2)]
        have := hb.base_le_mag h2
        have : (A.base : Int) ≤ b.mag A := by exact_mod_cast this
        rw [hv]
        omega
      · have h1 : b.size = 1 := by omega
        have hm := mag_of_size_one A b h1
        rw [hv, hm]
        by_cases hbig : b.values.getD 0 0 > A.LONG_MAX
        · rw [if_pos (Or.inl hbig)]
          omega
        · rw [if_neg (by omega), toLong_small A _ (by omega)]
          omega
    · rw [hs, if_neg (by norm_num), Nat.mod_eq_of_lt (by omega)]
      have hv : b.toInt A = -(b.mag A : Int) := by
        unfold ScmBignum.toInt; rw [hs]; ring
      by_cases h2 : 2 ≤ b.size
      · rw [if_pos (Or.inr h2)]
        have := hb.base_le_mag h2
        have : (A.base : Int) ≤ b.mag A := by exact_mod_cast this
        rw [hv]
        omega
      · have h1 : b.size = 1 := by omega
        have hm := mag_of_size_one A b h1
        rw [hv, hm]
        by_cases hbig : b.values.getD 0 0 > A.LONG_MAX + 1
        · rw [if_pos (Or.inl hbig)]
          omega
        · rw [if_neg (by omega)]
          by_cases heq : b.values.getD 0 0 = A.LONG_MAX + 1
          · have e : toLong A (b.values.getD 0 0) = A.LONG_MIN := by
              unfold toLong
              rw [if_neg (by omega), hmin, heq]
              push_cast
              omega
            rw [e, wrapLong_neg_min A hA, heq]
            push_cast
            omega
          · rw [toLong_small A _ (by omega),
              wrapLong_of_range A hA _ (by omega) (by omega)]
            omega
  refine ⟨hkey, ?_⟩
  rw [hkey]
  constructor
  · intro h
    by_contra hcon
    have h3 : A.LONG_MIN < b.toInt A := by omega
    rw [max_eq_right (le_of_lt h3)] at h
    rcases le_total (A.LONG_MAX : Int) (b.toInt A) with h4 | h4
    · rw [min_eq_left h4] at h; omega
    · rw [min_eq_right h4] at h; omega
  · intro h
    rw [max_eq_left h, min_eq_right (by omega)]

/-- Witness for C17 on a 64-bit platform, at the magnitude `2^63` with sign `-1`. -/
theorem Scm_BignumToSI_saturates_witness :
    Normalized arch64 ⟨-1, [2 ^ 63]⟩ ∧ Scm_BignumToSI arch64 ⟨-1, [2 ^ 63]⟩ = -(2 ^ 63) ∧
    (Scm_BignumToSI arch64 ⟨-1, [2 ^ 63]⟩
        = min (arch64.LONG_MAX : Int)
            (max arch64.LONG_MIN ((⟨-1, [2 ^ 63]⟩ : ScmBignum).toInt arch64)) ∧
      (Scm_BignumToSI arch64 ⟨-1, [2 ^ 63]⟩ = arch64.LONG_MIN ↔
        (⟨-1, [2 ^ 63]⟩ : ScmBignum).toInt arch64 ≤ arch64.LONG_MIN)) :=
  have hb : Normalized arch64 ⟨-1, [2 ^ 63]⟩ := ⟨by decide, by decide, by decide, by decide⟩
  ⟨hb, by decide, Scm_BignumToSI_saturates arch64 arch64_ok _ hb⟩


theorem wordsVal_eq_zero_iff (A : Arch) (xs : List Nat) :
    wordsVal A xs = 0 ↔ ∀ w ∈ xs, w = 0 := by
  induction xs with
  | nil => simp [wordsVal]
  | cons x xs ih =>
    have hB := A.base_pos
    simp only [wordsVal, List.mem_cons, forall_eq_or_imp]
    constructor
    · intro h
      have h1 : x = 0 := by omega
      have h2 : A.base * wordsVal A xs = 0 := by omega
      rcases Nat.mul_eq_zero.1 h2 with h3 | h3
      · omega
      · exact ⟨h1, ih.1 h3⟩
    · intro h
      rw [h.1, ih.2 h.2]; simp

/-- The scanning loop of `Scm_MakeBignumFromUIArray` copies the words and raises
`nonzerop` when one of them is nonzero. -/
theorem Scm_MakeBignumFromUIArray_scan_spec (A : Arch) (values : List Nat) (n : Nat)
    (r : List Nat) (i : Nat) (nz : Bool) (hr : r.length = values.length)
    (hn : i + n = values.length) :
    (Scm_MakeBignumFromUIArray_scan values r n i nz).1 = r.take i ++ values.drop i ∧
    ((Scm_MakeBignumFromUIArray_scan values r n i nz).2 = true ↔
      (nz = true ∨ wordsVal A (values.drop i) ≠ 0)) := by
  induction n generalizing r i nz with
  | zero =>
    simp only [Scm_MakeBignumFromUIArray_scan]
    rw [List.drop_of_length_le (by omega), List.take_of_length_le (by omega)]
    simp [wordsVal]
  | succ n ih =>
    simp only [Scm_MakeBignumFromUIArray_scan]
    obtain ⟨h1, h2⟩ := ih (r.set i (values.getD i 0)) (i + 1)
      (if values.getD i 0 ≠ 0 then true else nz) (by simp [hr]) (by omega)
    have ht : (r.set i (values.getD i 0)).take (i + 1) = r.take i ++ [values.getD i 0] := by
      rw [List.set_eq_take_append_cons_drop, if_pos (by omega),
        List.take_append_eq_append_take]
      simp [List.length_take, Nat.min_eq_left (show i ≤ r.length by omega)]
    refine ⟨?_, ?_⟩
    · rw [h1, ht, drop_eq_getD_cons values i (by omega)]
      simp
    · rw [h2, wordsVal_drop A values i]
      have hB := A.base_pos
      by_cases hv : values.getD i 0 = 0
      · rw [hv, zero_add, if_neg (by simp)]
        have hT : A.base * wordsVal A (values.drop (i + 1)) ≠ 0 ↔
            wordsVal A (values.drop (i + 1)) ≠ 0 := by
          rw [Nat.mul_ne_zero_iff]
          constructor
          · intro h; exact h.2
          · intro h; exact ⟨by omega, h⟩
        rw [hT]
      · simp only [ne_eq, hv, not_false_eq_true, if_true, true_or, true_iff]
        right
        omega

theorem testBit_top_iff (A : Arch) (hA : A.Ok) (w : Nat) (hw : w < A.base) :
    w.testBit (A.WORD_BITS - 1) = true ↔ A.LONG_MAX < w := by
  have hL := A.LONG_MAX_succ
  constructor
  · intro h
    have := Nat.testBit_implies_ge h
    omega
  · intro h
    by_contra hcon
    have hf : w.testBit (A.WORD_BITS - 1) = false := by simpa using hcon
    have := lt_two_pow_of_not_testBit w (A.WORD_BITS - 1)
      (by rw [show A.WORD_BITS - 1 + 1 = A.WORD_BITS by
            have := hA.word_bits_pos; omega]; exact hw) hf
    omega

/-- C18: for every array of `size ≥ 1` words, `Scm_MakeBignumFromUIArray(0, words, size)`
denotes the two's complement reading of the pattern: the unsigned value `U` of the words
when the top bit of the most significant word is clear, and `U - 2^(WORD_BITS*size)` when
it is set; the all-zero array gives sign `0` and the value zero. -/
theorem Scm_MakeBignumFromUIArray_twos_complement (A : Arch) (hA : A.Ok) (values : List Nat)
    (size : Nat) (hv : WordsOk A values) (hlen : values.length = size) (hsz : 1 ≤ size) :
    (Scm_MakeBignumFromUIArray A 0 values size).toInt A =
      (if (values.getD (size - 1) 0).testBit (A.WORD_BITS - 1) then
        (wordsVal A values : Int) - 2 ^ (A.WORD_BITS * size)
      else (wordsVal A values : Int)) ∧
    ((∀ w ∈ values, w = 0) →
      (Scm_MakeBignumFromUIArray A 0 values size).sign = 0 ∧
      (Scm_MakeBignumFromUIArray A 0 values size).toInt A = 0) := by
  have hL := A.LONG_MAX_succ
  obtain ⟨h1, h2⟩ := Scm_MakeBignumFromUIArray_scan_spec A values size
    (make_bignum size).values 0 false (by rw [make_bignum_size, hlen]) (by omega)
  simp only [List.take_zero, List.nil_append, List.drop_zero, Bool.false_eq_true,
    false_or] at h1 h2
  have htop := testBit_top_iff A hA (values.getD (size - 1) 0) (hv.getD _)
  have hform : Scm_MakeBignumFromUIArray A 0 values size =
      if wordsVal A values ≠ 0 then
        if values.getD (size - 1) 0 ≤ A.LONG_MAX then ⟨1, values⟩
        else bignum_2scmpl A ⟨-1, values⟩
      else ⟨0, values⟩ := by
    unfold Scm_MakeBignumFromUIArray
    simp only [ne_eq, not_true_eq_false, if_false, h1]
    by_cases hz : wordsVal A values ≠ 0
    · rw [if_pos (h2.2 hz), if_pos hz]
    · rw [if_neg (by rw [h2]; exact hz), if_neg hz]
  rw [hform]
  by_cases hz : wordsVal A values ≠ 0
  · rw [if_pos hz]
    refine ⟨?_, fun h0 => absurd ((wordsVal_eq_zero_iff A values).2 h0) hz⟩
    by_cases hs : values.getD (size - 1) 0 ≤ A.LONG_MAX
    · rw [if_pos hs, if_neg (by rw [htop]; omega)]
      simp [ScmBignum.toInt, ScmBignum.mag]
    · rw [if_neg hs, if_pos (by rw [htop]; omega)]
      obtain ⟨m, -, -, sg⟩ := bignum_2scmpl_spec A ⟨-1, values⟩ hv
      unfold ScmBignum.toInt
      rw [sg, m]
      unfold ScmBignum.mag ScmBignum.size
      simp only
      have hlt := wordsVal_lt hv
      rw [hlen] at hlt ⊢
      rw [Nat.mod_eq_of_lt (by omega)]
      rw [A.base_pow] at hlt ⊢
      rw [Nat.cast_sub (le_of_lt hlt)]
      push_cast
      ring
  · rw [if_neg hz]
    have hz0 : wordsVal A values = 0 := by omega
    have hall := (wordsVal_eq_zero_iff A values).1 hz0
    have htop0 : values.getD (size - 1) 0 = 0 := by
      rw [List.getD_eq_getElem _ _ (by omega)]
      exact hall _ (List.getElem_mem _)
    refine ⟨?_, fun _ => ⟨rfl, by simp [ScmBignum.toInt]⟩⟩
    rw [htop0, hz0]
    simp [ScmBignum.toInt]

/-- Witness for C18 on a 64-bit platform: the two-word pattern `[5, 2^63]` has its top
bit set and denotes `5 + 2^127 - 2^128`. -/
theorem Scm_MakeBignumFromUIArray_twos_complement_witness :
    Scm_MakeBignumFromUIArray arch64 0 [5, 2 ^ 63] 2 = ⟨-1, [2 ^ 64 - 5, 2 ^ 63 - 1]⟩ ∧
    Scm_MakeBignumFromUIArray arch64 0 [0, 0] 2 = ⟨0, [0, 0]⟩ ∧
    ((Scm_MakeBignumFromUIArray arch64 0 [5, 2 ^ 63] 2).toInt arch64 =
      (if (([5, 2 ^ 63] : List Nat).getD (2 - 1) 0).testBit (arch64.WORD_BITS - 1) then
        (wordsVal arch64 [5, 2 ^ 63] : Int) - 2 ^ (arch64.WORD_BITS * 2)
      else (wordsVal arch64 [5, 2 ^ 63] : Int)) ∧
    ((∀ w ∈ ([5, 2 ^ 63] : List Nat), w = 0) →
      (Scm_MakeBignumFromUIArray arch64 0 [5, 2 ^ 63] 2).sign = 0 ∧
      (Scm_MakeBignumFromUIArray arch64 0 [5, 2 ^ 63] 2).toInt arch64 = 0)) :=
  ⟨by decide, by decide,
    Scm_MakeBignumFromUIArray_twos_complement arch64 arch64_ok [5, 2 ^ 63] 2 (by decide)
      (by decide) (by decide)⟩

/-! ## Shift round trip -/

theorem wordsVal_set_zero_of_zero (A : Arch) (r : List Nat) (i : Nat)
    (h : wordsVal A r = 0) : wordsVal A (r.set i 0) = 0 := by
  rw [wordsVal_eq_zero_iff] at h ⊢
  intro w hw
  rcases List.mem_or_eq_of_mem_set hw with h1 | h1
  · exact h w h1
  · exact h1

theorem bignum_lshift_clear_zero (A : Arch) (r : List Nat) (n : Nat)
    (h : wordsVal A r = 0) : wordsVal A (bignum_lshift_clear r n) = 0 := by
  induction n generalizing r with
  | zero => exact h
  | succ n ih =>
    rw [bignum_lshift_clear]
    exact ih _ (wordsVal_set_zero_of_zero A r n h)

/-- Shifting the empty bignum left into a zeroed buffer leaves zero: the word that
`bignum_lshift` reads at index `size - 1` is stored at index `nwords`, where the store of
`values[0] << nbits` replaces it. -/
theorem bignum_lshift_empty (A : Arch) (s : Int) (n k : Nat) :
    (bignum_lshift A (make_bignum n) ⟨s, []⟩ k).mag A = 0 := by
  have hz : wordsVal A (make_bignum n).values = 0 := wordsVal_replicate_zero A n
  unfold bignum_lshift ScmBignum.mag
  simp only [ScmBignum.size, List.length_nil, zero_add, Nat.zero_sub, List.getD_nil,
    Nat.zero_shiftRight, Nat.zero_shiftLeft, Nat.zero_mod, bignum_lshift_copy,
    bignum_lshift_bits]
  split
  · exact bignum_lshift_clear_zero A _ _ hz
  · apply bignum_lshift_clear_zero
    apply wordsVal_set_zero_of_zero
    split
    · exact wordsVal_set_zero_of_zero A _ _ hz
    · exact hz

theorem nat_div_mul_eq_sub_mod (m d : Nat) : (m / d * d : Nat) = m - m % d := by
  have := Nat.div_add_mod m d
  have h2 : m / d * d = d * (m / d) := Nat.mul_comm _ _
  omega

/-- The primitive shift pair: right by `k` into `r1`, then left by `k` into a zeroed
buffer of `n` words, keeps the sign and clears the low `k` bits of the magnitude. -/
theorem shift_pair_mag (A : Arch) (hA : A.Ok) (x r1 : ScmBignum) (k n : Nat)
    (hx : WordsOk A x.values) (hr1 : x.size - k / A.WORD_BITS ≤ r1.size)
    (hn : x.size - k / A.WORD_BITS + (k + A.WORD_BITS - 1) / A.WORD_BITS ≤ n) :
    (bignum_lshift A (make_bignum n) (bignum_rshift A r1 x k) k).mag A
      = x.mag A - x.mag A % 2 ^ k ∧
    (k / A.WORD_BITS < x.size →
      (bignum_lshift A (make_bignum n) (bignum_rshift A r1 x k) k).sign = x.sign) := by
  by_cases hsz : x.size ≤ k / A.WORD_BITS
  · have hr : bignum_rshift A r1 x k = ⟨r1.sign, []⟩ := by
      unfold bignum_rshift
      simp only [if_pos hsz]
    rw [hr, bignum_lshift_empty]
    have hlt := mag_lt_two_pow A x hx k hsz
    rw [Nat.mod_eq_of_lt hlt]
    exact ⟨by omega, fun h => absurd h (by omega)⟩
  · obtain ⟨m, sz, ok, sg⟩ := bignum_rshift_spec A hA r1 x k hx (by omega) hr1
    obtain ⟨m2, -, -, sg2⟩ := bignum_lshift_spec A hA (make_bignum n) (bignum_rshift A r1 x k) k
      (by rw [sz]; omega) ok (WordsOk.replicate_zero A _)
      (by rw [sz, make_bignum_size']; exact hn)
    have hzero : wordsVal A ((make_bignum n).values.drop
        ((bignum_rshift A r1 x k).size + (k + A.WORD_BITS - 1) / A.WORD_BITS)) = 0 := by
      apply wordsVal_eq_zero_of_all_zero
      intro w hw
      exact (List.mem_replicate.1 (List.mem_of_mem_drop hw)).2
    rw [hzero, mul_zero, add_zero, m] at m2
    rw [m2, nat_div_mul_eq_sub_mod]
    exact ⟨rfl, fun _ => by rw [sg2, sg]⟩

/-- `Scm_BignumAsh` by a positive count `k` with `k + WORD_BITS - 1` in the range of
`int` returns, and multiplies the value by the power of two. -/
theorem Scm_BignumAsh_pos_value (A : Arch) (hA : A.Ok) (G : GenericArith) (c : ScmBignum)
    (hc : Normalized A c) (k : Nat) (hk : 0 < k)
    (hint : (k : Int) + A.WORD_BITS - 1 ≤ INT_MAX) :
    ∃ r, Scm_BignumAsh A G c (k : Int) = some r ∧ r.toInt A = c.toInt A * 2 ^ k := by
  obtain ⟨m, sz, ok, sg⟩ := bignum_lshift_spec A hA
    (make_bignum (c.size + (k + A.WORD_BITS - 1) / A.WORD_BITS)) c k hc.size_pos hc.words
    (WordsOk.replicate_zero A _) (by simp [ScmBignum.size, make_bignum])
  rw [List.drop_of_length_le (by rw [make_bignum_size])] at m
  simp only [wordsVal, mul_zero, add_zero] at m
  refine ⟨_, Scm_BignumAsh_pos_eq A G c k hk hint, ?_⟩
  rw [Scm_NormalizeBignum_toInt A _ (by rw [sg]; have := hc.sign; omega)]
  simp only [ScmBignum.toInt, m, sg]
  push_cast; ring

/-- `Scm_BignumAsh` of a positive normalized bignum by a negative count returns the
quotient of the magnitude, in normal form; the result is a bignum only when `x` has more
than `k` bits of storage. -/
theorem Scm_BignumAsh_neg_value (A : Arch) (hA : A.Ok) (G : GenericArith) (x : ScmBignum)
    (hx : Normalized A x) (hs : x.sign = 1) (k : Nat) (hk : 0 < k) :
    ∃ r, Scm_BignumAsh A G x (-(k : Int)) = some r ∧
      r.toInt A = ((x.mag A / 2 ^ k : Nat) : Int) ∧ r.IsNormal A ∧
      (∀ c, r = .big c → k < x.size * A.WORD_BITS) := by
  refine ⟨_, Scm_BignumAsh_neg_eq A G x k hk, ?_⟩
  by_cases hsz : x.size ≤ k / A.WORD_BITS
  · rw [if_pos hsz, if_neg (by omega)]
    have hlt := mag_lt_two_pow A x hx.words k hsz
    rw [Nat.div_eq_of_lt hlt]
    exact ⟨rfl, ⟨hA.min_nonpos, hA.max_nonneg⟩, fun c hc => by cases hc⟩
  · rw [if_neg hsz, if_neg (by omega)]
    obtain ⟨m, sz, ok, sg⟩ := bignum_rshift_spec A hA
      (make_bignum (x.size - k / A.WORD_BITS)) x k hx.words (by omega)
      (by simp [ScmBignum.size, make_bignum])
    have hbits : k < x.size * A.WORD_BITS :=
      (Nat.div_lt_iff_lt_mul hA.word_bits_pos).1 (by omega)
    refine ⟨?_, Scm_NormalizeBignum_normal A hA _ (by rw [sg]; exact hx.sign) ok ?_,
      fun _ _ => hbits⟩
    · rw [Scm_NormalizeBignum_toInt A _ (by rw [sg]; omega)]
      simp only [ScmBignum.toInt, sg, hs, m, one_mul]
    · intro h
      have h0 : (bignum_rshift A (make_bignum (x.size - k / A.WORD_BITS)) x k).size = 0 :=
        congrArg List.length h
      omega


/-- C11: for a bignum `x` with `value(x) ≥ 0` and every `k ≥ 0`, `bignum_rshift` by `k`
followed by `bignum_lshift` by `k`, into result buffers that are large enough (the second
one zeroed, as `make_bignum` leaves it), denotes `value(x) - (value(x) mod 2^k)`: the low
`k` bits are cleared and the others kept.  The same holds through `Scm_BignumAsh(x, -k)`,
which always returns, followed by the shift by `k`: the generic `Scm_Ash` on a fixnum, and
`Scm_BignumAsh` on a bignum.  A bignum is left only when `k` is below
`size(x) * WORD_BITS`, and `Scm_BignumAsh` then returns when `k + WORD_BITS - 1` is in the
range of `int`, which every such `k` is for `x` of at most `2^31 / WORD_BITS - 1` words. -/
theorem shift_right_left_clears_low_bits (A : Arch) (hA : A.Ok) (G : GenericArith)
    (hG : G.Exact A) (x r1 : ScmBignum) (k n : Nat)
    (hx : WordsOk A x.values) (hs : x.sign = 1 ∨ x.sign = 0)
    (hr1 : x.size - k / A.WORD_BITS ≤ r1.size)
    (hn : x.size - k / A.WORD_BITS + (k + A.WORD_BITS - 1) / A.WORD_BITS ≤ n) :
    (bignum_lshift A (make_bignum n) (bignum_rshift A r1 x k) k).toInt A
      = x.toInt A - x.toInt A % 2 ^ k ∧
    (Normalized A x → 0 < k →
      (∃ r, Scm_BignumAsh A G x (-(k : Int)) = some r) ∧
      (∀ c, Scm_BignumAsh A G x (-(k : Int)) = some (.big c) →
        k < x.size * A.WORD_BITS ∧
        (((k : Int) + A.WORD_BITS - 1 ≤ INT_MAX ∨ (x.size + 1) * A.WORD_BITS ≤ 2 ^ 31) →
          ∃ r, Scm_BignumAsh A G c (k : Int) = some r ∧
            r.toInt A = x.toInt A - x.toInt A % 2 ^ k)) ∧
      (∀ m, Scm_BignumAsh A G x (-(k : Int)) = some (.int m) →
        (G.Scm_Ash (.int m) (k : Int)).toInt A = x.toInt A - x.toInt A % 2 ^ k)) := by
  have hcast : ((x.mag A - x.mag A % 2 ^ k : Nat) : Int)
      = (x.mag A : Int) - (x.mag A : Int) % 2 ^ k := by
    rw [Nat.cast_sub (Nat.mod_le _ _)]
    push_cast
    rfl
  have hdm : ((x.mag A / 2 ^ k : Nat) : Int) * 2 ^ k
      = (x.mag A : Int) - (x.mag A : Int) % 2 ^ k := by
    rw [← hcast, ← nat_div_mul_eq_sub_mod]
    push_cast
    rfl
  obtain ⟨hm, hsg⟩ := shift_pair_mag A hA x r1 k n hx hr1 hn
  constructor
  · unfold ScmBignum.toInt
    rw [hm]
    rcases hs with h1 | h0
    · by_cases hsz : k / A.WORD_BITS < x.size
      · rw [hsg hsz, h1, hcast, one_mul, one_mul]
      · have hlt := mag_lt_two_pow A x hx k (by omega)
        rw [Nat.mod_eq_of_lt hlt, h1, one_mul, Nat.sub_self]
        have : (x.mag A : Int) % 2 ^ k = x.mag A :=
          Int.emod_eq_of_lt (by positivity) (by exact_mod_cast hlt)
        rw [this]
        simp
    · by_cases hsz : k / A.WORD_BITS < x.size
      · rw [hsg hsz, h0]
        simp
      · have hlt := mag_lt_two_pow A x hx k (by omega)
        rw [Nat.mod_eq_of_lt hlt, h0, Nat.sub_self]
        simp
  · intro hnx hk
    have h1 : x.sign = 1 := by
      rcases hnx.sign with h | h
      · exact h
      · omega
    obtain ⟨r, hr, hv, hnorm, hbits⟩ := Scm_BignumAsh_neg_value A hA G x hnx h1 k hk
    have hxi : x.toInt A = (x.mag A : Int) := toInt_pos A x h1
    rw [hxi, hr]
    refine ⟨⟨r, rfl⟩, ?_, ?_⟩
    · intro c hc
      have hrc : r = .big c := Option.some.inj hc
      rw [hrc] at hv hnorm
      have hcn : Normalized A c := hnorm
      have hcv : c.toInt A = ((x.mag A / 2 ^ k : Nat) : Int) := hv
      have hb := hbits c hrc
      refine ⟨hb, fun hint => ?_⟩
      have hint' : (k : Int) + A.WORD_BITS - 1 ≤ INT_MAX := by
        rcases hint with h | h
        · exact h
        · unfold INT_MAX
          have h2 : (x.size + 1) * A.WORD_BITS = x.size * A.WORD_BITS + A.WORD_BITS := by ring
          omega
      obtain ⟨r2, hr2, hv2⟩ := Scm_BignumAsh_pos_value A hA G c hcn k hk hint'
      exact ⟨r2, hr2, by rw [hv2, hcv, hdm]⟩
    · intro m hm'
      have hrm : r = .int m := Option.some.inj hm'
      rw [hrm] at hv
      have hmv : m = ((x.mag A / 2 ^ k : Nat) : Int) := hv
      rw [hG.ash _ _ (by omega), Int.toNat_ofNat]
      show m * 2 ^ k = _
      rw [hmv, hdm]

set_option maxRecDepth 100000 in
/-- Witness for C11 on a 64-bit platform: a three-word bignum shifted right and left by
70 bits. -/
theorem shift_right_left_clears_low_bits_witness :
    bignum_lshift arch64 (make_bignum 4) (bignum_rshift arch64 (make_bignum 2)
        ⟨1, [5, 2 ^ 62 + 9, 3]⟩ 70) 70 = ⟨1, [0, 2 ^ 62, 3, 0]⟩ ∧
    Scm_BignumAsh arch64 (exactArith arch64) ⟨1, [5, 2 ^ 62 + 9, 3]⟩ (-((70 : Nat) : Int))
      = some (.int (13 * 2 ^ 56)) ∧
    Scm_BignumAsh arch64 (exactArith arch64) ⟨1, [5, 9, 3]⟩ (-64) = some (.big ⟨1, [9, 3]⟩) ∧
    Scm_BignumAsh arch64 (exactArith arch64) ⟨1, [9, 3]⟩ 64 = some (.big ⟨1, [0, 9, 3]⟩) ∧
    ((bignum_lshift arch64 (make_bignum 4) (bignum_rshift arch64 (make_bignum 2)
        ⟨1, [5, 2 ^ 62 + 9, 3]⟩ 70) 70).toInt arch64
      = (⟨1, [5, 2 ^ 62 + 9, 3]⟩ : ScmBignum).toInt arch64
        - (⟨1, [5, 2 ^ 62 + 9, 3]⟩ : ScmBignum).toInt arch64 % 2 ^ 70 ∧
    (Normalized arch64 ⟨1, [5, 2 ^ 62 + 9, 3]⟩ → 0 < 70 →
      (∃ r, Scm_BignumAsh arch64 (exactArith arch64) ⟨1, [5, 2 ^ 62 + 9, 3]⟩
          (-((70 : Nat) : Int)) = some r) ∧
      (∀ c, Scm_BignumAsh arch64 (exactArith arch64) ⟨1, [5, 2 ^ 62 + 9, 3]⟩
          (-((70 : Nat) : Int)) = some (.big c) →
        70 < (⟨1, [5, 2 ^ 62 + 9, 3]⟩ : ScmBignum).size * arch64.WORD_BITS ∧
        ((((70 : Nat) : Int) + arch64.WORD_BITS - 1 ≤ INT_MAX ∨
            ((⟨1, [5, 2 ^ 62 + 9, 3]⟩ : ScmBignum).size + 1) * arch64.WORD_BITS ≤ 2 ^ 31) →
          ∃ r, Scm_BignumAsh arch64 (exactArith arch64) c ((70 : Nat) : Int) = some r ∧
            r.toInt arch64 = (⟨1, [5, 2 ^ 62 + 9, 3]⟩ : ScmBignum).toInt arch64
              - (⟨1, [5, 2 ^ 62 + 9, 3]⟩ : ScmBignum).toInt arch64 % 2 ^ 70)) ∧
      (∀ m, Scm_BignumAsh arch64 (exactArith arch64) ⟨1, [5, 2 ^ 62 + 9, 3]⟩
          (-((70 : Nat) : Int)) = some (.int m) →
        ((exactArith arch64).Scm_Ash (.int m) ((70 : Nat) : Int)).toInt arch64
          = (⟨1, [5, 2 ^ 62 + 9, 3]⟩ : ScmBignum).toInt arch64
            - (⟨1, [5, 2 ^ 62 + 9, 3]⟩ : ScmBignum).toInt arch64 % 2 ^ 70))) :=
  ⟨by decide, by decide, by decide, by decide,
    shift_right_left_clears_low_bits arch64 arch64_ok (exactArith arch64)
      (exactArith_exact arch64 arch64_ok) ⟨1, [5, 2 ^ 62 + 9, 3]⟩ (make_bignum 2) 70 4
      (by decide) (by decide) (by decide) (by decide)⟩

/-! ## Claims on adding a native integer -/

/-- C19 fails on the code: on a 64-bit platform, for the normalized bignum `2^61` and the
`long` `-2^62` the sum is `-2^61`, while `bignum_add_si` returns sign `1` with the words
`[2^64 - 2^61, 1]`, that is `2^65 - 2^61`: the signs differ, the subtraction leaves a
borrow, and the borrow is stored as the top word instead of complementing the words and
flipping the sign as `bignum_sub` does. -/
theorem bignum_add_si_borrow_kept :
    Normalized arch64 ⟨1, [2 ^ 61]⟩ ∧
    arch64.LONG_MIN ≤ -(2 ^ 62) ∧ -(2 ^ 62) ≤ (arch64.LONG_MAX : Int) ∧
    (⟨1, [2 ^ 61]⟩ : ScmBignum).toInt arch64 + -(2 ^ 62) = -(2 ^ 61) ∧
    bignum_add_si arch64 ⟨1, [2 ^ 61]⟩ (-(2 ^ 62)) = ⟨1, [2 ^ 64 - 2 ^ 61, 1]⟩ ∧
    (bignum_add_si arch64 ⟨1, [2 ^ 61]⟩ (-(2 ^ 62))).toInt arch64 = 2 ^ 65 - 2 ^ 61 ∧
    Scm_BignumAddSI arch64 ⟨1, [2 ^ 61]⟩ (-(2 ^ 62)) = .big ⟨1, [2 ^ 64 - 2 ^ 61, 1]⟩ :=
  ⟨⟨by decide, by decide, by decide, by decide⟩, by decide, by decide, by decide, by decide,
    by decide, by decide⟩

/-- C20 fails on the code: on a 64-bit platform, for the normalized bignum `2^64` and
`y = LONG_MIN = -2^63` the difference is `2^64 + 2^63`, while `Scm_BignumSubSI` returns
`2^63`: the negation `-y` is computed on a `long`, where it overflows and leaves
`LONG_MIN` again, so that `y` is added instead of subtracted. -/
theorem Scm_BignumSubSI_long_min :
    Normalized arch64 ⟨1, [0, 1]⟩ ∧ arch64.LONG_MIN = -(2 ^ 63) ∧
    (⟨1, [0, 1]⟩ : ScmBignum).toInt arch64 - -(2 ^ 63) = 2 ^ 64 + 2 ^ 63 ∧
    wrapLong arch64 (-(-(2 ^ 63))) = -(2 ^ 63) ∧
    Scm_BignumSubSI arch64 ⟨1, [0, 1]⟩ (-(2 ^ 63)) = .big ⟨1, [2 ^ 63]⟩ ∧
    (Scm_BignumSubSI arch64 ⟨1, [0, 1]⟩ (-(2 ^ 63))).toInt arch64 = 2 ^ 63 ∧
    Scm_BignumSubSI arch64 ⟨1, [0, 1]⟩ (-(2 ^ 63))
      = Scm_BignumAddSI arch64 ⟨1, [0, 1]⟩ (-(2 ^ 63)) :=
  ⟨⟨by decide, by decide, by decide, by decide⟩, by decide, by decide, by decide, by decide,
    by decide, by decide⟩

/-! ## Printing -/

/-- The zero-stripping loop of `Scm_BignumToString` stops below the zero words at the top:
no nonzero word is dropped, and the word that is now the top one is not zero. -/
theorem Scm_BignumToString_strip_spec (values : List Nat) (n : Nat) :
    Scm_BignumToString_strip values n ≤ n ∧
    (∀ j, Scm_BignumToString_strip values n ≤ j → j < n → values.getD j 0 = 0) ∧
    (Scm_BignumToString_strip values n = 0 ∨
      values.getD (Scm_BignumToString_strip values n - 1) 0 ≠ 0) := by
  induction n with
  | zero => exact ⟨le_rfl, fun j _ h => absurd h (by omega), Or.inl rfl⟩
  | succ n ih =>
    unfold Scm_BignumToString_strip
    split
    · rename_i hz
      obtain ⟨h1, h2, h3⟩ := ih
      refine ⟨by omega, ?_, h3⟩
      intro j hj hjn
      by_cases hjn2 : j < n
      · exact h2 j hj hjn2
      · have : j = n := by omega
        rw [this]; exact hz
    · rename_i hz
      refine ⟨le_rfl, fun j hj hjn => absurd hjn (by omega), Or.inr ?_⟩
      simpa using hz

/-- Truncating the words to the size left by the stripping loop keeps the magnitude; the
new size is zero or the magnitude is positive. -/
theorem Scm_BignumToString_strip_mag (A : Arch) (values : List Nat) :
    wordsVal A (values.take (Scm_BignumToString_strip values values.length))
      = wordsVal A values ∧
    ((values.take (Scm_BignumToString_strip values values.length)).length = 0 ∨
      0 < wordsVal A (values.take (Scm_BignumToString_strip values values.length))) := by
  obtain ⟨h1, h2, h3⟩ := Scm_BignumToString_strip_spec values values.length
  have hv : wordsVal A (values.take (Scm_BignumToString_strip values values.length))
      = wordsVal A values := by
    apply wordsVal_take_of_zero_above
    intro j hj
    by_cases hjl : j < values.length
    · exact h2 j hj hjl
    · exact List.getD_eq_default _ _ (by omega)
  refine ⟨hv, ?_⟩
  rcases h3 with h3 | h3
  · left; rw [h3]; simp
  · right
    rw [hv]
    have hg := wordsVal_ge_getD A values (Scm_BignumToString_strip values values.length - 1)
    have hp : 0 < A.base ^ (Scm_BignumToString_strip values values.length - 1) :=
      pow_pos A.base_pos _
    have : 0 < values.getD (Scm_BignumToString_strip values values.length - 1) 0
        * A.base ^ (Scm_BignumToString_strip values values.length - 1) :=
      Nat.mul_pos (by omega) hp
    omega

theorem half_le_long_max (A : Arch) (hA : A.Ok) : A.HALF_WORD ≤ A.LONG_MAX + 1 := by
  rw [A.LONG_MAX_succ]
  unfold Arch.HALF_WORD
  apply Nat.pow_le_pow_right (by norm_num)
  have := hA.even
  have := hA.pos
  omega

/-- The division loop of `Scm_BignumToString` appends the digits of the magnitude in the
radix, least significant first, when the bound on the number of turns is large enough. -/
theorem Scm_BignumToString_loop_spec (A : Arch) (hA : A.Ok) (r : Nat) (hr2 : 2 ≤ r)
    (hr : r < A.HALF_WORD) (tab : List Char) (fuel : Nat) (q : ScmBignum) (h : List Char)
    (hq : WordsOk A q.values) (hnz : q.size = 0 ∨ 0 < q.mag A) (hfuel : q.mag A < 2 ^ fuel) :
    Scm_BignumToString_loop A r tab fuel q h
      = some (h ++ (Nat.digits r (q.mag A)).map (fun d => tab.getD d '0')) := by
  induction fuel generalizing q h with
  | zero =>
    have h0 : q.mag A = 0 := by simpa using hfuel
    have hs : q.size = 0 := by omega
    unfold Scm_BignumToString_loop
    rw [if_neg (by omega), h0]
    simp
  | succ fuel ih =>
    unfold Scm_BignumToString_loop
    by_cases hs : q.size > 0
    · rw [if_pos hs]
      have hpos : 0 < q.mag A := by omega
      obtain ⟨qm, qr, qok, qsz, qsg⟩ := bignum_sdiv_spec A hA q r (by omega) hr hq hs
      have hrem : toLong A (bignum_sdiv A q r).1 = ((q.mag A % r : Nat) : Int) := by
        rw [qr]
        apply toLong_small
        have := Nat.mod_lt (q.mag A) (show 0 < r by omega)
        have := half_le_long_max A hA
        omega
      simp only [hrem]
      have hlt := Nat.mod_lt (q.mag A) (show 0 < r by omega)
      rw [if_pos ⟨by positivity, by exact_mod_cast hlt⟩, Int.toNat_ofNat]
      obtain ⟨sv, snz⟩ := Scm_BignumToString_strip_mag A (bignum_sdiv A q r).2.values
      have hdiv : q.mag A / r < 2 ^ fuel := by
        rw [Nat.div_lt_iff_lt_mul (by omega)]
        calc q.mag A < 2 ^ (fuel + 1) := hfuel
          _ = 2 ^ fuel * 2 := pow_succ 2 fuel
          _ ≤ 2 ^ fuel * r := Nat.mul_le_mul_left _ hr2
      have hmq : ScmBignum.mag A ⟨(bignum_sdiv A q r).2.sign,
          (bignum_sdiv A q r).2.values.take
            (Scm_BignumToString_strip (bignum_sdiv A q r).2.values (bignum_sdiv A q r).2.size)⟩
          = q.mag A / r := by
        unfold ScmBignum.mag at qm ⊢
        unfold ScmBignum.size
        simp only
        rw [sv, qm]
      rw [ih _ _ (qok.take _) (by rw [hmq]; unfold ScmBignum.size at *; simp only
                                  rcases snz with s0 | s1
                                  · left; exact s0
                                  · right; rw [← qm]; unfold ScmBignum.mag; rw [← sv]; exact s1)
        (by rw [hmq]; exact hdiv), hmq, Nat.digits_def' (by omega) hpos]
      simp
    · rw [if_neg hs]
      have h0 : q.mag A = 0 := by
        unfold ScmBignum.mag
        unfold ScmBignum.size at hs
        have : q.values = [] := List.eq_nil_of_length_eq_zero (by omega)
        rw [this]; rfl
      rw [h0]
      simp


/-- C12: for a normalized bignum `b` and a radix between 2 and 36 (on a platform whose
half word exceeds 36), with either case flag and enough turns allowed for the division
loop, `Scm_BignumToString` is `-` for a negative `b` followed by the radix digits of
`|value(b)|`, most significant first, digit `d` printed as the `d`-th symbol of `ltab`
(`utab` when `use_upper`).  There is at least one digit, the leading digit is not zero,
every digit is below the radix, and the digit symbols are pairwise distinct and differ
from `-`, so that the string determines `value(b)`. -/
theorem Scm_BignumToString_digits (A : Arch) (hA : A.Ok) (hW : 36 < A.HALF_WORD)
    (b : ScmBignum) (hb : Normalized A b) (radix : Int) (h2 : 2 ≤ radix) (h36 : radix ≤ 36)
    (use_upper : Bool) (fuel : Nat) (hfuel : A.WORD_BITS * b.size ≤ fuel) :
    Scm_BignumToString A b radix use_upper fuel =
      some ((if b.sign < 0 then ['-'] else []) ++
        (Nat.digits radix.toNat (b.mag A)).reverse.map
          (fun d => (if use_upper then utab else ltab).getD d '0')) ∧
    Nat.ofDigits radix.toNat (Nat.digits radix.toNat (b.mag A)) = b.mag A ∧
    Nat.digits radix.toNat (b.mag A) ≠ [] ∧
    (∀ hne, (Nat.digits radix.toNat (b.mag A)).getLast hne ≠ 0) ∧
    (∀ d ∈ Nat.digits radix.toNat (b.mag A), d < radix.toNat) ∧
    (∀ d, d < 36 → ∀ e, e < 36 →
      (if use_upper then utab else ltab).getD d '0'
        = (if use_upper then utab else ltab).getD e '0' → d = e) ∧
    '-' ∉ (if use_upper then utab else ltab) := by
  have hr2 : 2 ≤ radix.toNat := by omega
  have hr : radix.toNat < A.HALF_WORD := by omega
  have hmag := hb.mag_pos
  have hlt : (Scm_BignumCopy b).mag A < 2 ^ fuel := by
    have h1 := wordsVal_lt hb.words
    rw [A.base_pow] at h1
    exact lt_of_lt_of_le h1 (Nat.pow_le_pow_right (by norm_num) hfuel)
  have hloop := Scm_BignumToString_loop_spec A hA radix.toNat hr2 hr
    (if use_upper then utab else ltab) fuel (Scm_BignumCopy b) [] hb.words (Or.inr hmag) hlt
  refine ⟨?_, Nat.ofDigits_digits _ _, Nat.digits_ne_nil_iff_ne_zero.2 (by omega),
    fun hne => Nat.getLast_digit_ne_zero _ (by omega),
    fun d hd => Nat.digits_lt_base (by omega) hd, ?_, ?_⟩
  · unfold Scm_BignumToString
    simp only
    rw [if_neg (by omega), hloop]
    simp only [List.nil_append]
    have hc : (Scm_BignumCopy b).mag A = b.mag A := rfl
    have hsg : (Scm_BignumCopy b).sign = b.sign := rfl
    rw [hc, hsg]
    split
    · simp [List.reverse_append, List.map_reverse]
    · simp [List.map_reverse]
  · cases use_upper <;> simp only [Bool.false_eq_true, if_false, if_true] <;> decide
  · cases use_upper <;> simp only [Bool.false_eq_true, if_false, if_true] <;> decide

set_option maxRecDepth 100000 in
/-- Witness for C12 on a 64-bit platform: `-100000000000000000000` in radix 16 with upper
case digits is `-56BC75E2D63100000`. -/
theorem Scm_BignumToString_digits_witness :
    Scm_BignumToString arch64 ⟨-1, [100000000000000000000 % 2 ^ 64, 5]⟩ 16 true 128
      = some ['-', '5', '6', 'B', 'C', '7', '5', 'E', '2', 'D', '6', '3', '1', '0', '0',
          '0', '0', '0'] ∧
    Scm_BignumToString arch64 ⟨1, [100000000000000000000 % 2 ^ 64, 5]⟩ 10 false 128
      = some ['1', '0', '0', '0', '0', '0', '0', '0', '0', '0', '0', '0', '0', '0', '0',
          '0', '0', '0', '0', '0', '0'] ∧
    Scm_BignumToString arch64 ⟨-1, [100000000000000000000 % 2 ^ 64, 5]⟩ 16 true 128 =
      some ((if (⟨-1, [100000000000000000000 % 2 ^ 64, 5]⟩ : ScmBignum).sign < 0 then ['-']
          else []) ++
        (Nat.digits (16 : Int).toNat
            ((⟨-1, [100000000000000000000 % 2 ^ 64, 5]⟩ : ScmBignum).mag arch64)).reverse.map
          (fun d => (if true then utab else ltab).getD d '0')) :=
  have hb : Normalized arch64 ⟨-1, [100000000000000000000 % 2 ^ 64, 5]⟩ :=
    ⟨by decide, by decide, by decide, by decide⟩
  ⟨by decide, by decide,
    (Scm_BignumToString_digits arch64 arch64_ok (by decide) _ hb 16 (by decide) (by decide)
      true 128 (by decide)).1⟩

/-! ## Complement and multiply-accumulate -/

theorem wordsVal_injective (A : Arch) (xs ys : List Nat) (hx : WordsOk A xs)
    (hy : WordsOk A ys) (hl : xs.length = ys.length) (h : wordsVal A xs = wordsVal A ys) :
    xs = ys := by
  induction xs generalizing ys with
  | nil =>
    cases ys with
    | nil => rfl
    | cons y ys => simp at hl
  | cons x xs ih =>
    cases ys with
    | nil => simp at hl
    | cons y ys =>
      simp only [wordsVal] at h
      have hxl := hx.head
      have hyl := hy.head
      have h1 : x = y := by
        have e1 : (x + A.base * wordsVal A xs) % A.base = x := by
          rw [Nat.add_mul_mod_self_left, Nat.mod_eq_of_lt hxl]
        have e2 : (y + A.base * wordsVal A ys) % A.base = y := by
          rw [Nat.add_mul_mod_self_left, Nat.mod_eq_of_lt hyl]
        rw [← e1, ← e2, h]
      subst h1
      have h2 : wordsVal A xs = wordsVal A ys := by
        have : A.base * wordsVal A xs = A.base * wordsVal A ys := by omega
        exact Nat.eq_of_mul_eq_mul_left A.base_pos this
      rw [ih ys hx.tail hy.tail (by simpa using hl) h2]

/-- C25: for every bignum `b` of `n` words, `Scm_BignumComplement(b)` is a bignum of the
same size and sign whose words hold `(2^(WORD_BITS*n) - U) mod 2^(WORD_BITS*n)`, `U` being
the unsigned value of the words of `b`, whatever the sign of `b`; complementing twice
gives back the words of `b`.  The result is built on `Scm_BignumCopy(b)`. -/
theorem Scm_BignumComplement_spec (A : Arch) (b : ScmBignum) (hb : WordsOk A b.values) :
    (Scm_BignumComplement A b).size = b.size ∧
    (Scm_BignumComplement A b).sign = b.sign ∧
    wordsVal A (Scm_BignumComplement A b).values
      = (2 ^ (A.WORD_BITS * b.size) - wordsVal A b.values) % 2 ^ (A.WORD_BITS * b.size) ∧
    WordsOk A (Scm_BignumComplement A b).values ∧
    (Scm_BignumComplement A (Scm_BignumComplement A b)).values = b.values ∧
    Scm_BignumComplement A b = bignum_2scmpl A (Scm_BignumCopy b) := by
  obtain ⟨m, sz, ok, sg⟩ := bignum_2scmpl_spec A (Scm_BignumCopy b) hb
  have hc : Scm_BignumComplement A b = bignum_2scmpl A (Scm_BignumCopy b) := rfl
  have hsz : (Scm_BignumCopy b).size = b.size := rfl
  have hmg : (Scm_BignumCopy b).mag A = wordsVal A b.values := rfl
  rw [← hc, hsz] at m sz
  rw [← hc] at ok sg
  rw [hmg] at m
  have m1 : wordsVal A (Scm_BignumComplement A b).values
      = (A.base ^ b.size - wordsVal A b.values) % A.base ^ b.size := m
  refine ⟨sz, sg, by rw [← A.base_pow]; exact m1, ok, ?_, rfl⟩
  obtain ⟨m2, sz2, ok2, -⟩ := bignum_2scmpl_spec A (Scm_BignumCopy (Scm_BignumComplement A b)) ok
  have hc2 : Scm_BignumComplement A (Scm_BignumComplement A b)
      = bignum_2scmpl A (Scm_BignumCopy (Scm_BignumComplement A b)) := rfl
  have hsz2 : (Scm_BignumCopy (Scm_BignumComplement A b)).size
      = (Scm_BignumComplement A b).size := rfl
  have hmg2 : (Scm_BignumCopy (Scm_BignumComplement A b)).mag A
      = wordsVal A (Scm_BignumComplement A b).values := rfl
  rw [← hc2, hsz2, sz] at m2 sz2
  rw [← hc2] at ok2
  rw [hmg2, m1] at m2
  apply wordsVal_injective A _ _ ok2 hb sz2
  have hlt := wordsVal_lt hb
  have hm2 : wordsVal A (Scm_BignumComplement A (Scm_BignumComplement A b)).values
      = (A.base ^ b.size - (A.base ^ b.size - wordsVal A b.values) % A.base ^ b.size)
        % A.base ^ b.size := m2
  rw [hm2]
  have hlt' : wordsVal A b.values < A.base ^ b.size := hlt
  generalize A.base ^ b.size = M at hlt' ⊢
  generalize wordsVal A b.values = U at hlt' ⊢
  by_cases h0 : U = 0
  · subst h0
    simp
  · rw [Nat.mod_eq_of_lt (by omega : M - U < M), show M - (M - U) = U by omega,
      Nat.mod_eq_of_lt hlt']

/-- Witness for C25 on a 64-bit platform: the complement of the words `[5, 2^63]`. -/
theorem Scm_BignumComplement_spec_witness :
    Scm_BignumComplement arch64 ⟨1, [5, 2 ^ 63]⟩ = ⟨1, [2 ^ 64 - 5, 2 ^ 63 - 1]⟩ ∧
    Scm_BignumComplement arch64 ⟨-1, [0, 0]⟩ = ⟨-1, [0, 0]⟩ ∧
    (Scm_BignumComplement arch64 (Scm_BignumComplement arch64 ⟨1, [5, 2 ^ 63]⟩)).values
      = (⟨1, [5, 2 ^ 63]⟩ : ScmBignum).values :=
  ⟨by decide, by decide,
    (Scm_BignumComplement_spec arch64 ⟨1, [5, 2 ^ 63]⟩ (by decide)).2.2.2.2.1⟩

/-- C29: for an accumulator `br`, a bignum `bx`, a word `y` and an offset `off` with
`size(br) ≥ size(bx) + off + 1` and `U(br) + U(bx) * y * 2^(WORD_BITS*off)` below
`2^(WORD_BITS*size(br))`, `bignum_mul_word(br, bx, y, off)` leaves exactly that sum in the
words of `br`, whose size and sign are kept: no carry is lost. -/
theorem bignum_mul_word_exact (A : Arch) (br bx : ScmBignum) (y off : Nat)
    (hbx : WordsOk A bx.values) (hbr : WordsOk A br.values)
    (hsz : br.size ≥ bx.size + off + 1)
    (hfit : wordsVal A br.values + wordsVal A bx.values * y * 2 ^ (A.WORD_BITS * off)
      < 2 ^ (A.WORD_BITS * br.size)) :
    wordsVal A (bignum_mul_word A br bx y off).values
      = wordsVal A br.values + wordsVal A bx.values * y * 2 ^ (A.WORD_BITS * off) ∧
    WordsOk A (bignum_mul_word A br bx y off).values ∧
    (bignum_mul_word A br bx y off).size = br.size ∧
    (bignum_mul_word A br bx y off).sign = br.sign := by
  rw [← A.base_pow, ← A.base_pow] at hfit
  rw [← A.base_pow]
  exact bignum_mul_word_spec A br bx y off hbx hbr hsz hfit

/-- Witness for C29 on a 64-bit platform: the carry of the product ripples through two
all-ones words of the accumulator. -/
theorem bignum_mul_word_exact_witness :
    bignum_mul_word arch64 ⟨1, [1, 2 ^ 64 - 1, 2 ^ 64 - 1, 0]⟩ ⟨1, [2 ^ 64 - 1]⟩
      (2 ^ 64 - 1) 0 = ⟨1, [2, 2 ^ 64 - 3, 0, 1]⟩ ∧
    wordsVal arch64 (bignum_mul_word arch64 ⟨1, [1, 2 ^ 64 - 1, 2 ^ 64 - 1, 0]⟩
        ⟨1, [2 ^ 64 - 1]⟩ (2 ^ 64 - 1) 0).values
      = wordsVal arch64 (⟨1, [1, 2 ^ 64 - 1, 2 ^ 64 - 1, 0]⟩ : ScmBignum).values
        + wordsVal arch64 (⟨1, [2 ^ 64 - 1]⟩ : ScmBignum).values * (2 ^ 64 - 1)
          * 2 ^ (arch64.WORD_BITS * 0) :=
  ⟨by decide,
    (bignum_mul_word_exact arch64 ⟨1, [1, 2 ^ 64 - 1, 2 ^ 64 - 1, 0]⟩
      ⟨1, [2 ^ 64 - 1]⟩ (2 ^ 64 - 1) 0 (by decide) (by decide) (by decide) (by decide)).1⟩

/-! ## Radix validation -/

/-- The division loop of `Scm_BignumToString` ends with a string for every working copy,
normalized or not: the assertion on the remainder never fails. -/
theorem Scm_BignumToString_loop_total (A : Arch) (hA : A.Ok) (r : Nat) (hr2 : 2 ≤ r)
    (hr : r < A.HALF_WORD) (tab : List Char) (fuel : Nat) (q : ScmBignum) (h : List Char)
    (hq : WordsOk A q.values) (hf : q.size = 0 ∨ 0 < fuel) (hfuel : q.mag A < 2 ^ fuel) :
    ∃ s, Scm_BignumToString_loop A r tab fuel q h = some s := by
  by_cases hs : q.size > 0
  · obtain ⟨f, rfl⟩ : ∃ f, fuel = f + 1 := ⟨fuel - 1, by omega⟩
    unfold Scm_BignumToString_loop
    rw [if_pos hs]
    obtain ⟨qm, qr, qok, qsz, qsg⟩ := bignum_sdiv_spec A hA q r (by omega) hr hq hs
    have hrem : toLong A (bignum_sdiv A q r).1 = ((q.mag A % r : Nat) : Int) := by
      rw [qr]
      apply toLong_small
      have := Nat.mod_lt (q.mag A) (show 0 < r by omega)
      have := half_le_long_max A hA
      omega
    simp only [hrem]
    have hlt := Nat.mod_lt (q.mag A) (show 0 < r by omega)
    rw [if_pos ⟨by positivity, by exact_mod_cast hlt⟩, Int.toNat_ofNat]
    obtain ⟨sv, snz⟩ := Scm_BignumToString_strip_mag A (bignum_sdiv A q r).2.values
    have hdiv : q.mag A / r < 2 ^ f := by
      rw [Nat.div_lt_iff_lt_mul (by omega)]
      calc q.mag A < 2 ^ (f + 1) := hfuel
        _ = 2 ^ f * 2 := pow_succ 2 f
        _ ≤ 2 ^ f * r := Nat.mul_le_mul_left _ hr2
    have hmq : ScmBignum.mag A ⟨(bignum_sdiv A q r).2.sign,
        (bignum_sdiv A q r).2.values.take
          (Scm_BignumToString_strip (bignum_sdiv A q r).2.values (bignum_sdiv A q r).2.size)⟩
        = q.mag A / r := by
      unfold ScmBignum.mag at qm ⊢
      unfold ScmBignum.size
      simp only
      rw [sv, qm]
    exact ⟨_, Scm_BignumToString_loop_spec A hA r hr2 hr tab f _ _ (qok.take _)
      (by rw [hmq]; unfold ScmBignum.size at *; simp only
          rcases snz with s0 | s1
          · left; exact s0
          · right; rw [← qm]; unfold ScmBignum.mag; rw [← sv]; exact s1)
      (by rw [hmq]; exact hdiv)⟩
  · refine ⟨h, ?_⟩
    cases fuel with
    | zero => unfold Scm_BignumToString_loop; rw [if_neg hs]
    | succ f => unfold Scm_BignumToString_loop; rw [if_neg hs]

/-- C26: `Scm_BignumToString(b, radix, use_upper)` ends in `Scm_Error`, without a string,
exactly when `radix < 2` or `radix > 36`; for a radix in `[2, 36]` it returns a string and
the assertion `0 <= rem < radix` does not fail.  This is for every bignum `b`, on a
platform whose half word exceeds 36, with enough turns allowed for the division loop. -/
theorem Scm_BignumToString_radix (A : Arch) (hA : A.Ok) (hW : 36 < A.HALF_WORD)
    (b : ScmBignum) (hb : WordsOk A b.values) (radix : Int) (use_upper : Bool) (fuel : Nat)
    (hfuel : A.WORD_BITS * b.size ≤ fuel) :
    (Scm_BignumToString A b radix use_upper fuel = none ↔ (radix < 2 ∨ radix > 36)) ∧
    (2 ≤ radix → radix ≤ 36 → ∃ s, Scm_BignumToString A b radix use_upper fuel = some s) := by
  have hsome : 2 ≤ radix → radix ≤ 36 →
      ∃ s, Scm_BignumToString A b radix use_upper fuel = some s := by
    intro h2 h36
    have hlt : (Scm_BignumCopy b).mag A < 2 ^ fuel := by
      have h1 := wordsVal_lt hb
      rw [A.base_pow] at h1
      exact lt_of_lt_of_le h1 (Nat.pow_le_pow_right (by norm_num) hfuel)
    have hf : (Scm_BignumCopy b).size = 0 ∨ 0 < fuel := by
      by_cases h0 : b.size = 0
      · left; exact h0
      · right
        have hWp := hA.word_bits_pos
        have : 0 < A.WORD_BITS * b.size := Nat.mul_pos hWp (by omega)
        omega
    obtain ⟨s, hs⟩ := Scm_BignumToString_loop_total A hA radix.toNat (by omega) (by omega)
      (if use_upper then utab else ltab) fuel (Scm_BignumCopy b) [] hb hf hlt
    unfold Scm_BignumToString
    simp only
    rw [if_neg (by omega), hs]
    exact ⟨_, rfl⟩
  refine ⟨⟨fun h => ?_, fun h => ?_⟩, hsome⟩
  · by_contra hcon
    obtain ⟨s, hs⟩ := hsome (by omega) (by omega)
    rw [hs] at h
    cases h
  · unfold Scm_BignumToString
    simp only
    rw [if_pos h]

set_option maxRecDepth 100000 in
/-- Witness for C26 on a 64-bit platform: the radixes 1 and 37 are refused, the radix 36
gives a string, also for a bignum with a leading zero word. -/
theorem Scm_BignumToString_radix_witness :
    Scm_BignumToString arch64 ⟨1, [35, 1, 0]⟩ 1 false 192 = none ∧
    Scm_BignumToString arch64 ⟨1, [35, 1, 0]⟩ 37 false 192 = none ∧
    Scm_BignumToString arch64 ⟨1, [35, 0, 0]⟩ 36 false 192 = some ['z'] ∧
    ((Scm_BignumToString arch64 ⟨1, [35, 1, 0]⟩ 36 false 192 = none ↔
      ((36 : Int) < 2 ∨ (36 : Int) > 36)) ∧
    ((2 : Int) ≤ 36 → (36 : Int) ≤ 36 →
      ∃ s, Scm_BignumToString arch64 ⟨1, [35, 1, 0]⟩ 36 false 192 = some s)) :=
  ⟨by decide, by decide, by decide,
    Scm_BignumToString_radix arch64 arch64_ok (by decide) ⟨1, [35, 1, 0]⟩ (by decide) 36
      false 192 (by decide)⟩

/-! ## Half-word division without overflow -/

/-- In the loop of `bignum_sdiv` no intermediate result exceeds a word: the checked loop
runs to the end and agrees with the loop on machine words. -/
theorem bignum_sdiv_loop_checked_eq (A : Arch) (hA : A.Ok) (D : Nat) (hD0 : 0 < D)
    (hD : D < A.HALF_WORD) (n : Nat) (pu : List Nat) (q0 : Nat) (hn : n < pu.length)
    (hok : WordsOk A pu) (hq : pu.getD n 0 / D + q0 < A.base) :
    bignum_sdiv_loop_checked A D n pu q0 = some (bignum_sdiv_loop A D n pu q0) := by
  induction n generalizing pu q0 with
  | zero => rfl
  | succ n ih =>
    unfold bignum_sdiv_loop_checked bignum_sdiv_loop
    simp only
    have hB := hA.base_eq
    have hb := A.HALF_WORD_pos
    have hw0 : pu.getD n 0 < A.base := hok.getD n
    have hw0hi := div_half_lt hA hw0
    have hmod : pu.getD (n + 1) 0 % D < D := Nat.mod_lt _ hD0
    have eq1 : (pu.getD (n + 1) 0 / D + q0) % A.base = pu.getD (n + 1) 0 / D + q0 :=
      Nat.mod_eq_of_lt hq
    have hDb : D * A.HALF_WORD ≤ A.base := by
      rw [hB]; exact Nat.mul_le_mul_right _ (le_of_lt hD)
    have hsh : (pu.getD (n + 1) 0 % D) <<< A.HALF_BITS < A.base := by
      rw [shl_half_raw]
      calc (pu.getD (n + 1) 0 % D) * A.HALF_WORD < D * A.HALF_WORD :=
            Nat.mul_lt_mul_of_pos_right hmod hb
        _ ≤ A.base := hDb
    have hr1lt : (pu.getD (n + 1) 0 % D) <<< A.HALF_BITS + HI A (pu.getD n 0)
        < D * A.HALF_WORD := by
      rw [shl_half_raw, HI_eq_div hA hw0]
      calc (pu.getD (n + 1) 0 % D) * A.HALF_WORD + pu.getD n 0 / A.HALF_WORD
          < (pu.getD (n + 1) 0 % D) * A.HALF_WORD + A.HALF_WORD := by omega
        _ = (pu.getD (n + 1) 0 % D + 1) * A.HALF_WORD := by ring
        _ ≤ D * A.HALF_WORD := Nat.mul_le_mul_right _ hmod
    have er1 : ((pu.getD (n + 1) 0 % D) <<< A.HALF_BITS + HI A (pu.getD n 0)) % A.base
        = (pu.getD (n + 1) 0 % D) <<< A.HALF_BITS + HI A (pu.getD n 0) :=
      Nat.mod_eq_of_lt (by omega)
    rw [eq1, er1]
    obtain ⟨r1, hr1⟩ : ∃ r1, r1 = (pu.getD (n + 1) 0 % D) <<< A.HALF_BITS
        + HI A (pu.getD n 0) := ⟨_, rfl⟩
    rw [← hr1] at hr1lt ⊢
    have hr1q : r1 / D < A.HALF_WORD := by
      rw [Nat.div_lt_iff_lt_mul hD0, mul_comm A.HALF_WORD D]; exact hr1lt
    have hq0lt : (r1 / D) <<< A.HALF_BITS < A.base := by
      rw [shl_half_raw, hB]
      exact Nat.mul_lt_mul_of_pos_right hr1q hb
    have eq0 : ((r1 / D) <<< A.HALF_BITS) % A.base = (r1 / D) <<< A.HALF_BITS :=
      Nat.mod_eq_of_lt hq0lt
    rw [eq0]
    have hr0 : r1 % D < D := Nat.mod_lt _ hD0
    have hpu1n : (pu.set (n + 1) (pu.getD (n + 1) 0 / D + q0)).getD n 0 = pu.getD n 0 :=
      getD_set_ne' _ _ _ _ (by omega)
    rw [hpu1n]
    have hlo : LO A (pu.getD n 0) < A.HALF_WORD := by
      rw [LO_eq]; exact Nat.mod_lt _ hb
    have hnewlt : (r1 % D) <<< A.HALF_BITS + LO A (pu.getD n 0) < D * A.HALF_WORD := by
      rw [shl_half_raw]
      calc (r1 % D) * A.HALF_WORD + LO A (pu.getD n 0)
          < (r1 % D) * A.HALF_WORD + A.HALF_WORD := by omega
        _ = (r1 % D + 1) * A.HALF_WORD := by ring
        _ ≤ D * A.HALF_WORD := Nat.mul_le_mul_right _ hr0
    have enew : ((r1 % D) <<< A.HALF_BITS + LO A (pu.getD n 0)) % A.base
        = (r1 % D) <<< A.HALF_BITS + LO A (pu.getD n 0) := Nat.mod_eq_of_lt (by omega)
    rw [enew, if_pos ⟨hq, hsh, by omega, hq0lt, by omega⟩]
    apply ih
    · simp; omega
    · exact (hok.set _ hq).set _ (by omega)
    · rw [getD_set_eq _ _ _ (by simp; omega)]
      have h1 : ((r1 % D) <<< A.HALF_BITS + LO A (pu.getD n 0)) / D < A.HALF_WORD := by
        rw [Nat.div_lt_iff_lt_mul hD0, mul_comm A.HALF_WORD D]; exact hnewlt
      rw [shl_half_raw (x := r1 / D)]
      have h2 : (r1 / D) * A.HALF_WORD ≤ (A.HALF_WORD - 1) * A.HALF_WORD :=
        Nat.mul_le_mul_right _ (by omega)
      have h3 : (A.HALF_WORD - 1) * A.HALF_WORD + A.HALF_WORD = A.HALF_WORD * A.HALF_WORD := by
        have : A.HALF_WORD - 1 + 1 = A.HALF_WORD := by omega
        calc (A.HALF_WORD - 1) * A.HALF_WORD + A.HALF_WORD
            = (A.HALF_WORD - 1 + 1) * A.HALF_WORD := by ring
          _ = _ := by rw [this]
      rw [hB]; omega

/-- C27: for a bignum of at least one word with unsigned magnitude `U` and a divisor `d`
with `0 < d < HALF_WORD`, `bignum_sdiv` leaves `floor(U / d)` in the words (same size and
sign) and returns `U mod d`; the run in which every intermediate shift and sum is checked
against the word size succeeds with the same result, so none of them overflows. -/
theorem bignum_sdiv_exact (A : Arch) (hA : A.Ok) (x : ScmBignum) (d : Nat) (hd0 : 0 < d)
    (hd : d < 2 ^ (A.WORD_BITS / 2)) (hx : WordsOk A x.values) (hn : 1 ≤ x.size) :
    wordsVal A (bignum_sdiv A x d).2.values = wordsVal A x.values / d ∧
    (bignum_sdiv A x d).1 = wordsVal A x.values % d ∧
    (bignum_sdiv A x d).2.size = x.size ∧
    (bignum_sdiv A x d).2.sign = x.sign ∧
    WordsOk A (bignum_sdiv A x d).2.values ∧
    bignum_sdiv_checked A x d = some (bignum_sdiv A x d) := by
  have hd' : d < A.HALF_WORD := hd
  obtain ⟨m, r, ok, sz, sg⟩ := bignum_sdiv_spec A hA x d hd0 hd' hx hn
  refine ⟨m, r, sz, sg, ok, ?_⟩
  unfold ScmBignum.size at hn
  have hq : x.values.getD (x.values.length - 1) 0 / d + 0 < A.base :=
    lt_of_le_of_lt (by rw [add_zero]; exact Nat.div_le_self _ _) (hx.getD _)
  have hl := bignum_sdiv_loop_checked_eq A hA d hd0 hd' (x.values.length - 1) x.values 0
    (by omega) hx hq
  obtain ⟨-, -, q, -⟩ := bignum_sdiv_loop_spec A hA d hd0 hd' (x.values.length - 1) x.values 0
    (by omega) hx hq
  unfold bignum_sdiv_checked bignum_sdiv ScmBignum.size
  simp only
  rw [hl]
  simp only
  rw [if_pos q, Nat.mod_eq_of_lt q]

/-- Witness for C27 on a 64-bit platform: `100000000000000000000` divided by `7`. -/
theorem bignum_sdiv_exact_witness :
    bignum_sdiv arch64 ⟨1, [100000000000000000000 % 2 ^ 64, 5]⟩ 7
      = (2, ⟨1, [14285714285714285714, 0]⟩) ∧
    bignum_sdiv_checked arch64 ⟨1, [100000000000000000000 % 2 ^ 64, 5]⟩ 7
      = some (bignum_sdiv arch64 ⟨1, [100000000000000000000 % 2 ^ 64, 5]⟩ 7) :=
  ⟨by decide,
    (bignum_sdiv_exact arch64 arch64_ok ⟨1, [100000000000000000000 % 2 ^ 64, 5]⟩ 7
      (by decide) (by decide) (by decide) (by decide)).2.2.2.2.2⟩

/-! ## Comparison -/

/-- Three-way comparison of two integers, as `-1`, `0` or `1`. -/
theorem cmp_cases (a b : Int) :
    (if a < b then (-1 : Int) else if a = b then 0 else 1)
      = -(if b < a then (-1 : Int) else if b = a then 0 else 1) := by
  rcases lt_trichotomy a b with h | h | h
  · rw [if_pos h, if_neg (by omega), if_neg (by omega)]
  · rw [if_neg (by omega), if_pos h, if_neg (by omega), if_pos h.symm]; simp
  · rw [if_neg (by omega), if_neg (by omega), if_pos h]; rfl

theorem wordsVal_take_lt {A : Arch} {xs : List Nat} (hx : WordsOk A xs) (n : Nat) :
    wordsVal A (xs.take n) < A.base ^ n := by
  have h := wordsVal_lt (hx.take n)
  have hl : (xs.take n).length ≤ n := by simp
  exact lt_of_lt_of_le h (Nat.pow_le_pow_right A.base_pos hl)

/-- The word loop of `Scm_BignumCmp` compares the magnitudes held in the low `n` words. -/
theorem Scm_BignumCmp_loop_spec (A : Arch) (bx by_ : ScmBignum) (hx : WordsOk A bx.values)
    (hy : WordsOk A by_.values) (n : Nat) :
    Scm_BignumCmp_loop bx by_ n =
      if wordsVal A (bx.values.take n) < wordsVal A (by_.values.take n) then
        (if bx.sign > 0 then -1 else 1)
      else if wordsVal A (bx.values.take n) > wordsVal A (by_.values.take n) then
        (if bx.sign > 0 then 1 else -1)
      else 0 := by
  induction n with
  | zero => simp [Scm_BignumCmp_loop, wordsVal]
  | succ n ih =>
    unfold Scm_BignumCmp_loop
    rw [wordsVal_take_succ, wordsVal_take_succ]
    have hX := wordsVal_take_lt hx n
    have hY := wordsVal_take_lt hy n
    generalize wordsVal A (bx.values.take n) = X at *
    generalize wordsVal A (by_.values.take n) = Y at *
    generalize bx.values.getD n 0 = a at *
    generalize by_.values.getD n 0 = b at *
    have hP : 0 < A.base ^ n := pow_pos A.base_pos n
    generalize A.base ^ n = P at *
    by_cases hab : a < b
    · have h1 : P * (a + 1) ≤ P * b := Nat.mul_le_mul_left _ hab
      have h2 : P * (a + 1) = P * a + P := by ring
      have h3 : X + P * a < Y + P * b := by omega
      rw [if_pos hab, if_pos h3]
    · rw [if_neg hab]
      by_cases hba : a > b
      · have h1 : P * (b + 1) ≤ P * a := Nat.mul_le_mul_left _ hba
        have h2 : P * (b + 1) = P * b + P := by ring
        have h3 : ¬ X + P * a < Y + P * b := by omega
        have h4 : X + P * a > Y + P * b := by omega
        rw [if_pos hba, if_neg h3, if_pos h4]
      · rw [if_neg hba, ih]
        have hab' : a = b := by omega
        subst hab'
        by_cases hXY : X < Y
        · have h3 : X + P * a < Y + P * a := by omega
          rw [if_pos hXY, if_pos h3]
        · have h3 : ¬ X + P * a < Y + P * a := by omega
          rw [if_neg hXY, if_neg h3]
          by_cases hYX : X > Y
          · have h4 : X + P * a > Y + P * a := by omega
            rw [if_pos hYX, if_pos h4]
          · have h4 : ¬ X + P * a > Y + P * a := by omega
            rw [if_neg hYX, if_neg h4]

/-- A normalized bignum of no more words has the smaller magnitude. -/
theorem Normalized.mag_lt_of_size_lt {A : Arch} {x y : ScmBignum} (hx : Normalized A x)
    (hy : Normalized A y) (h : x.size < y.size) : x.mag A < y.mag A := by
  have h1 := wordsVal_lt hx.words
  have h2 := wordsVal_ge_getD A y.values (y.size - 1)
  have ht := hy.top
  have hp : A.base ^ x.size ≤ A.base ^ (y.size - 1) :=
    Nat.pow_le_pow_right A.base_pos (by omega)
  have h3 : 1 * A.base ^ (y.size - 1) ≤ y.values.getD (y.size - 1) 0 * A.base ^ (y.size - 1) :=
    Nat.mul_le_mul_right _ (by omega)
  unfold ScmBignum.mag
  unfold ScmBignum.size at h h2 ht h3 hp
  omega

theorem tri_lt (a b : Int) (h : a < b) :
    (if a < b then (-1 : Int) else if a = b then 0 else 1) = -1 := by
  rw [if_pos h]

theorem tri_eq (a b : Int) (h : a = b) :
    (if a < b then (-1 : Int) else if a = b then 0 else 1) = 0 := by
  rw [if_neg (by omega), if_pos h]

theorem tri_gt (a b : Int) (h : b < a) :
    (if a < b then (-1 : Int) else if a = b then 0 else 1) = 1 := by
  rw [if_neg (by omega), if_neg (by omega)]

/-- The word loop of `Scm_BignumCmp` on two bignums of the same size. -/
theorem Scm_BignumCmp_loop_full (A : Arch) (x y : ScmBignum) (hx : WordsOk A x.values)
    (hy : WordsOk A y.values) (hs : x.size = y.size) :
    (x.mag A < y.mag A → Scm_BignumCmp_loop x y x.size = (if x.sign > 0 then -1 else 1)) ∧
    (x.mag A > y.mag A → Scm_BignumCmp_loop x y x.size = (if x.sign > 0 then 1 else -1)) ∧
    (x.mag A = y.mag A → Scm_BignumCmp_loop x y x.size = 0) := by
  have tx : x.values.take x.size = x.values := List.take_of_length_le le_rfl
  have ty : y.values.take x.size = y.values :=
    List.take_of_length_le (by unfold ScmBignum.size at *; omega)
  have h := Scm_BignumCmp_loop_spec A x y hx hy x.size
  rw [tx, ty] at h
  unfold ScmBignum.mag
  refine ⟨fun h1 => ?_, fun h1 => ?_, fun h1 => ?_⟩
  · rw [h, if_pos h1]
  · have h2 : ¬ wordsVal A x.values < wordsVal A y.values := by omega
    rw [h, if_neg h2, if_pos h1]
  · have h2 : ¬ wordsVal A x.values < wordsVal A y.values := by omega
    have h3 : ¬ wordsVal A x.values > wordsVal A y.values := by omega
    rw [h, if_neg h2, if_neg h3]

/-- The value that `Scm_BignumCmp` returns for normalized bignums. -/
theorem Scm_BignumCmp_value (A : Arch) (x y : ScmBignum) (hx : Normalized A x)
    (hy : Normalized A y) :
    Scm_BignumCmp x y
      = (if x.toInt A < y.toInt A then -1 else if x.toInt A = y.toInt A then 0 else 1) := by
  have hmx : (0 : Int) < x.mag A := by exact_mod_cast hx.mag_pos
  have hmy : (0 : Int) < y.mag A := by exact_mod_cast hy.mag_pos
  have hpos : ((1 : Int) > 0) := by norm_num
  have hneg : ¬ ((-1 : Int) > 0) := by norm_num
  rcases hx.sign with sx | sx <;> rcases hy.sign with sy | sy
  · -- both positive
    have vx : x.toInt A = x.mag A := toInt_pos A x sx
    have vy : y.toInt A = y.mag A := toInt_pos A y sy
    have hform : Scm_BignumCmp x y =
        if x.size < y.size then -1 else if x.size > y.size then 1
        else Scm_BignumCmp_loop x y x.size := by
      unfold Scm_BignumCmp
      rw [sx, sy, if_neg (by norm_num), if_neg (by norm_num), if_pos hpos, if_pos hpos]
    rw [hform, vx, vy]
    by_cases h1 : x.size < y.size
    · have := hx.mag_lt_of_size_lt hy h1
      rw [if_pos h1, tri_lt _ _ (by exact_mod_cast this)]
    · rw [if_neg h1]
      by_cases h2 : x.size > y.size
      · have := hy.mag_lt_of_size_lt hx h2
        rw [if_pos h2, tri_gt _ _ (by exact_mod_cast this)]
      · rw [if_neg h2]
        obtain ⟨c1, c2, c3⟩ := Scm_BignumCmp_loop_full A x y hx.words hy.words (by omega)
        rcases lt_trichotomy (x.mag A) (y.mag A) with h | h | h
        · rw [c1 h, sx, if_pos hpos, tri_lt _ _ (by exact_mod_cast h)]
        · rw [c3 h, tri_eq _ _ (by exact_mod_cast h)]
        · rw [c2 h, sx, if_pos hpos, tri_gt _ _ (by exact_mod_cast h)]
  · -- x positive, y negative
    have vx : x.toInt A = x.mag A := toInt_pos A x sx
    have vy : y.toInt A = -(y.mag A : Int) := by unfold ScmBignum.toInt; rw [sy]; ring
    have hform : Scm_BignumCmp x y = 1 := by
      unfold Scm_BignumCmp
      rw [sx, sy, if_neg (by norm_num), if_pos (by norm_num)]
    rw [hform, tri_gt _ _ (by omega)]
  · -- x negative, y positive
    have vx : x.toInt A = -(x.mag A : Int) := by unfold ScmBignum.toInt; rw [sx]; ring
    have vy : y.toInt A = y.mag A := toInt_pos A y sy
    have hform : Scm_BignumCmp x y = -1 := by
      unfold Scm_BignumCmp
      rw [sx, sy, if_pos (by norm_num)]
    rw [hform, tri_lt _ _ (by omega)]
  · -- both negative
    have vx : x.toInt A = -(x.mag A : Int) := by unfold ScmBignum.toInt; rw [sx]; ring
    have vy : y.toInt A = -(y.mag A : Int) := by unfold ScmBignum.toInt; rw [sy]; ring
    have hform : Scm_BignumCmp x y =
        if x.size < y.size then 1 else if x.size > y.size then -1
        else Scm_BignumCmp_loop x y x.size := by
      unfold Scm_BignumCmp
      rw [sx, sy, if_neg (by norm_num), if_neg (by norm_num), if_neg hneg, if_neg hneg]
    rw [hform, vx, vy]
    by_cases h1 : x.size < y.size
    · have := hx.mag_lt_of_size_lt hy h1
      have h' : (x.mag A : Int) < y.mag A := by exact_mod_cast this
      rw [if_pos h1, tri_gt _ _ (by omega)]
    · rw [if_neg h1]
      by_cases h2 : x.size > y.size
      · have := hy.mag_lt_of_size_lt hx h2
        have h' : (y.mag A : Int) < x.mag A := by exact_mod_cast this
        rw [if_pos h2, tri_lt _ _ (by omega)]
      · rw [if_neg h2]
        obtain ⟨c1, c2, c3⟩ := Scm_BignumCmp_loop_full A x y hx.words hy.words (by omega)
        rcases lt_trichotomy (x.mag A) (y.mag A) with h | h | h
        · have h' : (x.mag A : Int) < y.mag A := by exact_mod_cast h
          rw [c1 h, sx, if_neg hneg, tri_gt _ _ (by omega)]
        · have h' : (x.mag A : Int) = y.mag A := by exact_mod_cast h
          rw [c3 h, tri_eq _ _ (by omega)]
        · have h' : (y.mag A : Int) < x.mag A := by exact_mod_cast h
          rw [c2 h, sx, if_neg hneg, tri_lt _ _ (by omega)]


/-- C22: for normalized bignums `x` and `y`, `Scm_BignumCmp(x, y)` is `-1`, `0` or `1` as
`value(x)` is less than, equal to or greater than `value(y)`; hence
`Cmp(x, y) = -Cmp(y, x)`, and `Cmp(x, y) = 0` exactly when sign, size and words agree. -/
theorem Scm_BignumCmp_signed (A : Arch) (x y : ScmBignum) (hx : Normalized A x)
    (hy : Normalized A y) :
    Scm_BignumCmp x y
      = (if x.toInt A < y.toInt A then -1 else if x.toInt A = y.toInt A then 0 else 1) ∧
    Scm_BignumCmp x y = -Scm_BignumCmp y x ∧
    (Scm_BignumCmp x y = 0 ↔ (x.sign = y.sign ∧ x.size = y.size ∧ x.values = y.values)) := by
  have h1 := Scm_BignumCmp_value A x y hx hy
  have h2 := Scm_BignumCmp_value A y x hy hx
  refine ⟨h1, by rw [h1, h2]; exact cmp_cases _ _, ?_⟩
  have hmx : (0 : Int) < x.mag A := by exact_mod_cast hx.mag_pos
  have hmy : (0 : Int) < y.mag A := by exact_mod_cast hy.mag_pos
  constructor
  · intro h0
    rw [h1] at h0
    have heq : x.toInt A = y.toInt A := by
      by_contra hne
      rcases lt_or_gt_of_ne hne with h | h
      · rw [tri_lt _ _ h] at h0; omega
      · rw [tri_gt _ _ h] at h0; omega
    unfold ScmBignum.toInt at heq
    have hsign : x.sign = y.sign := by
      rcases hx.sign with sx | sx <;> rcases hy.sign with sy | sy <;> rw [sx, sy] at heq <;>
        omega
    have hmag : x.mag A = y.mag A := by
      rw [hsign] at heq
      rcases hy.sign with sy | sy <;> rw [sy] at heq <;>
        · have : (x.mag A : Int) = y.mag A := by omega
          exact_mod_cast this
    have hsize : x.size = y.size := by
      by_contra hne
      rcases Nat.lt_or_gt_of_ne hne with h | h
      · have := hx.mag_lt_of_size_lt hy h; omega
      · have := hy.mag_lt_of_size_lt hx h; omega
    exact ⟨hsign, hsize, wordsVal_injective A _ _ hx.words hy.words hsize hmag⟩
  · rintro ⟨hs, -, hv⟩
    rw [h1]
    apply tri_eq
    unfold ScmBignum.toInt ScmBignum.mag
    rw [hs, hv]

/-- Witness for C22 on a 64-bit platform: of two negative bignums the one of larger
magnitude compares smaller. -/
theorem Scm_BignumCmp_signed_witness :
    Scm_BignumCmp ⟨-1, [5, 7]⟩ ⟨-1, [6, 7]⟩ = 1 ∧
    Scm_BignumCmp ⟨-1, [6, 7]⟩ ⟨-1, [5, 7]⟩ = -1 ∧
    Scm_BignumCmp ⟨-1, [5, 7]⟩ ⟨-1, [6, 7]⟩
      = (if (⟨-1, [5, 7]⟩ : ScmBignum).toInt arch64 < (⟨-1, [6, 7]⟩ : ScmBignum).toInt arch64
          then -1
        else if (⟨-1, [5, 7]⟩ : ScmBignum).toInt arch64
            = (⟨-1, [6, 7]⟩ : ScmBignum).toInt arch64 then 0
        else 1) :=
  have hx : Normalized arch64 ⟨-1, [5, 7]⟩ := ⟨by decide, by decide, by decide, by decide⟩
  have hy : Normalized arch64 ⟨-1, [6, 7]⟩ := ⟨by decide, by decide, by decide, by decide⟩
  ⟨by decide, by decide, (Scm_BignumCmp_signed arch64 _ _ hx hy).1⟩

/-! ## Digit accumulation -/

theorem Scm_BignumAccMultAddUI_copy_eq (r : List Nat) (n : Nat) (dst : List Nat) (i : Nat)
    (h1 : i + n ≤ dst.length) (h2 : i + n ≤ r.length) :
    Scm_BignumAccMultAddUI_copy r dst n i
      = dst.take i ++ (r.drop i).take n ++ dst.drop (i + n) := by
  induction n generalizing dst i with
  | zero => simp [Scm_BignumAccMultAddUI_copy]
  | succ n ih =>
    rw [Scm_BignumAccMultAddUI_copy, ih _ _ (by simp; omega) (by omega)]
    have ht : (dst.set i (r.getD i 0)).take (i + 1) = dst.take i ++ [r.getD i 0] := by
      rw [List.set_eq_take_append_cons_drop, if_pos (by omega),
        List.take_append_eq_append_take]
      simp [List.length_take, Nat.min_eq_left (show i ≤ dst.length by omega)]
    rw [ht, List.drop_set_of_lt _ _ (by omega), drop_eq_getD_cons r i (by omega),
      List.take_succ_cons, show i + 1 + n = i + (n + 1) by omega]
    simp

/-- C24: for every bignum `acc` and all words `coef` and `c`,
`Scm_BignumAccMultAddUI(acc, coef, c)` returns a bignum of the sign of `acc` whose
magnitude is `magnitude(acc) * coef + c`.  It is `acc` itself, overwritten and of the
same size, exactly when the new magnitude fits `size(acc)` words; otherwise it is a fresh
bignum of `size(acc) + 4` words whose first `size(acc) + 1` words hold the result. -/
theorem Scm_BignumAccMultAddUI_spec (A : Arch) (acc : ScmBignum) (coef c : Nat)
    (hacc : WordsOk A acc.values) (hcoef : coef < A.base) (hc : c < A.base) :
    wordsVal A (Scm_BignumAccMultAddUI A acc coef c).2.values
      = wordsVal A acc.values * coef + c ∧
    (Scm_BignumAccMultAddUI A acc coef c).2.sign = acc.sign ∧
    WordsOk A (Scm_BignumAccMultAddUI A acc coef c).2.values ∧
    ((Scm_BignumAccMultAddUI A acc coef c).1 = true ↔
      wordsVal A acc.values * coef + c < 2 ^ (A.WORD_BITS * acc.size)) ∧
    ((Scm_BignumAccMultAddUI A acc coef c).1 = true →
      (Scm_BignumAccMultAddUI A acc coef c).2.size = acc.size) ∧
    ((Scm_BignumAccMultAddUI A acc coef c).1 = false →
      (Scm_BignumAccMultAddUI A acc coef c).2.size = acc.size + 4 ∧
      wordsVal A ((Scm_BignumAccMultAddUI A acc coef c).2.values.take (acc.size + 1))
        = wordsVal A acc.values * coef + c) := by
  -- the temporary `r` before the multiplication
  obtain ⟨r0, hr0⟩ : ∃ r0 : ScmBignum,
      r0 = ⟨(make_bignum (acc.size + 1)).sign, (make_bignum (acc.size + 1)).values.set 0 c⟩ :=
    ⟨_, rfl⟩
  have hr0len : r0.values.length = acc.size + 1 := by
    rw [hr0]; simp [make_bignum]
  have hr0ok : WordsOk A r0.values := by
    rw [hr0]; exact (WordsOk.replicate_zero A _).set 0 hc
  have hr0val : wordsVal A r0.values = c := by
    have h := wordsVal_set A (make_bignum (acc.size + 1)).values 0 c
      (by rw [make_bignum_size]; omega)
    have hz : wordsVal A (make_bignum (acc.size + 1)).values = 0 := wordsVal_replicate_zero A _
    have hg : (make_bignum (acc.size + 1)).values.getD 0 0 = 0 := by
      simp [make_bignum, List.replicate_succ]
    rw [hz, hg] at h
    rw [hr0]
    simp only [pow_zero, mul_one, zero_mul, add_zero, zero_add] at h
    exact h
  have hsz0 : acc.size = acc.values.length := rfl
  have hU := wordsVal_lt hacc
  have hfit : r0.mag A + acc.mag A * coef * A.base ^ 0 < A.base ^ r0.size := by
    unfold ScmBignum.mag ScmBignum.size
    rw [hr0val, hr0len, pow_zero, mul_one, pow_succ]
    have h1 : wordsVal A acc.values * coef ≤ wordsVal A acc.values * A.base :=
      Nat.mul_le_mul_left _ (le_of_lt hcoef)
    have h3 : (wordsVal A acc.values + 1) * A.base
        = wordsVal A acc.values * A.base + A.base := by ring
    rw [← hsz0] at hU
    have h2 : (wordsVal A acc.values + 1) * A.base ≤ A.base ^ acc.size * A.base :=
      Nat.mul_le_mul_right _ hU
    omega
  obtain ⟨m, ok, sz, -⟩ := bignum_mul_word_spec A r0 acc coef 0 hacc hr0ok
    (by show acc.size + 0 + 1 ≤ r0.values.length; omega) hfit
  obtain ⟨r, hr⟩ : ∃ r, r = bignum_mul_word A r0 acc coef 0 := ⟨_, rfl⟩
  rw [← hr] at m ok sz
  have hrlen : r.values.length = acc.size + 1 := by
    have : r.size = r0.size := sz
    unfold ScmBignum.size at this
    rw [this, hr0len]
  have hV : wordsVal A r.values = wordsVal A acc.values * coef + c := by
    have : r.mag A = r0.mag A + acc.mag A * coef * A.base ^ 0 := m
    unfold ScmBignum.mag at this
    rw [this, hr0val, pow_zero, mul_one, add_comm]
  have hsplit := wordsVal_take_succ A r.values acc.size
  rw [List.take_of_length_le (by omega), hV] at hsplit
  have hT := wordsVal_take_lt ok acc.size
  have hform : Scm_BignumAccMultAddUI A acc coef c =
      if r.values.getD acc.size 0 = 0 then
        (true, ⟨acc.sign, Scm_BignumAccMultAddUI_copy r.values acc.values acc.size 0⟩)
      else
        (false, ⟨acc.sign, Scm_BignumAccMultAddUI_copy r.values
          (make_bignum (acc.size + 1 + 3)).values (acc.size + 1) 0⟩) := by
    unfold Scm_BignumAccMultAddUI
    simp only [Nat.add_sub_cancel]
    rw [← hr0, ← hr]
  rw [hform, ← A.base_pow]
  by_cases htop : r.values.getD acc.size 0 = 0
  · rw [if_pos htop]
    rw [htop, mul_zero, add_zero] at hsplit
    have hcopy := Scm_BignumAccMultAddUI_copy_eq r.values acc.size acc.values 0
      (by unfold ScmBignum.size; omega) (by omega)
    simp only [List.take_zero, List.nil_append, List.drop_zero, zero_add] at hcopy
    rw [List.drop_of_length_le (by unfold ScmBignum.size; omega), List.append_nil] at hcopy
    dsimp only
    rw [hcopy]
    refine ⟨hsplit.symm, rfl, ok.take _, ⟨fun _ => by rw [hsplit]; exact hT, fun _ => rfl⟩,
      fun _ => ?_, fun h => (by cases h)⟩
    unfold ScmBignum.size
    simp only [List.length_take]
    omega
  · rw [if_neg htop]
    have hcopy := Scm_BignumAccMultAddUI_copy_eq r.values (acc.size + 1)
      (make_bignum (acc.size + 1 + 3)).values 0 (by rw [make_bignum_size]; omega) (by omega)
    simp only [List.take_zero, List.nil_append, List.drop_zero, zero_add] at hcopy
    rw [List.take_of_length_le (by omega)] at hcopy
    have hdrop : (make_bignum (acc.size + 1 + 3)).values.drop (acc.size + 1)
        = List.replicate 3 0 := by
      simp [make_bignum, List.drop_replicate]
    rw [hdrop] at hcopy
    dsimp only
    rw [hcopy]
    have hbig : ¬ wordsVal A acc.values * coef + c < A.base ^ acc.size := by
      have h1 : A.base ^ acc.size * 1 ≤ A.base ^ acc.size * r.values.getD acc.size 0 :=
        Nat.mul_le_mul_left _ (by omega)
      omega
    refine ⟨?_, rfl, ok.append (WordsOk.replicate_zero A 3),
      ⟨fun h => (by cases h), fun h => absurd h hbig⟩, fun h => (by cases h),
      fun _ => ⟨?_, ?_⟩⟩
    · rw [wordsVal_append, wordsVal_replicate_zero, mul_zero, add_zero, hV]
    · unfold ScmBignum.size
      simp only [List.length_append, List.length_replicate]
      omega
    · rw [List.take_append_of_le_length (by omega), List.take_of_length_le (by omega), hV]

/-- Witness for C24 on a 64-bit platform: one accumulation that stays in `acc` and one
that needs a fresh bignum. -/
theorem Scm_BignumAccMultAddUI_spec_witness :
    Scm_BignumAccMultAddUI arch64 ⟨-1, [2 ^ 63, 5]⟩ 10 7 = (true, ⟨-1, [7, 55]⟩) ∧
    Scm_BignumAccMultAddUI arch64 ⟨-1, [2 ^ 63, 2 ^ 63]⟩ 10 7
      = (false, ⟨-1, [7, 5, 5, 0, 0, 0]⟩) ∧
    wordsVal arch64 (Scm_BignumAccMultAddUI arch64 ⟨-1, [2 ^ 63, 2 ^ 63]⟩ 10 7).2.values
      = wordsVal arch64 (⟨-1, [2 ^ 63, 2 ^ 63]⟩ : ScmBignum).values * 10 + 7 :=
  ⟨by decide, by decide,
    (Scm_BignumAccMultAddUI_spec arch64 ⟨-1, [2 ^ 63, 2 ^ 63]⟩ 10 7 (by decide) (by decide)
      (by decide)).1⟩

/-! ## Evaluations of the N-ary sum, the sum comparison and the quotient estimates -/

set_option maxRecDepth 100000 in
/-- C21 fails on the code: on a 64-bit platform `Scm_BignumAddN` applied to `2^61` and
the arguments `-(2^61)` and `-1` returns a three-word positive bignum, where the sum
`2^61 - 2^61 - 1` is `-1`.  The first addition leaves the zero bignum of one word in
the accumulator, and `bignum_add_si` then subtracts `1` from it and stores the final
borrow as a top word. -/
theorem Scm_BignumAddN_sum_wrong :
    Scm_BignumAddN arch64 ⟨1, [2 ^ 61]⟩ [.int (-(2 ^ 61)), .int (-1)]
      = .big ⟨1, [2 ^ 64 - 1, 2 ^ 64 - 1, 1]⟩ ∧
    (Scm_BignumAddN arch64 ⟨1, [2 ^ 61]⟩ [.int (-(2 ^ 61)), .int (-1)]).toInt arch64
      ≠ 2 ^ 61 + -(2 ^ 61) + -1 ∧
    arch64.SCM_SMALL_INT_MIN ≤ -(2 ^ 61) ∧
    Normalized arch64 ⟨1, [2 ^ 61]⟩ :=
  ⟨by decide, by decide, by decide, ⟨by decide, by decide, by decide, by decide⟩⟩

set_option maxRecDepth 100000 in
/-- C23 fails on the code: on a 64-bit platform, with `x = 2^62`, `off = 1` and
`y = 2^62 + 1` (one word each, so `x + off = y`), `Scm_BignumCmp3U` returns `-1` when the
word stored after the last word of `y` is `1`, and `0` only when that word is `0`. -/
theorem Scm_BignumCmp3U_equal_reported_less :
    (Scm_BignumCmp3U arch64 ⟨1, [2 ^ 62]⟩ (Scm_MakeBignumFromUI 1) ⟨1, [2 ^ 62 + 1]⟩ 1).1
      = -1 ∧
    (Scm_BignumCmp3U arch64 ⟨1, [2 ^ 62]⟩ (Scm_MakeBignumFromUI 1) ⟨1, [2 ^ 62 + 1]⟩ 0).1
      = 0 ∧
    wordsVal arch64 [2 ^ 62] + wordsVal arch64 (Scm_MakeBignumFromUI 1).values
      = wordsVal arch64 [2 ^ 62 + 1] :=
  ⟨by decide, by decide, by decide⟩

set_option maxRecDepth 100000 in
/-- C30 fails on the code: on a 64-bit platform, with `x = 2^62`, `off = 1` and
`y = 2^62 + 1`, the final loop of `Scm_BignumCmp3U` reads `y->values[1]` although `y` has
one word: the indices read from `y` are `1` and then `0`, and index `1` is read first. -/
theorem Scm_BignumCmp3U_reads_past_end :
    (Scm_BignumCmp3U arch64 ⟨1, [2 ^ 62]⟩ (Scm_MakeBignumFromUI 1) ⟨1, [2 ^ 62 + 1]⟩ 0).2
      = [1, 0] ∧
    (Scm_BignumCmp3U arch64 ⟨1, [2 ^ 62]⟩ (Scm_MakeBignumFromUI 1) ⟨1, [2 ^ 62 + 1]⟩ 1).2
      = [1] ∧
    (⟨1, [2 ^ 62 + 1]⟩ : ScmBignum).size = 1 :=
  ⟨by decide, by decide, by decide⟩

/-- The estimate traced by `bignum_gdiv_qq` is the one that `bignum_gdiv_step` hands to
the multiply-and-subtract loop. -/
theorem bignum_gdiv_step_estimate (A : Arch) (v : List Nat) (n vn_1 vn_2 j : Nat)
    (u q : List Nat) :
    bignum_gdiv_step A v n vn_1 vn_2 j u q =
      if (bignum_gdiv_mulsub A v (bignum_gdiv_qq A n vn_1 vn_2 j u) j u n 0 0).2 ≠ 0 then
        (SETDIGIT A
          (bignum_gdiv_addback A v j
            (bignum_gdiv_mulsub A v (bignum_gdiv_qq A n vn_1 vn_2 j u) j u n 0 0).1 n 0 0).1
          (j + n)
          ((DIGIT A (bignum_gdiv_addback A v j
            (bignum_gdiv_mulsub A v (bignum_gdiv_qq A n vn_1 vn_2 j u) j u n 0 0).1 n 0 0).1
            (j + n) +
            (bignum_gdiv_addback A v j
              (bignum_gdiv_mulsub A v (bignum_gdiv_qq A n vn_1 vn_2 j u) j u n 0 0).1
              n 0 0).2) % A.base),
          SETDIGIT A q j ((bignum_gdiv_qq A n vn_1 vn_2 j u + A.base - 1) % A.base))
      else
        ((bignum_gdiv_mulsub A v (bignum_gdiv_qq A n vn_1 vn_2 j u) j u n 0 0).1,
          SETDIGIT A q j (bignum_gdiv_qq A n vn_1 vn_2 j u)) :=
  rfl

set_option maxRecDepth 100000 in
/-- C28 fails on the code: on a 64-bit platform, dividing the three-word bignum
`[2^32, 2^33 - 2, 1]` by the two-word bignum `[2^64 - 2^32 + 1, 2^31]`, the quotient digit
estimates used by the loop of `bignum_gdiv` after the reduction step are `0, 0, 2` and
then `2^32`, which equals `HALF_WORD` and so exceeds `HALF_WORD - 1`. -/
theorem bignum_gdiv_estimate_reaches_half_word :
    bignum_gdiv_estimates arch64 ⟨1, [2 ^ 32, 2 ^ 33 - 2, 1]⟩ ⟨1, [2 ^ 64 - 2 ^ 32 + 1, 2 ^ 31]⟩
        (make_bignum 2) = some [0, 0, 2, 4294967296] ∧
    arch64.HALF_WORD = 4294967296 ∧
    Normalized arch64 ⟨1, [2 ^ 32, 2 ^ 33 - 2, 1]⟩ ∧
    Normalized arch64 ⟨1, [2 ^ 64 - 2 ^ 32 + 1, 2 ^ 31]⟩ :=
  ⟨by decide, by decide, ⟨by decide, by decide, by decide, by decide⟩,
    ⟨by decide, by decide, by decide, by decide⟩⟩

/-! ## Adding a native integer within range -/

theorem bignum_add_si_add_eq (A : Arch) (bx ys : List Nat) (r : List Nat) (n i c y : Nat)
    (h0 : ys.getD i 0 = y) (h1 : ∀ j, i < j → ys.getD j 0 = 0) :
    bignum_add_si_add A bx r n i c y =
      fillLoop (fun i c => UADD A c (bx.getD i 0) (ys.getD i 0)) r n i c := by
  induction n generalizing r i c y with
  | zero => rfl
  | succ n ih =>
    subst h0
    simp only [bignum_add_si_add, fillLoop]
    exact ih _ _ _ _ (h1 (i + 1) (by omega)) (fun j hj => h1 j (by omega))

theorem bignum_add_si_sub_eq (A : Arch) (bx ys : List Nat) (r : List Nat) (n i c y : Nat)
    (h0 : ys.getD i 0 = y) (h1 : ∀ j, i < j → ys.getD j 0 = 0) :
    bignum_add_si_sub A bx r n i c y =
      fillLoop (fun i c => USUB A c (bx.getD i 0) (ys.getD i 0)) r n i c := by
  induction n generalizing r i c y with
  | zero => rfl
  | succ n ih =>
    subst h0
    simp only [bignum_add_si_sub, fillLoop]
    exact ih _ _ _ _ (h1 (i + 1) (by omega)) (fun j hj => h1 j (by omega))

theorem singleton_getD_succ (y j : Nat) (h : 0 < j) : [y].getD j 0 = 0 := by
  cases j with
  | zero => omega
  | succ j => simp

/-- The buffer of `bignum_add_si` after a loop over the low `n` words and the store of the
carry or borrow in the top word. -/
theorem bignum_add_si_store {σ : Type} (f : Nat → σ → Nat × σ) (n : Nat) (s : σ) (c : Nat) :
    (fillLoop f (make_bignum (n + 1)).values n 0 s).1.set (n + 1 - 1) c
      = (genLoop f n 0 s).1 ++ [c] ∧
    (fillLoop f (make_bignum (n + 1)).values n 0 s).2 = (genLoop f n 0 s).2 := by
  rw [fillLoop_eq f _ n 0 s (by rw [make_bignum_size]; omega)]
  have hl := genLoop_length f n 0 s
  refine ⟨?_, rfl⟩
  simp only [List.take_zero, List.nil_append, zero_add, Nat.add_sub_cancel, make_bignum,
    List.drop_replicate, Nat.add_sub_cancel_left]
  rw [List.set_append_right _ _ (by omega), hl]
  simp

theorem long_natAbs (A : Arch) (hA : A.Ok) (y : Int) (h1 : A.LONG_MIN ≤ y)
    (h2 : y ≤ A.LONG_MAX) :
    (if y < 0 then (-y).toNat % A.base else y.toNat % A.base) = y.natAbs ∧
    y.natAbs < A.base := by
  have hB := hA.base_two_mul
  have hL := A.LONG_MAX_succ
  unfold Arch.LONG_MIN at h1
  have hlt : y.natAbs < A.base := by omega
  refine ⟨?_, hlt⟩
  split
  · rw [Nat.mod_eq_of_lt (by omega)]; omega
  · rw [Nat.mod_eq_of_lt (by omega)]; omega

/-- `bignum_add_si` for a nonzero `long` and a buffer of at least one word: when the signs
agree the magnitudes are added, and when they differ and `|y|` is at most the magnitude
of `bx` the subtraction leaves no borrow. -/
theorem bignum_add_si_spec (A : Arch) (hA : A.Ok) (x : ScmBignum) (y : Int)
    (hw : WordsOk A x.values) (hn : 1 ≤ x.size)
    (hy1 : A.LONG_MIN ≤ y) (hy2 : y ≤ A.LONG_MAX) (hy0 : y ≠ 0)
    (h : x.sign = (if y < 0 then -1 else 1) ∨ y.natAbs ≤ x.mag A) :
    (bignum_add_si A x y).sign = x.sign ∧
    WordsOk A (bignum_add_si A x y).values ∧
    (bignum_add_si A x y).size = x.size + 1 ∧
    (x.sign = (if y < 0 then -1 else 1) →
      (bignum_add_si A x y).mag A = x.mag A + y.natAbs) ∧
    (x.sign ≠ (if y < 0 then -1 else 1) →
      (bignum_add_si A x y).mag A + y.natAbs = x.mag A ∧
      (bignum_add_si_sub A x.values (make_bignum (x.size + 1)).values x.size 0 0
        y.natAbs).2 = 0) := by
  obtain ⟨hyabs, hylt⟩ := long_natAbs A hA y hy1 hy2
  have hB2 := hA.two_le_base
  have hsz0 : x.size = x.values.length := rfl
  have hXlt := wordsVal_lt hw
  rw [← hsz0] at hXlt
  have hone : (List.take x.size [y.natAbs]) = [y.natAbs] := by
    rw [List.take_of_length_le (by simp; omega)]
  have hpow : A.base ≤ A.base ^ x.size := by
    calc A.base = A.base ^ 1 := (pow_one _).symm
      _ ≤ A.base ^ x.size := Nat.pow_le_pow_right A.base_pos hn
  unfold bignum_add_si
  rw [if_neg hy0]
  simp only
  rw [hyabs]
  clear hyabs
  have hcast : ((A.base ^ x.size : Nat) : Int) = (A.base : Int) ^ x.size := by push_cast; rfl
  have hmag : x.mag A = wordsVal A x.values := rfl
  generalize y.natAbs = a at *
  by_cases hsame : x.sign = (if y < 0 then -1 else 1)
  · rw [if_pos hsame,
      bignum_add_si_add_eq A x.values [a] _ _ 0 0 a rfl
        (fun j hj => singleton_getD_succ _ j hj)]
    obtain ⟨hst, hc⟩ := bignum_add_si_store
      (fun i c => UADD A c (x.values.getD i 0) ([a].getD i 0)) x.size 0
      (fillLoop (fun i c => UADD A c (x.values.getD i 0) ([a].getD i 0))
        (make_bignum (x.size + 1)).values x.size 0 0).2
    rw [hst, hc]
    have e := add_genLoop_val A x.values [a] x.size 0 0
    have hok := add_genLoop_ok A x.values [a] x.size 0 0
    have hl := genLoop_length (fun i c => UADD A c (x.values.getD i 0) ([a].getD i 0))
      x.size 0 0
    simp only [List.drop_zero, hone, List.take_of_length_le (le_of_eq hsz0.symm),
      add_zero] at e
    rw [show wordsVal A [a] = a by simp [wordsVal]] at e
    have hcarry : (genLoop (fun i c => UADD A c (x.values.getD i 0) ([a].getD i 0))
        x.size 0 0).2 < A.base := by
      by_contra hge
      have h2 : A.base ^ x.size * 2 ≤ A.base ^ x.size *
          (genLoop (fun i c => UADD A c (x.values.getD i 0) ([a].getD i 0))
            x.size 0 0).2 := Nat.mul_le_mul_left _ (by omega)
      omega
    refine ⟨trivial, ?_, ?_, fun _ => ?_, fun hne => absurd hsame hne⟩
    · exact hok.append (WordsOk.cons hcarry (WordsOk.nil A))
    · show List.length (_ ++ [_]) = x.size + 1
      rw [List.length_append, hl]
      rfl
    · unfold ScmBignum.mag
      simp only
      rw [wordsVal_append, hl]
      simp only [wordsVal, mul_zero, add_zero]
      exact e
  · rw [if_neg hsame,
      bignum_add_si_sub_eq A x.values [a] _ _ 0 0 a rfl
        (fun j hj => singleton_getD_succ _ j hj)]
    have hle : a ≤ x.mag A := h.resolve_left hsame
    obtain ⟨hst, hc⟩ := bignum_add_si_store
      (fun i c => USUB A c (x.values.getD i 0) ([a].getD i 0)) x.size 0
      (fillLoop (fun i c => USUB A c (x.values.getD i 0) ([a].getD i 0))
        (make_bignum (x.size + 1)).values x.size 0 0).2
    rw [hst, hc]
    have hyok : WordsOk A [a] := WordsOk.cons hylt (WordsOk.nil A)
    obtain ⟨e, hok, hb⟩ := sub_genLoop_val A x.values [a] hw hyok x.size 0 0 (by omega)
    have hl := genLoop_length (fun i c => USUB A c (x.values.getD i 0) ([a].getD i 0))
      x.size 0 0
    simp only [List.drop_zero, hone, List.take_of_length_le (le_of_eq hsz0.symm)] at e
    rw [show wordsVal A [a] = a by simp [wordsVal]] at e
    have hglt := wordsVal_lt hok
    rw [hl] at hglt
    unfold ScmBignum.mag at hle
    have hzero : (genLoop (fun i c => USUB A c (x.values.getD i 0) ([a].getD i 0))
        x.size 0 0).2 = 0 := by
      by_contra hne
      have h1 : (genLoop (fun i c => USUB A c (x.values.getD i 0) ([a].getD i 0))
        x.size 0 0).2 = 1 := by omega
      rw [h1] at e
      have hg : (wordsVal A (genLoop (fun i c => USUB A c (x.values.getD i 0)
          ([a].getD i 0)) x.size 0 0).1 : Int) < (A.base : Int) ^ x.size := by
        exact_mod_cast hglt
      have hle' : (a : Int) ≤ (wordsVal A x.values : Int) := by exact_mod_cast hle
      omega
    rw [hzero] at e ⊢
    refine ⟨trivial, ?_, ?_, fun hs => absurd hs hsame, fun _ => ⟨?_, ?_⟩⟩
    · exact hok.append (WordsOk.cons A.base_pos (WordsOk.nil A))
    · show List.length (_ ++ [_]) = x.size + 1
      rw [List.length_append, hl]
      rfl
    · unfold ScmBignum.mag
      simp only
      rw [wordsVal_append, hl]
      simp only [wordsVal, mul_zero, add_zero]
      omega
    · rfl

/-- C31 fails for the empty bignum: on a 64-bit platform the bignum of size 0 and sign 1
denotes `0`, the `long` `5` has the same sign, and `bignum_add_si` returns the one-word
bignum `[0]`, which denotes `0` and not `0 + 5`: the loops add `yabs` to word 0 of `bx`,
and an empty `bx` has no such word.  Besides, for `y = 0` the function returns `bx`
itself, of `size(x)` words and not `size(x) + 1`. -/
theorem bignum_add_si_empty_bignum :
    ((⟨1, []⟩ : ScmBignum).sign = 1 ∨ (⟨1, []⟩ : ScmBignum).sign = -1) ∧
    WordsOk arch64 (⟨1, []⟩ : ScmBignum).values ∧
    arch64.LONG_MIN ≤ 5 ∧ (5 : Int) ≤ arch64.LONG_MAX ∧
    (⟨1, []⟩ : ScmBignum).sign = (if (5 : Int) < 0 then -1 else 1) ∧
    bignum_add_si arch64 ⟨1, []⟩ 5 = ⟨1, [0]⟩ ∧
    ¬ ((bignum_add_si arch64 ⟨1, []⟩ 5).toInt arch64
        = (⟨1, []⟩ : ScmBignum).toInt arch64 + 5) ∧
    bignum_add_si arch64 ⟨1, [2 ^ 61]⟩ 0 = ⟨1, [2 ^ 61]⟩ ∧
    ¬ ((bignum_add_si arch64 ⟨1, [2 ^ 61]⟩ 0).size
        = (⟨1, [2 ^ 61]⟩ : ScmBignum).size + 1) :=
  ⟨by decide, by decide, by decide, by decide, by decide, by decide, by decide, by decide,
    by decide⟩

/-- C31, amended: for every normalized bignum `x` and every `y` in the fixnum range
(with `SCM_SMALL_INT_MIN = -SCM_SMALL_INT_MAX - 1`), `bignum_add_si(x, y)` denotes
`value(x) + y`, and so does `Scm_BignumAddSI(x, y)`, which is in normal form.  More
generally, for every bignum `x` of sign `1` or `-1` and of size at least 1, and every
`long` `y` whose sign is that of `x` or whose magnitude is at most the magnitude of `x`,
the result denotes `value(x) + y` and keeps the sign of `x`; it is `x` itself when
`y = 0` and has `size(x) + 1` words otherwise, and when the signs differ the word-wise
subtraction ends with borrow `0`. -/
theorem bignum_add_si_in_range (A : Arch) (hA : A.Ok) (x : ScmBignum) (y : Int) :
    (A.SCM_SMALL_INT_MIN = -A.SCM_SMALL_INT_MAX - 1 → Normalized A x →
      A.SCM_SMALL_INT_MIN ≤ y → y ≤ A.SCM_SMALL_INT_MAX →
      (bignum_add_si A x y).toInt A = x.toInt A + y ∧
      (Scm_BignumAddSI A x y).toInt A = x.toInt A + y ∧
      (Scm_BignumAddSI A x y).IsNormal A) ∧
    ((x.sign = 1 ∨ x.sign = -1) → WordsOk A x.values → 1 ≤ x.size →
      A.LONG_MIN ≤ y → y ≤ A.LONG_MAX →
      (x.sign = (if y < 0 then -1 else 1) ∨ y.natAbs ≤ x.mag A) →
      (bignum_add_si A x y).toInt A = x.toInt A + y ∧
      (bignum_add_si A x y).sign = x.sign ∧
      WordsOk A (bignum_add_si A x y).values ∧
      (y = 0 → bignum_add_si A x y = x) ∧
      (y ≠ 0 → (bignum_add_si A x y).size = x.size + 1) ∧
      (y ≠ 0 → x.sign ≠ (if y < 0 then -1 else 1) →
        (bignum_add_si_sub A x.values (make_bignum (x.size + 1)).values x.size 0 0
          y.natAbs).2 = 0)) := by
  have gen : (x.sign = 1 ∨ x.sign = -1) → WordsOk A x.values → 1 ≤ x.size →
      A.LONG_MIN ≤ y → y ≤ A.LONG_MAX →
      (x.sign = (if y < 0 then -1 else 1) ∨ y.natAbs ≤ x.mag A) →
      (bignum_add_si A x y).toInt A = x.toInt A + y ∧
      (bignum_add_si A x y).sign = x.sign ∧
      WordsOk A (bignum_add_si A x y).values ∧
      (y = 0 → bignum_add_si A x y = x) ∧
      (y ≠ 0 → (bignum_add_si A x y).size = x.size + 1) ∧
      (y ≠ 0 → x.sign ≠ (if y < 0 then -1 else 1) →
        (bignum_add_si_sub A x.values (make_bignum (x.size + 1)).values x.size 0 0
          y.natAbs).2 = 0) := by
    intro hs hw hn hy1 hy2 h
    by_cases hy0 : y = 0
    · have e : bignum_add_si A x y = x := by
        unfold bignum_add_si
        simp only
        rw [if_pos hy0]
      rw [e]
      exact ⟨by rw [hy0, add_zero], rfl, hw, fun _ => rfl, fun h0 => absurd hy0 h0,
        fun h0 => absurd hy0 h0⟩
    · obtain ⟨hsign, hok, hsize, hadd, hsub⟩ :=
        bignum_add_si_spec A hA x y hw hn hy1 hy2 hy0 h
      refine ⟨?_, hsign, hok, fun h0 => absurd h0 hy0, fun _ => hsize,
        fun _ hne => (hsub hne).2⟩
      unfold ScmBignum.toInt
      rw [hsign]
      by_cases hsame : x.sign = (if y < 0 then -1 else 1)
      · have hm := hadd hsame
        by_cases hneg : y < 0
        · rw [if_pos hneg] at hsame
          rw [hsame, hm]
          omega
        · rw [if_neg hneg] at hsame
          rw [hsame, hm]
          omega
      · have hm := (hsub hsame).1
        by_cases hneg : y < 0
        · rw [if_pos hneg] at hsame
          have h1 : x.sign = 1 := by omega
          rw [h1, ← hm]
          omega
        · rw [if_neg hneg] at hsame
          have h1 : x.sign = -1 := by omega
          rw [h1, ← hm]
          omega
  refine ⟨fun hmin hx hy1 hy2 => ?_, gen⟩
  have hL := A.LONG_MAX_succ
  have hmax := hA.max_lt
  have hmaxn := hA.max_nonneg
  have hle : y.natAbs ≤ x.mag A := by
    have hbig := hx.big
    unfold ScmBignum.toInt at hbig
    rcases hx.sign with h1 | h1
    · rw [h1] at hbig
      omega
    · rw [h1] at hbig
      omega
  have hcast : ((2 ^ (A.WORD_BITS - 1) : Nat) : Int) = 2 ^ (A.WORD_BITS - 1) := by
    push_cast; rfl
  have hLmin : A.LONG_MIN ≤ y := by
    unfold Arch.LONG_MIN
    omega
  have hLmax : y ≤ A.LONG_MAX := by omega
  obtain ⟨hval, hsign, hok, h0, hsz, -⟩ :=
    gen hx.sign hx.words hx.size_pos hLmin hLmax (Or.inr hle)
  have hs' : (bignum_add_si A x y).sign = 1 ∨ (bignum_add_si A x y).sign = -1 := by
    rw [hsign]; exact hx.sign
  have hne : (bignum_add_si A x y).values ≠ [] := by
    by_cases hy0 : y = 0
    · rw [h0 hy0]; exact hx.ne_nil
    · intro hnil
      have := hsz hy0
      unfold ScmBignum.size at this
      rw [hnil] at this
      simp at this
  refine ⟨hval, ?_, ?_⟩
  · unfold Scm_BignumAddSI
    rw [Scm_NormalizeBignum_toInt A _ (by omega), hval]
  · unfold Scm_BignumAddSI
    exact Scm_NormalizeBignum_normal A hA _ hs' hok hne

/-- Witness for C31 (amended) on a 64-bit platform: the normalized `2^61` plus the
fixnum `-2^61`, and the denormalized `5` of two words plus the `long` `-5`. -/
theorem bignum_add_si_in_range_witness :
    (bignum_add_si arch64 ⟨1, [2 ^ 61]⟩ (-(2 ^ 61))).toInt arch64
      = (⟨1, [2 ^ 61]⟩ : ScmBignum).toInt arch64 + -(2 ^ 61) ∧
    bignum_add_si arch64 ⟨1, [5, 0]⟩ (-5) = ⟨1, [0, 0, 0]⟩ ∧
    (bignum_add_si arch64 ⟨1, [5, 0]⟩ (-5)).toInt arch64
      = (⟨1, [5, 0]⟩ : ScmBignum).toInt arch64 + -5 :=
  ⟨((bignum_add_si_in_range arch64 arch64_ok ⟨1, [2 ^ 61]⟩ (-(2 ^ 61))).1 (by decide)
      ⟨by decide, by decide, by decide, by decide⟩ (by decide) (by decide)).1,
    by decide,
    ((bignum_add_si_in_range arch64 arch64_ok ⟨1, [5, 0]⟩ (-5)).2 (by decide) (by decide)
      (by decide) (by decide) (by decide) (by decide)).1⟩

end Gauche
